import Mathlib

namespace BCAsync

/-!
# Asynchronous betweenness centrality (`BetweennessCentralityAsync.cpp`)

A shallow embedding of the forward phase (`dagConstruction` with `spAndFU`,
`updateSigma`, `firstUpdate`, `correctNode`), the leaf scan (`findLeaves`), the
backward phase (`dependencyBackProp`) and the per-source loop of `main`.

Work items of a `galois::for_each` loop are executed one at a time, in an
arbitrary order: the relation `Drains` picks any pending item of the work list.
Machine integers are natural numbers with explicit wrap-around; `delta` and `bc`
are rationals (exact arithmetic).
-/

/-! ## Graph store -/

/-- A graph in compressed-sparse-row form: `n` nodes, `m` directed edges, edge
`e < m` leads from `src e` to `dst e`.  The in-edge view shares the edge records
of the out-edge view. -/
structure Graph where
  n : Nat
  m : Nat
  src : Nat → Nat
  dst : Nat → Nat

/-- Every edge joins two nodes of the graph. -/
def Graph.WF (g : Graph) : Prop :=
  ∀ e, e < g.m → g.src e < g.n ∧ g.dst e < g.n

/-- Edge identifiers leaving `v`, as iterated by `graph.edges(v)`. -/
def Graph.edges (g : Graph) (v : Nat) : List Nat :=
  (List.range g.m).filter (fun e => g.src e = v)

/-- Edge identifiers entering `v`, as iterated by `graph.in_edges(v)`. -/
def Graph.in_edges (g : Graph) (v : Nat) : List Nat :=
  (List.range g.m).filter (fun e => g.dst e = v)

/-! ## Records -/

/-- Modelled from the spec: the node record of the absent header `BCNode.h`
(fields `distance`, `sigma`, `delta`, `bc`, `nsuccs`, `preds`, `queued`). -/
structure BCNode where
  distance : Nat
  nsuccs : Nat
  sigma : Nat
  delta : ℚ
  bc : ℚ
  preds : List Nat
  queued : Bool

/-- Modelled from the spec: the edge record of the absent header `BCEdge.h`
(fields `val` and `level`). -/
structure BCEdge where
  val : Nat
  level : Nat

/-- The mutable payload of the graph: one node record per node identifier and one
edge record per edge identifier. -/
structure State where
  node : Nat → BCNode
  edge : Nat → BCEdge

/-- Overwrite the record of node `v`. -/
def State.setNode (st : State) (v : Nat) (x : BCNode) : State :=
  { st with node := fun u => if u = v then x else st.node u }

/-- Overwrite the record of edge `e`. -/
def State.setEdge (st : State) (e : Nat) (x : BCEdge) : State :=
  { st with edge := fun f => if f = e then x else st.edge f }

/-- Conversion of a 32-bit unsigned value to `int`. -/
def toInt (x : Nat) : Int :=
  if x % 4294967296 < 2147483648 then ((x % 4294967296 : Nat) : Int)
  else ((x % 4294967296 : Nat) : Int) - 4294967296

/-- Modelled from the spec: `BCNode::reset` of the absent header `BCNode.h`; every
field except `bc` returns to neutral. -/
def BCNode.reset (infinity : Nat) (x : BCNode) : BCNode :=
  { x with distance := infinity, sigma := 0, delta := 0, nsuccs := 0, preds := [],
           queued := false }

/-- Modelled from the spec: `BCEdge::reset` of the absent header `BCEdge.h`; the
level returns to unvalidated. -/
def BCEdge.reset (infinity : Nat) (x : BCEdge) : BCEdge :=
  { x with level := infinity }

/-- Modelled from the spec: `BCNode::initAsSource` of the absent header `BCNode.h`;
distance 0, sigma 1, queued. -/
def BCNode.initAsSource (x : BCNode) : BCNode :=
  { x with distance := 0, sigma := 1, queued := true }

/-- Modelled from the spec: `BCNode::markOut` of the absent header `BCNode.h`; the
queued flag is cleared when the node is dequeued. -/
def markOut (st : State) (v : Nat) : State :=
  st.setNode v { st.node v with queued := false }

/-- Modelled from the spec: `BCNode::isAlreadyIn` of the absent header `BCNode.h`;
test-and-set of the queued flag, returning the old flag. -/
def isAlreadyIn (st : State) (v : Nat) : Bool × State :=
  ((st.node v).queued, st.setNode v { st.node v with queued := true })

/-! ## Forward phase -/

/-- One iteration of the loop of `correctNode` over the in-edge `e` of `dstID`. -/
def correctNodeEdge (g : Graph) (infinity : Nat) (dstID : Nat) (st : State) (e : Nat) :
    State :=
  let srcID := g.src e
  if srcID = dstID then st
  else
    let edgeLevel := (st.edge e).level
    if (st.node dstID).distance ≤ (st.node srcID).distance then
      if edgeLevel ≠ infinity then
        let st1 := st.setEdge e { st.edge e with level := infinity }
        if edgeLevel = (st1.node srcID).distance then
          st1.setNode srcID
            { st1.node srcID with
              nsuccs := ((st1.node srcID).nsuccs + 4294967295) % 4294967296 }
        else st1
      else st
    else st

/-- The function `correctNode`: invalidate the stale in-edges of `dstID`. -/
def correctNode (g : Graph) (infinity : Nat) (st : State) (dstID : Nat) : State :=
  (g.in_edges dstID).foldl (correctNodeEdge g infinity dstID) st

/-- The statement `if (!dstData.isAlreadyIn()) ctx.push(dstID)`. -/
def pushUnlessQueued (st : State) (dstID : Nat) : State × List Nat :=
  let r := isAlreadyIn st dstID
  (r.2, if r.1 then [] else [dstID])

/-- The function `spAndFU` (new shortest path, first update and correction); the
second component lists the nodes pushed on the work list. -/
def spAndFU (g : Graph) (infinity : Nat) (st : State) (srcID dstID e : Nat) :
    State × List Nat :=
  let st1 := st.setNode srcID
    { st.node srcID with nsuccs := ((st.node srcID).nsuccs + 1) % 4294967296 }
  let srcSigma := (st1.node srcID).sigma
  let dstPredsNotEmpty := !(st1.node dstID).preds.isEmpty
  let st2 := st1.setNode dstID
    { st1.node dstID with
      preds := [srcID],
      distance := ((st1.node srcID).distance + 1) % 4294967296,
      nsuccs := 0,
      sigma := srcSigma }
  let st3 := st2.setEdge e { val := srcSigma, level := (st2.node srcID).distance }
  let r := pushUnlessQueued st3 dstID
  (if dstPredsNotEmpty then correctNode g infinity r.1 dstID else r.1, r.2)

/-- The saturating accumulation written in `updateSigma` and `firstUpdate`
(`old = sigma; sigma += add; if (old >= sigma) sigma = max`): the 64-bit sum wraps and
is capped when the wrapped sum did not grow. -/
def satAdd (old add : Nat) : Nat :=
  let new := (old + add) % 18446744073709551616
  if new ≤ old then 18446744073709551615 else new

/-- The end of `updateSigma` and `firstUpdate`:
`int nbsuccs = dstData.nsuccs; if (nbsuccs > 0) { if (!dstData.isAlreadyIn()) ctx.push(dstID); }`. -/
def pushIfSuccs (st : State) (dstID : Nat) : State × List Nat :=
  let nbsuccs := toInt (st.node dstID).nsuccs
  if 0 < nbsuccs then pushUnlessQueued st dstID else (st, [])

/-- The function `updateSigma` (sigma refresh). -/
def updateSigma (st : State) (srcID dstID e : Nat) : State × List Nat :=
  let srcSigma := (st.node srcID).sigma
  let eval := (st.edge e).val
  let diff := (srcSigma + (18446744073709551616 - eval % 18446744073709551616))
    % 18446744073709551616
  if 0 < diff then
    let st1 := st.setEdge e { st.edge e with val := srcSigma }
    let st2 := st1.setNode dstID
      { st1.node dstID with sigma := satAdd (st1.node dstID).sigma diff }
    pushIfSuccs st2 dstID
  else (st, [])

/-- The function `firstUpdate` (first validation of an edge at the right level). -/
def firstUpdate (st : State) (srcID dstID e : Nat) : State × List Nat :=
  let st1 := st.setNode srcID
    { st.node srcID with nsuccs := ((st.node srcID).nsuccs + 1) % 4294967296 }
  let srcSigma := (st1.node srcID).sigma
  let st2 := st1.setNode dstID
    { st1.node dstID with preds := (st1.node dstID).preds ++ [srcID] }
  let st3 := st2.setNode dstID
    { st2.node dstID with sigma := satAdd (st2.node dstID).sigma srcSigma }
  let st4 := st3.setEdge e { val := srcSigma, level := (st3.node srcID).distance }
  pushIfSuccs st4 dstID

/-- The body of the edge loop of `dagConstruction` for the out-edge `e` of `srcID`:
exactly one of the rules is applied.  The accumulator carries the state and the
nodes pushed so far. -/
def dagEdge (g : Graph) (infinity : Nat) (srcID : Nat) (acc : State × List Nat)
    (e : Nat) : State × List Nat :=
  let st := acc.1
  let dstID := g.dst e
  if srcID = dstID then acc
  else
    let elevel := toInt (st.edge e).level
    let ADist := toInt (st.node srcID).distance
    let BDist := toInt (st.node dstID).distance
    if 1 < BDist - ADist then
      let r := spAndFU g infinity st srcID dstID e
      (r.1, acc.2 ++ r.2)
    else if elevel = ADist ∧ BDist = ADist + 1 then
      let r := updateSigma st srcID dstID e
      (r.1, acc.2 ++ r.2)
    else if BDist = ADist + 1 ∧ elevel ≠ ADist then
      let r := firstUpdate st srcID dstID e
      (r.1, acc.2 ++ r.2)
    else acc

/-- The operator of `dagConstruction` applied to one work item `srcID`. -/
def dagItem (g : Graph) (infinity : Nat) (st : State) (srcID : Nat) : State × List Nat :=
  (g.edges srcID).foldl (dagEdge g infinity srcID) (markOut st srcID, [])

/-! ## Backward phase -/

/-- One iteration of the predecessor loop of `dependencyBackProp`. -/
def backPred (srcID : Nat) (srcDelta : ℚ) (acc : State × List Nat) (predID : Nat) :
    State × List Nat :=
  let st := acc.1
  let term : ℚ :=
    ((st.node predID).sigma : ℚ) * (1 + srcDelta) / ((st.node srcID).sigma : ℚ)
  let prevPdNsuccs := (st.node predID).nsuccs
  let st1 := st.setNode predID
    { st.node predID with
      delta := (st.node predID).delta + term,
      nsuccs := (prevPdNsuccs + 4294967295) % 4294967296 }
  if prevPdNsuccs = 1 then (st1, acc.2 ++ [predID]) else (st1, acc.2)

/-- The operator of `dependencyBackProp` applied to one work item `srcID`. -/
def backItem (g : Graph) (infinity : Nat) (st : State) (srcID : Nat) : State × List Nat :=
  if (st.node srcID).nsuccs = 0 then
    let srcDelta := (st.node srcID).delta
    let st1 := st.setNode srcID { st.node srcID with bc := (st.node srcID).bc + srcDelta }
    let r := ((st1.node srcID).preds).foldl (backPred srcID srcDelta) (st1, [])
    let st2 := r.1.setNode srcID ((r.1.node srcID).reset infinity)
    let st3 := (g.edges srcID).foldl
      (fun s e => s.setEdge e ((s.edge e).reset infinity)) st2
    (st3, r.2)
  else (st, [])

/-- The function `findLeaves`: the nodes below `nnodes` with no successor that
have been reached. -/
def findLeaves (infinity : Nat) (st : State) (nnodes : Nat) : List Nat :=
  (List.range nnodes).filter
    (fun i => (st.node i).nsuccs = 0 ∧ (st.node i).distance < infinity)

/-! ## Work lists -/

/-- A `galois::for_each` loop run to quiescence: `Drains body st wl st'` holds when
executing the pending items of `wl` one at a time, in some order, pushing the
items each execution produces, ends in `st'` with nothing pending. -/
inductive Drains (body : State → Nat → State × List Nat) : State → List Nat → State → Prop
  | done (st : State) : Drains body st [] st
  | step (st : State) (l₁ : List Nat) (a : Nat) (l₂ : List Nat) (st' : State) :
      Drains body (body st a).1 (l₁ ++ l₂ ++ (body st a).2) st' →
      Drains body st (l₁ ++ a :: l₂) st'

/-- An executable schedule of a `for_each` loop: `pick` chooses the position of the
next item in the work list; at most `fuel` items are executed. -/
def drain (body : State → Nat → State × List Nat) (pick : List Nat → Nat) :
    Nat → State → List Nat → Option State
  | _, st, [] => some st
  | 0, _, _ :: _ => none
  | fuel + 1, st, w :: ws =>
    let i := pick (w :: ws) % (ws.length + 1)
    let a := (w :: ws).getD i w
    drain body pick fuel (body st a).1
      ((w :: ws).take i ++ (w :: ws).drop (i + 1) ++ (body st a).2)

/-- The forward phase: `dagConstruction` run to quiescence from work list `wl`. -/
def dagConstruction (g : Graph) (infinity : Nat) (st : State) (wl : List Nat)
    (st' : State) : Prop :=
  Drains (dagItem g infinity) st wl st'

/-- The backward phase: `dependencyBackProp` run to quiescence from work list `wl`. -/
def dependencyBackProp (g : Graph) (infinity : Nat) (st : State) (wl : List Nat)
    (st' : State) : Prop :=
  Drains (backItem g infinity) st wl st'

/-! ## Source driver -/

/-- The source `i` is seeded: `initAsSource` on its record. -/
def seedSource (st : State) (i : Nat) : State :=
  st.setNode i (st.node i).initAsSource

/-- The clean-up loops of `main`: every node below `nnodes` and every edge below
`nedges` is reset. -/
def cleanup (infinity : Nat) (nnodes nedges : Nat) (st : State) : State :=
  { node := fun v => if v < nnodes then (st.node v).reset infinity else st.node v,
    edge := fun e => if e < nedges then (st.edge e).reset infinity else st.edge e }

/-- The end of one iteration of the source loop of `main`, after the backward phase
ended in `stB`: the `bc` of the source is restored to `backupSrcBC` and the clean-up
loops run. -/
def finishSource (g : Graph) (infinity : Nat) (i : Nat) (backupSrcBC : ℚ) (stB : State) :
    State :=
  cleanup infinity g.n g.m (stB.setNode i { stB.node i with bc := backupSrcBC })

/-- One iteration of the source loop of `main` for a source `i` that has out-edges:
seed, forward phase, leaf scan, backward phase, restore, clean-up. -/
def sourceIteration (g : Graph) (infinity : Nat) (i : Nat) (st st' : State) : Prop :=
  ∃ stF stB,
    dagConstruction g infinity (seedSource st i) [i] stF ∧
    dependencyBackProp g infinity stF (findLeaves infinity stF g.n) stB ∧
    st' = finishSource g infinity i (stF.node i).bc stB

/-- The source loop of `main` over the source identifiers `srcs`, in order: a
source without out-edges is skipped. -/
inductive sourceLoop (g : Graph) (infinity : Nat) : List Nat → State → State → Prop
  | done (st : State) : sourceLoop g infinity [] st st
  | skip (i : Nat) (rest : List Nat) (st st' : State) :
      g.edges i = [] → sourceLoop g infinity rest st st' →
      sourceLoop g infinity (i :: rest) st st'
  | iter (i : Nat) (rest : List Nat) (st st₁ st' : State) :
      g.edges i ≠ [] → sourceIteration g infinity i st st₁ →
      sourceLoop g infinity rest st₁ st' →
      sourceLoop g infinity (i :: rest) st st'

/-- The source identifiers visited by the loop `for (i = startNode; i < numOfSources; ++i)`
of `main`, where a `numOfSources` of 0 has been replaced by the number of nodes. -/
def sourceRange (g : Graph) (startNode numOfSources : Nat) : List Nat :=
  let bound := if numOfSources = 0 then g.n else numOfSources
  List.range' startNode (bound - startNode)

/-- The computation of `main`: the initial reset loops, then the source loop. -/
def mainRun (g : Graph) (infinity : Nat) (startNode numOfSources : Nat)
    (st st' : State) : Prop :=
  sourceLoop g infinity (sourceRange g startNode numOfSources)
    (cleanup infinity g.n g.m st) st'

/-- FIFO schedule: always the oldest item. -/
def fifo : List Nat → Nat := fun _ => 0

/-- LIFO schedule: always the newest item. -/
def lifo : List Nat → Nat := fun wl => wl.length - 1

/-! ## Reference notions on the graph -/

/-- `Walk g s k v`: some walk of `k` edges leads from `s` to `v`. -/
inductive Walk (g : Graph) (s : Nat) : Nat → Nat → Prop
  | nil : Walk g s 0 s
  | cons (k u e : Nat) : Walk g s k u → e < g.m → g.src e = u → Walk g s (k + 1) (g.dst e)

/-- `v` can be reached from `s`. -/
def Reachable (g : Graph) (s v : Nat) : Prop := ∃ k, Walk g s k v

/-- `d` is the unweighted shortest-path (hop) distance from `s` to `v`. -/
def IsDist (g : Graph) (s v d : Nat) : Prop :=
  Walk g s d v ∧ ∀ k, Walk g s k v → d ≤ k

/-- Number of walks of exactly `k` edges from `s` to `v`, two walks being different
when their sequences of edge identifiers differ (parallel edges count separately).
At `k` the hop distance of `v` this is the number of shortest paths to `v`. -/
def walkCount (g : Graph) (s : Nat) : Nat → Nat → Nat
  | 0, v => if v = s then 1 else 0
  | k + 1, v => ((g.in_edges v).map (fun e => walkCount g s k (g.src e))).sum

/-! ## Predicates of the forward phase -/

/-- The in-edge `x` of `b` is stale: it comes from another node that is not closer to
the source than `b`. -/
def Stale (g : Graph) (st : State) (b x : Nat) : Prop :=
  g.src x ≠ b ∧ (st.node b).distance ≤ (st.node (g.src x)).distance

instance (g : Graph) (st : State) (b x : Nat) : Decidable (Stale g st b x) := by
  unfold Stale; infer_instance

/-- The correction of the in-edge `x` of `b` decrements the successor count of `u`. -/
def Dec (g : Graph) (infinity : Nat) (st : State) (b u x : Nat) : Prop :=
  g.src x = u ∧ Stale g st b x ∧ (st.edge x).level ≠ infinity ∧
    (st.edge x).level = (st.node u).distance

instance (g : Graph) (infinity : Nat) (st : State) (b u x : Nat) :
    Decidable (Dec g infinity st b u x) := by
  unfold Dec; infer_instance

/-- The edge `e` is validated at the current distance of its source. -/
def Valid (g : Graph) (infinity : Nat) (st : State) (e : Nat) : Prop :=
  (st.edge e).level = (st.node (g.src e)).distance ∧ (st.edge e).level ≠ infinity

instance (g : Graph) (infinity : Nat) (st : State) (e : Nat) :
    Decidable (Valid g infinity st e) := by
  unfold Valid; infer_instance

/-- The in-edges of `b` recorded one level above `b`: those behind `preds b`. -/
def predEdges (g : Graph) (st : State) (b : Nat) : Finset Nat :=
  (Finset.range g.m).filter
    (fun e => g.dst e = b ∧ g.src e ≠ b ∧ (st.edge e).level + 1 = (st.node b).distance)

/-- The validated out-edges of `a`: those counted by `nsuccs a`. -/
def succEdges (g : Graph) (infinity : Nat) (st : State) (a : Nat) : Finset Nat :=
  (Finset.range g.m).filter (fun e => g.src e = a ∧ Valid g infinity st e)

/-- Number of nodes reached so far. -/
def reachedCount (g : Graph) (infinity : Nat) (st : State) : Nat :=
  ((Finset.range g.n).filter (fun v => (st.node v).distance ≠ infinity)).card

/-- The records are neutral (`bc` and the unread `val` of the edges apart). -/
def Neutral (g : Graph) (infinity : Nat) (st : State) : Prop :=
  (∀ v, (st.node v).distance = infinity ∧ (st.node v).nsuccs = 0 ∧ (st.node v).sigma = 0 ∧
        (st.node v).delta = 0 ∧ (st.node v).preds = [] ∧ (st.node v).queued = false) ∧
  (∀ e, e < g.m → (st.edge e).level = infinity)

/-- The sentinel and the sizes fit the machine types: the sentinel is a positive `int`
above every hop count, and the edge count is a positive `int`. -/
def Sizes (g : Graph) (infinity : Nat) : Prop :=
  g.n < infinity ∧ infinity + 1 < 2147483648 ∧ g.m < 2147483648

/-- Invariant of the forward phase for source `s`; `pend e` says that the edge `e` is
still to be examined (its source is on the work list, or it is in the rest of the
edge loop of the current item). -/
structure FwdInv (g : Graph) (infinity s : Nat) (st : State) (pend : Nat → Prop) : Prop where
  src_dist : (st.node s).distance = 0
  src_sigma : (st.node s).sigma = 1
  dist_le : ∀ v, (st.node v).distance ≤ infinity
  dist_node : ∀ v, (st.node v).distance ≠ infinity → v < g.n
  dist_cnt : ∀ v, (st.node v).distance ≠ infinity →
    (st.node v).distance < reachedCount g infinity st
  walk : ∀ v, (st.node v).distance ≠ infinity → Walk g s (st.node v).distance v
  sigma_pos : ∀ v, (st.node v).distance ≠ infinity → 1 ≤ (st.node v).sigma
  sigma_lt : ∀ v, (st.node v).sigma < 18446744073709551616
  preds_ne : ∀ v, (st.node v).distance ≠ infinity → v ≠ s → (st.node v).preds ≠ []
  delta_zero : ∀ v, (st.node v).delta = 0
  lvl_le : ∀ e, e < g.m → (st.edge e).level ≤ infinity
  lvl_lt : ∀ e, e < g.m → (st.edge e).level ≠ infinity → (st.edge e).level + 1 < infinity
  lvl_src : ∀ e, e < g.m → (st.edge e).level ≠ infinity →
    (st.node (g.src e)).distance ≤ (st.edge e).level
  lvl_dst : ∀ e, e < g.m → (st.edge e).level ≠ infinity →
    (st.node (g.dst e)).distance ≤ (st.edge e).level + 1
  valid_dst : ∀ e, e < g.m → Valid g infinity st e →
    (st.node (g.dst e)).distance = (st.node (g.src e)).distance + 1
  preds_eq : ∀ b, ((st.node b).preds : Multiset Nat) = (predEdges g st b).val.map g.src
  sigma_eq : ∀ b, (st.node b).distance ≠ infinity → b ≠ s →
    (st.node b).sigma = min (∑ e in predEdges g st b, (st.edge e).val) 18446744073709551615
  val_le : ∀ e, e < g.m → Valid g infinity st e → (st.edge e).val ≤ (st.node (g.src e)).sigma
  nsuccs_eq : ∀ a, (st.node a).nsuccs = (succEdges g infinity st a).card
  relaxed : ∀ e, e < g.m → ¬ pend e → (st.node (g.src e)).distance ≠ infinity →
    (st.node (g.dst e)).distance ≤ (st.node (g.src e)).distance + 1
  validated : ∀ e, e < g.m → ¬ pend e → (st.node (g.src e)).distance ≠ infinity →
    (st.node (g.dst e)).distance = (st.node (g.src e)).distance + 1 →
    (st.edge e).level = (st.node (g.src e)).distance
  val_eq : ∀ e, e < g.m → ¬ pend e → Valid g infinity st e →
    (st.edge e).val = (st.node (g.src e)).sigma
  queued_pend : ∀ e, e < g.m → (st.node (g.src e)).queued = true → pend e
  unreached : ∀ v, (st.node v).distance = infinity →
    (st.node v).sigma = 0 ∧ (st.node v).queued = false

/-- The wrapped difference `srcSigma - eval` of `updateSigma`. -/
def sigmaDiff (st : State) (a e : Nat) : Nat :=
  ((st.node a).sigma + (18446744073709551616 - (st.edge e).val % 18446744073709551616))
    % 18446744073709551616

/-! ## Effect of the new-shortest-path rule -/

/-- The state of `spAndFU` before the correction loop. -/
def spMid (st : State) (a b e : Nat) : State :=
  { node := fun v =>
      if v = b then
        { st.node b with
          preds := [a],
          distance := ((st.node a).distance + 1) % 4294967296,
          nsuccs := 0,
          sigma := (st.node a).sigma,
          queued := true }
      else if v = a then { st.node a with nsuccs := ((st.node a).nsuccs + 1) % 4294967296 }
      else st.node v,
    edge := fun x =>
      if x = e then { val := (st.node a).sigma, level := (st.node a).distance }
      else st.edge x }

/-- Description of the state after `spAndFU` (with its correction) on the edge `e`,
relative to the state `st` before. -/
structure SpEff (g : Graph) (infinity : Nat) (st st' : State) (e : Nat) : Prop where
  dist : ∀ v, (st'.node v).distance =
    if v = g.dst e then (st.node (g.src e)).distance + 1 else (st.node v).distance
  sigma : ∀ v, (st'.node v).sigma =
    if v = g.dst e then (st.node (g.src e)).sigma else (st.node v).sigma
  preds : ∀ v, (st'.node v).preds = if v = g.dst e then [g.src e] else (st.node v).preds
  delta : ∀ v, (st'.node v).delta = (st.node v).delta
  queued : ∀ v, (st'.node v).queued = if v = g.dst e then true else (st.node v).queued
  val : ∀ x, (st'.edge x).val = if x = e then (st.node (g.src e)).sigma else (st.edge x).val
  lvl : ∀ x, (st'.edge x).level =
    if x = e then (st.node (g.src e)).distance
    else if x < g.m ∧ g.dst x = g.dst e ∧ g.src x ≠ g.dst e ∧
        (st.node (g.src e)).distance + 1 ≤ (st.node (g.src x)).distance then infinity
    else (st.edge x).level
  ns_dst : (st'.node (g.dst e)).nsuccs = 0
  ns_other : ∀ u, u ≠ g.dst e →
    (st'.node u).nsuccs +
      ((Finset.range g.m).filter
        (fun x => g.dst x = g.dst e ∧ g.src x = u ∧ Valid g infinity st x)).card =
      if u = g.src e then (st.node u).nsuccs + 1 else (st.node u).nsuccs

/-- Final forward state: the invariant with nothing pending. -/
abbrev Quiescent (g : Graph) (infinity s : Nat) (st : State) : Prop :=
  FwdInv g infinity s st (fun _ => False)

/-- A chain of predecessor links: every node of the list is followed by one of its
predecessors. -/
def PredChain (st : State) (c : List Nat) : Prop :=
  List.Chain' (fun v p => p ∈ (st.node v).preds) c

/-! ## Invariant of the backward phase -/

/-- Number of occurrences of `u` among the predecessors of `w` in the DAG of the
final forward state `F`. -/
def occ (F : State) (u w : Nat) : Nat := (F.node w).preds.count u

/-- `v` was reached by the forward phase and has not been accumulated yet. -/
def Todo (infinity : Nat) (F st : State) (v : Nat) : Prop :=
  (F.node v).distance ≠ infinity ∧ (st.node v).distance ≠ infinity

/-- `v` was reached by the forward phase and has been accumulated and reset. -/
def Done (infinity : Nat) (F st : State) (v : Nat) : Prop :=
  (F.node v).distance ≠ infinity ∧ (st.node v).distance = infinity

instance (infinity : Nat) (F st : State) : DecidablePred (Todo infinity F st) := by
  intro v; unfold Todo; infer_instance

instance (infinity : Nat) (F st : State) : DecidablePred (Done infinity F st) := by
  intro v; unfold Done; infer_instance

/-- What the accumulated node `w` has handed to its predecessor `u`: one term
`sigma(u) * (1 + delta(w)) / sigma(w)` for each occurrence of `u` in `preds w`, where the
delta of `w` at the time it was accumulated is the amount added to its `bc`. -/
def share (F st : State) (u w : Nat) : ℚ :=
  (occ F u w : ℚ) *
    (((F.node u).sigma : ℚ) * (1 + ((st.node w).bc - (F.node w).bc)) / ((F.node w).sigma : ℚ))

/-- Invariant of the backward phase started from the final forward state `F`, with
`W` the work list. -/
structure BwdInv (g : Graph) (infinity : Nat) (F st : State) (W : List Nat) : Prop where
  untouched : ∀ v, (F.node v).distance = infinity → st.node v = F.node v
  todo_fields : ∀ v, Todo infinity F st v →
    (st.node v).sigma = (F.node v).sigma ∧ (st.node v).preds = (F.node v).preds ∧
    (st.node v).bc = (F.node v).bc
  todo_ns : ∀ v, Todo infinity F st v →
    (st.node v).nsuccs = ∑ w in (Finset.range g.n).filter (Todo infinity F st), occ F v w
  todo_delta : ∀ v, Todo infinity F st v →
    (st.node v).delta = ∑ w in (Finset.range g.n).filter (Done infinity F st), share F st v w
  ns_lt : ∀ v, (st.node v).nsuccs < 4294967296
  done_fields : ∀ v, Done infinity F st v →
    (st.node v).nsuccs = 0 ∧ (st.node v).delta = 0 ∧ (st.node v).preds = []
  done_inc : ∀ v, Done infinity F st v →
    (st.node v).bc - (F.node v).bc
      = ∑ w in (Finset.range g.n).filter (Done infinity F st), share F st v w
  done_occ : ∀ v w, Done infinity F st v → Todo infinity F st w → occ F v w = 0
  ready : ∀ v, Todo infinity F st v → (st.node v).nsuccs = 0 → v ∈ W
  wl_reached : ∀ v, v ∈ W → (F.node v).distance ≠ infinity

/-- Facts about the final forward state used by the backward phase. -/
structure DagFacts (g : Graph) (infinity : Nat) (F : State) : Prop where
  node_lt : ∀ v, (F.node v).distance ≠ infinity → v < g.n
  pred_dist : ∀ w p, p ∈ (F.node w).preds →
    (F.node p).distance ≠ infinity ∧ (F.node w).distance ≠ infinity ∧
    (F.node p).distance + 1 = (F.node w).distance
  dist_le : ∀ v, (F.node v).distance ≤ infinity

/-! ## Reference computation on the graph -/

/-- First `k` in `[start, start + fuel)` with `p k`, if any. -/
def firstHit (p : Nat → Bool) : Nat → Nat → Option Nat
  | 0, _ => none
  | fuel + 1, k => if p k then some k else firstHit p fuel (k + 1)

/-- Hop distance from `s` to `v` in the graph: the least number of edges of a walk
from `s` to `v`, if `v` can be reached (a shortest walk has fewer than `n` edges). -/
def hopDist (g : Graph) (s v : Nat) : Option Nat :=
  firstHit (fun k => decide (walkCount g s k v ≠ 0)) g.n 0

/-- Number of shortest paths from `s` to `v`, capped at the largest 64-bit value;
0 for a node that cannot be reached. -/
def sigmaRef (g : Graph) (s v : Nat) : Nat :=
  match hopDist g s v with
  | some d => min (walkCount g s d v) 18446744073709551615
  | none => 0

/-- The edge `x` belongs to the shortest-path DAG of the source `s`: it leads one
level further away from `s`. -/
def onDag (g : Graph) (s x : Nat) : Bool :=
  match hopDist g s (g.src x), hopDist g s (g.dst x) with
  | some a, some b => decide (b = a + 1)
  | _, _ => false

/-- The dependency recursion on the shortest-path DAG of `s`, unfolded `fuel` times:
`d(v)` is the sum, over the DAG edges from `v` to a dependent `w` (the occurrences of `v`
in `preds w`), of `sigma(v)/sigma(w) * (1 + d(w))`. -/
def dependencyAux (g : Graph) (s : Nat) : Nat → Nat → ℚ
  | 0, _ => 0
  | fuel + 1, v =>
    (((List.range g.m).filter (fun x => g.src x = v ∧ onDag g s x = true)).map
      (fun x => (sigmaRef g s v : ℚ) / (sigmaRef g s (g.dst x) : ℚ)
        * (1 + dependencyAux g s fuel (g.dst x)))).sum

/-- The dependency of the source `s` on `v` (reference sequential computation). -/
def dependency (g : Graph) (s v : Nat) : ℚ := dependencyAux g s g.n v

/-- What one source iteration for `s` adds to the `bc` of `v`. -/
def contribution (g : Graph) (s v : Nat) : ℚ :=
  if g.edges s = [] then 0 else if v = s then 0 else dependency g s v

/-! ## Executable schedules of the driver -/

/-- One source iteration of `main` under the schedule `pick`, with at most `fuel`
items per phase. -/
def runSource (g : Graph) (infinity : Nat) (pick : List Nat → Nat) (fuel : Nat)
    (i : Nat) (st : State) : Option State :=
  match drain (dagItem g infinity) pick fuel (seedSource st i) [i] with
  | none => none
  | some stF =>
    match drain (backItem g infinity) pick fuel stF (findLeaves infinity stF g.n) with
    | none => none
    | some stB => some (finishSource g infinity i (stF.node i).bc stB)

/-- The source loop of `main` under the schedule `pick`. -/
def runLoop (g : Graph) (infinity : Nat) (pick : List Nat → Nat) (fuel : Nat) :
    List Nat → State → Option State
  | [], st => some st
  | i :: rest, st =>
    if g.edges i = [] then runLoop g infinity pick fuel rest st
    else
      match runSource g infinity pick fuel i st with
      | none => none
      | some st₁ => runLoop g infinity pick fuel rest st₁

/-- The records with every field neutral and `bc = 0`. -/
def neutralState (infinity : Nat) : State :=
  { node := fun _ =>
      { distance := infinity, nsuccs := 0, sigma := 0, delta := 0, bc := 0, preds := [],
        queued := false },
    edge := fun _ => { val := 0, level := infinity } }

/-- The records beyond the nodes of the graph, which stand for no node, are neutral. -/
def Padding (g : Graph) (infinity : Nat) (st : State) : Prop :=
  ∀ v, g.n ≤ v →
    (st.node v).distance = infinity ∧ (st.node v).nsuccs = 0 ∧ (st.node v).sigma = 0 ∧
      (st.node v).delta = 0 ∧ (st.node v).preds = [] ∧ (st.node v).queued = false

/-- A value of the sentinel: a quarter of the largest 32-bit value. -/
def inf30 : Nat := 1073741823

/-- The directed line 0 → 1 → 2. -/
def line3 : Graph :=
  { n := 3, m := 2, src := fun e => [0, 1].getD e 0, dst := fun e => [1, 2].getD e 0 }

/-- The path 0 – 1 – 2 – 3 – 4, each link in both directions. -/
def path5 : Graph :=
  { n := 5, m := 8,
    src := fun e => [0, 1, 1, 2, 2, 3, 3, 4].getD e 0,
    dst := fun e => [1, 0, 2, 1, 3, 2, 4, 3].getD e 0 }

/-- A graph where node 3 is reached first through 0 → 1 → 5 → 3 and later through the
shorter 0 → 2 → 3; node 4 cannot be reached and has an edge to 3. -/
def detour : Graph :=
  { n := 6, m := 6,
    src := fun e => [0, 0, 1, 5, 2, 4].getD e 0,
    dst := fun e => [1, 2, 5, 3, 3, 3].getD e 0 }

/-- Final forward state of `line3` for the source 0 (FIFO schedule). -/
def line3F : State :=
  (drain (dagItem line3 inf30) fifo 8 (seedSource (neutralState inf30) 0) [0]).getD
    (neutralState inf30)

/-- Final backward state of `line3` for the source 0 (FIFO schedule). -/
def line3B : State :=
  (drain (backItem line3 inf30) fifo 8 line3F (findLeaves inf30 line3F 3)).getD
    (neutralState inf30)

/-- The state of `detour` for the source 0 after the items 0, 1 and 5. -/
def detourMid : State :=
  (dagItem detour inf30
    (dagItem detour inf30
      (dagItem detour inf30 (seedSource (neutralState inf30) 0) 0).1 1).1 5).1

instance (g : Graph) : Decidable g.WF := by
  unfold Graph.WF; infer_instance

instance (g : Graph) (infinity : Nat) : Decidable (Sizes g infinity) := by
  unfold Sizes; infer_instance

/-- The state after one source iteration of `path5` for the source 0 (FIFO schedule),
from the neutral records with `bc = 0`. -/
def path5Out : State :=
  (runSource path5 inf30 fifo 20 0 (neutralState inf30)).getD (neutralState inf30)

/-- The state after one source iteration of `line3` for the source 0 (FIFO schedule). -/
def line3Out : State :=
  (runSource line3 inf30 fifo 8 0 (neutralState inf30)).getD (neutralState inf30)

/-- The final state of the driver on `detour`, all sources, FIFO schedule. -/
def detourFifo : State :=
  (runLoop detour inf30 fifo 20 (sourceRange detour 0 0)
    (cleanup inf30 detour.n detour.m (neutralState inf30))).getD (neutralState inf30)

/-- The final state of the driver on `detour`, all sources, LIFO schedule. -/
def detourLifo : State :=
  (runLoop detour inf30 lifo 20 (sourceRange detour 0 0)
    (cleanup inf30 detour.n detour.m (neutralState inf30))).getD (neutralState inf30)

/-- The number of in-edges `(u, b)` that are stale after the rule (`u` is not closer to
the source than `b` in `st'`) and whose level in `st` equalled the distance of `u`. -/
def staleHits (g : Graph) (st st' : State) (b u : Nat) : Nat :=
  ((Finset.range g.m).filter (fun x => g.dst x = b ∧ g.src x = u ∧
    (st'.node b).distance ≤ (st'.node u).distance ∧
    (st.edge x).level = (st.node u).distance)).card

/-- The stale in-edges `(u, b)` counted by `staleHits` whose level in `st` was a validated
one (not the sentinel): those the test `edgeLevel != infinity` of `correctNode` lets
through. -/
def staleValidHits (g : Graph) (infinity : Nat) (st st' : State) (b u : Nat) : Nat :=
  ((Finset.range g.m).filter (fun x => g.dst x = b ∧ g.src x = u ∧
    (st'.node b).distance ≤ (st'.node u).distance ∧
    (st.edge x).level ≠ infinity ∧ (st.edge x).level = (st.node u).distance)).card

/-- A graph where node 4 is reached first through 0 → 2 → 3 → 4, along which two paths
lead (the edge 2 → 3 is doubled), and later through the shorter 0 → 1 → 4. -/
def shortcut : Graph :=
  { n := 5, m := 6,
    src := fun e => [0, 0, 2, 2, 3, 1].getD e 0,
    dst := fun e => [1, 2, 3, 3, 4, 4].getD e 0 }

/-- The state of `shortcut` for the source 0 after the items 0, 2 and 3. -/
def shortcutMid : State :=
  (dagItem shortcut inf30
    (dagItem shortcut inf30
      (dagItem shortcut inf30 (seedSource (neutralState inf30) 0) 0).1 2).1 3).1

/-! ## Lock discipline of the forward phase -/

/-- The rule of the forward phase that performs a write to an edge record. -/
inductive Rule
  | sp
  | us
  | fu
  | cn
  deriving DecidableEq

/-- The lock operations and the writes to the `val` or `level` of an edge record, in
the order in which one thread executes them. -/
inductive Ev
  | lock (v : Nat)
  | unlock (v : Nat)
  | write (r : Rule) (e : Nat)

/-- The acquisition `if (srcID < dstID) { src.lock(); dst.lock(); } else { dst.lock();
src.lock(); }` written in `dagConstruction` and in `correctNode`. -/
def lockPair (srcID dstID : Nat) : List Ev :=
  if srcID < dstID then [Ev.lock srcID, Ev.lock dstID] else [Ev.lock dstID, Ev.lock srcID]

/-- The lock operations and edge writes of one iteration of the loop of `correctNode`
over the in-edge `e` of `dstID`, in program order. -/
def correctNodeEdgeEvents (g : Graph) (infinity : Nat) (dstID : Nat) (st : State) (e : Nat) :
    List Ev :=
  let srcID := g.src e
  if srcID = dstID then []
  else
    let edgeLevel := (st.edge e).level
    lockPair srcID dstID ++
      (if (st.node dstID).distance ≤ (st.node srcID).distance then
        [Ev.unlock dstID] ++
          (if edgeLevel ≠ infinity then [Ev.write Rule.cn e] else []) ++ [Ev.unlock srcID]
      else [Ev.unlock srcID, Ev.unlock dstID])

/-- The lock operations and edge writes of the loop of `correctNode` over the in-edges
`l`, started in the state `st`. -/
def correctEvents (g : Graph) (infinity : Nat) (dstID : Nat) : List Nat → State → List Ev
  | [], _ => []
  | e :: l, st =>
    correctNodeEdgeEvents g infinity dstID st e ++
      correctEvents g infinity dstID l (correctNodeEdge g infinity dstID st e)

/-- The lock operations and edge writes of `spAndFU`, entered with both locks held:
the two writes to the edge, the two releases, then the correction when the head had
predecessors. -/
def spAndFUEvents (g : Graph) (infinity : Nat) (st : State) (srcID dstID e : Nat) :
    List Ev :=
  [Ev.write Rule.sp e, Ev.write Rule.sp e, Ev.unlock srcID, Ev.unlock dstID] ++
    (if (st.node dstID).preds ≠ [] then
      correctEvents g infinity dstID (g.in_edges dstID) (spMid st srcID dstID e)
    else [])

/-- The lock operations and edge writes of `updateSigma`, entered with both locks held:
the lock of the tail is released before the test of `diff`. -/
def updateSigmaEvents (st : State) (srcID dstID e : Nat) : List Ev :=
  [Ev.unlock srcID] ++
    (if 0 < sigmaDiff st srcID e then [Ev.write Rule.us e, Ev.unlock dstID]
    else [Ev.unlock dstID])

/-- The lock operations and edge writes of `firstUpdate`, entered with both locks held. -/
def firstUpdateEvents (srcID dstID e : Nat) : List Ev :=
  [Ev.write Rule.fu e, Ev.write Rule.fu e, Ev.unlock srcID, Ev.unlock dstID]

/-- The lock operations and edge writes of the body of the edge loop of
`dagConstruction` for the out-edge `e` of `srcID`. -/
def dagEdgeEvents (g : Graph) (infinity : Nat) (srcID : Nat) (st : State) (e : Nat) :
    List Ev :=
  let dstID := g.dst e
  if srcID = dstID then []
  else
    let elevel := toInt (st.edge e).level
    let ADist := toInt (st.node srcID).distance
    let BDist := toInt (st.node dstID).distance
    lockPair srcID dstID ++
      (if 1 < BDist - ADist then spAndFUEvents g infinity st srcID dstID e
      else if elevel = ADist ∧ BDist = ADist + 1 then updateSigmaEvents st srcID dstID e
      else if BDist = ADist + 1 ∧ elevel ≠ ADist then firstUpdateEvents srcID dstID e
      else [Ev.unlock srcID, Ev.unlock dstID])

/-- The locks held after the events `evs`, starting with the locks `held`. -/
def heldAfter : List Nat → List Ev → List Nat
  | held, [] => held
  | held, Ev.lock v :: r => heldAfter (v :: held) r
  | held, Ev.unlock v :: r => heldAfter (held.erase v) r
  | held, Ev.write _ _ :: r => heldAfter held r

/-- Every write of the trace `evs` to an edge `x` by a rule `r` happens while all the
locks `need r x` are held; `held` lists the locks held at the start. -/
def writesCovered (need : Rule → Nat → List Nat) : List Nat → List Ev → Bool
  | _, [] => true
  | held, Ev.lock v :: r => writesCovered need (v :: held) r
  | held, Ev.unlock v :: r => writesCovered need (held.erase v) r
  | held, Ev.write rl x :: r =>
    (need rl x).all (fun v => decide (v ∈ held)) && writesCovered need held r

/-- The locks the specification asks for at a write to the edge `x`: both endpoints. -/
def bothEnds (g : Graph) : Rule → Nat → List Nat :=
  fun _ x => [g.src x, g.dst x]

/-- The locks the code holds at a write to the edge `x`: both endpoints in `spAndFU` and
`firstUpdate`, the head only in `updateSigma`, the tail only in `correctNode`. -/
def heldEnds (g : Graph) : Rule → Nat → List Nat
  | Rule.sp, x => [g.src x, g.dst x]
  | Rule.fu, x => [g.src x, g.dst x]
  | Rule.us, x => [g.dst x]
  | Rule.cn, x => [g.src x]

/-- The configurations a `galois::for_each` loop can reach: `Reaches body st wl st' wl'`
holds when, from the state `st` with the pending items `wl`, executing some items one at a
time, in some order, leads to the state `st'` with the pending items `wl'`. -/
inductive Reaches (body : State → Nat → State × List Nat) :
    State → List Nat → State → List Nat → Prop
  | refl (st : State) (wl : List Nat) : Reaches body st wl st wl
  | step (st : State) (l₁ : List Nat) (a : Nat) (l₂ : List Nat) (st' : State)
      (wl' : List Nat) :
      Reaches body (body st a).1 (l₁ ++ l₂ ++ (body st a).2) st' wl' →
      Reaches body st (l₁ ++ a :: l₂) st' wl'

/-! ## The decrements of `nsuccs` -/

/-- Every execution of the body of a loop over the list, started in the state `s`, begins
in a state where `ok` holds for the element it handles. -/
def foldOk {σ α : Type} (step : σ → α → σ) (ok : σ → α → Prop) : List α → σ → Prop
  | [], _ => True
  | x :: l, s => ok s x ∧ foldOk step ok l (step s x)

/-- The decrement `srcData.nsuccs--` of `correctNode`, when the iteration over the in-edge
`e` of `dstID` executes it, applies to a counter that is at least 1. -/
def correctNodeDecOk (g : Graph) (infinity : Nat) (dstID : Nat) (st : State) (e : Nat) :
    Prop :=
  g.src e ≠ dstID → (st.node dstID).distance ≤ (st.node (g.src e)).distance →
    (st.edge e).level ≠ infinity → (st.edge e).level = (st.node (g.src e)).distance →
    1 ≤ (st.node (g.src e)).nsuccs

/-- The decrements executed by the body of the edge loop of `dagConstruction` for the
out-edge `e` of `srcID` (those of the correction run by `spAndFU`) apply to counters that
are at least 1. -/
def dagEdgeDecOk (g : Graph) (infinity : Nat) (srcID : Nat) (acc : State × List Nat)
    (e : Nat) : Prop :=
  srcID ≠ g.dst e →
    1 < toInt (acc.1.node (g.dst e)).distance - toInt (acc.1.node srcID).distance →
    (acc.1.node (g.dst e)).preds ≠ [] →
    foldOk (correctNodeEdge g infinity (g.dst e)) (correctNodeDecOk g infinity (g.dst e))
      (g.in_edges (g.dst e)) (spMid acc.1 srcID (g.dst e) e)

/-- The decrements executed by the operator of `dagConstruction` on the item `a` apply to
counters that are at least 1. -/
def dagItemDecOk (g : Graph) (infinity : Nat) (st : State) (a : Nat) : Prop :=
  foldOk (dagEdge g infinity a) (dagEdgeDecOk g infinity a) (g.edges a) (markOut st a, [])

/-- The decrements `predData.nsuccs--` executed by the operator of `dependencyBackProp` on
the item `a` apply to counters that are at least 1. -/
def backItemDecOk (st : State) (a : Nat) : Prop :=
  (st.node a).nsuccs = 0 →
    foldOk (backPred a (st.node a).delta) (fun acc p => 1 ≤ (acc.1.node p).nsuccs)
      (st.node a).preds
      (st.setNode a { st.node a with bc := (st.node a).bc + (st.node a).delta }, [])

/-- The divisions executed by the operator of `dependencyBackProp` on the item `a` have a
non-zero divisor `srcData.sigma`, and the `sigma` of the predecessor is non-zero too. -/
def backItemDivOk (st : State) (a : Nat) : Prop :=
  (st.node a).nsuccs = 0 →
    foldOk (backPred a (st.node a).delta)
      (fun acc p => (acc.1.node a).sigma ≠ 0 ∧ (acc.1.node p).sigma ≠ 0)
      (st.node a).preds
      (st.setNode a { st.node a with bc := (st.node a).bc + (st.node a).delta }, [])

/-- The backward work list holds no node twice, and each of its nodes is reached, not yet
accumulated, and has no pending successor. -/
def FrontierFresh (infinity : Nat) (F st : State) (W : List Nat) : Prop :=
  W.Nodup ∧ ∀ v, v ∈ W → Todo infinity F st v ∧ (st.node v).nsuccs = 0

/-- A `galois::for_each` loop run to quiescence, with the list `log` of the items in the
order in which they were executed. -/
inductive DrainsLog (body : State → Nat → State × List Nat) :
    State → List Nat → List Nat → State → Prop
  | done (st : State) : DrainsLog body st [] [] st
  | step (st : State) (l₁ : List Nat) (a : Nat) (l₂ : List Nat) (log : List Nat)
      (st' : State) :
      DrainsLog body (body st a).1 (l₁ ++ l₂ ++ (body st a).2) log st' →
      DrainsLog body st (l₁ ++ a :: l₂) (a :: log) st'

/-! ## Reference counts, snapshots and unreachable nodes -/

/-- The subtraction `srcSigma - eval` of `updateSigma`, when the body of the edge loop of
`dagConstruction` for the out-edge `e` of `srcID` reaches it, does not wrap:
`ed.val ≤ srcData.sigma`. -/
def dagEdgeDiffOk (g : Graph) (srcID : Nat) (acc : State × List Nat) (e : Nat) : Prop :=
  srcID ≠ g.dst e →
    ¬ 1 < toInt (acc.1.node (g.dst e)).distance - toInt (acc.1.node srcID).distance →
    (toInt (acc.1.edge e).level = toInt (acc.1.node srcID).distance ∧
      toInt (acc.1.node (g.dst e)).distance = toInt (acc.1.node srcID).distance + 1) →
    (acc.1.edge e).val ≤ (acc.1.node srcID).sigma

/-- No subtraction of `updateSigma` executed by the operator of `dagConstruction` on the
item `a` wraps. -/
def dagItemDiffOk (g : Graph) (infinity : Nat) (st : State) (a : Nat) : Prop :=
  foldOk (dagEdge g infinity a) (dagEdgeDiffOk g a) (g.edges a) (markOut st a, [])

/-- Final forward state of `detour` for the source 0 (LIFO schedule). -/
def detourF : State :=
  (drain (dagItem detour inf30) lifo 12 (seedSource (neutralState inf30) 0) [0]).getD
    (neutralState inf30)

/-- The state after one source iteration of `detour` for the source 0 (LIFO schedule). -/
def detourOut : State :=
  (runSource detour inf30 lifo 12 0 (neutralState inf30)).getD (neutralState inf30)

/-! ## Termination of the forward phase -/

/-- Sum of the distances of the nodes of the graph. -/
def distSum (g : Graph) (st : State) : Nat :=
  ∑ v in Finset.range g.n, (st.node v).distance

/-- Number of edges that lead one level further and are not validated at the distance of
their tail. -/
def openTight (g : Graph) (infinity : Nat) (st : State) : Nat :=
  ((Finset.range g.m).filter (fun x =>
    (st.node (g.dst x)).distance = (st.node (g.src x)).distance + 1 ∧
      ¬ Valid g infinity st x)).card

/-- What the validated edge `x` has not yet handed over: the part of the `sigma` of its
tail that is not in its `val`, weighted by its level (a lower level weighs more than all
the out-edges of a node of the next level together). -/
def edgeDebt (g : Graph) (infinity : Nat) (st : State) (x : Nat) : Nat :=
  if Valid g infinity st x then
    ((st.node (g.src x)).sigma - (st.edge x).val) * (g.m + 1) ^ (infinity - (st.edge x).level)
  else 0

/-- Sum of the debts of the edges of the graph. -/
def debtSum (g : Graph) (infinity : Nat) (st : State) : Nat :=
  ∑ x in Finset.range g.m, edgeDebt g infinity st x

/-- Rank of a state of the forward phase, in lexicographic order: the distances, then the
edges still to validate, then the debts. -/
def fwdRank (g : Graph) (infinity : Nat) (st : State) : Lex (Nat × Lex (Nat × Nat)) :=
  toLex (distSum g st, toLex (openTight g infinity st, debtSum g infinity st))

/-- Rank of a configuration of the forward phase: the rank of the state, then the length
of the frontier. -/
def fwdMeasure (g : Graph) (infinity : Nat) (c : State × List Nat) :
    Lex (Lex (Nat × Lex (Nat × Nat)) × Nat) :=
  toLex (fwdRank g infinity c.1, c.2.length)

/-- One step of a `galois::for_each` loop: some pending item is executed. -/
def ItemStep (body : State → Nat → State × List Nat) (c c' : State × List Nat) : Prop :=
  ∃ l₁ a l₂, c.2 = l₁ ++ a :: l₂ ∧ c' = ((body c.1 a).1, l₁ ++ l₂ ++ (body c.1 a).2)

/-! ## First validation of an edge -/

/-- The effect of the first validation of the edge `e` from `a` to `b` as the
specification states it: `a` is appended to the end of `b.preds`, `a.nsuccs` grows by one,
the edge gets `val = a.sigma` and `level = a.distance`, and `b.sigma` becomes the saturating
sum `min (b.sigma + a.sigma) (2^64 - 1)`. -/
def firstUpdateSpec (st : State) (a b e : Nat) : Prop :=
  ((firstUpdate st a b e).1.node b).preds = (st.node b).preds ++ [a] ∧
  ((firstUpdate st a b e).1.node a).nsuccs = (st.node a).nsuccs + 1 ∧
  ((firstUpdate st a b e).1.edge e).val = (st.node a).sigma ∧
  ((firstUpdate st a b e).1.edge e).level = (st.node a).distance ∧
  ((firstUpdate st a b e).1.node b).sigma
    = min ((st.node b).sigma + (st.node a).sigma) 18446744073709551615

instance (st : State) (a b e : Nat) : Decidable (firstUpdateSpec st a b e) := by
  unfold firstUpdateSpec; infer_instance

/-- When the body of the edge loop of `dagConstruction` for the out-edge `e` of `srcID`
finds the first-validation guard true (`BDist == ADist + 1 && elevel != ADist`), the call
of `firstUpdate` it makes has the effect `firstUpdateSpec`. -/
def dagEdgeFirstOk (g : Graph) (srcID : Nat) (acc : State × List Nat) (e : Nat) : Prop :=
  (toInt (acc.1.node (g.dst e)).distance = toInt (acc.1.node srcID).distance + 1 ∧
    toInt (acc.1.edge e).level ≠ toInt (acc.1.node srcID).distance) →
  firstUpdateSpec acc.1 srcID (g.dst e) e

/-- Every call of `firstUpdate` made by the operator of `dagConstruction` on the item `a`
has the effect `firstUpdateSpec`. -/
def dagItemFirstOk (g : Graph) (infinity : Nat) (st : State) (a : Nat) : Prop :=
  foldOk (dagEdge g infinity a) (dagEdgeFirstOk g a) (g.edges a) (markOut st a, [])

/-- The state of `shortcut` for the source 0 after the item 0; the frontier is `[1, 2]`. -/
def shortcutOne : State := (dagItem shortcut inf30 (seedSource (neutralState inf30) 0) 0).1

/-- The state in which the item 2 of `shortcut`, run on `shortcutOne`, examines its second
out-edge 3 (a second edge from 2 to 3), after the edge 2 has given node 3 the distance 2. -/
def shortcutTwo : State := (dagEdge shortcut inf30 2 (markOut shortcutOne 2, []) 2).1

/-! ## The subtraction of the sigma refresh -/

/-- The diamond 0 → 1, 0 → 2, 1 → 3, 2 → 3 with the tail 3 → 4. -/
def diamond : Graph :=
  { n := 5, m := 5,
    src := fun e => [0, 0, 1, 2, 3].getD e 0,
    dst := fun e => [1, 2, 3, 3, 4].getD e 0 }

/-- The state of `diamond` for the source 0 after the items 0, 1, 3 and 2: node 3 has
validated its out-edge with `sigma = 1`, has then received a second shortest path through
node 2 and is on the frontier `[4, 3]` again. -/
def diamondMid : State :=
  (dagItem diamond inf30
    (dagItem diamond inf30
      (dagItem diamond inf30
        (dagItem diamond inf30 (seedSource (neutralState inf30) 0) 0).1 1).1 3).1 2).1

end BCAsync

namespace SpanningTree

/-!
# Spanning tree (`SpanningTree.cpp`)

A shallow embedding of the serial algorithm `runSerial`, of `verify`, and of the set-up
done by `main`.  Nodes are the identifiers below `graph.size()`.
-/

/-- The graph: `size` nodes, and for each node the list of its neighbours in the order
of `neighbor_begin .. neighbor_end`. -/
structure Graph where
  size : Nat
  neighbors : Nat → List Nat

/-- Every neighbour of a node of the graph is a node of the graph. -/
def Graph.WF (g : Graph) : Prop :=
  ∀ v, v < g.size → ∀ w, w ∈ g.neighbors v → w < g.size

/-- An edge of the result: the pair `Edge(src, dst)`. -/
abbrev Edge := Nat × Nat

/-- The data of a run: the flag `in_mst` of each node, the bag `result`, and the vector
`worklist`, whose back is the head of the list. -/
structure State where
  in_mst : Nat → Bool
  result : List Edge
  worklist : List Nat

/-- One iteration of the neighbour loop of `runSerial` for `src`: a neighbour already in
the tree is skipped; otherwise the edge is recorded, the neighbour marked and pushed. -/
def expandStep (src : Nat) (st : State) (dst : Nat) : State :=
  if st.in_mst dst = true then st
  else
    { in_mst := fun v => if v = dst then true else st.in_mst v,
      result := st.result ++ [(src, dst)],
      worklist := dst :: st.worklist }

/-- The neighbour loop of `runSerial` for `src` ("expand tree"). -/
def expand (g : Graph) (src : Nat) (st : State) : State :=
  (g.neighbors src).foldl (expandStep src) st

/-- The `while (!worklist.empty())` loop of `runSerial`, with at most `fuel` iterations. -/
def serialLoop (g : Graph) : Nat → State → Option State
  | 0, st => if st.worklist = [] then some st else none
  | fuel + 1, st =>
    match st.worklist with
    | [] => some st
    | src :: rest => serialLoop g fuel (expand g src { st with worklist := rest })

/-- The function `runSerial`: the nodes of `initial` are pushed in order, then the loop
runs. -/
def runSerial (g : Graph) (fuel : Nat) (initial : List Nat) (in_mst : Nat → Bool)
    (result : List Edge) : Option State :=
  serialLoop g fuel { in_mst := in_mst, result := result, worklist := initial.reverse }

/-- The function `verify`: the result holds `graph.size() - 1` edges and every node is
marked (the graph has at least one node, the root). -/
def verify (g : Graph) (st : State) : Bool :=
  if st.result.length ≠ g.size - 1 then false
  else (List.range g.size).all (fun v => st.in_mst v)

/-- The flags set by `main` before the run: every node is created with `in_mst = false`,
then the root is marked. -/
def initialFlags (root : Nat) : Nat → Bool :=
  fun v => decide (v = root)

/-- The node `v` can be reached from `root` along neighbour links. -/
inductive Reach (g : Graph) (root : Nat) : Nat → Prop
  | base : Reach g root root
  | step (v w : Nat) : Reach g root v → w ∈ g.neighbors v → Reach g root w

/-- The marked nodes of the graph. -/
def marked (g : Graph) (st : State) : Finset Nat :=
  (Finset.range g.size).filter (fun v => st.in_mst v = true)

/-- Invariant of the loops of `runSerial`. -/
structure Inv (g : Graph) (root : Nat) (st : State) : Prop where
  wl_marked : ∀ v, v ∈ st.worklist → st.in_mst v = true
  marked_lt : ∀ v, st.in_mst v = true → v < g.size
  root_marked : st.in_mst root = true
  count : st.result.length + 1 = (marked g st).card

/-- What one or several iterations of the neighbour loop change. -/
structure Grows (g : Graph) (st st' : State) : Prop where
  mono : ∀ v, st.in_mst v = true → st'.in_mst v = true
  fresh : ∀ v, st'.in_mst v = true → st.in_mst v = true ∨ v ∈ st'.worklist
  keep : ∀ v, v ∈ st.worklist → v ∈ st'.worklist
  balance : (marked g st').card + st.worklist.length
    = (marked g st).card + st'.worklist.length

/-- The line graph 0 – 1 – 2 with links in both directions. -/
def line : Graph :=
  { size := 3, neighbors := fun v => [[1], [0, 2], [1]].getD v [] }

/-- Every marked node that is not on the work list has all its neighbours marked. -/
def Closed (g : Graph) (st : State) : Prop :=
  ∀ v, st.in_mst v = true → v ∉ st.worklist → ∀ w, w ∈ g.neighbors v → st.in_mst w = true

end SpanningTree

namespace BCAsync

/-! # Properties -/

/-! ## Record updates -/

@[simp] theorem setNode_node_same (st : State) (v : Nat) (x : BCNode) :
    (st.setNode v x).node v = x := by simp [State.setNode]

theorem setNode_node (st : State) (v u : Nat) (x : BCNode) :
    (st.setNode v x).node u = if u = v then x else st.node u := rfl

@[simp] theorem setNode_node_ne (st : State) {v u : Nat} (x : BCNode) (h : u ≠ v) :
    (st.setNode v x).node u = st.node u := by simp [State.setNode, h]

@[simp] theorem setNode_edge (st : State) (v : Nat) (x : BCNode) :
    (st.setNode v x).edge = st.edge := rfl

@[simp] theorem setEdge_node (st : State) (e : Nat) (x : BCEdge) :
    (st.setEdge e x).node = st.node := rfl

@[simp] theorem setEdge_edge_same (st : State) (e : Nat) (x : BCEdge) :
    (st.setEdge e x).edge e = x := by simp [State.setEdge]

theorem setEdge_edge (st : State) (e f : Nat) (x : BCEdge) :
    (st.setEdge e x).edge f = if f = e then x else st.edge f := rfl

@[simp] theorem setEdge_edge_ne (st : State) {e f : Nat} (x : BCEdge) (h : f ≠ e) :
    (st.setEdge e x).edge f = st.edge f := by simp [State.setEdge, h]

theorem toInt_of_lt {x : Nat} (h : x < 2147483648) : toInt x = (x : Int) := by
  unfold toInt
  have h1 : x % 4294967296 = x := Nat.mod_eq_of_lt (by omega)
  rw [h1, if_pos h]

/-- Saturating addition as written in `updateSigma` and `firstUpdate`: wrap, then cap
when the wrapped sum did not grow. -/
theorem sat_add_eq {a b : Nat} (ha : a < 18446744073709551616)
    (hb : b < 18446744073709551616) (hpos : 0 < b) :
    (if (a + b) % 18446744073709551616 ≤ a then 18446744073709551615
      else (a + b) % 18446744073709551616) = min (a + b) 18446744073709551615 := by
  rw [Nat.min_def]
  split_ifs <;> omega

/-! ## Work lists -/

theorem Drains.invariant {body : State → Nat → State × List Nat}
    (I : State → List Nat → Prop)
    (hstep : ∀ st l₁ a l₂, I st (l₁ ++ a :: l₂) →
      I (body st a).1 (l₁ ++ l₂ ++ (body st a).2))
    {st : State} {wl : List Nat} {st' : State}
    (h : Drains body st wl st') (h0 : I st wl) : I st' [] := by
  induction h with
  | done st => exact h0
  | step st l₁ a l₂ st' _ ih => exact ih (hstep st l₁ a l₂ h0)

theorem drain_sound (body : State → Nat → State × List Nat) (pick : List Nat → Nat) :
    ∀ (fuel : Nat) (st : State) (wl : List Nat) (st' : State),
      drain body pick fuel st wl = some st' → Drains body st wl st' := by
  intro fuel
  induction fuel with
  | zero =>
    intro st wl st' h
    cases wl with
    | nil => simp [drain] at h; subst h; exact Drains.done _
    | cons w ws => simp [drain] at h
  | succ k ih =>
    intro st wl st' h
    cases wl with
    | nil => simp [drain] at h; subst h; exact Drains.done _
    | cons w ws =>
      simp only [drain] at h
      have hi : pick (w :: ws) % (ws.length + 1) < (w :: ws).length := by
        simp only [List.length_cons]
        exact Nat.mod_lt _ (Nat.succ_pos _)
      generalize pick (w :: ws) % (ws.length + 1) = i at h hi
      have hsplit : w :: ws = (w :: ws).take i ++ (w :: ws).getD i w :: (w :: ws).drop (i + 1) := by
        rw [List.getD_eq_getElem _ _ hi]
        exact (List.take_append_drop i (w :: ws)).symm.trans (by rw [List.drop_eq_getElem_cons hi])
      have := ih _ _ _ h
      rw [hsplit]
      exact Drains.step _ _ _ _ _ this

/-! ## The correction loop -/

theorem State.ext_iff' (s t : State) : s = t ↔ s.node = t.node ∧ s.edge = t.edge := by
  cases s; cases t; simp

theorem correctNodeEdge_node (g : Graph) (infinity b : Nat) (st : State) (x u : Nat) :
    (correctNodeEdge g infinity b st x).node u =
      if Dec g infinity st b u x then
        { st.node u with nsuccs := ((st.node u).nsuccs + 4294967295) % 4294967296 }
      else st.node u := by
  unfold correctNodeEdge Dec Stale
  by_cases h1 : g.src x = b
  · simp [h1]
  · by_cases h2 : (st.node b).distance ≤ (st.node (g.src x)).distance
    · by_cases h3 : (st.edge x).level = infinity
      · simp [h1, h2, h3]
      · by_cases h4 : (st.edge x).level = (st.node (g.src x)).distance
        · have h3' : ¬ (st.node (g.src x)).distance = infinity := by rwa [h4] at h3
          by_cases h5 : g.src x = u
          · subst h5; simp [h1, h2, h3', h4]
          · have h6 : u ≠ g.src x := fun h => h5 h.symm
            simp [h1, h2, h3', h4, h5, h6]
        · by_cases h5 : g.src x = u
          · subst h5; simp [h1, h2, h3, h4]
          · simp [h1, h2, h3, h4, h5]
    · simp [h1, h2]

theorem correctNodeEdge_edge (g : Graph) (infinity b : Nat) (st : State) (x y : Nat) :
    (correctNodeEdge g infinity b st x).edge y =
      if y = x ∧ Stale g st b x then { st.edge y with level := infinity }
      else st.edge y := by
  unfold correctNodeEdge Stale
  by_cases h1 : g.src x = b
  · simp [h1]
  · by_cases h2 : (st.node b).distance ≤ (st.node (g.src x)).distance
    · by_cases h3 : (st.edge x).level = infinity
      · by_cases h5 : y = x
        · subst h5
          simp [h1, h2, h3]
          cases hx : st.edge y
          simp [hx] at h3
          simp [h3]
        · simp [h1, h2, h3, h5]
      · by_cases h4 : (st.edge x).level = (st.node (g.src x)).distance
        · have h3' : ¬ (st.node (g.src x)).distance = infinity := by rwa [h4] at h3
          by_cases h5 : y = x
          · subst h5; simp [h1, h2, h3', h4]
          · simp [h1, h2, h3', h4, h5]
        · by_cases h5 : y = x
          · subst h5; simp [h1, h2, h3, h4]
          · simp [h1, h2, h3, h4, h5]
    · simp [h1, h2]

theorem correctNodeEdge_distance (g : Graph) (infinity b : Nat) (st : State) (x u : Nat) :
    ((correctNodeEdge g infinity b st x).node u).distance = (st.node u).distance := by
  rw [correctNodeEdge_node]; split_ifs <;> rfl

/-- Effect of the correction loop over a duplicate-free list `l` of edges. -/
theorem correctFold (g : Graph) (infinity b : Nat) :
    ∀ (l : List Nat) (st : State), l.Nodup →
      let st' := l.foldl (correctNodeEdge g infinity b) st
      (∀ u, (st'.node u).distance = (st.node u).distance ∧
            (st'.node u).sigma = (st.node u).sigma ∧
            (st'.node u).delta = (st.node u).delta ∧
            (st'.node u).bc = (st.node u).bc ∧
            (st'.node u).preds = (st.node u).preds ∧
            (st'.node u).queued = (st.node u).queued ∧
            ((st.node u).nsuccs < 4294967296 → (st'.node u).nsuccs < 4294967296) ∧
            ((st'.node u).nsuccs + l.countP (fun x => Dec g infinity st b u x)) % 4294967296
              = (st.node u).nsuccs % 4294967296) ∧
      (∀ y, (st'.edge y).val = (st.edge y).val ∧
            (st'.edge y).level =
              if y ∈ l ∧ Stale g st b y then infinity else (st.edge y).level) := by
  intro l
  induction l with
  | nil => intro st _; simp
  | cons x l ih =>
    intro st hnd
    have hx : x ∉ l := (List.nodup_cons.mp hnd).1
    have hl : l.Nodup := (List.nodup_cons.mp hnd).2
    have ih1 := ih (correctNodeEdge g infinity b st x) hl
    simp only [List.foldl_cons]
    obtain ⟨ihn, ihe⟩ := ih1
    have hdist : ∀ u, ((correctNodeEdge g infinity b st x).node u).distance
        = (st.node u).distance := correctNodeEdge_distance g infinity b st x
    have hstale : ∀ y, Stale g (correctNodeEdge g infinity b st x) b y ↔ Stale g st b y := by
      intro y; unfold Stale; rw [hdist, hdist]
    have hdec : ∀ u y, y ∈ l →
        (Dec g infinity (correctNodeEdge g infinity b st x) b u y ↔ Dec g infinity st b u y) := by
      intro u y hy
      have hyx : y ≠ x := fun h => hx (h ▸ hy)
      unfold Dec
      rw [hstale, hdist, correctNodeEdge_edge]
      simp [hyx]
    constructor
    · intro u
      obtain ⟨h1, h2, h3, h4, h5, h6, h7, h8⟩ := ihn u
      have hcnt : l.countP (fun y => Dec g infinity (correctNodeEdge g infinity b st x) b u y)
          = l.countP (fun y => Dec g infinity st b u y) := by
        apply List.countP_congr
        intro y hy
        simp [hdec u y hy]
      rw [hcnt] at h8
      rw [correctNodeEdge_node] at h1 h2 h3 h4 h5 h6 h7 h8
      rw [List.countP_cons]
      by_cases hd : Dec g infinity st b u x
      · simp only [hd, if_true] at h1 h2 h3 h4 h5 h6 h7 h8
        refine ⟨h1, h2, h3, h4, h5, h6, fun hlt => h7 (Nat.mod_lt _ (by norm_num)), ?_⟩
        simp only [hd, decide_True, if_true]
        omega
      · simp only [hd, if_false] at h1 h2 h3 h4 h5 h6 h7 h8
        refine ⟨h1, h2, h3, h4, h5, h6, h7, ?_⟩
        simp only [hd, decide_False]
        simpa using h8
    · intro y
      obtain ⟨h1, h2⟩ := ihe y
      rw [correctNodeEdge_edge] at h1 h2
      constructor
      · rw [h1]; split_ifs <;> rfl
      · rw [h2]
        simp only [hstale, List.mem_cons]
        by_cases hs : Stale g st b y
        · by_cases hyx : y = x
          · subst hyx; simp [hs, hx]
          · simp [hs, hyx]
        · by_cases hyx : y = x
          · subst hyx; simp [hs]
          · simp [hs, hyx]

/-! ## Effect of the three rules -/

theorem satAdd_eq {a b : Nat} (ha : a < 18446744073709551616)
    (hb : b < 18446744073709551616) (hpos : 0 < b) :
    satAdd a b = min (a + b) 18446744073709551615 := by
  unfold satAdd
  exact sat_add_eq ha hb hpos

theorem pushUnlessQueued_node (st : State) (b v : Nat) :
    (pushUnlessQueued st b).1.node v =
      if v = b then { st.node b with queued := true } else st.node v := by
  simp [pushUnlessQueued, isAlreadyIn, setNode_node]

theorem pushUnlessQueued_edge (st : State) (b : Nat) :
    (pushUnlessQueued st b).1.edge = st.edge := rfl

theorem pushUnlessQueued_snd (st : State) (b : Nat) :
    (pushUnlessQueued st b).2 = if (st.node b).queued = true then [] else [b] := by
  simp [pushUnlessQueued, isAlreadyIn]

theorem pushIfSuccs_node (st : State) (b v : Nat) (hnb : (st.node b).nsuccs < 2147483648) :
    (pushIfSuccs st b).1.node v =
      if v = b ∧ 0 < (st.node b).nsuccs then { st.node b with queued := true }
      else st.node v := by
  unfold pushIfSuccs
  rw [toInt_of_lt hnb]
  by_cases hn : 0 < (st.node b).nsuccs
  · have hn' : (0 : Int) < ((st.node b).nsuccs : Int) := by exact_mod_cast hn
    simp only [if_pos hn', pushUnlessQueued_node, hn, and_true]
  · have hn' : ¬ (0 : Int) < ((st.node b).nsuccs : Int) := by exact_mod_cast hn
    simp only [if_neg hn', hn, and_false, if_false]

theorem pushIfSuccs_edge (st : State) (b : Nat) :
    (pushIfSuccs st b).1.edge = st.edge := by
  unfold pushIfSuccs
  simp only []
  split_ifs <;> rfl

theorem pushIfSuccs_snd (st : State) (b : Nat) (hnb : (st.node b).nsuccs < 2147483648) :
    (pushIfSuccs st b).2 =
      if 0 < (st.node b).nsuccs ∧ (st.node b).queued = false then [b] else [] := by
  unfold pushIfSuccs
  rw [toInt_of_lt hnb]
  by_cases hn : 0 < (st.node b).nsuccs
  · have hn' : (0 : Int) < ((st.node b).nsuccs : Int) := by exact_mod_cast hn
    simp only [if_pos hn', pushUnlessQueued_snd, hn, true_and]
    cases (st.node b).queued <;> simp
  · have hn' : ¬ (0 : Int) < ((st.node b).nsuccs : Int) := by exact_mod_cast hn
    simp only [if_neg hn', hn, false_and, if_false]

theorem firstUpdate_node (st : State) (a b e v : Nat) (hab : a ≠ b)
    (hnb : (st.node b).nsuccs < 2147483648) (hna : (st.node a).nsuccs + 1 < 4294967296) :
    ((firstUpdate st a b e).1).node v =
      if v = b then
        { st.node b with
          preds := (st.node b).preds ++ [a],
          sigma := satAdd (st.node b).sigma (st.node a).sigma,
          queued := (decide (0 < (st.node b).nsuccs) || (st.node b).queued) }
      else if v = a then { st.node a with nsuccs := (st.node a).nsuccs + 1 }
      else st.node v := by
  have hba : b ≠ a := fun h => hab h.symm
  have hmod : ((st.node a).nsuccs + 1) % 4294967296 = (st.node a).nsuccs + 1 :=
    Nat.mod_eq_of_lt hna
  unfold firstUpdate
  simp only [setNode_node_same, setNode_node_ne _ _ hba, setNode_node_ne _ _ hab,
    setEdge_node, hmod]
  rw [pushIfSuccs_node _ _ _ (by simpa [setNode_node, hba] using hnb)]
  by_cases h1 : v = b
  · subst h1
    by_cases hn : 0 < (st.node v).nsuccs
    · simp [hn, hab]
    · simp [hn, hab]
  · by_cases h2 : v = a
    · subst h2; simp [h1, setNode_node]
    · simp [h1, h2, setNode_node]

theorem firstUpdate_edge (st : State) (a b e x : Nat) (hab : a ≠ b) :
    ((firstUpdate st a b e).1).edge x =
      if x = e then { val := (st.node a).sigma, level := (st.node a).distance }
      else st.edge x := by
  have hba : b ≠ a := fun h => hab h.symm
  unfold firstUpdate
  rw [pushIfSuccs_edge]
  simp [setEdge_edge, setNode_node, hab]

theorem firstUpdate_snd (st : State) (a b e : Nat) (hab : a ≠ b)
    (hnb : (st.node b).nsuccs < 2147483648) :
    (firstUpdate st a b e).2 =
      if 0 < (st.node b).nsuccs ∧ (st.node b).queued = false then [b] else [] := by
  have hba : b ≠ a := fun h => hab h.symm
  unfold firstUpdate
  rw [pushIfSuccs_snd _ _ (by simpa [setNode_node, hba] using hnb)]
  simp [setNode_node, hba]

theorem updateSigma_node (st : State) (a b e v : Nat)
    (hnb : (st.node b).nsuccs < 2147483648) :
    ((updateSigma st a b e).1).node v =
      if v = b ∧ 0 < sigmaDiff st a e then
        { st.node b with
          sigma := satAdd (st.node b).sigma (sigmaDiff st a e),
          queued := (decide (0 < (st.node b).nsuccs) || (st.node b).queued) }
      else st.node v := by
  unfold updateSigma
  simp only []
  rw [show ((st.node a).sigma + (18446744073709551616 - (st.edge e).val % 18446744073709551616))
    % 18446744073709551616 = sigmaDiff st a e from rfl]
  by_cases hd : 0 < sigmaDiff st a e
  · simp only [hd, if_true, and_true]
    rw [pushIfSuccs_node _ _ _ (by simpa [setNode_node] using hnb)]
    by_cases h1 : v = b
    · subst h1
      by_cases hn : 0 < (st.node v).nsuccs
      · simp [hn]
      · simp [hn]
    · simp [h1, setNode_node]
  · simp only [hd, if_false, and_false]

theorem updateSigma_edge (st : State) (a b e x : Nat) :
    ((updateSigma st a b e).1).edge x =
      if x = e ∧ 0 < sigmaDiff st a e then { st.edge e with val := (st.node a).sigma }
      else st.edge x := by
  unfold updateSigma
  simp only []
  rw [show ((st.node a).sigma + (18446744073709551616 - (st.edge e).val % 18446744073709551616))
    % 18446744073709551616 = sigmaDiff st a e from rfl]
  by_cases hd : 0 < sigmaDiff st a e
  · simp only [hd, if_true, and_true]
    rw [pushIfSuccs_edge]
    simp [setEdge_edge]
  · simp only [hd, if_false, and_false]

theorem updateSigma_snd (st : State) (a b e : Nat)
    (hnb : (st.node b).nsuccs < 2147483648) :
    (updateSigma st a b e).2 =
      if 0 < sigmaDiff st a e ∧ 0 < (st.node b).nsuccs ∧ (st.node b).queued = false
      then [b] else [] := by
  unfold updateSigma
  simp only []
  rw [show ((st.node a).sigma + (18446744073709551616 - (st.edge e).val % 18446744073709551616))
    % 18446744073709551616 = sigmaDiff st a e from rfl]
  by_cases hd : 0 < sigmaDiff st a e
  · simp only [hd, if_true, true_and]
    rw [pushIfSuccs_snd _ _ (by simpa [setNode_node] using hnb)]
    simp [setNode_node]
  · simp only [hd, if_false, false_and]

/-! ## Counting lemmas -/

theorem card_filter_range (m : Nat) (p : Nat → Prop) [DecidablePred p] :
    ((Finset.range m).filter p).card = (List.range m).countP (fun x => decide (p x)) := by
  rw [List.countP_eq_length_filter]
  rfl

theorem sum_filter_range (m : Nat) (p : Nat → Prop) [DecidablePred p] (f : Nat → Nat) :
    ∑ e in (Finset.range m).filter p, f e
      = (((List.range m).filter (fun x => decide (p x))).map f).sum := by
  rfl

theorem in_edges_nodup (g : Graph) (b : Nat) : (g.in_edges b).Nodup :=
  (List.nodup_range g.m).filter _

theorem edges_nodup (g : Graph) (a : Nat) : (g.edges a).Nodup :=
  (List.nodup_range g.m).filter _

theorem mem_in_edges {g : Graph} {b x : Nat} : x ∈ g.in_edges b ↔ x < g.m ∧ g.dst x = b := by
  simp [Graph.in_edges]

theorem mem_edges {g : Graph} {a x : Nat} : x ∈ g.edges a ↔ x < g.m ∧ g.src x = a := by
  simp [Graph.edges]

theorem countP_in_edges (g : Graph) (b : Nat) (q : Nat → Prop) [DecidablePred q] :
    (g.in_edges b).countP (fun x => decide (q x))
      = ((Finset.range g.m).filter (fun x => g.dst x = b ∧ q x)).card := by
  rw [card_filter_range, Graph.in_edges, List.countP_filter]
  apply List.countP_congr
  intro x _
  simp [and_comm]

theorem mem_predEdges {g : Graph} {st : State} {b x : Nat} :
    x ∈ predEdges g st b ↔
      x < g.m ∧ g.dst x = b ∧ g.src x ≠ b ∧ (st.edge x).level + 1 = (st.node b).distance := by
  simp [predEdges]

theorem mem_succEdges {g : Graph} {infinity : Nat} {st : State} {a x : Nat} :
    x ∈ succEdges g infinity st a ↔ x < g.m ∧ g.src x = a ∧ Valid g infinity st x := by
  simp [succEdges]

theorem succEdges_card_le (g : Graph) (infinity : Nat) (st : State) (a : Nat) :
    (succEdges g infinity st a).card ≤ g.m := by
  have := Finset.card_filter_le (Finset.range g.m)
    (fun e => g.src e = a ∧ Valid g infinity st e)
  simpa [succEdges] using this

/-! ## Monotonicity in the pending set -/

theorem FwdInv.mono {g : Graph} {infinity s : Nat} {st : State} {pend pend' : Nat → Prop}
    (h : FwdInv g infinity s st pend) (hp : ∀ x, x < g.m → pend x → pend' x) :
    FwdInv g infinity s st pend' :=
  { h with
    relaxed := fun e he hn => h.relaxed e he (fun hpe => hn (hp e he hpe))
    validated := fun e he hn => h.validated e he (fun hpe => hn (hp e he hpe))
    val_eq := fun e he hn => h.val_eq e he (fun hpe => hn (hp e he hpe))
    queued_pend := fun e he hq => hp e he (h.queued_pend e he hq) }

theorem FwdInv.nsuccs_lt {g : Graph} {infinity s : Nat} {st : State} {pend : Nat → Prop}
    (h : FwdInv g infinity s st pend) (hs : Sizes g infinity) (v : Nat) :
    (st.node v).nsuccs < 2147483648 := by
  have := succEdges_card_le g infinity st v
  rw [h.nsuccs_eq]
  exact lt_of_le_of_lt this hs.2.2

/-- A state that differs from `st` only in queued flags. -/
theorem FwdInv.of_same {g : Graph} {infinity s : Nat} {st st' : State} {pend pend' : Nat → Prop}
    (h : FwdInv g infinity s st pend)
    (hd : ∀ v, (st'.node v).distance = (st.node v).distance)
    (hsg : ∀ v, (st'.node v).sigma = (st.node v).sigma)
    (hns : ∀ v, (st'.node v).nsuccs = (st.node v).nsuccs)
    (hpr : ∀ v, (st'.node v).preds = (st.node v).preds)
    (hdl : ∀ v, (st'.node v).delta = (st.node v).delta)
    (he : st'.edge = st.edge)
    (hrel : ∀ x, x < g.m → ¬ pend' x → ¬ pend x)
    (hq : ∀ x, x < g.m → (st'.node (g.src x)).queued = true → pend' x)
    (hqf : ∀ v, (st.node v).queued = false → (st'.node v).queued = false) :
    FwdInv g infinity s st' pend' := by
  have hV : ∀ e, Valid g infinity st' e ↔ Valid g infinity st e := by
    intro e; unfold Valid; rw [he, hd]
  have hP : ∀ b, predEdges g st' b = predEdges g st b := by
    intro b; unfold predEdges; rw [he, hd]
  have hS : ∀ a, succEdges g infinity st' a = succEdges g infinity st a := by
    intro a; unfold succEdges
    apply Finset.filter_congr
    intro x _
    rw [hV]
  have hC : reachedCount g infinity st' = reachedCount g infinity st := by
    unfold reachedCount
    apply congrArg
    apply Finset.filter_congr
    intro x _
    rw [hd]
  constructor
  · rw [hd]; exact h.src_dist
  · rw [hsg]; exact h.src_sigma
  · intro v; rw [hd]; exact h.dist_le v
  · intro v; rw [hd]; exact h.dist_node v
  · intro v; rw [hd, hC]; exact h.dist_cnt v
  · intro v; rw [hd]; exact h.walk v
  · intro v; rw [hd, hsg]; exact h.sigma_pos v
  · intro v; rw [hsg]; exact h.sigma_lt v
  · intro v; rw [hd, hpr]; exact h.preds_ne v
  · intro v; rw [hdl]; exact h.delta_zero v
  · intro e; rw [he]; exact h.lvl_le e
  · intro e; rw [he]; exact h.lvl_lt e
  · intro e; rw [he, hd]; exact h.lvl_src e
  · intro e; rw [he, hd]; exact h.lvl_dst e
  · intro e hem; rw [hV, hd, hd]; exact h.valid_dst e hem
  · intro b; rw [hpr, hP]; exact h.preds_eq b
  · intro b; rw [hd, hsg, hP, he]; exact h.sigma_eq b
  · intro e hem; rw [hV, he, hsg]; exact h.val_le e hem
  · intro a; rw [hns, hS]; exact h.nsuccs_eq a
  · intro e hem hn; rw [hd, hd]; exact h.relaxed e hem (hrel e hem hn)
  · intro e hem hn; rw [hd, hd, he]; exact h.validated e hem (hrel e hem hn)
  · intro e hem hn; rw [hV, he, hsg]; exact h.val_eq e hem (hrel e hem hn)
  · exact hq
  · intro v hv
    rw [hd] at hv
    rw [hsg]
    exact ⟨(h.unreached v hv).1, hqf v (h.unreached v hv).2⟩

theorem reachedCount_le (g : Graph) (infinity : Nat) (st : State) :
    reachedCount g infinity st ≤ g.n := by
  have := Finset.card_filter_le (Finset.range g.n)
    (fun v => (st.node v).distance ≠ infinity)
  simpa [reachedCount] using this

theorem FwdInv.dist_succ_lt {g : Graph} {infinity s : Nat} {st : State} {pend : Nat → Prop}
    (h : FwdInv g infinity s st pend) (hs : Sizes g infinity) (v : Nat)
    (hv : (st.node v).distance ≠ infinity) : (st.node v).distance + 1 < infinity := by
  have h1 := h.dist_cnt v hv
  have h2 := reachedCount_le g infinity st
  have h3 := hs.1
  omega

/-! ## Preservation: an edge that needs no action, and the sigma refresh -/

/-- The edge `e` is settled: once examined it has nothing left to do. -/
theorem FwdInv.settle {g : Graph} {infinity s : Nat} {st : State} {pend : Nat → Prop}
    (h : FwdInv g infinity s st pend) (e : Nat)
    (h1 : (st.node (g.src e)).distance ≠ infinity →
      (st.node (g.dst e)).distance ≤ (st.node (g.src e)).distance + 1)
    (h2 : (st.node (g.src e)).distance ≠ infinity →
      (st.node (g.dst e)).distance = (st.node (g.src e)).distance + 1 →
      (st.edge e).level = (st.node (g.src e)).distance)
    (h3 : Valid g infinity st e → (st.edge e).val = (st.node (g.src e)).sigma)
    (hq : (st.node (g.src e)).queued = false) :
    FwdInv g infinity s st (fun x => (pend x ∧ x ≠ e) ∨ g.src x ∈ ([] : List Nat)) :=
  { h with
    relaxed := by
      intro x hx hn
      by_cases hxe : x = e
      · subst hxe; exact h1
      · exact h.relaxed x hx (fun hp => hn (Or.inl ⟨hp, hxe⟩))
    validated := by
      intro x hx hn
      by_cases hxe : x = e
      · subst hxe; exact h2
      · exact h.validated x hx (fun hp => hn (Or.inl ⟨hp, hxe⟩))
    val_eq := by
      intro x hx hn
      by_cases hxe : x = e
      · subst hxe; exact h3
      · exact h.val_eq x hx (fun hp => hn (Or.inl ⟨hp, hxe⟩))
    queued_pend := by
      intro x hx hqx
      by_cases hxe : x = e
      · subst hxe; rw [hq] at hqx; exact absurd hqx (by simp)
      · exact Or.inl ⟨h.queued_pend x hx hqx, hxe⟩ }

theorem sum_update_mem {S : Finset Nat} {e : Nat} (he : e ∈ S) (f f' : Nat → Nat)
    (hf : ∀ x, x ∈ S → x ≠ e → f' x = f x) :
    ∑ x in S, f' x + f e = ∑ x in S, f x + f' e := by
  rw [← Finset.add_sum_erase S f he, ← Finset.add_sum_erase S f' he]
  have : ∑ x in S.erase e, f' x = ∑ x in S.erase e, f x := by
    apply Finset.sum_congr rfl
    intro x hx
    exact hf x (Finset.mem_of_mem_erase hx) (Finset.ne_of_mem_erase hx)
  rw [this]
  ring

theorem updateSigma_inv {g : Graph} {infinity s : Nat} {st : State} {pend : Nat → Prop}
    (hs : Sizes g infinity) (h : FwdInv g infinity s st pend) (e : Nat) (he : e < g.m)
    (hab : g.src e ≠ g.dst e)
    (hl : (st.edge e).level = (st.node (g.src e)).distance)
    (hg : (st.node (g.dst e)).distance = (st.node (g.src e)).distance + 1)
    (hq : (st.node (g.src e)).queued = false) :
    FwdInv g infinity s (updateSigma st (g.src e) (g.dst e) e).1
      (fun x => (pend x ∧ x ≠ e) ∨ g.src x ∈ (updateSigma st (g.src e) (g.dst e) e).2) ∧
    ((updateSigma st (g.src e) (g.dst e) e).1.node (g.src e)).queued = false := by
  have hnb := h.nsuccs_lt hs (g.dst e)
  have hda : (st.node (g.src e)).distance ≠ infinity := by
    have := h.dist_le (g.dst e); omega
  have hval : Valid g infinity st e := ⟨hl, by rw [hl]; exact hda⟩
  have hvle := h.val_le e he hval
  have hsa := h.sigma_lt (g.src e)
  have hsb := h.sigma_lt (g.dst e)
  have hdiff : sigmaDiff st (g.src e) e = (st.node (g.src e)).sigma - (st.edge e).val := by
    unfold sigmaDiff; omega
  have hN := fun v => updateSigma_node st (g.src e) (g.dst e) e v hnb
  have hE := fun x => updateSigma_edge st (g.src e) (g.dst e) e x
  have hP := updateSigma_snd st (g.src e) (g.dst e) e hnb
  by_cases hd0 : 0 < sigmaDiff st (g.src e) e
  swap
  · -- nothing changes
    have hst : (updateSigma st (g.src e) (g.dst e) e).1 = st := by
      rw [State.ext_iff']
      constructor
      · funext v; rw [hN]; simp [hd0]
      · funext x; rw [hE]; simp [hd0]
    have hpu : (updateSigma st (g.src e) (g.dst e) e).2 = [] := by
      rw [hP]; simp [hd0]
    rw [hst, hpu]
    refine ⟨h.settle e (fun _ => le_of_eq hg) (fun _ _ => hl) (fun _ => ?_) hq, hq⟩
    omega
  · set st' := (updateSigma st (g.src e) (g.dst e) e).1 with hst'
    set pu := (updateSigma st (g.src e) (g.dst e) e).2 with hpu
    simp only [hd0, and_true, true_and] at hN hE hP
    have hbs : g.dst e ≠ s := by
      intro hb; rw [hb, h.src_dist] at hg; omega
    have hdist : ∀ v, (st'.node v).distance = (st.node v).distance := by
      intro v; rw [hN]; split_ifs with hv
      · subst hv; rfl
      · rfl
    have hns : ∀ v, (st'.node v).nsuccs = (st.node v).nsuccs := by
      intro v; rw [hN]; split_ifs with hv
      · subst hv; rfl
      · rfl
    have hpr : ∀ v, (st'.node v).preds = (st.node v).preds := by
      intro v; rw [hN]; split_ifs with hv
      · subst hv; rfl
      · rfl
    have hdl : ∀ v, (st'.node v).delta = (st.node v).delta := by
      intro v; rw [hN]; split_ifs with hv
      · subst hv; rfl
      · rfl
    have hsat := satAdd_eq hsb (show sigmaDiff st (g.src e) e < 18446744073709551616 by
      rw [hdiff]; omega) hd0
    have hsgb : (st'.node (g.dst e)).sigma
        = min ((st.node (g.dst e)).sigma + sigmaDiff st (g.src e) e) 18446744073709551615 := by
      rw [hN]; simp [hsat]
    have hsgo : ∀ v, v ≠ g.dst e → (st'.node v).sigma = (st.node v).sigma := by
      intro v hv; rw [hN]; simp [hv]
    have hsgle : ∀ v, (st.node v).sigma ≤ (st'.node v).sigma := by
      intro v
      by_cases hv : v = g.dst e
      · subst hv; rw [hsgb]; have := hsb; omega
      · rw [hsgo v hv]
    have hlvl : ∀ x, (st'.edge x).level = (st.edge x).level := by
      intro x; rw [hE]; split_ifs with hx
      · subst hx; rfl
      · rfl
    have hvale : (st'.edge e).val = (st.node (g.src e)).sigma := by
      rw [hE]; simp
    have hvalo : ∀ x, x ≠ e → (st'.edge x).val = (st.edge x).val := by
      intro x hx; rw [hE]; simp [hx]
    have hqa : (st'.node (g.src e)).queued = false := by
      rw [hN]; simp [hab, hq]
    have hV : ∀ x, Valid g infinity st' x ↔ Valid g infinity st x := by
      intro x; unfold Valid; rw [hlvl, hdist]
    have hPE : ∀ v, predEdges g st' v = predEdges g st v := by
      intro v; unfold predEdges
      apply Finset.filter_congr
      intro x _
      rw [hlvl, hdist]
    have hSE : ∀ v, succEdges g infinity st' v = succEdges g infinity st v := by
      intro v; unfold succEdges
      apply Finset.filter_congr
      intro x _
      rw [hV]
    have hC : reachedCount g infinity st' = reachedCount g infinity st := by
      unfold reachedCount
      apply congrArg
      apply Finset.filter_congr
      intro x _
      rw [hdist]
    have hnotpend : ∀ x, x < g.m → ¬ ((pend x ∧ x ≠ e) ∨ g.src x ∈ pu) → x ≠ e →
        ¬ pend x ∧ ((st.node (g.src x)).sigma = (st'.node (g.src x)).sigma ∨
          ¬ Valid g infinity st x) := by
      intro x hx hn hxe
      have hnp : ¬ pend x := fun hp => hn (Or.inl ⟨hp, hxe⟩)
      refine ⟨hnp, ?_⟩
      by_cases hsx : g.src x = g.dst e
      · right
        intro hvx
        have hmem : x ∈ succEdges g infinity st (g.dst e) := mem_succEdges.mpr ⟨hx, hsx, hvx⟩
        have hpos : 0 < (st.node (g.dst e)).nsuccs := by
          rw [h.nsuccs_eq]; exact Finset.card_pos.mpr ⟨x, hmem⟩
        have hqf : (st.node (g.dst e)).queued = false := by
          by_contra hqt
          have : (st.node (g.src x)).queued = true := by
            rw [hsx]; simpa using hqt
          exact hnp (h.queued_pend x hx this)
        apply hn
        right
        rw [hP]; simp [hpos, hqf, hsx]
      · left; rw [hsgo _ hsx]
    refine ⟨?_, hqa⟩
    constructor
    · rw [hdist]; exact h.src_dist
    · rw [hsgo s (fun hh => hbs hh.symm)]; exact h.src_sigma
    · intro v; rw [hdist]; exact h.dist_le v
    · intro v; rw [hdist]; exact h.dist_node v
    · intro v; rw [hdist, hC]; exact h.dist_cnt v
    · intro v; rw [hdist]; exact h.walk v
    · intro v hv
      rw [hdist] at hv
      exact le_trans (h.sigma_pos v hv) (hsgle v)
    · intro v
      by_cases hv : v = g.dst e
      · subst hv; rw [hsgb]; omega
      · rw [hsgo v hv]; exact h.sigma_lt v
    · intro v; rw [hdist, hpr]; exact h.preds_ne v
    · intro v; rw [hdl]; exact h.delta_zero v
    · intro x; rw [hlvl]; exact h.lvl_le x
    · intro x; rw [hlvl]; exact h.lvl_lt x
    · intro x; rw [hlvl, hdist]; exact h.lvl_src x
    · intro x; rw [hlvl, hdist]; exact h.lvl_dst x
    · intro x hx; rw [hV, hdist, hdist]; exact h.valid_dst x hx
    · intro v; rw [hpr, hPE]; exact h.preds_eq v
    · intro v hv hvs
      rw [hdist] at hv
      rw [hPE]
      by_cases hvb : v = g.dst e
      · subst hvb
        have hmem : e ∈ predEdges g st (g.dst e) :=
          mem_predEdges.mpr ⟨he, rfl, hab, by rw [hl, hg]⟩
        have hsum := sum_update_mem hmem (fun x => (st.edge x).val)
          (fun x => (st'.edge x).val) (fun x _ hxe => hvalo x hxe)
        simp only [] at hsum
        rw [hvale] at hsum
        rw [hsgb, h.sigma_eq _ hv hvs, hdiff]
        omega
      · rw [hsgo v hvb, h.sigma_eq v hv hvs]
        congr 1
        apply Finset.sum_congr rfl
        intro x hx
        have : x ≠ e := by
          intro hxe; subst hxe
          exact hvb (mem_predEdges.mp hx).2.1.symm
        rw [hvalo x this]
    · intro x hx hvx
      rw [hV] at hvx
      by_cases hxe : x = e
      · subst hxe; rw [hvale, hsgo _ hab]
      · rw [hvalo x hxe]; exact le_trans (h.val_le x hx hvx) (hsgle _)
    · intro v; rw [hns, hSE]; exact h.nsuccs_eq v
    · intro x hx hn
      rw [hdist, hdist]
      by_cases hxe : x = e
      · subst hxe; intro _; exact le_of_eq hg
      · exact h.relaxed x hx (hnotpend x hx hn hxe).1
    · intro x hx hn
      rw [hdist, hdist, hlvl]
      by_cases hxe : x = e
      · subst hxe; intro _ _; exact hl
      · exact h.validated x hx (hnotpend x hx hn hxe).1
    · intro x hx hn hvx
      rw [hV] at hvx
      by_cases hxe : x = e
      · subst hxe; rw [hvale, hsgo _ hab]
      · obtain ⟨hnp, hor⟩ := hnotpend x hx hn hxe
        rw [hvalo x hxe, h.val_eq x hx hnp hvx]
        rcases hor with hh | hh
        · exact hh
        · exact absurd hvx hh
    · intro x hx hqx
      by_cases hsx : g.src x = g.dst e
      · have hxe : x ≠ e := by
          intro hxe; subst hxe; exact hab hsx
        rw [hsx, hN] at hqx
        simp only [if_true, Bool.or_eq_true, decide_eq_true_eq] at hqx
        rcases hqx with hpos | hqb
        · by_cases hqf : (st.node (g.dst e)).queued = true
          · left
            exact ⟨h.queued_pend x hx (by rw [hsx]; exact hqf), hxe⟩
          · right
            rw [hP]
            simp [hpos, hqf, hsx]
        · left
          exact ⟨h.queued_pend x hx (by rw [hsx]; exact hqb), hxe⟩
      · have hqo : (st.node (g.src x)).queued = true := by
          rw [hN] at hqx; simpa [hsx] using hqx
        have hxe : x ≠ e := by
          intro hxe; subst hxe; rw [hq] at hqo; exact absurd hqo (by simp)
        left
        exact ⟨h.queued_pend x hx hqo, hxe⟩
    · intro v hv
      rw [hdist] at hv
      have hvb : v ≠ g.dst e := by
        intro hvb; subst hvb
        have := h.dist_succ_lt hs _ hda
        omega
      rw [hsgo v hvb, hN]
      simp only [hvb, false_and, if_false]
      exact h.unreached v hv

/-! ## Preservation: first validation -/

theorem firstUpdate_inv {g : Graph} {infinity s : Nat} {st : State} {pend : Nat → Prop}
    (hs : Sizes g infinity) (h : FwdInv g infinity s st pend) (e : Nat) (he : e < g.m)
    (hab : g.src e ≠ g.dst e)
    (hl : (st.edge e).level ≠ (st.node (g.src e)).distance)
    (hg : (st.node (g.dst e)).distance = (st.node (g.src e)).distance + 1)
    (hq : (st.node (g.src e)).queued = false) :
    FwdInv g infinity s (firstUpdate st (g.src e) (g.dst e) e).1
      (fun x => (pend x ∧ x ≠ e) ∨ g.src x ∈ (firstUpdate st (g.src e) (g.dst e) e).2) ∧
    ((firstUpdate st (g.src e) (g.dst e) e).1.node (g.src e)).queued = false := by
  have hnb := h.nsuccs_lt hs (g.dst e)
  have hna := h.nsuccs_lt hs (g.src e)
  have hda : (st.node (g.src e)).distance ≠ infinity := by
    have := h.dist_le (g.dst e); omega
  have hdb : (st.node (g.dst e)).distance ≠ infinity := by
    have := h.dist_succ_lt hs _ hda; omega
  have hsa := h.sigma_lt (g.src e)
  have hsb := h.sigma_lt (g.dst e)
  have hsap := h.sigma_pos _ hda
  have hN := fun v => firstUpdate_node st (g.src e) (g.dst e) e v hab hnb (by omega)
  have hE := fun x => firstUpdate_edge st (g.src e) (g.dst e) e x hab
  have hP := firstUpdate_snd st (g.src e) (g.dst e) e hab hnb
  set st' := (firstUpdate st (g.src e) (g.dst e) e).1 with hst'
  set pu := (firstUpdate st (g.src e) (g.dst e) e).2 with hpu
  have hba : g.dst e ≠ g.src e := fun hh => hab hh.symm
  have hbs : g.dst e ≠ s := by
    intro hb; rw [hb, h.src_dist] at hg; omega
  have hdist : ∀ v, (st'.node v).distance = (st.node v).distance := by
    intro v; rw [hN]; split_ifs with hv hv2
    · subst hv; rfl
    · subst hv2; rfl
    · rfl
  have hdl : ∀ v, (st'.node v).delta = (st.node v).delta := by
    intro v; rw [hN]; split_ifs with hv hv2
    · subst hv; rfl
    · subst hv2; rfl
    · rfl
  have hnsa : (st'.node (g.src e)).nsuccs = (st.node (g.src e)).nsuccs + 1 := by
    rw [hN]; simp [hab]
  have hnso : ∀ v, v ≠ g.src e → (st'.node v).nsuccs = (st.node v).nsuccs := by
    intro v hv; rw [hN]; split_ifs with hv1
    · subst hv1; rfl
    · rfl
  have hprb : (st'.node (g.dst e)).preds = (st.node (g.dst e)).preds ++ [g.src e] := by
    rw [hN]; simp
  have hpro : ∀ v, v ≠ g.dst e → (st'.node v).preds = (st.node v).preds := by
    intro v hv; rw [hN, if_neg hv]; split_ifs with hv2
    · rw [hv2]
    · rfl
  have hsat := satAdd_eq hsb hsa hsap
  have hsgb : (st'.node (g.dst e)).sigma
      = min ((st.node (g.dst e)).sigma + (st.node (g.src e)).sigma) 18446744073709551615 := by
    rw [hN]; simp [hsat]
  have hsgo : ∀ v, v ≠ g.dst e → (st'.node v).sigma = (st.node v).sigma := by
    intro v hv; rw [hN, if_neg hv]; split_ifs with hv2
    · rw [hv2]
    · rfl
  have hsgle : ∀ v, (st.node v).sigma ≤ (st'.node v).sigma := by
    intro v
    by_cases hv : v = g.dst e
    · subst hv; rw [hsgb]; omega
    · rw [hsgo v hv]
  have hlvle : (st'.edge e).level = (st.node (g.src e)).distance := by
    rw [hE]; simp
  have hlvlo : ∀ x, x ≠ e → (st'.edge x).level = (st.edge x).level := by
    intro x hx; rw [hE]; simp [hx]
  have hvale : (st'.edge e).val = (st.node (g.src e)).sigma := by
    rw [hE]; simp
  have hvalo : ∀ x, x ≠ e → (st'.edge x).val = (st.edge x).val := by
    intro x hx; rw [hE]; simp [hx]
  have hqa : (st'.node (g.src e)).queued = false := by
    rw [hN]; simp [hab, hq]
  have hqo' : ∀ v, v ≠ g.dst e → (st'.node v).queued = (st.node v).queued := by
    intro v hv; rw [hN, if_neg hv]; split_ifs with hv2
    · rw [hv2]
    · rfl
  have hVe : Valid g infinity st' e := by
    unfold Valid; rw [hlvle, hdist]; exact ⟨rfl, hda⟩
  have hVo : ∀ x, x ≠ e → (Valid g infinity st' x ↔ Valid g infinity st x) := by
    intro x hx; unfold Valid; rw [hlvlo x hx, hdist]
  have hnVe : ¬ Valid g infinity st e := fun hv => hl hv.1
  have hPEb : predEdges g st' (g.dst e) = insert e (predEdges g st (g.dst e)) := by
    ext x
    rw [Finset.mem_insert, mem_predEdges, mem_predEdges, hdist]
    by_cases hxe : x = e
    · subst hxe; simp [he, hab, hlvle, hg]
    · rw [hlvlo x hxe]; simp [hxe]
  have hePE : e ∉ predEdges g st (g.dst e) := by
    rw [mem_predEdges]; intro hh; apply hl; omega
  have hPEo : ∀ v, v ≠ g.dst e → predEdges g st' v = predEdges g st v := by
    intro v hv
    ext x
    rw [mem_predEdges, mem_predEdges, hdist]
    by_cases hxe : x = e
    · subst hxe
      constructor
      · intro hh; exact absurd hh.2.1.symm hv
      · intro hh; exact absurd hh.2.1.symm hv
    · rw [hlvlo x hxe]
  have hSEa : succEdges g infinity st' (g.src e) = insert e (succEdges g infinity st (g.src e)) := by
    ext x
    rw [Finset.mem_insert, mem_succEdges, mem_succEdges]
    by_cases hxe : x = e
    · subst hxe; simp [he, hVe]
    · rw [hVo x hxe]; simp [hxe]
  have heSE : e ∉ succEdges g infinity st (g.src e) := by
    rw [mem_succEdges]; intro hh; exact hnVe hh.2.2
  have hSEo : ∀ v, v ≠ g.src e → succEdges g infinity st' v = succEdges g infinity st v := by
    intro v hv
    ext x
    rw [mem_succEdges, mem_succEdges]
    by_cases hxe : x = e
    · subst hxe
      constructor
      · intro hh; exact absurd hh.2.1.symm hv
      · intro hh; exact absurd hh.2.1.symm hv
    · rw [hVo x hxe]
  have hC : reachedCount g infinity st' = reachedCount g infinity st := by
    unfold reachedCount
    apply congrArg
    apply Finset.filter_congr
    intro x _
    rw [hdist]
  have hnotpend : ∀ x, x < g.m → ¬ ((pend x ∧ x ≠ e) ∨ g.src x ∈ pu) → x ≠ e →
      ¬ pend x ∧ ((st.node (g.src x)).sigma = (st'.node (g.src x)).sigma ∨
        ¬ Valid g infinity st x) := by
    intro x hx hn hxe
    have hnp : ¬ pend x := fun hp => hn (Or.inl ⟨hp, hxe⟩)
    refine ⟨hnp, ?_⟩
    by_cases hsx : g.src x = g.dst e
    · right
      intro hvx
      have hmem : x ∈ succEdges g infinity st (g.dst e) := mem_succEdges.mpr ⟨hx, hsx, hvx⟩
      have hpos : 0 < (st.node (g.dst e)).nsuccs := by
        rw [h.nsuccs_eq]; exact Finset.card_pos.mpr ⟨x, hmem⟩
      have hqf : (st.node (g.dst e)).queued = false := by
        by_contra hqt
        have : (st.node (g.src x)).queued = true := by
          rw [hsx]; simpa using hqt
        exact hnp (h.queued_pend x hx this)
      apply hn
      right
      rw [hP]; simp [hpos, hqf, hsx]
    · left; rw [hsgo _ hsx]
  refine ⟨?_, hqa⟩
  constructor
  · rw [hdist]; exact h.src_dist
  · rw [hsgo s (fun hh => hbs hh.symm)]; exact h.src_sigma
  · intro v; rw [hdist]; exact h.dist_le v
  · intro v; rw [hdist]; exact h.dist_node v
  · intro v; rw [hdist, hC]; exact h.dist_cnt v
  · intro v; rw [hdist]; exact h.walk v
  · intro v hv
    rw [hdist] at hv
    exact le_trans (h.sigma_pos v hv) (hsgle v)
  · intro v
    by_cases hv : v = g.dst e
    · subst hv; rw [hsgb]; omega
    · rw [hsgo v hv]; exact h.sigma_lt v
  · intro v
    rw [hdist]
    by_cases hv : v = g.dst e
    · subst hv; rw [hprb]; intro _ _; simp
    · rw [hpro v hv]; exact h.preds_ne v
  · intro v; rw [hdl]; exact h.delta_zero v
  · intro x hx
    by_cases hxe : x = e
    · subst hxe; rw [hlvle]; exact h.dist_le _
    · rw [hlvlo x hxe]; exact h.lvl_le x hx
  · intro x hx
    by_cases hxe : x = e
    · subst hxe; rw [hlvle]; intro _; exact h.dist_succ_lt hs _ hda
    · rw [hlvlo x hxe]; exact h.lvl_lt x hx
  · intro x hx
    rw [hdist]
    by_cases hxe : x = e
    · subst hxe; rw [hlvle]; intro _; exact le_refl _
    · rw [hlvlo x hxe]; exact h.lvl_src x hx
  · intro x hx
    rw [hdist]
    by_cases hxe : x = e
    · subst hxe; rw [hlvle]; intro _; exact le_of_eq hg
    · rw [hlvlo x hxe]; exact h.lvl_dst x hx
  · intro x hx
    rw [hdist, hdist]
    by_cases hxe : x = e
    · subst hxe; intro _; exact hg
    · rw [hVo x hxe]; exact h.valid_dst x hx
  · intro v
    by_cases hv : v = g.dst e
    · subst hv
      rw [hprb, hPEb, Finset.insert_val_of_not_mem hePE, Multiset.map_cons, ← h.preds_eq]
      rw [← Multiset.coe_add, ← Multiset.singleton_add, add_comm]
      rfl
    · rw [hpro v hv, hPEo v hv]; exact h.preds_eq v
  · intro v hv hvs
    rw [hdist] at hv
    by_cases hvb : v = g.dst e
    · subst hvb
      rw [hPEb, Finset.sum_insert hePE, hvale, hsgb, h.sigma_eq _ hv hvs]
      have : ∑ x in predEdges g st (g.dst e), (st'.edge x).val
          = ∑ x in predEdges g st (g.dst e), (st.edge x).val := by
        apply Finset.sum_congr rfl
        intro x hx
        have : x ≠ e := fun hxe => hePE (hxe ▸ hx)
        rw [hvalo x this]
      rw [this]
      omega
    · rw [hsgo v hvb, hPEo v hvb, h.sigma_eq v hv hvs]
      congr 1
      apply Finset.sum_congr rfl
      intro x hx
      have : x ≠ e := by
        intro hxe; subst hxe
        exact hvb (mem_predEdges.mp hx).2.1.symm
      rw [hvalo x this]
  · intro x hx hvx
    by_cases hxe : x = e
    · subst hxe; rw [hvale, hsgo _ hab]
    · rw [hVo x hxe] at hvx
      rw [hvalo x hxe]; exact le_trans (h.val_le x hx hvx) (hsgle _)
  · intro v
    by_cases hv : v = g.src e
    · subst hv
      rw [hnsa, hSEa, Finset.card_insert_of_not_mem heSE, h.nsuccs_eq]
    · rw [hnso v hv, hSEo v hv]; exact h.nsuccs_eq v
  · intro x hx hn
    rw [hdist, hdist]
    by_cases hxe : x = e
    · subst hxe; intro _; exact le_of_eq hg
    · exact h.relaxed x hx (hnotpend x hx hn hxe).1
  · intro x hx hn
    rw [hdist, hdist]
    by_cases hxe : x = e
    · subst hxe; intro _ _; exact hlvle
    · rw [hlvlo x hxe]; exact h.validated x hx (hnotpend x hx hn hxe).1
  · intro x hx hn hvx
    by_cases hxe : x = e
    · subst hxe; rw [hvale, hsgo _ hab]
    · rw [hVo x hxe] at hvx
      obtain ⟨hnp, hor⟩ := hnotpend x hx hn hxe
      rw [hvalo x hxe, h.val_eq x hx hnp hvx]
      rcases hor with hh | hh
      · exact hh
      · exact absurd hvx hh
  · intro x hx hqx
    by_cases hsx : g.src x = g.dst e
    · have hxe : x ≠ e := by
        intro hxe; subst hxe; exact hab hsx
      rw [hsx, hN] at hqx
      simp only [if_true, Bool.or_eq_true, decide_eq_true_eq] at hqx
      rcases hqx with hpos | hqb
      · by_cases hqf : (st.node (g.dst e)).queued = true
        · left
          exact ⟨h.queued_pend x hx (by rw [hsx]; exact hqf), hxe⟩
        · right
          rw [hP]
          simp [hpos, hqf, hsx]
      · left
        exact ⟨h.queued_pend x hx (by rw [hsx]; exact hqb), hxe⟩
    · have hqo : (st.node (g.src x)).queued = true := by
        rw [hqo' _ hsx] at hqx; exact hqx
      have hxe : x ≠ e := by
        intro hxe; subst hxe; rw [hq] at hqo; exact absurd hqo (by simp)
      left
      exact ⟨h.queued_pend x hx hqo, hxe⟩
  · intro v hv
    rw [hdist] at hv
    have hvb : v ≠ g.dst e := by
      intro hvb; subst hvb; exact hdb hv
    rw [hsgo v hvb, hqo' v hvb]
    exact h.unreached v hv

theorem spAndFU_eq (g : Graph) (infinity : Nat) (st : State) (a b e : Nat) (hab : a ≠ b) :
    spAndFU g infinity st a b e =
      (if (st.node b).preds ≠ [] then correctNode g infinity (spMid st a b e) b
        else spMid st a b e,
       if (st.node b).queued = true then [] else [b]) := by
  have hba : b ≠ a := fun h => hab h.symm
  have hmid : (pushUnlessQueued
      (((st.setNode a
          { st.node a with nsuccs := ((st.node a).nsuccs + 1) % 4294967296 }).setNode b
          { st.node b with
            preds := [a],
            distance := ((st.node a).distance + 1) % 4294967296,
            nsuccs := 0,
            sigma := (st.node a).sigma }).setEdge e
          { val := (st.node a).sigma, level := (st.node a).distance }) b).1
      = spMid st a b e := by
    rw [State.ext_iff']
    constructor
    · funext v
      rw [pushUnlessQueued_node]
      unfold spMid
      by_cases h1 : v = b
      · subst h1; simp
      · by_cases h2 : v = a
        · subst h2; simp [h1, setNode_node]
        · simp [h1, h2, setNode_node]
    · funext x
      rw [pushUnlessQueued_edge]
      unfold spMid
      simp [setEdge_edge]
  unfold spAndFU
  simp only [setNode_node_same, setNode_node_ne _ _ hba, setNode_node_ne _ _ hab, setEdge_node]
  rw [hmid, pushUnlessQueued_snd]
  simp only [setNode_node_same, setEdge_node]
  congr 1
  cases hp : (st.node b).preds <;> simp

theorem spAndFU_effect {g : Graph} {infinity s : Nat} {st : State} {pend : Nat → Prop}
    (hs : Sizes g infinity) (h : FwdInv g infinity s st pend) (e : Nat) (he : e < g.m)
    (hg : (st.node (g.src e)).distance + 1 < (st.node (g.dst e)).distance) :
    SpEff g infinity st (spAndFU g infinity st (g.src e) (g.dst e) e).1 e ∧
    (spAndFU g infinity st (g.src e) (g.dst e) e).2 =
      if (st.node (g.dst e)).queued = true then [] else [g.dst e] := by
  have hab : g.src e ≠ g.dst e := by
    intro hh; rw [← hh] at hg; omega
  have hba : g.dst e ≠ g.src e := fun hh => hab hh.symm
  have hdb := h.dist_le (g.dst e)
  have hinf := hs.2.1
  have hmodd : ((st.node (g.src e)).distance + 1) % 4294967296
      = (st.node (g.src e)).distance + 1 := Nat.mod_eq_of_lt (by omega)
  have hna := h.nsuccs_lt hs (g.src e)
  have hmodn : ((st.node (g.src e)).nsuccs + 1) % 4294967296
      = (st.node (g.src e)).nsuccs + 1 := Nat.mod_eq_of_lt (by omega)
  have hbs : g.dst e ≠ s := by
    intro hb; rw [hb, h.src_dist] at hg; omega
  have hnVe : ¬ Valid g infinity st e := by
    intro hv
    have := h.valid_dst e he hv
    omega
  -- the intermediate state
  have hmN : ∀ v, (spMid st (g.src e) (g.dst e) e).node v =
      if v = g.dst e then
        { st.node (g.dst e) with
          preds := [g.src e],
          distance := (st.node (g.src e)).distance + 1,
          nsuccs := 0,
          sigma := (st.node (g.src e)).sigma,
          queued := true }
      else if v = g.src e then
        { st.node (g.src e) with nsuccs := (st.node (g.src e)).nsuccs + 1 }
      else st.node v := by
    intro v; unfold spMid; simp only [hmodd, hmodn]
  have hmE : ∀ x, (spMid st (g.src e) (g.dst e) e).edge x =
      if x = e then { val := (st.node (g.src e)).sigma, level := (st.node (g.src e)).distance }
      else st.edge x := by
    intro x; rfl
  have hmdist : ∀ v, ((spMid st (g.src e) (g.dst e) e).node v).distance =
      if v = g.dst e then (st.node (g.src e)).distance + 1 else (st.node v).distance := by
    intro v; rw [hmN]; split_ifs with h1 h2
    · rfl
    · rw [h2]
    · rfl
  have hmns : ∀ v, ((spMid st (g.src e) (g.dst e) e).node v).nsuccs =
      if v = g.dst e then 0 else if v = g.src e then (st.node v).nsuccs + 1
      else (st.node v).nsuccs := by
    intro v; rw [hmN]; split_ifs with h1 h2
    · rfl
    · rw [h2]
    · rfl
  have hmlvl : ∀ x, ((spMid st (g.src e) (g.dst e) e).edge x).level =
      if x = e then (st.node (g.src e)).distance else (st.edge x).level := by
    intro x; rw [hmE]; split_ifs <;> rfl
  have hstale : ∀ x, Stale g (spMid st (g.src e) (g.dst e) e) (g.dst e) x ↔
      (g.src x ≠ g.dst e ∧ (st.node (g.src e)).distance + 1 ≤ (st.node (g.src x)).distance) := by
    intro x
    unfold Stale
    rw [hmdist, hmdist]
    simp only [if_true]
    constructor
    · rintro ⟨h1, h2⟩; rw [if_neg h1] at h2; exact ⟨h1, h2⟩
    · rintro ⟨h1, h2⟩; rw [if_neg h1]; exact ⟨h1, h2⟩
  have hnse : ¬ Stale g (spMid st (g.src e) (g.dst e) e) (g.dst e) e := by
    rw [hstale]; intro hh; omega
  have hdec : ∀ u x, x < g.m → u ≠ g.dst e →
      ((g.dst x = g.dst e ∧ Dec g infinity (spMid st (g.src e) (g.dst e) e) (g.dst e) u x) ↔
        (g.dst x = g.dst e ∧ g.src x = u ∧ Valid g infinity st x)) := by
    intro u x hx hu
    unfold Dec
    constructor
    · rintro ⟨h1, h2, h3, h4, h5⟩
      have hxe : x ≠ e := by
        intro hxe; subst hxe; exact hnse h3
      rw [hmlvl, if_neg hxe] at h4 h5
      rw [hmdist, if_neg hu] at h5
      refine ⟨h1, h2, ?_, h4⟩
      rw [h2]; exact h5
    · rintro ⟨h1, h2, h3⟩
      have hxe : x ≠ e := by
        intro hxe; subst hxe; exact hnVe h3
      have hvd := h.valid_dst x hx h3
      rw [h1, h2] at hvd
      refine ⟨h1, h2, ?_, ?_, ?_⟩
      · rw [hstale, h2]; exact ⟨hu, by omega⟩
      · rw [hmlvl, if_neg hxe]; exact h3.2
      · rw [hmlvl, if_neg hxe, hmdist, if_neg hu, ← h2]; exact h3.1
  have hcard_le : ∀ u, u ≠ g.dst e →
      ((Finset.range g.m).filter
        (fun x => g.dst x = g.dst e ∧ g.src x = u ∧ Valid g infinity st x)).card
        ≤ (st.node u).nsuccs := by
    intro u _
    rw [h.nsuccs_eq]
    apply Finset.card_le_card
    intro x hx
    rw [Finset.mem_filter, Finset.mem_range] at hx
    exact mem_succEdges.mpr ⟨hx.1, hx.2.2.1, hx.2.2.2⟩
  rw [spAndFU_eq g infinity st _ _ e hab]
  refine ⟨?_, rfl⟩
  simp only []
  by_cases hp : (st.node (g.dst e)).preds = []
  · -- the destination was unreached: no correction
    have hunr : (st.node (g.dst e)).distance = infinity := by
      by_contra hne
      exact h.preds_ne _ hne hbs hp
    have hin : ∀ x, x < g.m → g.dst x = g.dst e → (st.edge x).level = infinity := by
      intro x hx hdx
      by_contra hne
      have h1 := h.lvl_dst x hx hne
      have h2 := h.lvl_lt x hx hne
      rw [hdx, hunr] at h1
      omega
    rw [if_neg (by simpa using hp)]
    constructor
    · exact hmdist
    · intro v; rw [hmN]; split_ifs with h1 h2
      · rfl
      · rw [h2]
      · rfl
    · intro v; rw [hmN]; split_ifs with h1 h2
      · rfl
      · rw [h2]
      · rfl
    · intro v; rw [hmN]; split_ifs with h1 h2
      · rw [h1]
      · rw [h2]
      · rfl
    · intro v; rw [hmN]; split_ifs with h1 h2
      · rfl
      · rw [h2]
      · rfl
    · intro x; rw [hmE]; split_ifs <;> rfl
    · intro x
      rw [hmlvl]
      by_cases hxe : x = e
      · simp [hxe]
      · rw [if_neg hxe, if_neg hxe]
        split_ifs with hc
        · exact hin x hc.1 hc.2.1
        · rfl
    · rw [hmns]; simp
    · intro u hu
      have : ((Finset.range g.m).filter
          (fun x => g.dst x = g.dst e ∧ g.src x = u ∧ Valid g infinity st x)) = ∅ := by
        apply Finset.filter_eq_empty_iff.mpr
        intro x hx hh
        rw [Finset.mem_range] at hx
        exact hh.2.2.2 (hin x hx hh.1)
      rw [this, hmns, if_neg hu]
      simp
  · rw [if_pos hp]
    have hcf := correctFold g infinity (g.dst e) (g.in_edges (g.dst e))
      (spMid st (g.src e) (g.dst e) e) (in_edges_nodup g _)
    simp only [] at hcf
    obtain ⟨hcn, hce⟩ := hcf
    have hfold : correctNode g infinity (spMid st (g.src e) (g.dst e) e) (g.dst e)
        = (g.in_edges (g.dst e)).foldl (correctNodeEdge g infinity (g.dst e))
            (spMid st (g.src e) (g.dst e) e) := rfl
    rw [hfold]
    constructor
    · intro v; rw [(hcn v).1]; exact hmdist v
    · intro v; rw [(hcn v).2.1, hmN]; split_ifs with h1 h2
      · rfl
      · rw [h2]
      · rfl
    · intro v; rw [(hcn v).2.2.2.2.1, hmN]; split_ifs with h1 h2
      · rfl
      · rw [h2]
      · rfl
    · intro v; rw [(hcn v).2.2.1, hmN]; split_ifs with h1 h2
      · rw [h1]
      · rw [h2]
      · rfl
    · intro v; rw [(hcn v).2.2.2.2.2.1, hmN]; split_ifs with h1 h2
      · rfl
      · rw [h2]
      · rfl
    · intro x; rw [(hce x).1, hmE]; split_ifs <;> rfl
    · intro x
      rw [(hce x).2, hmlvl]
      have hc : (x ∈ g.in_edges (g.dst e) ∧
            Stale g (spMid st (g.src e) (g.dst e) e) (g.dst e) x) ↔
          (x < g.m ∧ g.dst x = g.dst e ∧ g.src x ≠ g.dst e ∧
            (st.node (g.src e)).distance + 1 ≤ (st.node (g.src x)).distance) := by
        rw [hstale, mem_in_edges]
        constructor
        · rintro ⟨⟨h1, h2⟩, h3, h4⟩; exact ⟨h1, h2, h3, h4⟩
        · rintro ⟨h1, h2, h3, h4⟩; exact ⟨⟨h1, h2⟩, h3, h4⟩
      by_cases hxe : x = e
      · subst hxe
        rw [if_neg (fun hh => hnse hh.2), if_pos rfl, if_pos rfl]
      · by_cases hcc : (x < g.m ∧ g.dst x = g.dst e ∧ g.src x ≠ g.dst e ∧
            (st.node (g.src e)).distance + 1 ≤ (st.node (g.src x)).distance)
        · rw [if_pos (hc.mpr hcc), if_neg hxe, if_pos hcc]
        · rw [if_neg (fun hh => hcc (hc.mp hh)), if_neg hxe, if_neg hxe, if_neg hcc]
    · have h8 := (hcn (g.dst e)).2.2.2.2.2.2
      have hz : (g.in_edges (g.dst e)).countP
          (fun x => decide (Dec g infinity (spMid st (g.src e) (g.dst e) e) (g.dst e) (g.dst e) x))
          = 0 := by
        rw [List.countP_eq_zero]
        intro x _
        simp only [decide_eq_true_eq]
        intro hd
        exact hd.2.1.1 hd.1
      rw [hz, hmns, if_pos rfl] at h8
      have h7 := h8.1 (by norm_num)
      have h9 := h8.2
      omega
    · intro u hu
      have h8 := (hcn u).2.2.2.2.2.2
      rw [countP_in_edges] at h8
      have hfe : ((Finset.range g.m).filter (fun x => g.dst x = g.dst e ∧
            Dec g infinity (spMid st (g.src e) (g.dst e) e) (g.dst e) u x))
          = ((Finset.range g.m).filter
              (fun x => g.dst x = g.dst e ∧ g.src x = u ∧ Valid g infinity st x)) := by
        apply Finset.filter_congr
        intro x hx
        rw [Finset.mem_range] at hx
        exact hdec u x hx hu
      rw [hfe, hmns, if_neg hu] at h8
      have hcl := hcard_le u hu
      have hnu := h.nsuccs_lt hs u
      split_ifs at h8 ⊢ with hua
      · have h7 := h8.1 (by omega)
        have h9 := h8.2
        omega
      · have h7 := h8.1 (by omega)
        have h9 := h8.2
        omega

/-! ## Preservation: new shortest path -/

theorem reachedCount_mono {g : Graph} {infinity : Nat} {st st' : State}
    (hm : ∀ v, (st.node v).distance ≠ infinity → (st'.node v).distance ≠ infinity) :
    reachedCount g infinity st ≤ reachedCount g infinity st' := by
  unfold reachedCount
  apply Finset.card_le_card
  intro v hv
  rw [Finset.mem_filter] at hv ⊢
  exact ⟨hv.1, hm v hv.2⟩

theorem reachedCount_succ {g : Graph} {infinity : Nat} {st st' : State} (b : Nat)
    (hb : b < g.n) (hb0 : (st.node b).distance = infinity)
    (hb1 : (st'.node b).distance ≠ infinity)
    (hm : ∀ v, (st.node v).distance ≠ infinity → (st'.node v).distance ≠ infinity) :
    reachedCount g infinity st + 1 ≤ reachedCount g infinity st' := by
  unfold reachedCount
  have hnot : b ∉ (Finset.range g.n).filter (fun v => (st.node v).distance ≠ infinity) := by
    rw [Finset.mem_filter]; intro hh; exact hh.2 hb0
  rw [← Finset.card_insert_of_not_mem hnot]
  apply Finset.card_le_card
  intro v hv
  rw [Finset.mem_insert] at hv
  rw [Finset.mem_filter]
  rcases hv with hv | hv
  · subst hv; exact ⟨Finset.mem_range.mpr hb, hb1⟩
  · rw [Finset.mem_filter] at hv; exact ⟨hv.1, hm v hv.2⟩

theorem spAndFU_inv {g : Graph} {infinity s : Nat} {st st' : State} {pend : Nat → Prop}
    {pu : List Nat}
    (_hs : Sizes g infinity) (hwf : g.WF) (h : FwdInv g infinity s st pend)
    (e : Nat) (he : e < g.m)
    (hg : (st.node (g.src e)).distance + 1 < (st.node (g.dst e)).distance)
    (hq : (st.node (g.src e)).queued = false)
    (heff : SpEff g infinity st st' e)
    (hpu : pu = if (st.node (g.dst e)).queued = true then [] else [g.dst e]) :
    FwdInv g infinity s st' (fun x => (pend x ∧ x ≠ e) ∨ g.src x ∈ pu) ∧
    (st'.node (g.src e)).queued = false := by
  have hab : g.src e ≠ g.dst e := by
    intro hh; rw [← hh] at hg; omega
  have hba : g.dst e ≠ g.src e := fun hh => hab hh.symm
  have hdble := h.dist_le (g.dst e)
  have hda : (st.node (g.src e)).distance ≠ infinity := by omega
  have hbs : g.dst e ≠ s := by
    intro hb; rw [hb, h.src_dist] at hg; omega
  have hsb : s ≠ g.dst e := fun hh => hbs hh.symm
  have hdb' : (st'.node (g.dst e)).distance = (st.node (g.src e)).distance + 1 := by
    rw [heff.dist]; simp
  have hdo : ∀ v, v ≠ g.dst e → (st'.node v).distance = (st.node v).distance := by
    intro v hv; rw [heff.dist, if_neg hv]
  have hdle : ∀ v, (st'.node v).distance ≤ (st.node v).distance := by
    intro v
    by_cases hv : v = g.dst e
    · subst hv; rw [hdb']; omega
    · rw [hdo v hv]
  have hreach : ∀ v, (st.node v).distance ≠ infinity → (st'.node v).distance ≠ infinity := by
    intro v hv
    have h1 := hdle v
    have h2 := h.dist_le v
    omega
  have hsgo : ∀ v, v ≠ g.dst e → (st'.node v).sigma = (st.node v).sigma := by
    intro v hv; rw [heff.sigma, if_neg hv]
  have hsgb : (st'.node (g.dst e)).sigma = (st.node (g.src e)).sigma := by
    rw [heff.sigma]; simp
  have hlvle : (st'.edge e).level = (st.node (g.src e)).distance := by
    rw [heff.lvl]; simp
  have hvale : (st'.edge e).val = (st.node (g.src e)).sigma := by
    rw [heff.val]; simp
  have hvalo : ∀ x, x ≠ e → (st'.edge x).val = (st.edge x).val := by
    intro x hx; rw [heff.val, if_neg hx]
  have hlvl_keep : ∀ x, x ≠ e → (st'.edge x).level ≠ infinity →
      (st'.edge x).level = (st.edge x).level ∧
      ¬ (x < g.m ∧ g.dst x = g.dst e ∧ g.src x ≠ g.dst e ∧
        (st.node (g.src e)).distance + 1 ≤ (st.node (g.src x)).distance) := by
    intro x hx hne
    rw [heff.lvl, if_neg hx] at hne ⊢
    split_ifs at hne ⊢ with hc
    · exact absurd rfl hne
    · exact ⟨rfl, hc⟩
  have hlvl_same : ∀ x, x ≠ e → g.dst x ≠ g.dst e → (st'.edge x).level = (st.edge x).level := by
    intro x hx hd
    rw [heff.lvl, if_neg hx, if_neg]
    intro hc; exact hd hc.2.1
  have hqa : (st'.node (g.src e)).queued = false := by
    rw [heff.queued, if_neg hab]; exact hq
  have hnVe : ¬ Valid g infinity st e := by
    intro hv
    have := h.valid_dst e he hv
    omega
  have hVe : Valid g infinity st' e := by
    unfold Valid; rw [hlvle, hdo _ hab]; exact ⟨rfl, hda⟩
  have hVo : ∀ x, x < g.m → x ≠ e →
      (Valid g infinity st' x ↔
        (Valid g infinity st x ∧ g.dst x ≠ g.dst e ∧ g.src x ≠ g.dst e)) := by
    intro x hx hxe
    constructor
    · rintro ⟨h1, h2⟩
      obtain ⟨h3, h4⟩ := hlvl_keep x hxe h2
      rw [h3] at h1 h2
      have hsx : g.src x ≠ g.dst e := by
        intro hsx
        rw [hsx, hdb'] at h1
        have := h.lvl_src x hx h2
        rw [hsx] at this
        omega
      rw [hdo _ hsx] at h1
      have hv : Valid g infinity st x := ⟨h1, h2⟩
      refine ⟨hv, ?_, hsx⟩
      intro hdx
      have := h.valid_dst x hx hv
      rw [hdx] at this
      apply h4
      exact ⟨hx, hdx, hsx, by omega⟩
    · rintro ⟨⟨h1, h2⟩, h3, h4⟩
      unfold Valid
      rw [hlvl_same x hxe h3, hdo _ h4]
      exact ⟨h1, h2⟩
  have hPEb : predEdges g st' (g.dst e) = {e} := by
    ext x
    rw [Finset.mem_singleton, mem_predEdges, hdb']
    constructor
    · rintro ⟨h1, h2, h3, h4⟩
      by_contra hxe
      have hne : (st'.edge x).level ≠ infinity := by omega
      obtain ⟨h5, _⟩ := hlvl_keep x hxe hne
      rw [h5] at h4 hne
      have := h.lvl_dst x h1 hne
      rw [h2] at this
      omega
    · intro hxe
      subst hxe
      exact ⟨he, rfl, hab, by rw [hlvle]⟩
  have hPEo : ∀ v, v ≠ g.dst e → predEdges g st' v = predEdges g st v := by
    intro v hv
    ext x
    rw [mem_predEdges, mem_predEdges, hdo v hv]
    constructor
    · rintro ⟨h1, h2, h3, h4⟩
      have hxe : x ≠ e := by intro hxe; subst hxe; exact hv h2.symm
      rw [hlvl_same x hxe (by rw [h2]; exact hv)] at h4
      exact ⟨h1, h2, h3, h4⟩
    · rintro ⟨h1, h2, h3, h4⟩
      have hxe : x ≠ e := by intro hxe; subst hxe; exact hv h2.symm
      rw [hlvl_same x hxe (by rw [h2]; exact hv)]
      exact ⟨h1, h2, h3, h4⟩
  have hnotpend : ∀ x, x < g.m → ¬ ((pend x ∧ x ≠ e) ∨ g.src x ∈ pu) → x ≠ e →
      ¬ pend x ∧ g.src x ≠ g.dst e := by
    intro x hx hn hxe
    have hnp : ¬ pend x := fun hp => hn (Or.inl ⟨hp, hxe⟩)
    refine ⟨hnp, ?_⟩
    intro hsx
    by_cases hqb : (st.node (g.dst e)).queued = true
    · exact hnp (h.queued_pend x hx (by rw [hsx]; exact hqb))
    · apply hn; right
      rw [hpu, if_neg hqb, hsx]; simp
  refine ⟨?_, hqa⟩
  constructor
  · rw [hdo s hsb]; exact h.src_dist
  · rw [hsgo s hsb]; exact h.src_sigma
  · intro v; exact le_trans (hdle v) (h.dist_le v)
  · intro v hv
    by_cases hvb : v = g.dst e
    · subst hvb; exact (hwf e he).2
    · rw [hdo v hvb] at hv; exact h.dist_node v hv
  · intro v hv
    by_cases hvb : v = g.dst e
    · subst hvb
      rw [hdb']
      by_cases hunr : (st.node (g.dst e)).distance = infinity
      · have h1 := @reachedCount_succ g infinity st st' (g.dst e)
          (hwf e he).2 hunr hv hreach
        have h2 := h.dist_cnt _ hda
        omega
      · have h1 := reachedCount_mono (g := g) hreach
        have h2 := h.dist_cnt _ hunr
        omega
    · rw [hdo v hvb] at hv ⊢
      have h1 := reachedCount_mono (g := g) hreach
      have h2 := h.dist_cnt _ hv
      omega
  · intro v hv
    by_cases hvb : v = g.dst e
    · subst hvb
      rw [hdb']
      exact Walk.cons _ _ e (h.walk _ hda) he rfl
    · rw [hdo v hvb] at hv ⊢
      exact h.walk v hv
  · intro v hv
    by_cases hvb : v = g.dst e
    · subst hvb; rw [hsgb]; exact h.sigma_pos _ hda
    · rw [hdo v hvb] at hv; rw [hsgo v hvb]; exact h.sigma_pos v hv
  · intro v
    by_cases hvb : v = g.dst e
    · subst hvb; rw [hsgb]; exact h.sigma_lt _
    · rw [hsgo v hvb]; exact h.sigma_lt v
  · intro v hv hvs
    rw [heff.preds]
    by_cases hvb : v = g.dst e
    · rw [if_pos hvb]; simp
    · rw [if_neg hvb]; rw [hdo v hvb] at hv; exact h.preds_ne v hv hvs
  · intro v; rw [heff.delta]; exact h.delta_zero v
  · intro x hx
    rw [heff.lvl]
    split_ifs
    · exact h.dist_le _
    · exact le_refl _
    · exact h.lvl_le x hx
  · intro x hx hne
    by_cases hxe : x = e
    · subst hxe; rw [hlvle]; omega
    · have hk := (hlvl_keep x hxe hne).1
      rw [hk] at hne ⊢
      exact h.lvl_lt x hx hne
  · intro x hx hne
    by_cases hxe : x = e
    · subst hxe; rw [hlvle, hdo _ hab]
    · have hk := (hlvl_keep x hxe hne).1
      rw [hk] at hne ⊢
      exact le_trans (hdle _) (h.lvl_src x hx hne)
  · intro x hx hne
    by_cases hxe : x = e
    · subst hxe; rw [hlvle, hdb']
    · have hk := (hlvl_keep x hxe hne).1
      rw [hk] at hne ⊢
      exact le_trans (hdle _) (h.lvl_dst x hx hne)
  · intro x hx hvx
    by_cases hxe : x = e
    · subst hxe; rw [hdb', hdo _ hab]
    · obtain ⟨h1, h2, h3⟩ := (hVo x hx hxe).mp hvx
      rw [hdo _ h2, hdo _ h3]
      exact h.valid_dst x hx h1
  · intro v
    rw [heff.preds]
    by_cases hvb : v = g.dst e
    · subst hvb
      rw [if_pos rfl, hPEb]
      rfl
    · rw [if_neg hvb, hPEo v hvb]; exact h.preds_eq v
  · intro v hv hvs
    by_cases hvb : v = g.dst e
    · subst hvb
      rw [hsgb, hPEb, Finset.sum_singleton, hvale]
      have := h.sigma_lt (g.src e)
      omega
    · rw [hdo v hvb] at hv
      rw [hsgo v hvb, hPEo v hvb, h.sigma_eq v hv hvs]
      congr 1
      apply Finset.sum_congr rfl
      intro x hx
      have : x ≠ e := by
        intro hxe; subst hxe
        exact hvb (mem_predEdges.mp hx).2.1.symm
      rw [hvalo x this]
  · intro x hx hvx
    by_cases hxe : x = e
    · subst hxe; rw [hvale, hsgo _ hab]
    · obtain ⟨h1, h2, h3⟩ := (hVo x hx hxe).mp hvx
      rw [hvalo x hxe, hsgo _ h3]
      exact h.val_le x hx h1
  · intro u
    by_cases hub : u = g.dst e
    · subst hub
      rw [heff.ns_dst]
      symm
      rw [Finset.card_eq_zero]
      apply Finset.eq_empty_of_forall_not_mem
      intro x hx
      obtain ⟨h1, h2, h3⟩ := mem_succEdges.mp hx
      have hxe : x ≠ e := by intro hxe; subst hxe; exact hab h2
      exact ((hVo x h1 hxe).mp h3).2.2 h2
    · have hns := heff.ns_other u hub
      have hsplit := Finset.filter_card_add_filter_neg_card_eq_card (s := succEdges g infinity st u)
        (fun x => g.dst x = g.dst e)
      have hf1 : (succEdges g infinity st u).filter (fun x => g.dst x = g.dst e)
          = (Finset.range g.m).filter
              (fun x => g.dst x = g.dst e ∧ g.src x = u ∧ Valid g infinity st x) := by
        ext x
        simp only [Finset.mem_filter, mem_succEdges, Finset.mem_range]
        constructor
        · rintro ⟨⟨h1, h2, h3⟩, h4⟩; exact ⟨h1, h4, h2, h3⟩
        · rintro ⟨h1, h4, h2, h3⟩; exact ⟨⟨h1, h2, h3⟩, h4⟩
      rw [hf1, ← h.nsuccs_eq] at hsplit
      by_cases hua : u = g.src e
      · subst hua
        rw [if_pos rfl] at hns
        have hSE : succEdges g infinity st' (g.src e)
            = insert e ((succEdges g infinity st (g.src e)).filter
                (fun x => ¬ g.dst x = g.dst e)) := by
          ext x
          rw [Finset.mem_insert, Finset.mem_filter, mem_succEdges, mem_succEdges]
          by_cases hxe : x = e
          · subst hxe; simp [he, hVe]
          · constructor
            · rintro ⟨h1, h2, h3⟩
              obtain ⟨h4, h5, h6⟩ := (hVo x h1 hxe).mp h3
              exact Or.inr ⟨⟨h1, h2, h4⟩, h5⟩
            · rintro (h0 | ⟨⟨h1, h2, h4⟩, h5⟩)
              · exact absurd h0 hxe
              · exact ⟨h1, h2, (hVo x h1 hxe).mpr ⟨h4, h5, by rw [h2]; exact hab⟩⟩
        have hnot : e ∉ (succEdges g infinity st (g.src e)).filter
            (fun x => ¬ g.dst x = g.dst e) := by
          rw [Finset.mem_filter]; intro hh; exact hh.2 rfl
        rw [hSE, Finset.card_insert_of_not_mem hnot]
        omega
      · rw [if_neg hua] at hns
        have hSE : succEdges g infinity st' u
            = (succEdges g infinity st u).filter (fun x => ¬ g.dst x = g.dst e) := by
          ext x
          rw [Finset.mem_filter, mem_succEdges, mem_succEdges]
          have hxe : g.src x = u → x ≠ e := by
            intro h2 hxe; subst hxe; exact hua h2.symm
          constructor
          · rintro ⟨h1, h2, h3⟩
            obtain ⟨h4, h5, h6⟩ := (hVo x h1 (hxe h2)).mp h3
            exact ⟨⟨h1, h2, h4⟩, h5⟩
          · rintro ⟨⟨h1, h2, h4⟩, h5⟩
            exact ⟨h1, h2, (hVo x h1 (hxe h2)).mpr ⟨h4, h5, by rw [h2]; exact hub⟩⟩
        rw [hSE]
        omega
  · intro x hx hn hsr
    by_cases hxe : x = e
    · subst hxe; rw [hdb', hdo _ hab]
    · obtain ⟨hnp, hsx⟩ := hnotpend x hx hn hxe
      rw [hdo _ hsx] at hsr ⊢
      exact le_trans (hdle _) (h.relaxed x hx hnp hsr)
  · intro x hx hn hsr hdd
    by_cases hxe : x = e
    · subst hxe; rw [hlvle, hdo _ hab]
    · obtain ⟨hnp, hsx⟩ := hnotpend x hx hn hxe
      rw [hdo _ hsx] at hsr hdd ⊢
      have hrel := h.relaxed x hx hnp hsr
      have hdx : g.dst x ≠ g.dst e := by
        intro hdx
        rw [hdx, hdb'] at hdd
        rw [hdx] at hrel
        omega
      rw [hdo _ hdx] at hdd
      rw [hlvl_same x hxe hdx]
      exact h.validated x hx hnp hsr hdd
  · intro x hx hn hvx
    by_cases hxe : x = e
    · subst hxe; rw [hvale, hsgo _ hab]
    · obtain ⟨hnp, hsx⟩ := hnotpend x hx hn hxe
      obtain ⟨h1, h2, h3⟩ := (hVo x hx hxe).mp hvx
      rw [hvalo x hxe, hsgo _ hsx]
      exact h.val_eq x hx hnp h1
  · intro x hx hqx
    rw [heff.queued] at hqx
    by_cases hsx : g.src x = g.dst e
    · have hxe : x ≠ e := by
        intro hxe; subst hxe; exact hab hsx
      by_cases hqb : (st.node (g.dst e)).queued = true
      · left
        exact ⟨h.queued_pend x hx (by rw [hsx]; exact hqb), hxe⟩
      · right
        rw [hpu, if_neg hqb, hsx]; simp
    · rw [if_neg hsx] at hqx
      have hxe : x ≠ e := by
        intro hxe; subst hxe; rw [hq] at hqx; exact absurd hqx (by simp)
      left
      exact ⟨h.queued_pend x hx hqx, hxe⟩
  · intro v hv
    have hvb : v ≠ g.dst e := by
      intro hvb; subst hvb; rw [hdb'] at hv; omega
    rw [hdo v hvb] at hv
    rw [hsgo v hvb, heff.queued, if_neg hvb]
    exact h.unreached v hv

/-! ## Preservation by one edge examination and by one work item -/

theorem dagEdge_inv {g : Graph} {infinity s : Nat} {st : State} {pend : Nat → Prop}
    (hs : Sizes g infinity) (hwf : g.WF) (h : FwdInv g infinity s st pend)
    (e : Nat) (he : e < g.m) (hq : (st.node (g.src e)).queued = false) (acc : List Nat) :
    ∃ pu, (dagEdge g infinity (g.src e) (st, acc) e).2 = acc ++ pu ∧
      FwdInv g infinity s (dagEdge g infinity (g.src e) (st, acc) e).1
        (fun x => (pend x ∧ x ≠ e) ∨ g.src x ∈ pu) ∧
      ((dagEdge g infinity (g.src e) (st, acc) e).1.node (g.src e)).queued = false := by
  have hinf := hs.2.1
  have hda := h.dist_le (g.src e)
  have hdb := h.dist_le (g.dst e)
  have hle := h.lvl_le e he
  have hta : toInt (st.node (g.src e)).distance = ((st.node (g.src e)).distance : Int) :=
    toInt_of_lt (by omega)
  have htb : toInt (st.node (g.dst e)).distance = ((st.node (g.dst e)).distance : Int) :=
    toInt_of_lt (by omega)
  have htl : toInt (st.edge e).level = ((st.edge e).level : Int) :=
    toInt_of_lt (by omega)
  unfold dagEdge
  simp only [hta, htb, htl]
  by_cases hab : g.src e = g.dst e
  · rw [if_pos hab]
    refine ⟨[], by simp, ?_, hq⟩
    apply h.settle e
    · intro _; rw [← hab]; omega
    · intro _ hh; rw [← hab] at hh; omega
    · intro hv
      have := h.valid_dst e he hv
      rw [← hab] at this; omega
    · exact hq
  · rw [if_neg hab]
    by_cases hg1 : (st.node (g.src e)).distance + 1 < (st.node (g.dst e)).distance
    · have hg1' : (1 : Int) < ((st.node (g.dst e)).distance : Int)
          - ((st.node (g.src e)).distance : Int) := by omega
      rw [if_pos hg1']
      obtain ⟨heff, hpu⟩ := spAndFU_effect hs h e he hg1
      obtain ⟨hinv, hqa⟩ := spAndFU_inv hs hwf h e he hg1 hq heff hpu
      exact ⟨_, rfl, hinv, hqa⟩
    · have hg1' : ¬ (1 : Int) < ((st.node (g.dst e)).distance : Int)
          - ((st.node (g.src e)).distance : Int) := by omega
      rw [if_neg hg1']
      by_cases hg2 : (st.edge e).level = (st.node (g.src e)).distance ∧
          (st.node (g.dst e)).distance = (st.node (g.src e)).distance + 1
      · have hg2' : ((st.edge e).level : Int) = ((st.node (g.src e)).distance : Int) ∧
            ((st.node (g.dst e)).distance : Int) = ((st.node (g.src e)).distance : Int) + 1 := by
          omega
        rw [if_pos hg2']
        obtain ⟨hinv, hqa⟩ := updateSigma_inv hs h e he hab hg2.1 hg2.2 hq
        exact ⟨_, rfl, hinv, hqa⟩
      · have hg2' : ¬ (((st.edge e).level : Int) = ((st.node (g.src e)).distance : Int) ∧
            ((st.node (g.dst e)).distance : Int) = ((st.node (g.src e)).distance : Int) + 1) := by
          omega
        rw [if_neg hg2']
        by_cases hg3 : (st.node (g.dst e)).distance = (st.node (g.src e)).distance + 1 ∧
            (st.edge e).level ≠ (st.node (g.src e)).distance
        · have hg3' : ((st.node (g.dst e)).distance : Int)
                = ((st.node (g.src e)).distance : Int) + 1 ∧
              ((st.edge e).level : Int) ≠ ((st.node (g.src e)).distance : Int) := by
            omega
          rw [if_pos hg3']
          obtain ⟨hinv, hqa⟩ := firstUpdate_inv hs h e he hab hg3.2 hg3.1 hq
          exact ⟨_, rfl, hinv, hqa⟩
        · have hg3' : ¬ (((st.node (g.dst e)).distance : Int)
                = ((st.node (g.src e)).distance : Int) + 1 ∧
              ((st.edge e).level : Int) ≠ ((st.node (g.src e)).distance : Int)) := by
            omega
          rw [if_neg hg3']
          refine ⟨[], by simp, ?_, hq⟩
          apply h.settle e
          · intro _; omega
          · intro _ hh; omega
          · intro hv
            have := h.valid_dst e he hv
            have := hv.1
            omega
          · exact hq

/-- The edge loop of one work item, over a part `l` of the out-edges of `a`. -/
theorem dagFold_inv {g : Graph} {infinity s : Nat}
    (hs : Sizes g infinity) (hwf : g.WF) (a : Nat) (W : List Nat) :
    ∀ (l : List Nat) (st : State) (acc : List Nat),
      (∀ x, x ∈ l → x < g.m ∧ g.src x = a) →
      FwdInv g infinity s st (fun x => g.src x ∈ W ∨ g.src x ∈ acc ∨ x ∈ l) →
      (st.node a).queued = false →
      FwdInv g infinity s (l.foldl (dagEdge g infinity a) (st, acc)).1
        (fun x => g.src x ∈ W ++ (l.foldl (dagEdge g infinity a) (st, acc)).2) := by
  intro l
  induction l with
  | nil =>
    intro st acc _ h _
    simp only [List.foldl_nil]
    apply h.mono
    intro x _ hp
    rcases hp with hp | hp | hp
    · exact List.mem_append_left _ hp
    · exact List.mem_append_right _ hp
    · exact absurd hp (List.not_mem_nil x)
  | cons e l ih =>
    intro st acc hl h hq
    simp only [List.foldl_cons]
    obtain ⟨hem, hsrc⟩ := hl e (List.mem_cons_self e l)
    subst hsrc
    obtain ⟨pu, hacc, hinv, hqa⟩ := dagEdge_inv hs hwf h e hem hq acc
    have heq : dagEdge g infinity (g.src e) (st, acc) e
        = ((dagEdge g infinity (g.src e) (st, acc) e).1, acc ++ pu) := by
      rw [← hacc]
    rw [heq]
    apply ih _ _ (fun x hx => hl x (List.mem_cons_of_mem e hx)) _ hqa
    apply hinv.mono
    intro x _ hp
    rcases hp with ⟨hp, hxe⟩ | hp
    · rcases hp with hp | hp | hp
      · exact Or.inl hp
      · exact Or.inr (Or.inl (List.mem_append_left _ hp))
      · rcases List.mem_cons.mp hp with hp | hp
        · exact absurd hp hxe
        · exact Or.inr (Or.inr hp)
    · exact Or.inr (Or.inl (List.mem_append_right _ hp))

theorem markOut_inv {g : Graph} {infinity s : Nat} {st : State} {pend pend' : Nat → Prop}
    (h : FwdInv g infinity s st pend) (a : Nat)
    (hp : ∀ x, x < g.m → pend x → pend' x) :
    FwdInv g infinity s (markOut st a) pend' := by
  have hn : ∀ v, (markOut st a).node v =
      if v = a then { st.node a with queued := false } else st.node v := by
    intro v; rfl
  apply (h.mono hp).of_same
  · intro v; rw [hn]; split_ifs with hv
    · rw [hv]
    · rfl
  · intro v; rw [hn]; split_ifs with hv
    · rw [hv]
    · rfl
  · intro v; rw [hn]; split_ifs with hv
    · rw [hv]
    · rfl
  · intro v; rw [hn]; split_ifs with hv
    · rw [hv]
    · rfl
  · intro v; rw [hn]; split_ifs with hv
    · rw [hv]
    · rfl
  · rfl
  · intro x _ hnp; exact hnp
  · intro x hx hq
    rw [hn] at hq
    split_ifs at hq with hv
    exact hp x hx (h.queued_pend x hx hq)
  · intro v hv
    rw [hn]; split_ifs with hva
    · rfl
    · exact hv

/-- One work item of the forward phase preserves the invariant. -/
theorem dagItem_inv {g : Graph} {infinity s : Nat} {st : State}
    (hs : Sizes g infinity) (hwf : g.WF) (l₁ : List Nat) (a : Nat) (l₂ : List Nat)
    (h : FwdInv g infinity s st (fun x => g.src x ∈ l₁ ++ a :: l₂)) :
    FwdInv g infinity s (dagItem g infinity st a).1
      (fun x => g.src x ∈ l₁ ++ l₂ ++ (dagItem g infinity st a).2) := by
  unfold dagItem
  apply dagFold_inv hs hwf a (l₁ ++ l₂) (g.edges a) (markOut st a) []
  · intro x hx; exact mem_edges.mp hx
  · apply markOut_inv h
    intro x hx hp
    rcases List.mem_append.mp hp with hp | hp
    · exact Or.inl (List.mem_append_left _ hp)
    · rcases List.mem_cons.mp hp with hp | hp
      · exact Or.inr (Or.inr (mem_edges.mpr ⟨hx, hp⟩))
      · exact Or.inl (List.mem_append_right _ hp)
  · simp [markOut]

/-! ## The forward phase from a seeded neutral state -/

theorem seed_inv {g : Graph} {infinity s : Nat} {st : State}
    (hs : Sizes g infinity) (hsn : s < g.n) (hn : Neutral g infinity st) :
    FwdInv g infinity s (seedSource st s) (fun x => g.src x ∈ [s]) := by
  obtain ⟨hnode, hedge⟩ := hn
  have hinf : 0 < infinity := by have := hs.1; omega
  have hN : ∀ v, (seedSource st s).node v =
      if v = s then { st.node s with distance := 0, sigma := 1, queued := true }
      else st.node v := by
    intro v; rfl
  have hE : (seedSource st s).edge = st.edge := rfl
  have hdist : ∀ v, ((seedSource st s).node v).distance = if v = s then 0 else infinity := by
    intro v; rw [hN]; split_ifs with hv
    · rfl
    · exact (hnode v).1
  have hreach : ∀ v, ((seedSource st s).node v).distance ≠ infinity → v = s := by
    intro v hv; rw [hdist] at hv
    by_contra hvs
    rw [if_neg hvs] at hv
    exact hv rfl
  have hsig : ∀ v, ((seedSource st s).node v).sigma = if v = s then 1 else 0 := by
    intro v; rw [hN]; split_ifs with hv
    · rfl
    · exact (hnode v).2.2.1
  have hlvl : ∀ e, e < g.m → ((seedSource st s).edge e).level = infinity := by
    intro e he; rw [hE]; exact hedge e he
  have hnV : ∀ e, e < g.m → ¬ Valid g infinity (seedSource st s) e := by
    intro e he hv; exact hv.2 (hlvl e he)
  have hPE : ∀ b, predEdges g (seedSource st s) b = ∅ := by
    intro b
    apply Finset.eq_empty_of_forall_not_mem
    intro x hx
    obtain ⟨h1, _, _, h4⟩ := mem_predEdges.mp hx
    rw [hlvl x h1, hdist] at h4
    split_ifs at h4
    omega
  have hSE : ∀ a, succEdges g infinity (seedSource st s) a = ∅ := by
    intro a
    apply Finset.eq_empty_of_forall_not_mem
    intro x hx
    obtain ⟨h1, _, h3⟩ := mem_succEdges.mp hx
    exact hnV x h1 h3
  constructor
  · rw [hdist]; simp
  · rw [hsig]; simp
  · intro v; rw [hdist]; split_ifs <;> omega
  · intro v hv; rw [hreach v hv]; exact hsn
  · intro v hv
    have hvs := hreach v hv
    subst hvs
    rw [hdist, if_pos rfl]
    unfold reachedCount
    apply Finset.card_pos.mpr
    exact ⟨v, Finset.mem_filter.mpr ⟨Finset.mem_range.mpr hsn, hv⟩⟩
  · intro v hv
    have hvs := hreach v hv
    subst hvs
    rw [hdist, if_pos rfl]
    exact Walk.nil
  · intro v hv
    rw [hreach v hv, hsig, if_pos rfl]
  · intro v; rw [hsig]; split_ifs <;> omega
  · intro v hv hvs; exact absurd (hreach v hv) hvs
  · intro v; rw [hN]; split_ifs with hv
    · exact (hnode s).2.2.2.1
    · exact (hnode v).2.2.2.1
  · intro e he; rw [hlvl e he]
  · intro e he hne; exact absurd (hlvl e he) hne
  · intro e he hne; exact absurd (hlvl e he) hne
  · intro e he hne; exact absurd (hlvl e he) hne
  · intro e he hv; exact absurd hv (hnV e he)
  · intro b
    rw [hPE]
    have : ((seedSource st s).node b).preds = [] := by
      rw [hN]; split_ifs with hv
      · exact (hnode s).2.2.2.2.1
      · exact (hnode b).2.2.2.2.1
    rw [this]; rfl
  · intro b hb hbs; exact absurd (hreach b hb) hbs
  · intro e he hv; exact absurd hv (hnV e he)
  · intro a
    rw [hSE]
    have : ((seedSource st s).node a).nsuccs = 0 := by
      rw [hN]; split_ifs with hv
      · exact (hnode s).2.1
      · exact (hnode a).2.1
    rw [this]; rfl
  · intro e he hnp hd
    exact absurd (by simp [hreach _ hd]) hnp
  · intro e he hnp hd
    exact absurd (by simp [hreach _ hd]) hnp
  · intro e he _ hv; exact absurd hv (hnV e he)
  · intro e he hq
    rw [hN] at hq
    split_ifs at hq with hv
    · simp [hv]
    · rw [(hnode _).2.2.2.2.2] at hq
      exact absurd hq (by simp)
  · intro v hv
    rw [hdist] at hv
    have hvs : v ≠ s := by
      intro hvs; rw [if_pos hvs] at hv; omega
    rw [hsig, if_neg hvs, hN, if_neg hvs]
    exact ⟨rfl, (hnode v).2.2.2.2.2⟩

/-- At quiescence of the forward phase the invariant holds with nothing pending. -/
theorem dagConstruction_inv {g : Graph} {infinity s : Nat} {st stF : State}
    (hs : Sizes g infinity) (hwf : g.WF) (hsn : s < g.n) (hn : Neutral g infinity st)
    (hrun : dagConstruction g infinity (seedSource st s) [s] stF) :
    Quiescent g infinity s stF := by
  have key := @Drains.invariant (dagItem g infinity)
    (fun st W => FwdInv g infinity s st (fun x => g.src x ∈ W))
    (fun st l₁ a l₂ h => dagItem_inv hs hwf l₁ a l₂ h) _ _ _ hrun (seed_inv hs hsn hn)
  apply key.mono
  intro x _ hp
  exact absurd hp (List.not_mem_nil _)

/-! ## Consequences at quiescence -/

theorem Quiescent.reached_of_walk {g : Graph} {infinity s : Nat} {st : State}
    (hs : Sizes g infinity) (h : Quiescent g infinity s st) :
    ∀ k v, Walk g s k v → (st.node v).distance ≠ infinity ∧ (st.node v).distance ≤ k := by
  intro k v hw
  induction hw with
  | nil =>
    rw [h.src_dist]
    have := hs.1
    exact ⟨by omega, le_refl _⟩
  | cons k u e _ he hsrc ih =>
    subst hsrc
    have h1 := h.relaxed e he (fun hf => hf) ih.1
    have h2 := h.dist_succ_lt hs _ ih.1
    exact ⟨by omega, by omega⟩

theorem Quiescent.isDist {g : Graph} {infinity s : Nat} {st : State}
    (hs : Sizes g infinity) (h : Quiescent g infinity s st) (v : Nat)
    (hv : Reachable g s v) : IsDist g s v (st.node v).distance := by
  obtain ⟨k, hk⟩ := hv
  have h1 := h.reached_of_walk hs k v hk
  exact ⟨h.walk v h1.1, fun k' hk' => (h.reached_of_walk hs k' v hk').2⟩

theorem Quiescent.dist_unreachable {g : Graph} {infinity s : Nat} {st : State}
    (h : Quiescent g infinity s st) (v : Nat)
    (hv : ¬ Reachable g s v) : (st.node v).distance = infinity := by
  by_contra hne
  exact hv ⟨_, h.walk v hne⟩

theorem IsDist.unique {g : Graph} {s v d d' : Nat} (h : IsDist g s v d) (h' : IsDist g s v d') :
    d = d' :=
  le_antisymm (h.2 d' h'.1) (h'.2 d h.1)

/-! ## Path counts -/

theorem walkCount_succ (g : Graph) (s k v : Nat) :
    walkCount g s (k + 1) v
      = ∑ x in (Finset.range g.m).filter (fun x => g.dst x = v), walkCount g s k (g.src x) := by
  rfl

theorem walk_of_walkCount (g : Graph) (s : Nat) :
    ∀ k v, walkCount g s k v ≠ 0 → Walk g s k v := by
  intro k
  induction k with
  | zero =>
    intro v hv
    simp only [walkCount] at hv
    split_ifs at hv with hvs
    · subst hvs; exact Walk.nil
    · exact absurd rfl hv
  | succ k ih =>
    intro v hv
    rw [walkCount_succ] at hv
    obtain ⟨x, hx, hne⟩ := Finset.exists_ne_zero_of_sum_ne_zero hv
    rw [Finset.mem_filter, Finset.mem_range] at hx
    have := Walk.cons k (g.src x) x (ih _ hne) hx.1 rfl
    rw [hx.2] at this
    exact this

theorem min_sum_min (S : Finset Nat) (f : Nat → Nat) (M : Nat) :
    min (∑ x in S, min (f x) M) M = min (∑ x in S, f x) M := by
  induction S using Finset.induction_on with
  | empty => simp
  | insert ha ih =>
    rw [Finset.sum_insert ha, Finset.sum_insert ha]
    omega

/-! ## The shortest-path DAG at quiescence -/

theorem Quiescent.predEdges_spec {g : Graph} {infinity s : Nat} {st : State}
    (h : Quiescent g infinity s st) (v x : Nat) :
    x ∈ predEdges g st v ↔
      (x < g.m ∧ g.dst x = v ∧ (st.node (g.src x)).distance ≠ infinity ∧
        (st.node (g.src x)).distance + 1 = (st.node v).distance) := by
  rw [mem_predEdges]
  constructor
  · rintro ⟨h1, h2, h3, h4⟩
    have hdv := h.dist_le v
    have hne : (st.edge x).level ≠ infinity := by omega
    have h5 := h.lvl_src x h1 hne
    have h6 := h.lvl_lt x h1 hne
    have hsr : (st.node (g.src x)).distance ≠ infinity := by omega
    have h7 := h.relaxed x h1 (fun hf => hf) hsr
    rw [h2] at h7
    exact ⟨h1, h2, hsr, by omega⟩
  · rintro ⟨h1, h2, h3, h4⟩
    have h5 := h.validated x h1 (fun hf => hf) h3 (by rw [h2]; exact h4.symm)
    refine ⟨h1, h2, ?_, by rw [h5]; exact h4⟩
    intro hsv
    rw [hsv] at h4
    omega

theorem Quiescent.predEdges_valid {g : Graph} {infinity s : Nat} {st : State}
    (h : Quiescent g infinity s st) (v x : Nat) (hx : x ∈ predEdges g st v) :
    Valid g infinity st x := by
  obtain ⟨h1, h2, h3, h4⟩ := (h.predEdges_spec v x).mp hx
  have h5 := h.validated x h1 (fun hf => hf) h3 (by rw [h2]; exact h4.symm)
  exact ⟨h5, by rw [h5]; exact h3⟩

/-- At quiescence `sigma` is the capped number of shortest paths. -/
theorem Quiescent.sigma_count {g : Graph} {infinity s : Nat} {st : State}
    (hs : Sizes g infinity) (h : Quiescent g infinity s st) :
    ∀ d v, (st.node v).distance ≠ infinity → (st.node v).distance = d →
      (st.node v).sigma = min (walkCount g s d v) 18446744073709551615 := by
  intro d
  induction d using Nat.strong_induction_on with
  | _ d ih =>
    intro v hv hd
    by_cases hvs : v = s
    · subst hvs
      rw [h.src_dist] at hd
      subst hd
      rw [h.src_sigma]
      simp [walkCount]
    · have hse := h.sigma_eq v hv hvs
      have hpos := h.sigma_pos v hv
      cases d with
      | zero =>
        have : predEdges g st v = ∅ := by
          apply Finset.eq_empty_of_forall_not_mem
          intro x hx
          have := (mem_predEdges.mp hx).2.2.2
          omega
        rw [this] at hse
        simp at hse
        omega
      | succ k =>
        have hval : ∀ x, x ∈ predEdges g st v →
            (st.edge x).val = min (walkCount g s k (g.src x)) 18446744073709551615 := by
          intro x hx
          obtain ⟨h1, h2, h3, h4⟩ := (h.predEdges_spec v x).mp hx
          rw [h.val_eq x h1 (fun hf => hf) (h.predEdges_valid v x hx)]
          exact ih k (by omega) (g.src x) h3 (by omega)
        have hsub : predEdges g st v ⊆ (Finset.range g.m).filter (fun x => g.dst x = v) := by
          intro x hx
          obtain ⟨h1, h2, _, _⟩ := (h.predEdges_spec v x).mp hx
          exact Finset.mem_filter.mpr ⟨Finset.mem_range.mpr h1, h2⟩
        have hzero : ∀ x, x ∈ (Finset.range g.m).filter (fun x => g.dst x = v) →
            x ∉ predEdges g st v → walkCount g s k (g.src x) = 0 := by
          intro x hx hnx
          by_contra hne
          rw [Finset.mem_filter, Finset.mem_range] at hx
          have hw := walk_of_walkCount g s k _ hne
          obtain ⟨h3, h4⟩ := h.reached_of_walk hs k _ hw
          have h5 := h.relaxed x hx.1 (fun hf => hf) h3
          rw [hx.2] at h5
          apply hnx
          exact (h.predEdges_spec v x).mpr ⟨hx.1, hx.2, h3, by omega⟩
        rw [hse, walkCount_succ, ← Finset.sum_subset hsub hzero,
          Finset.sum_congr rfl hval, min_sum_min]

/-- At quiescence the predecessors of `v` are the tails of the edges into `v` from
one level above. -/
theorem Quiescent.mem_preds {g : Graph} {infinity s : Nat} {st : State}
    (h : Quiescent g infinity s st) (v p : Nat) (hp : p ∈ (st.node v).preds) :
    (∃ x, x < g.m ∧ g.src x = p ∧ g.dst x = v) ∧
      (st.node p).distance ≠ infinity ∧
      (st.node p).distance + 1 = (st.node v).distance := by
  have hm : p ∈ ((st.node v).preds : Multiset Nat) := Multiset.mem_coe.mpr hp
  rw [h.preds_eq, Multiset.mem_map] at hm
  obtain ⟨x, hx, hsrc⟩ := hm
  obtain ⟨h1, h2, h3, h4⟩ := (h.predEdges_spec v x).mp hx
  subst hsrc
  exact ⟨⟨x, h1, rfl, h2⟩, h3, h4⟩

theorem Quiescent.preds_src {g : Graph} {infinity s : Nat} {st : State}
    (h : Quiescent g infinity s st) : (st.node s).preds = [] := by
  cases hp : (st.node s).preds with
  | nil => rfl
  | cons p l =>
    have := (h.mem_preds s p (by rw [hp]; exact List.mem_cons_self p l)).2.2
    rw [h.src_dist] at this
    omega

theorem Quiescent.preds_unreached {g : Graph} {infinity s : Nat} {st : State}
    (hs : Sizes g infinity) (h : Quiescent g infinity s st) (v : Nat) (hv : (st.node v).distance = infinity) :
    (st.node v).preds = [] := by
  cases hp : (st.node v).preds with
  | nil => rfl
  | cons p l =>
    obtain ⟨_, h2, h3⟩ := h.mem_preds v p (by rw [hp]; exact List.mem_cons_self p l)
    have := h.dist_succ_lt hs p h2
    omega

theorem Quiescent.chain {g : Graph} {infinity s : Nat} {st : State}
    (h : Quiescent g infinity s st) :
    ∀ (c : List Nat) (v : Nat), PredChain st (v :: c) → (st.node v).distance ≠ infinity →
      (∀ u, u ∈ c → (st.node u).distance < (st.node v).distance) ∧
      (v :: c).Nodup ∧ (v :: c).length ≤ (st.node v).distance + 1 ∧
      ((st.node ((v :: c).getLast (List.cons_ne_nil v c))).preds = [] →
        (v :: c).getLast (List.cons_ne_nil v c) = s) := by
  intro c
  induction c with
  | nil =>
    intro v _ hv
    refine ⟨by simp, by simp, by simp, ?_⟩
    intro hp
    simp only [List.getLast_singleton] at hp ⊢
    by_contra hvs
    exact h.preds_ne v hv hvs hp
  | cons p c ih =>
    intro v hc hv
    unfold PredChain at hc
    rw [List.chain'_cons] at hc
    obtain ⟨_, hpr, hpd⟩ := h.mem_preds v p hc.1
    obtain ⟨i1, i2, i3, i4⟩ := ih p hc.2 hpr
    have hlt : ∀ u, u ∈ p :: c → (st.node u).distance < (st.node v).distance := by
      intro u hu
      rcases List.mem_cons.mp hu with hu | hu
      · subst hu; omega
      · have := i1 u hu; omega
    refine ⟨hlt, ?_, ?_, ?_⟩
    · rw [List.nodup_cons]
      refine ⟨?_, i2⟩
      intro hmem
      have := hlt v hmem
      omega
    · simp only [List.length_cons] at i3 ⊢
      omega
    · rw [List.getLast_cons (List.cons_ne_nil p c)]
      exact i4

/-! ## The forward phase never writes `bc` -/

theorem pushUnlessQueued_bc (st : State) (b v : Nat) :
    ((pushUnlessQueued st b).1.node v).bc = (st.node v).bc := by
  rw [pushUnlessQueued_node]; split_ifs with h
  · rw [h]
  · rfl

theorem pushIfSuccs_bc (st : State) (b v : Nat) :
    ((pushIfSuccs st b).1.node v).bc = (st.node v).bc := by
  unfold pushIfSuccs
  simp only []
  split_ifs
  · exact pushUnlessQueued_bc st b v
  · rfl

theorem setNode_bc (st : State) (u v : Nat) (x : BCNode) (hx : x.bc = (st.node u).bc) :
    ((st.setNode u x).node v).bc = (st.node v).bc := by
  rw [setNode_node]; split_ifs with h
  · rw [hx, h]
  · rfl

theorem updateSigma_bc (st : State) (a b e v : Nat) :
    ((updateSigma st a b e).1.node v).bc = (st.node v).bc := by
  unfold updateSigma
  simp only []
  split_ifs
  · rw [pushIfSuccs_bc]
    exact setNode_bc _ _ _ _ rfl
  · rfl

theorem firstUpdate_bc (st : State) (a b e v : Nat) :
    ((firstUpdate st a b e).1.node v).bc = (st.node v).bc := by
  unfold firstUpdate
  simp only []
  rw [pushIfSuccs_bc, setEdge_node]
  refine (setNode_bc _ _ _ _ ?_).trans ((setNode_bc _ _ _ _ ?_).trans
    (setNode_bc _ _ _ _ ?_)) <;> rfl

theorem correctNode_bc (g : Graph) (infinity : Nat) (st : State) (b v : Nat) :
    ((correctNode g infinity st b).node v).bc = (st.node v).bc :=
  ((correctFold g infinity b (g.in_edges b) st (in_edges_nodup g b)).1 v).2.2.2.1

theorem spAndFU_bc (g : Graph) (infinity : Nat) (st : State) (a b e v : Nat) :
    ((spAndFU g infinity st a b e).1.node v).bc = (st.node v).bc := by
  unfold spAndFU
  simp only []
  have hmid : ∀ st2 : State, ((pushUnlessQueued st2 b).1.node v).bc = (st2.node v).bc :=
    fun st2 => pushUnlessQueued_bc st2 b v
  split_ifs
  · rw [correctNode_bc, hmid, setEdge_node]
    refine (setNode_bc _ _ _ _ ?_).trans (setNode_bc _ _ _ _ ?_) <;> rfl
  · rw [hmid, setEdge_node]
    refine (setNode_bc _ _ _ _ ?_).trans (setNode_bc _ _ _ _ ?_) <;> rfl

theorem dagEdge_bc (g : Graph) (infinity a : Nat) (acc : State × List Nat) (e v : Nat) :
    ((dagEdge g infinity a acc e).1.node v).bc = (acc.1.node v).bc := by
  unfold dagEdge
  simp only []
  split_ifs
  · rfl
  · exact spAndFU_bc g infinity acc.1 a (g.dst e) e v
  · exact updateSigma_bc acc.1 a (g.dst e) e v
  · exact firstUpdate_bc acc.1 a (g.dst e) e v
  · rfl

theorem dagItem_bc (g : Graph) (infinity : Nat) (st : State) (a v : Nat) :
    ((dagItem g infinity st a).1.node v).bc = (st.node v).bc := by
  unfold dagItem
  have key : ∀ (l : List Nat) (acc : State × List Nat),
      ((l.foldl (dagEdge g infinity a) acc).1.node v).bc = (acc.1.node v).bc := by
    intro l
    induction l with
    | nil => intro acc; rfl
    | cons e l ih =>
      intro acc
      rw [List.foldl_cons, ih, dagEdge_bc]
  rw [key]
  unfold markOut
  exact setNode_bc _ _ _ _ rfl

theorem dagConstruction_bc {g : Graph} {infinity : Nat} {st stF : State} {wl : List Nat}
    (hrun : dagConstruction g infinity st wl stF) (v : Nat) :
    (stF.node v).bc = (st.node v).bc := by
  unfold dagConstruction at hrun
  induction hrun with
  | done st => rfl
  | step st l₁ a l₂ st' _ ih => rw [ih, dagItem_bc]

/-! ## Backward phase: the predecessor loop -/

theorem backPred_node (N : Nat) (srcDelta : ℚ) (acc : State × List Nat) (p v : Nat) :
    ((backPred N srcDelta acc p).1).node v =
      if v = p then
        { acc.1.node p with
          delta := (acc.1.node p).delta +
            ((acc.1.node p).sigma : ℚ) * (1 + srcDelta) / ((acc.1.node N).sigma : ℚ),
          nsuccs := ((acc.1.node p).nsuccs + 4294967295) % 4294967296 }
      else acc.1.node v := by
  unfold backPred
  simp only []
  split_ifs <;> simp_all [setNode_node]

theorem backPred_edge (N : Nat) (srcDelta : ℚ) (acc : State × List Nat) (p : Nat) :
    ((backPred N srcDelta acc p).1).edge = acc.1.edge := by
  unfold backPred
  simp only []
  split_ifs <;> rfl

theorem backPred_snd (N : Nat) (srcDelta : ℚ) (acc : State × List Nat) (p : Nat) :
    (backPred N srcDelta acc p).2 =
      if (acc.1.node p).nsuccs = 1 then acc.2 ++ [p] else acc.2 := by
  unfold backPred
  simp only []
  split_ifs <;> rfl

theorem count_cons_ite (p v : Nat) (l : List Nat) :
    (p :: l).count v = l.count v + (if v = p then 1 else 0) := by
  rw [List.count_cons]
  by_cases h : v = p
  · subst h; simp
  · have : ¬ (p == v) = true := by simpa using fun hh => h hh.symm
    simp [h, this]

/-- Effect of the predecessor loop of `dependencyBackProp` over the list `l`. -/
theorem backFold (N : Nat) (srcDelta : ℚ) :
    ∀ (l : List Nat) (st : State) (acc : List Nat),
      (∀ u, u ∈ l → l.count u ≤ (st.node u).nsuccs ∧ (st.node u).nsuccs < 4294967296) →
      (∀ v, ((l.foldl (backPred N srcDelta) (st, acc)).1.node v).distance = (st.node v).distance ∧
        ((l.foldl (backPred N srcDelta) (st, acc)).1.node v).sigma = (st.node v).sigma ∧
        ((l.foldl (backPred N srcDelta) (st, acc)).1.node v).preds = (st.node v).preds ∧
        ((l.foldl (backPred N srcDelta) (st, acc)).1.node v).bc = (st.node v).bc ∧
        ((l.foldl (backPred N srcDelta) (st, acc)).1.node v).queued = (st.node v).queued ∧
        ((l.foldl (backPred N srcDelta) (st, acc)).1.node v).nsuccs
          = (st.node v).nsuccs - l.count v ∧
        ((l.foldl (backPred N srcDelta) (st, acc)).1.node v).delta
          = (st.node v).delta + (l.count v : ℚ) *
              (((st.node v).sigma : ℚ) * (1 + srcDelta) / ((st.node N).sigma : ℚ))) ∧
      (l.foldl (backPred N srcDelta) (st, acc)).1.edge = st.edge ∧
      (∀ u, u ∈ (l.foldl (backPred N srcDelta) (st, acc)).2 → u ∈ acc ∨ u ∈ l) ∧
      (∀ u, u ∈ acc → u ∈ (l.foldl (backPred N srcDelta) (st, acc)).2) ∧
      (∀ u, u ∈ l → (st.node u).nsuccs = l.count u →
        u ∈ (l.foldl (backPred N srcDelta) (st, acc)).2) := by
  intro l
  induction l with
  | nil =>
    intro st acc _
    simp
  | cons p l ih =>
    intro st acc hl
    simp only [List.foldl_cons]
    have hp := hl p (List.mem_cons_self p l)
    rw [count_cons_ite, if_pos rfl] at hp
    have hmod : ((st.node p).nsuccs + 4294967295) % 4294967296 = (st.node p).nsuccs - 1 := by
      omega
    have hN1 : ∀ v, ((backPred N srcDelta (st, acc) p).1).node v =
        if v = p then
          { st.node p with
            delta := (st.node p).delta +
              ((st.node p).sigma : ℚ) * (1 + srcDelta) / ((st.node N).sigma : ℚ),
            nsuccs := (st.node p).nsuccs - 1 }
        else st.node v := by
      intro v; rw [backPred_node, hmod]
    have hsig : ∀ v, (((backPred N srcDelta (st, acc) p).1).node v).sigma = (st.node v).sigma := by
      intro v; rw [hN1]; split_ifs with h
      · rw [h]
      · rfl
    have hns : ∀ v, (((backPred N srcDelta (st, acc) p).1).node v).nsuccs
        = (st.node v).nsuccs - (if v = p then 1 else 0) := by
      intro v; rw [hN1]; split_ifs with h
      · rw [h]
      · rfl
    have hE1 := backPred_edge N srcDelta (st, acc) p
    have hS1 := backPred_snd N srcDelta (st, acc) p
    simp only [] at hE1 hS1
    have hl' : ∀ u, u ∈ l → l.count u ≤ (((backPred N srcDelta (st, acc) p).1).node u).nsuccs ∧
        (((backPred N srcDelta (st, acc) p).1).node u).nsuccs < 4294967296 := by
      intro u hu
      have h1 := hl u (List.mem_cons_of_mem p hu)
      rw [hns]
      rw [count_cons_ite] at h1
      split_ifs at h1 ⊢ <;> omega
    have heq : backPred N srcDelta (st, acc) p
        = ((backPred N srcDelta (st, acc) p).1, (backPred N srcDelta (st, acc) p).2) := rfl
    rw [heq]
    obtain ⟨i1, i2, i3, i4, i5⟩ := ih (backPred N srcDelta (st, acc) p).1
      (backPred N srcDelta (st, acc) p).2 hl'
    refine ⟨?_, ?_, ?_, ?_, ?_⟩
    · intro v
      obtain ⟨j1, j2, j3, j4, j7, j5, j6⟩ := i1 v
      rw [j1, j2, j3, j4, j7, j5, j6, hsig, hsig, hns]
      rw [hN1, count_cons_ite]
      by_cases hvp : v = p
      · subst hvp
        simp only [if_true]
        refine ⟨trivial, trivial, trivial, trivial, trivial, by omega, ?_⟩
        push_cast
        ring
      · simp only [hvp, if_false]
        refine ⟨trivial, trivial, trivial, trivial, trivial, by omega, ?_⟩
        simp
    · rw [i2, hE1]
    · intro u hu
      rcases i3 u hu with h1 | h1
      · rw [hS1] at h1
        split_ifs at h1
        · rcases List.mem_append.mp h1 with h2 | h2
          · exact Or.inl h2
          · right
            rw [List.mem_singleton] at h2
            rw [h2]; exact List.mem_cons_self p l
        · exact Or.inl h1
      · exact Or.inr (List.mem_cons_of_mem p h1)
    · intro u hu
      apply i4
      rw [hS1]
      split_ifs
      · exact List.mem_append_left _ hu
      · exact hu
    · intro u hu hcnt
      rw [count_cons_ite] at hcnt
      by_cases hup : u = p
      · subst hup
        simp only [if_true] at hcnt
        by_cases hmem : u ∈ l
        · apply i5 u hmem
          rw [hns]; simp only [if_true]; omega
        · have hz : l.count u = 0 := List.count_eq_zero_of_not_mem hmem
          apply i4
          rw [hS1, if_pos (by omega)]
          exact List.mem_append_right _ (List.mem_singleton_self u)
      · simp only [hup, if_false] at hcnt
        have hmem : u ∈ l := by
          rcases List.mem_cons.mp hu with h | h
          · exact absurd h hup
          · exact h
        apply i5 u hmem
        rw [hns]; simp only [hup, if_false]; omega

/-! ## Backward phase: one work item -/

theorem BCNode.ext' (x y : BCNode) (h1 : x.distance = y.distance) (h2 : x.nsuccs = y.nsuccs)
    (h3 : x.sigma = y.sigma) (h4 : x.delta = y.delta) (h5 : x.bc = y.bc)
    (h6 : x.preds = y.preds) (h7 : x.queued = y.queued) : x = y := by
  cases x; cases y; simp_all

theorem resetEdges_node (infinity : Nat) :
    ∀ (l : List Nat) (st : State),
      (l.foldl (fun s e => s.setEdge e ((s.edge e).reset infinity)) st).node = st.node := by
  intro l
  induction l with
  | nil => intro st; rfl
  | cons e l ih => intro st; rw [List.foldl_cons, ih]; rfl

theorem backItem_skip (g : Graph) (infinity : Nat) (st : State) (N : Nat)
    (h : (st.node N).nsuccs ≠ 0) : backItem g infinity st N = (st, []) := by
  unfold backItem
  rw [if_neg h]

/-- Effect of the operator of `dependencyBackProp` on a node `N` without pending
successors. -/
theorem backItem_effect (g : Graph) (infinity : Nat) (st : State) (N : Nat)
    (h0 : (st.node N).nsuccs = 0) (hN : N ∉ (st.node N).preds)
    (hl : ∀ u, u ∈ (st.node N).preds →
      (st.node N).preds.count u ≤ (st.node u).nsuccs ∧ (st.node u).nsuccs < 4294967296) :
    (backItem g infinity st N).1.node N =
      { distance := infinity, nsuccs := 0, sigma := 0, delta := 0,
        bc := (st.node N).bc + (st.node N).delta, preds := [], queued := false } ∧
    (∀ v, v ≠ N →
      ((backItem g infinity st N).1.node v).distance = (st.node v).distance ∧
      ((backItem g infinity st N).1.node v).sigma = (st.node v).sigma ∧
      ((backItem g infinity st N).1.node v).preds = (st.node v).preds ∧
      ((backItem g infinity st N).1.node v).bc = (st.node v).bc ∧
      ((backItem g infinity st N).1.node v).queued = (st.node v).queued ∧
      ((backItem g infinity st N).1.node v).nsuccs
        = (st.node v).nsuccs - (st.node N).preds.count v ∧
      ((backItem g infinity st N).1.node v).delta
        = (st.node v).delta + ((st.node N).preds.count v : ℚ) *
            (((st.node v).sigma : ℚ) * (1 + (st.node N).delta) / ((st.node N).sigma : ℚ))) ∧
    (∀ u, u ∈ (backItem g infinity st N).2 → u ∈ (st.node N).preds) ∧
    (∀ u, u ∈ (st.node N).preds → (st.node u).nsuccs = (st.node N).preds.count u →
      u ∈ (backItem g infinity st N).2) := by
  unfold backItem
  rw [if_pos h0]
  simp only [setNode_node_same]
  set st1 := st.setNode N { st.node N with bc := (st.node N).bc + (st.node N).delta } with hst1
  have hne : ∀ v, v ≠ N → st1.node v = st.node v := fun v hv => setNode_node_ne _ _ hv
  have hl1 : ∀ u, u ∈ (st.node N).preds →
      (st.node N).preds.count u ≤ (st1.node u).nsuccs ∧ (st1.node u).nsuccs < 4294967296 := by
    intro u hu
    have huN : u ≠ N := fun h => hN (h ▸ hu)
    rw [hne u huN]
    exact hl u hu
  obtain ⟨f1, f2, f3, f4, f5⟩ := backFold N (st.node N).delta (st.node N).preds st1 [] hl1
  rw [resetEdges_node]
  refine ⟨?_, ?_, ?_, ?_⟩
  · rw [setNode_node_same]
    obtain ⟨j1, j2, j3, j4, j7, j5, j6⟩ := f1 N
    unfold BCNode.reset
    simp only [j4, hst1, setNode_node_same]
  · intro v hv
    rw [setNode_node_ne _ _ hv]
    obtain ⟨j1, j2, j3, j4, j7, j5, j6⟩ := f1 v
    rw [j1, j2, j3, j4, j7, j5, j6, hne v hv]
    refine ⟨rfl, rfl, rfl, rfl, rfl, rfl, ?_⟩
    simp [hst1]
  · intro u hu
    rcases f3 u hu with h | h
    · exact absurd h (List.not_mem_nil u)
    · exact h
  · intro u hu hc
    have huN : u ≠ N := fun h => hN (h ▸ hu)
    apply f5 u hu
    rw [hne u huN]; exact hc

theorem Quiescent.dagFacts {g : Graph} {infinity s : Nat} {F : State}
    (hs : Sizes g infinity) (h : Quiescent g infinity s F) : DagFacts g infinity F where
  node_lt := h.dist_node
  pred_dist := by
    intro w p hp
    obtain ⟨_, h2, h3⟩ := h.mem_preds w p hp
    have := h.dist_succ_lt hs p h2
    exact ⟨h2, by omega, h3⟩
  dist_le := h.dist_le

theorem backItem_inv {g : Graph} {infinity : Nat} {F st : State}
    (hF : DagFacts g infinity F) (l₁ : List Nat) (N : Nat) (l₂ : List Nat)
    (h : BwdInv g infinity F st (l₁ ++ N :: l₂)) :
    BwdInv g infinity F (backItem g infinity st N).1
      (l₁ ++ l₂ ++ (backItem g infinity st N).2) := by
  have hNr : (F.node N).distance ≠ infinity := h.wl_reached N (by simp)
  have hNn : N < g.n := hF.node_lt N hNr
  by_cases h0 : (st.node N).nsuccs = 0
  swap
  · rw [backItem_skip g infinity st N h0]
    simp only [List.append_nil]
    exact { h with
      ready := by
        intro v hv hz
        have := h.ready v hv hz
        rcases List.mem_append.mp this with hm | hm
        · exact List.mem_append_left _ hm
        · rcases List.mem_cons.mp hm with hm | hm
          · subst hm; exact absurd hz h0
          · exact List.mem_append_right _ hm
      wl_reached := by
        intro v hv
        apply h.wl_reached
        rcases List.mem_append.mp hv with hm | hm
        · exact List.mem_append_left _ hm
        · exact List.mem_append_right _ (List.mem_cons_of_mem _ hm) }
  · -- facts on the predecessors of `N`
    have hpreds : ∀ u, u ∈ (st.node N).preds → u ∈ (F.node N).preds ∧ Todo infinity F st N := by
      intro u hu
      by_cases hd : (st.node N).distance = infinity
      · have := (h.done_fields N ⟨hNr, hd⟩).2.2
        rw [this] at hu
        exact absurd hu (List.not_mem_nil u)
      · have ht : Todo infinity F st N := ⟨hNr, hd⟩
        rw [(h.todo_fields N ht).2.1] at hu
        exact ⟨hu, ht⟩
    have hNnot : N ∉ (st.node N).preds := by
      intro hm
      have := (hF.pred_dist N N (hpreds N hm).1).2.2
      omega
    have hpt : ∀ u, u ∈ (st.node N).preds → Todo infinity F st u ∧ u ≠ N := by
      intro u hu
      obtain ⟨huF, hNt⟩ := hpreds u hu
      have hur := (hF.pred_dist N u huF).1
      have huN : u ≠ N := fun hh => hNnot (hh ▸ hu)
      refine ⟨⟨hur, ?_⟩, huN⟩
      intro hd
      have := h.done_occ u N ⟨hur, hd⟩ hNt
      unfold occ at this
      rw [List.count_eq_zero] at this
      exact this huF
    have hl : ∀ u, u ∈ (st.node N).preds →
        (st.node N).preds.count u ≤ (st.node u).nsuccs ∧ (st.node u).nsuccs < 4294967296 := by
      intro u hu
      refine ⟨?_, h.ns_lt u⟩
      obtain ⟨_, hNt⟩ := hpreds u hu
      rw [h.todo_ns u (hpt u hu).1, (h.todo_fields N hNt).2.1]
      have hmem : N ∈ (Finset.range g.n).filter (Todo infinity F st) :=
        Finset.mem_filter.mpr ⟨Finset.mem_range.mpr hNn, hNt⟩
      exact Finset.single_le_sum (f := fun w => occ F u w) (fun _ _ => Nat.zero_le _) hmem
    obtain ⟨e1, e2, e3, e4⟩ := backItem_effect g infinity st N h0 hNnot hl
    set st' := (backItem g infinity st N).1 with hst'
    set pu := (backItem g infinity st N).2 with hpu
    have hdN : (st'.node N).distance = infinity := by rw [e1]
    have hTodo' : ∀ v, Todo infinity F st' v ↔ (Todo infinity F st v ∧ v ≠ N) := by
      intro v
      unfold Todo
      by_cases hv : v = N
      · subst hv; simp [hdN]
      · rw [(e2 v hv).1]; simp [hv]
    have hDone' : ∀ v, Done infinity F st' v ↔ (Done infinity F st v ∨ v = N) := by
      intro v
      unfold Done
      by_cases hv : v = N
      · subst hv; simp [hdN, hNr]
      · rw [(e2 v hv).1]; simp [hv]
    have hcount0 : ∀ v, v ∉ (st.node N).preds → (st.node N).preds.count v = 0 :=
      fun v hv => List.count_eq_zero_of_not_mem hv
    have hsame : ∀ v, v ≠ N → v ∉ (st.node N).preds → st'.node v = st.node v := by
      intro v hv hnp
      obtain ⟨j1, j2, j3, j4, j5, j6, j7⟩ := e2 v hv
      apply BCNode.ext' _ _ j1 _ j2 _ j4 j3 j5
      · rw [j6, hcount0 v hnp]; rfl
      · rw [j7, hcount0 v hnp]; simp
    -- the processed node `N`: either already accumulated, or to do
    have hbc' : ∀ v, v ≠ N → (st'.node v).bc = (st.node v).bc := fun v hv => (e2 v hv).2.2.2.1
    have hshare : ∀ u w, w ≠ N → share F st' u w = share F st u w := by
      intro u w hw; unfold share; rw [hbc' w hw]
    have hDfilter : ∀ (f : Nat → ℚ), Todo infinity F st N →
        ∑ w in (Finset.range g.n).filter (Done infinity F st'), f w
          = f N + ∑ w in (Finset.range g.n).filter (Done infinity F st), f w := by
      intro f hNt
      have hnot : N ∉ (Finset.range g.n).filter (Done infinity F st) := by
        rw [Finset.mem_filter]; intro hh; exact hNt.2 hh.2.2
      rw [← Finset.sum_insert hnot]
      apply Finset.sum_congr _ (fun _ _ => rfl)
      ext v
      simp only [Finset.mem_filter, Finset.mem_insert, Finset.mem_range, hDone']
      constructor
      · rintro ⟨h1, h2 | h2⟩
        · exact Or.inr ⟨h1, h2⟩
        · exact Or.inl h2
      · rintro (h1 | ⟨h1, h2⟩)
        · exact ⟨h1 ▸ hNn, Or.inr h1⟩
        · exact ⟨h1, Or.inl h2⟩
    have hDfilter0 : Done infinity F st N →
        (Finset.range g.n).filter (Done infinity F st')
          = (Finset.range g.n).filter (Done infinity F st) := by
      intro hNd
      ext v
      simp only [Finset.mem_filter, hDone']
      constructor
      · rintro ⟨h1, h2 | h2⟩
        · exact ⟨h1, h2⟩
        · exact ⟨h1, h2 ▸ hNd⟩
      · rintro ⟨h1, h2⟩
        exact ⟨h1, Or.inl h2⟩
    by_cases hNd : (st.node N).distance = infinity
    · -- `N` had been accumulated before: nothing changes
      have hND : Done infinity F st N := ⟨hNr, hNd⟩
      obtain ⟨d1, d2, d3⟩ := h.done_fields N hND
      have hpe : ∀ v, v ∉ (st.node N).preds := by
        intro v; rw [d3]; exact List.not_mem_nil v
      have hbcN : (st'.node N).bc = (st.node N).bc := by rw [e1, d2]; simp
      have hsame' : ∀ v, v ≠ N → st'.node v = st.node v := fun v hv => hsame v hv (hpe v)
      have hT : ∀ v, Todo infinity F st' v ↔ Todo infinity F st v := by
        intro v; rw [hTodo']
        constructor
        · exact fun hh => hh.1
        · intro hh
          refine ⟨hh, ?_⟩
          intro hv; subst hv; exact hh.2 hNd
      have hTf : (Finset.range g.n).filter (Todo infinity F st')
          = (Finset.range g.n).filter (Todo infinity F st) := by
        apply Finset.filter_congr; intro v _; exact hT v
      have hshare' : ∀ u w, share F st' u w = share F st u w := by
        intro u w
        by_cases hw : w = N
        · subst hw; unfold share; rw [hbcN]
        · exact hshare u w hw
      have hpuE : ∀ u, u ∉ pu := fun u hu => hpe u (e3 u hu)
      constructor
      · intro v hv
        have hvN : v ≠ N := by intro hh; subst hh; exact hNr hv
        rw [hsame' v hvN]; exact h.untouched v hv
      · intro v hv
        have hv0 := (hT v).mp hv
        have hvN : v ≠ N := by intro hh; subst hh; exact hv0.2 hNd
        rw [hsame' v hvN]; exact h.todo_fields v hv0
      · intro v hv
        have hv0 := (hT v).mp hv
        have hvN : v ≠ N := by intro hh; subst hh; exact hv0.2 hNd
        rw [hsame' v hvN, hTf]; exact h.todo_ns v hv0
      · intro v hv
        have hv0 := (hT v).mp hv
        have hvN : v ≠ N := by intro hh; subst hh; exact hv0.2 hNd
        rw [hsame' v hvN, hDfilter0 hND, h.todo_delta v hv0]
        exact Finset.sum_congr rfl (fun w _ => (hshare' v w).symm)
      · intro v
        by_cases hvN : v = N
        · subst hvN; rw [e1]; norm_num
        · rw [hsame' v hvN]; exact h.ns_lt v
      · intro v hv
        by_cases hvN : v = N
        · subst hvN; rw [e1]; exact ⟨rfl, rfl, rfl⟩
        · rw [hsame' v hvN]
          rcases (hDone' v).mp hv with hd | hd
          · exact h.done_fields v hd
          · exact absurd hd hvN
      · intro v hv
        have hvd : Done infinity F st v := by
          rcases (hDone' v).mp hv with hd | hd
          · exact hd
          · rw [hd]; exact hND
        have hbcv : (st'.node v).bc = (st.node v).bc := by
          by_cases hvN : v = N
          · subst hvN; exact hbcN
          · exact hbc' v hvN
        rw [hbcv, hDfilter0 hND, h.done_inc v hvd]
        exact Finset.sum_congr rfl (fun w _ => (hshare' v w).symm)
      · intro v w hv hw
        have hvd : Done infinity F st v := by
          rcases (hDone' v).mp hv with hd | hd
          · exact hd
          · rw [hd]; exact hND
        exact h.done_occ v w hvd ((hT w).mp hw)
      · intro v hv hz
        have hv0 := (hT v).mp hv
        have hvN : v ≠ N := by intro hh; subst hh; exact hv0.2 hNd
        rw [hsame' v hvN] at hz
        have := h.ready v hv0 hz
        apply List.mem_append_left
        rcases List.mem_append.mp this with hm | hm
        · exact List.mem_append_left _ hm
        · rcases List.mem_cons.mp hm with hm | hm
          · exact absurd hm hvN
          · exact List.mem_append_right _ hm
      · intro v hv
        rcases List.mem_append.mp hv with hm | hm
        · apply h.wl_reached
          rcases List.mem_append.mp hm with hm | hm
          · exact List.mem_append_left _ hm
          · exact List.mem_append_right _ (List.mem_cons_of_mem _ hm)
        · exact absurd hm (hpuE v)
    · -- `N` is accumulated now
      have hNt : Todo infinity F st N := ⟨hNr, hNd⟩
      obtain ⟨t1, t2, t3⟩ := h.todo_fields N hNt
      have hoccN : ∀ w, Todo infinity F st w → occ F N w = 0 := by
        intro w hw
        have hsum := h.todo_ns N hNt
        rw [h0] at hsum
        have := (Finset.sum_eq_zero_iff.mp hsum.symm) w
          (Finset.mem_filter.mpr ⟨Finset.mem_range.mpr (hF.node_lt w hw.1), hw⟩)
        exact this
      have hoccNN : occ F N N = 0 := hoccN N hNt
      have hcnt : ∀ v, (st.node N).preds.count v = occ F v N := by
        intro v; unfold occ; rw [t2]
      have hTf : (Finset.range g.n).filter (Todo infinity F st')
          = ((Finset.range g.n).filter (Todo infinity F st)).erase N := by
        ext v
        simp only [Finset.mem_filter, Finset.mem_erase, hTodo']
        constructor
        · rintro ⟨h1, h2, h3⟩; exact ⟨h3, h1, h2⟩
        · rintro ⟨h3, h1, h2⟩; exact ⟨h1, h2, h3⟩
      have hNmem : N ∈ (Finset.range g.n).filter (Todo infinity F st) :=
        Finset.mem_filter.mpr ⟨Finset.mem_range.mpr hNn, hNt⟩
      have hincN : (st'.node N).bc - (F.node N).bc = (st.node N).delta := by
        rw [e1, t3]; simp
      have hshareN : ∀ u, share F st' u N
          = (occ F u N : ℚ) * (((F.node u).sigma : ℚ) * (1 + (st.node N).delta)
              / ((F.node N).sigma : ℚ)) := by
        intro u; unfold share; rw [hincN]
      constructor
      · intro v hv
        have hvN : v ≠ N := by intro hh; subst hh; exact hNr hv
        have hvp : v ∉ (st.node N).preds := by
          intro hm; exact (hpt v hm).1.1 hv
        rw [hsame v hvN hvp]; exact h.untouched v hv
      · intro v hv
        obtain ⟨hv0, hvN⟩ := (hTodo' v).mp hv
        obtain ⟨j1, j2, j3, j4, j5, j6, j7⟩ := e2 v hvN
        rw [j2, j3, j4]; exact h.todo_fields v hv0
      · intro v hv
        obtain ⟨hv0, hvN⟩ := (hTodo' v).mp hv
        obtain ⟨j1, j2, j3, j4, j5, j6, j7⟩ := e2 v hvN
        rw [j6, hTf, hcnt, h.todo_ns v hv0, ← Finset.add_sum_erase _ _ hNmem]
        omega
      · intro v hv
        obtain ⟨hv0, hvN⟩ := (hTodo' v).mp hv
        obtain ⟨j1, j2, j3, j4, j5, j6, j7⟩ := e2 v hvN
        rw [j7, hDfilter _ hNt, hshareN, hcnt, h.todo_delta v hv0,
          (h.todo_fields v hv0).1, t1, add_comm]
        congr 1
        apply Finset.sum_congr rfl
        intro w hw
        have hwN : w ≠ N := by
          intro hh; subst hh
          exact hNd (Finset.mem_filter.mp hw).2.2
        exact (hshare v w hwN).symm
      · intro v
        by_cases hvN : v = N
        · subst hvN; rw [e1]; norm_num
        · rw [(e2 v hvN).2.2.2.2.2.1]
          have := h.ns_lt v
          omega
      · intro v hv
        by_cases hvN : v = N
        · subst hvN; rw [e1]; exact ⟨rfl, rfl, rfl⟩
        · have hvd : Done infinity F st v := by
            rcases (hDone' v).mp hv with hd | hd
            · exact hd
            · exact absurd hd hvN
          have hvp : v ∉ (st.node N).preds := by
            intro hm; exact (hpt v hm).1.2 hvd.2
          rw [hsame v hvN hvp]; exact h.done_fields v hvd
      · intro v hv
        rw [hDfilter _ hNt]
        by_cases hvN : v = N
        · subst hvN
          rw [hincN, hshareN, hoccNN, h.todo_delta v hNt]
          simp only [Nat.cast_zero, zero_mul, zero_add]
          apply Finset.sum_congr rfl
          intro w hw
          have hwN : w ≠ v := by
            intro hh; subst hh
            exact hNd (Finset.mem_filter.mp hw).2.2
          exact (hshare v w hwN).symm
        · have hvd : Done infinity F st v := by
            rcases (hDone' v).mp hv with hd | hd
            · exact hd
            · exact absurd hd hvN
          rw [hbc' v hvN, hshareN, h.done_occ v N hvd hNt, h.done_inc v hvd]
          simp only [Nat.cast_zero, zero_mul, zero_add]
          apply Finset.sum_congr rfl
          intro w hw
          have hwN : w ≠ N := by
            intro hh; subst hh
            exact hNd (Finset.mem_filter.mp hw).2.2
          exact (hshare v w hwN).symm
      · intro v w hv hw
        obtain ⟨hw0, hwN⟩ := (hTodo' w).mp hw
        rcases (hDone' v).mp hv with hd | hd
        · exact h.done_occ v w hd hw0
        · rw [hd]; exact hoccN w hw0
      · intro v hv hz
        obtain ⟨hv0, hvN⟩ := (hTodo' v).mp hv
        rw [(e2 v hvN).2.2.2.2.2.1] at hz
        by_cases hvp : v ∈ (st.node N).preds
        · apply List.mem_append_right
          apply e4 v hvp
          have := (hl v hvp).1
          omega
        · rw [hcount0 v hvp] at hz
          have := h.ready v hv0 (by omega)
          apply List.mem_append_left
          rcases List.mem_append.mp this with hm | hm
          · exact List.mem_append_left _ hm
          · rcases List.mem_cons.mp hm with hm | hm
            · exact absurd hm hvN
            · exact List.mem_append_right _ hm
      · intro v hv
        rcases List.mem_append.mp hv with hm | hm
        · apply h.wl_reached
          rcases List.mem_append.mp hm with hm | hm
          · exact List.mem_append_left _ hm
          · exact List.mem_append_right _ (List.mem_cons_of_mem _ hm)
        · exact (hpt v (e3 v hm)).1.1

/-! ## The backward phase from the final forward state -/

theorem Quiescent.valid_iff {g : Graph} {infinity s : Nat} {F : State}
    (h : Quiescent g infinity s F) (x : Nat) (hx : x < g.m) :
    Valid g infinity F x ↔
      ((F.node (g.src x)).distance ≠ infinity ∧
        (F.node (g.dst x)).distance = (F.node (g.src x)).distance + 1) := by
  constructor
  · intro hv
    exact ⟨by rw [← hv.1]; exact hv.2, h.valid_dst x hx hv⟩
  · rintro ⟨h1, h2⟩
    have := h.validated x hx (fun hf => hf) h1 h2
    exact ⟨this, by rw [this]; exact h1⟩

/-- At quiescence the occurrences of `v` in `preds w` are the validated edges from `v`
to `w`. -/
theorem Quiescent.occ_eq {g : Graph} {infinity s : Nat} {F : State}
    (h : Quiescent g infinity s F) (v w : Nat) :
    occ F v w = ((succEdges g infinity F v).filter (fun x => g.dst x = w)).card := by
  unfold occ
  rw [← Multiset.coe_count, h.preds_eq, Multiset.count_map, ← Finset.filter_val,
    ← Finset.card_def]
  congr 1
  ext x
  simp only [Finset.mem_filter, mem_succEdges]
  rw [h.predEdges_spec]
  constructor
  · rintro ⟨⟨h1, h2, h3, h4⟩, h5⟩
    exact ⟨⟨h1, h5.symm, (h.valid_iff x h1).mpr ⟨h3, by rw [h2]; exact h4.symm⟩⟩, h2⟩
  · rintro ⟨⟨h1, h2, h3⟩, h4⟩
    obtain ⟨h5, h6⟩ := (h.valid_iff x h1).mp h3
    exact ⟨⟨h1, h4, h5, by rw [← h4]; exact h6.symm⟩, h2.symm⟩

theorem Quiescent.nsuccs_sum {g : Graph} {infinity s : Nat} {F : State}
    (hwf : g.WF) (h : Quiescent g infinity s F) (v : Nat) :
    (F.node v).nsuccs = ∑ w in Finset.range g.n, occ F v w := by
  rw [h.nsuccs_eq]
  rw [Finset.card_eq_sum_card_fiberwise (f := g.dst) (t := Finset.range g.n)]
  · apply Finset.sum_congr rfl
    intro w _
    rw [h.occ_eq]
  · intro x hx
    exact Finset.mem_range.mpr (hwf x (mem_succEdges.mp hx).1).2

theorem occ_unreached {g : Graph} {infinity : Nat} {F : State} (hF : DagFacts g infinity F)
    (v w : Nat) (hw : (F.node w).distance = infinity) : occ F v w = 0 := by
  unfold occ
  rw [List.count_eq_zero]
  intro hm
  exact (hF.pred_dist w v hm).2.1 hw

theorem findLeaves_inv {g : Graph} {infinity s : Nat} {F : State}
    (hs : Sizes g infinity) (hwf : g.WF) (h : Quiescent g infinity s F) :
    BwdInv g infinity F F (findLeaves infinity F g.n) := by
  have hF := h.dagFacts hs
  have hT : ∀ v, Todo infinity F F v ↔ (F.node v).distance ≠ infinity := by
    intro v; unfold Todo; exact and_self_iff
  have hD : ∀ v, ¬ Done infinity F F v := by
    intro v hd; exact hd.1 hd.2
  have hDf : (Finset.range g.n).filter (Done infinity F F) = ∅ := by
    apply Finset.filter_eq_empty_iff.mpr
    intro v _; exact hD v
  constructor
  · intro v _; rfl
  · intro v _; exact ⟨rfl, rfl, rfl⟩
  · intro v _
    rw [h.nsuccs_sum hwf v]
    symm
    apply Finset.sum_filter_of_ne
    intro w _ hne
    rw [hT]
    intro hw
    exact hne (occ_unreached hF v w hw)
  · intro v _
    rw [hDf, h.delta_zero]; rfl
  · intro v
    have := h.nsuccs_lt hs v
    omega
  · intro v hv; exact absurd hv (hD v)
  · intro v hv; exact absurd hv (hD v)
  · intro v w hv; exact absurd hv (hD v)
  · intro v hv hz
    unfold findLeaves
    rw [List.mem_filter, List.mem_range]
    have := h.dist_le v
    have hne := hv.1
    refine ⟨h.dist_node v hne, ?_⟩
    simp only [decide_eq_true_eq]
    exact ⟨hz, by omega⟩
  · intro v hv
    unfold findLeaves at hv
    rw [List.mem_filter] at hv
    have := hv.2
    simp only [decide_eq_true_eq] at this
    omega

theorem dependencyBackProp_inv {g : Graph} {infinity s : Nat} {F stB : State}
    (hs : Sizes g infinity) (hwf : g.WF) (h : Quiescent g infinity s F)
    (hrun : dependencyBackProp g infinity F (findLeaves infinity F g.n) stB) :
    BwdInv g infinity F stB [] :=
  @Drains.invariant (backItem g infinity)
    (fun st W => BwdInv g infinity F st W)
    (fun _ l₁ a l₂ hi => backItem_inv (h.dagFacts hs) l₁ a l₂ hi) _ _ _ hrun
    (findLeaves_inv hs hwf h)

/-- When the backward work list is empty every reached node has been accumulated. -/
theorem BwdInv.all_done {g : Graph} {infinity : Nat} {F st : State}
    (hF : DagFacts g infinity F) (h : BwdInv g infinity F st []) :
    ∀ k v, infinity - (F.node v).distance = k → (F.node v).distance ≠ infinity →
      Done infinity F st v := by
  intro k
  induction k using Nat.strong_induction_on with
  | _ k ih =>
    intro v hk hv
    by_contra hnd
    have hvt : Todo infinity F st v := ⟨hv, fun hd => hnd ⟨hv, hd⟩⟩
    have hns : (st.node v).nsuccs ≠ 0 := by
      intro hz
      exact absurd (h.ready v hvt hz) (List.not_mem_nil v)
    rw [h.todo_ns v hvt] at hns
    obtain ⟨w, hw, hne⟩ := Finset.exists_ne_zero_of_sum_ne_zero hns
    have hwt : Todo infinity F st w := (Finset.mem_filter.mp hw).2
    have hmem : v ∈ (F.node w).preds := by
      by_contra hnm
      exact hne (List.count_eq_zero_of_not_mem hnm)
    obtain ⟨_, h2, h3⟩ := hF.pred_dist w v hmem
    have hle := hF.dist_le w
    have := ih (infinity - (F.node w).distance) (by omega) w rfl h2
    exact hwt.2 this.2

/-- Result of the backward phase: every reached node is reset, and the amount added to
its `bc` is the sum of the shares handed over by its dependents. -/
theorem dependencyBackProp_result {g : Graph} {infinity s : Nat} {F stB : State}
    (hs : Sizes g infinity) (hwf : g.WF) (h : Quiescent g infinity s F)
    (hrun : dependencyBackProp g infinity F (findLeaves infinity F g.n) stB) :
    (∀ v, (F.node v).distance = infinity → stB.node v = F.node v) ∧
    (∀ v, (F.node v).distance ≠ infinity →
      (stB.node v).distance = infinity ∧ (stB.node v).nsuccs = 0 ∧
      (stB.node v).delta = 0 ∧ (stB.node v).preds = [] ∧
      (stB.node v).bc - (F.node v).bc = ∑ w in Finset.range g.n, share F stB v w) := by
  have hF := h.dagFacts hs
  have hB := dependencyBackProp_inv hs hwf h hrun
  refine ⟨hB.untouched, ?_⟩
  intro v hv
  have hd := hB.all_done hF _ v rfl hv
  obtain ⟨d1, d2, d3⟩ := hB.done_fields v hd
  refine ⟨hd.2, d1, d2, d3, ?_⟩
  rw [hB.done_inc v hd]
  apply Finset.sum_filter_of_ne
  intro w _ hne
  apply hB.all_done hF _ w rfl
  intro hw
  apply hne
  unfold share
  rw [occ_unreached hF v w hw]
  simp

theorem firstHit_some (p : Nat → Bool) :
    ∀ fuel k d, firstHit p fuel k = some d ↔
      (k ≤ d ∧ d < k + fuel ∧ p d = true ∧ ∀ j, k ≤ j → j < d → p j = false) := by
  intro fuel
  induction fuel with
  | zero =>
    intro k d
    simp only [firstHit]
    constructor
    · intro h; exact absurd h (by simp)
    · rintro ⟨h1, h2, _⟩; omega
  | succ f ih =>
    intro k d
    simp only [firstHit]
    by_cases hp : p k = true
    · rw [if_pos hp]
      constructor
      · intro h
        have hkd : k = d := by simpa using h
        subst hkd
        exact ⟨le_refl _, by omega, hp, fun j h1 h2 => by omega⟩
      · rintro ⟨h1, h2, h3, h4⟩
        by_cases hkd : k = d
        · rw [hkd]
        · have := h4 k (le_refl _) (by omega)
          rw [hp] at this
          exact absurd this (by simp)
    · rw [if_neg hp, ih]
      have hpf : p k = false := by simpa using hp
      constructor
      · rintro ⟨h1, h2, h3, h4⟩
        refine ⟨by omega, by omega, h3, ?_⟩
        intro j hj1 hj2
        by_cases hjk : j = k
        · rw [hjk]; exact hpf
        · exact h4 j (by omega) hj2
      · rintro ⟨h1, h2, h3, h4⟩
        have hkd : k ≠ d := by
          intro hkd; rw [hkd] at hp; exact hp h3
        exact ⟨by omega, by omega, h3, fun j hj1 hj2 => h4 j (by omega) hj2⟩

theorem firstHit_none (p : Nat → Bool) :
    ∀ fuel k, (∀ j, k ≤ j → j < k + fuel → p j = false) → firstHit p fuel k = none := by
  intro fuel
  induction fuel with
  | zero => intro k _; rfl
  | succ f ih =>
    intro k h
    simp only [firstHit]
    rw [if_neg (by rw [h k (le_refl _) (by omega)]; simp)]
    exact ih (k + 1) (fun j h1 h2 => h j (by omega) (by omega))

theorem walkCount_of_walk (g : Graph) (s : Nat) :
    ∀ k v, Walk g s k v → walkCount g s k v ≠ 0 := by
  intro k v hw
  induction hw with
  | nil => simp [walkCount]
  | cons k u e _ he hsrc ih =>
    rw [walkCount_succ]
    have hmem : e ∈ (Finset.range g.m).filter (fun x => g.dst x = g.dst e) :=
      Finset.mem_filter.mpr ⟨Finset.mem_range.mpr he, rfl⟩
    have := Finset.single_le_sum (f := fun x => walkCount g s k (g.src x))
      (fun _ _ => Nat.zero_le _) hmem
    simp only [] at this
    rw [hsrc] at this
    omega

theorem Quiescent.hopDist_reached {g : Graph} {infinity s : Nat} {F : State}
    (hs : Sizes g infinity) (h : Quiescent g infinity s F) (v : Nat)
    (hv : (F.node v).distance ≠ infinity) : hopDist g s v = some (F.node v).distance := by
  unfold hopDist
  rw [firstHit_some]
  have h1 := h.dist_cnt v hv
  have h2 := reachedCount_le g infinity F
  refine ⟨Nat.zero_le _, by omega, ?_, ?_⟩
  · simp only [decide_eq_true_eq]
    exact walkCount_of_walk g s _ v (h.walk v hv)
  · intro j _ hj
    simp only [decide_eq_false_iff_not, not_not]
    by_contra hne
    have := (h.reached_of_walk hs j v (walk_of_walkCount g s j v hne)).2
    omega

theorem Quiescent.hopDist_unreached {g : Graph} {infinity s : Nat} {F : State}
    (hs : Sizes g infinity) (h : Quiescent g infinity s F) (v : Nat)
    (hv : (F.node v).distance = infinity) : hopDist g s v = none := by
  unfold hopDist
  apply firstHit_none
  intro j _ _
  simp only [decide_eq_false_iff_not, not_not]
  by_contra hne
  exact (h.reached_of_walk hs j v (walk_of_walkCount g s j v hne)).1 hv

/-! ## The increments of `bc` are the reference dependencies -/

theorem listSum_filter_range (m : Nat) (p : Nat → Prop) [DecidablePred p] (f : Nat → ℚ) :
    (((List.range m).filter (fun x => decide (p x))).map f).sum
      = ∑ e in (Finset.range m).filter p, f e := by
  rfl

theorem dependencyAux_succ (g : Graph) (s fuel v : Nat) :
    dependencyAux g s (fuel + 1) v
      = ∑ x in (Finset.range g.m).filter (fun x => g.src x = v ∧ onDag g s x = true),
          (sigmaRef g s v : ℚ) / (sigmaRef g s (g.dst x) : ℚ)
            * (1 + dependencyAux g s fuel (g.dst x)) := by
  rfl

theorem Quiescent.sigmaRef_eq {g : Graph} {infinity s : Nat} {F : State}
    (hs : Sizes g infinity) (h : Quiescent g infinity s F) (v : Nat)
    (hv : (F.node v).distance ≠ infinity) : sigmaRef g s v = (F.node v).sigma := by
  unfold sigmaRef
  rw [h.hopDist_reached hs v hv]
  exact (h.sigma_count hs _ v hv rfl).symm

theorem Quiescent.onDag_iff {g : Graph} {infinity s : Nat} {F : State}
    (hs : Sizes g infinity) (h : Quiescent g infinity s F) (x : Nat) (hx : x < g.m) :
    onDag g s x = true ↔ Valid g infinity F x := by
  rw [h.valid_iff x hx]
  unfold onDag
  by_cases h1 : (F.node (g.src x)).distance = infinity
  · rw [h.hopDist_unreached hs _ h1]
    simp [h1]
  · rw [h.hopDist_reached hs _ h1]
    by_cases h2 : (F.node (g.dst x)).distance = infinity
    · rw [h.hopDist_unreached hs _ h2]
      have := h.dist_succ_lt hs _ h1
      simp only [h1, ne_eq, not_false_eq_true, true_and]
      constructor
      · intro hh; exact absurd hh (by simp)
      · intro hh; omega
    · rw [h.hopDist_reached hs _ h2]
      simp [h1]

theorem Quiescent.dagOut_eq {g : Graph} {infinity s : Nat} {F : State}
    (hs : Sizes g infinity) (h : Quiescent g infinity s F) (v : Nat) :
    (Finset.range g.m).filter (fun x => g.src x = v ∧ onDag g s x = true)
      = succEdges g infinity F v := by
  ext x
  rw [Finset.mem_filter, Finset.mem_range, mem_succEdges]
  constructor
  · rintro ⟨h1, h2, h3⟩; exact ⟨h1, h2, (h.onDag_iff hs x h1).mp h3⟩
  · rintro ⟨h1, h2, h3⟩; exact ⟨h1, h2, (h.onDag_iff hs x h1).mpr h3⟩

/-- A sum over the dependents `w`, weighted by the occurrences of `v` in `preds w`, is a
sum over the DAG edges leaving `v`. -/
theorem Quiescent.sum_occ {g : Graph} {infinity s : Nat} {F : State}
    (hwf : g.WF) (h : Quiescent g infinity s F) (v : Nat) (G : Nat → ℚ) :
    ∑ w in Finset.range g.n, (occ F v w : ℚ) * G w
      = ∑ x in succEdges g infinity F v, G (g.dst x) := by
  rw [← Finset.sum_fiberwise_of_maps_to (s := succEdges g infinity F v)
    (t := Finset.range g.n) (g := g.dst)
    (fun x hx => Finset.mem_range.mpr (hwf x (mem_succEdges.mp hx).1).2)]
  apply Finset.sum_congr rfl
  intro w _
  rw [h.occ_eq]
  rw [Finset.sum_congr rfl (fun x hx => by rw [(Finset.mem_filter.mp hx).2] :
    ∀ x ∈ (succEdges g infinity F v).filter (fun x => g.dst x = w), G (g.dst x) = G w)]
  rw [Finset.sum_const, nsmul_eq_mul]

theorem dependencyAux_unreached {g : Graph} {infinity s : Nat} {F : State}
    (hs : Sizes g infinity) (h : Quiescent g infinity s F) (v : Nat)
    (hv : (F.node v).distance = infinity) (fuel : Nat) : dependencyAux g s fuel v = 0 := by
  cases fuel with
  | zero => rfl
  | succ f =>
    rw [dependencyAux_succ, h.dagOut_eq hs v]
    apply Finset.sum_eq_zero
    intro x hx
    obtain ⟨h1, h2, h3⟩ := mem_succEdges.mp hx
    have := ((h.valid_iff x h1).mp h3).1
    rw [h2] at this
    exact absurd hv this

/-- The amounts added to `bc` by the backward phase solve the dependency recursion. -/
theorem dependency_of_shares {g : Graph} {infinity s : Nat} {F : State}
    (hs : Sizes g infinity) (hwf : g.WF) (h : Quiescent g infinity s F) (inc : Nat → ℚ)
    (hinc : ∀ v, (F.node v).distance ≠ infinity →
      inc v = ∑ w in Finset.range g.n,
        (occ F v w : ℚ) * (((F.node v).sigma : ℚ) * (1 + inc w) / ((F.node w).sigma : ℚ))) :
    ∀ fuel v, (F.node v).distance ≠ infinity → g.n ≤ (F.node v).distance + fuel →
      inc v = dependencyAux g s fuel v := by
  intro fuel
  induction fuel with
  | zero =>
    intro v hv hn
    have h1 := h.dist_cnt v hv
    have h2 := reachedCount_le g infinity F
    omega
  | succ f ih =>
    intro v hv hn
    rw [hinc v hv, h.sum_occ hwf v
      (fun w => ((F.node v).sigma : ℚ) * (1 + inc w) / ((F.node w).sigma : ℚ)),
      dependencyAux_succ, h.dagOut_eq hs v]
    apply Finset.sum_congr rfl
    intro x hx
    obtain ⟨h1, h2, h3⟩ := mem_succEdges.mp hx
    obtain ⟨h4, h5⟩ := (h.valid_iff x h1).mp h3
    rw [h2] at h4 h5
    have hdr : (F.node (g.dst x)).distance ≠ infinity := by
      have := h.dist_succ_lt hs v hv; omega
    rw [h.sigmaRef_eq hs v hv, h.sigmaRef_eq hs _ hdr, ← ih (g.dst x) hdr (by omega)]
    rw [mul_div_right_comm]

/-! ## One source iteration and the source loop -/

theorem cleanup_bc (infinity nnodes nedges : Nat) (st : State) (v : Nat) :
    ((cleanup infinity nnodes nedges st).node v).bc = (st.node v).bc := by
  unfold cleanup
  simp only []
  split_ifs <;> rfl

theorem seedSource_bc (st : State) (s v : Nat) :
    ((seedSource st s).node v).bc = (st.node v).bc := by
  unfold seedSource
  exact setNode_bc _ _ _ _ rfl

theorem finishSource_bc (g : Graph) (infinity s : Nat) (b : ℚ) (stB : State) (v : Nat) :
    ((finishSource g infinity s b stB).node v).bc = if v = s then b else (stB.node v).bc := by
  unfold finishSource
  rw [cleanup_bc, setNode_node]
  split_ifs <;> rfl

/-- After the forward phase the nodes that were not reached are neutral. -/
theorem Quiescent.neutral_unreached {g : Graph} {infinity s : Nat} {F : State}
    (hs : Sizes g infinity) (h : Quiescent g infinity s F) (v : Nat)
    (hv : (F.node v).distance = infinity) :
    (F.node v).distance = infinity ∧ (F.node v).nsuccs = 0 ∧ (F.node v).sigma = 0 ∧
      (F.node v).delta = 0 ∧ (F.node v).preds = [] ∧ (F.node v).queued = false := by
  refine ⟨hv, ?_, (h.unreached v hv).1, h.delta_zero v, h.preds_unreached hs v hv,
    (h.unreached v hv).2⟩
  rw [h.nsuccs_eq, Finset.card_eq_zero]
  apply Finset.eq_empty_of_forall_not_mem
  intro x hx
  obtain ⟨_, h2, h3⟩ := mem_succEdges.mp hx
  apply h3.2
  rw [h3.1, h2]
  exact hv

/-- One source iteration adds the reference dependencies to `bc`, leaves the `bc` of the
source as it was, and ends with neutral records. -/
theorem sourceIteration_spec {g : Graph} {infinity s : Nat} {st st' : State}
    (hs : Sizes g infinity) (hwf : g.WF) (hsn : s < g.n) (hn : Neutral g infinity st)
    (hit : sourceIteration g infinity s st st') :
    (∀ v, (st'.node v).bc = (st.node v).bc + (if v = s then 0 else dependency g s v)) ∧
    Neutral g infinity st' := by
  obtain ⟨stF, stB, hF, hB, hst'⟩ := hit
  have hq : Quiescent g infinity s stF := dagConstruction_inv hs hwf hsn hn hF
  have hbcF : ∀ v, (stF.node v).bc = (st.node v).bc := by
    intro v; rw [dagConstruction_bc hF v, seedSource_bc]
  obtain ⟨r1, r2⟩ := dependencyBackProp_result hs hwf hq hB
  have hinc : ∀ v, (stF.node v).distance ≠ infinity →
      (stB.node v).bc - (stF.node v).bc = dependency g s v := by
    intro v hv
    unfold dependency
    apply dependency_of_shares hs hwf hq (fun v => (stB.node v).bc - (stF.node v).bc) _
      g.n v hv (by omega)
    intro u hu
    exact (r2 u hu).2.2.2.2
  constructor
  · intro v
    rw [hst', finishSource_bc]
    by_cases hvs : v = s
    · rw [if_pos hvs, if_pos hvs, hbcF, hvs]; simp
    · rw [if_neg hvs, if_neg hvs]
      by_cases hv : (stF.node v).distance = infinity
      · rw [r1 v hv, hbcF]
        unfold dependency
        rw [dependencyAux_unreached hs hq v hv]
        simp
      · have := hinc v hv
        rw [hbcF] at this
        linarith
  · rw [hst']
    unfold finishSource cleanup
    constructor
    · intro v
      simp only []
      by_cases hvn : v < g.n
      · rw [if_pos hvn]
        exact ⟨rfl, rfl, rfl, rfl, rfl, rfl⟩
      · rw [if_neg hvn]
        have hvs : v ≠ s := by omega
        rw [setNode_node_ne _ _ hvs]
        have hv : (stF.node v).distance = infinity := by
          by_contra hne
          exact hvn (hq.dist_node v hne)
        rw [r1 v hv]
        exact hq.neutral_unreached hs v hv
    · intro e he
      simp only []
      rw [if_pos he]
      rfl

theorem sourceLoop_spec {g : Graph} {infinity : Nat}
    (hs : Sizes g infinity) (hwf : g.WF) {srcs : List Nat} {st st' : State}
    (hrun : sourceLoop g infinity srcs st st') :
    Neutral g infinity st → (∀ i, i ∈ srcs → i < g.n) →
    (∀ v, (st'.node v).bc = (st.node v).bc + (srcs.map (fun i => contribution g i v)).sum) ∧
    Neutral g infinity st' := by
  induction hrun with
  | done st =>
    intro hn _
    exact ⟨fun v => by simp, hn⟩
  | skip i rest st st' he _ ih =>
    intro hn hsrc
    obtain ⟨i1, i2⟩ := ih hn (fun j hj => hsrc j (List.mem_cons_of_mem i hj))
    refine ⟨?_, i2⟩
    intro v
    rw [i1 v, List.map_cons, List.sum_cons]
    unfold contribution
    rw [if_pos he]
    ring
  | iter i rest st st₁ st' he hit _ ih =>
    intro hn hsrc
    obtain ⟨j1, j2⟩ := sourceIteration_spec hs hwf (hsrc i (List.mem_cons_self i rest)) hn hit
    obtain ⟨i1, i2⟩ := ih j2 (fun j hj => hsrc j (List.mem_cons_of_mem i hj))
    refine ⟨?_, i2⟩
    intro v
    rw [i1 v, j1 v, List.map_cons, List.sum_cons]
    have : contribution g i v = if v = i then 0 else dependency g i v := by
      unfold contribution
      rw [if_neg he]
    rw [this]
    ring

theorem runSource_sound {g : Graph} {infinity : Nat} {pick : List Nat → Nat} {fuel i : Nat}
    {st st' : State} (h : runSource g infinity pick fuel i st = some st') :
    sourceIteration g infinity i st st' := by
  unfold runSource at h
  cases hF : drain (dagItem g infinity) pick fuel (seedSource st i) [i] with
  | none => rw [hF] at h; exact absurd h (by simp)
  | some stF =>
    rw [hF] at h
    simp only [] at h
    cases hB : drain (backItem g infinity) pick fuel stF (findLeaves infinity stF g.n) with
    | none => rw [hB] at h; exact absurd h (by simp)
    | some stB =>
      rw [hB] at h
      simp only [Option.some.injEq] at h
      exact ⟨stF, stB, drain_sound _ _ _ _ _ _ hF, drain_sound _ _ _ _ _ _ hB, h.symm⟩

theorem runLoop_sound {g : Graph} {infinity : Nat} {pick : List Nat → Nat} {fuel : Nat} :
    ∀ (srcs : List Nat) (st st' : State),
      runLoop g infinity pick fuel srcs st = some st' → sourceLoop g infinity srcs st st' := by
  intro srcs
  induction srcs with
  | nil =>
    intro st st' h
    simp only [runLoop, Option.some.injEq] at h
    subst h
    exact sourceLoop.done _
  | cons i rest ih =>
    intro st st' h
    simp only [runLoop] at h
    by_cases he : g.edges i = []
    · rw [if_pos he] at h
      exact sourceLoop.skip i rest st st' he (ih _ _ h)
    · rw [if_neg he] at h
      cases hS : runSource g infinity pick fuel i st with
      | none => rw [hS] at h; exact absurd h (by simp)
      | some st₁ =>
        rw [hS] at h
        exact sourceLoop.iter i rest st st₁ st' he (runSource_sound hS) (ih _ _ h)

theorem getD_of_isSome {α : Type} (o : Option α) (d : α) (h : o.isSome = true) :
    o = some (o.getD d) := by
  cases o with
  | none => exact absurd h (by simp)
  | some x => rfl

theorem neutralState_neutral (g : Graph) (infinity : Nat) :
    Neutral g infinity (neutralState infinity) :=
  ⟨fun _ => ⟨rfl, rfl, rfl, rfl, rfl, rfl⟩, fun _ _ => rfl⟩

theorem neutralState_padding (g : Graph) (infinity : Nat) :
    Padding g infinity (neutralState infinity) :=
  fun _ _ => ⟨rfl, rfl, rfl, rfl, rfl, rfl⟩

theorem cleanup_neutral {g : Graph} {infinity : Nat} {st : State}
    (hp : Padding g infinity st) : Neutral g infinity (cleanup infinity g.n g.m st) := by
  unfold cleanup
  constructor
  · intro v
    simp only []
    by_cases hv : v < g.n
    · rw [if_pos hv]; exact ⟨rfl, rfl, rfl, rfl, rfl, rfl⟩
    · rw [if_neg hv]; exact hp v (by omega)
  · intro e he
    simp only []
    rw [if_pos he]
    rfl

theorem sizes_line3 : Sizes line3 inf30 := by decide

theorem wf_line3 : line3.WF := by decide

theorem sizes_path5 : Sizes path5 inf30 := by decide

theorem wf_path5 : path5.WF := by decide

theorem sizes_detour : Sizes detour inf30 := by decide

theorem wf_detour : detour.WF := by decide

theorem line3F_run :
    dagConstruction line3 inf30 (seedSource (neutralState inf30) 0) [0] line3F :=
  drain_sound _ _ _ _ _ _ (getD_of_isSome _ _ (by decide))

theorem line3B_run :
    dependencyBackProp line3 inf30 line3F (findLeaves inf30 line3F line3.n) line3B :=
  drain_sound _ _ _ _ _ _ (getD_of_isSome _ _ (by decide))

/-! ## Claims on the forward phase -/

/-- C1: when the forward phase, started from neutral records with the source `s` seeded
and alone on the work list, reaches an empty work list (whatever the order in which the
items were taken), every node reachable from `s` has its `distance` equal to its
shortest-path hop distance from `s`, and every other node still has the sentinel. -/
theorem forward_distance_correct (g : Graph) (infinity s : Nat) (st stF : State)
    (hs : Sizes g infinity) (hwf : g.WF) (hsn : s < g.n) (hn : Neutral g infinity st)
    (hrun : dagConstruction g infinity (seedSource st s) [s] stF) :
    ∀ v, (Reachable g s v → IsDist g s v (stF.node v).distance) ∧
      (¬ Reachable g s v → (stF.node v).distance = infinity) := by
  have hq := dagConstruction_inv hs hwf hsn hn hrun
  intro v
  exact ⟨hq.isDist hs v, hq.dist_unreachable v⟩

theorem forward_distance_correct_witness :
    Sizes line3 inf30 ∧ line3.WF ∧ 0 < line3.n ∧ Neutral line3 inf30 (neutralState inf30) ∧
    dagConstruction line3 inf30 (seedSource (neutralState inf30) 0) [0] line3F ∧
    ∀ v, (Reachable line3 0 v → IsDist line3 0 v (line3F.node v).distance) ∧
      (¬ Reachable line3 0 v → (line3F.node v).distance = inf30) :=
  ⟨sizes_line3, wf_line3, by decide, neutralState_neutral _ _, line3F_run,
    forward_distance_correct line3 inf30 0 (neutralState inf30) line3F sizes_line3 wf_line3
      (by decide) (neutralState_neutral _ _) line3F_run⟩

/-- C2: when the forward phase reaches an empty work list, the `sigma` of every node
reachable from `s` is the number of shortest paths from `s` to it (walks of exactly the
hop distance, parallel edges counted separately), capped at `2^64 - 1`. -/
theorem forward_sigma_counts_paths (g : Graph) (infinity s : Nat) (st stF : State)
    (hs : Sizes g infinity) (hwf : g.WF) (hsn : s < g.n) (hn : Neutral g infinity st)
    (hrun : dagConstruction g infinity (seedSource st s) [s] stF) :
    ∀ v d, IsDist g s v d →
      (stF.node v).sigma = min (walkCount g s d v) 18446744073709551615 := by
  have hq := dagConstruction_inv hs hwf hsn hn hrun
  intro v d hd
  have hr := hq.reached_of_walk hs d v hd.1
  have hdv : (stF.node v).distance = d := (hq.isDist hs v ⟨d, hd.1⟩).unique hd
  exact hq.sigma_count hs d v hr.1 hdv

theorem line3_isDist : IsDist line3 0 2 2 := by
  have hq := dagConstruction_inv sizes_line3 wf_line3 (by decide)
    (neutralState_neutral line3 inf30) line3F_run
  have hw : Walk line3 0 2 2 :=
    Walk.cons 1 1 1 (Walk.cons 0 0 0 Walk.nil (by decide) rfl) (by decide) rfl
  have := hq.isDist sizes_line3 2 ⟨2, hw⟩
  have h2 : (line3F.node 2).distance = 2 := by decide
  rw [h2] at this
  exact this

theorem forward_sigma_counts_paths_witness :
    Sizes line3 inf30 ∧ line3.WF ∧ 0 < line3.n ∧ Neutral line3 inf30 (neutralState inf30) ∧
    dagConstruction line3 inf30 (seedSource (neutralState inf30) 0) [0] line3F ∧
    IsDist line3 0 2 2 ∧
    (line3F.node 2).sigma = min (walkCount line3 0 2 2) 18446744073709551615 :=
  ⟨sizes_line3, wf_line3, by decide, neutralState_neutral _ _, line3F_run, line3_isDist,
    forward_sigma_counts_paths line3 inf30 0 (neutralState inf30) line3F sizes_line3 wf_line3
      (by decide) (neutralState_neutral _ _) line3F_run 2 2 line3_isDist⟩

/-- C3: when the forward phase reaches an empty work list, `preds` is rooted and acyclic:
the source has no predecessor, every other reachable node has one, every predecessor `p`
of `v` is the tail of an edge to `v` and lies one level above it; hence a chain of
predecessor links from a reachable node never repeats a node and, when it cannot be
extended, ends at the source. -/
theorem forward_preds_rooted_acyclic (g : Graph) (infinity s : Nat) (st stF : State)
    (hs : Sizes g infinity) (hwf : g.WF) (hsn : s < g.n) (hn : Neutral g infinity st)
    (hrun : dagConstruction g infinity (seedSource st s) [s] stF) :
    (stF.node s).preds = [] ∧
    (∀ v, Reachable g s v → v ≠ s → (stF.node v).preds ≠ []) ∧
    (∀ v p, p ∈ (stF.node v).preds →
      (∃ x, x < g.m ∧ g.src x = p ∧ g.dst x = v) ∧
      (stF.node p).distance + 1 = (stF.node v).distance) ∧
    (∀ v c, Reachable g s v → PredChain stF (v :: c) →
      (v :: c).Nodup ∧
      ((stF.node ((v :: c).getLast (List.cons_ne_nil v c))).preds = [] →
        (v :: c).getLast (List.cons_ne_nil v c) = s)) := by
  have hq := dagConstruction_inv hs hwf hsn hn hrun
  refine ⟨hq.preds_src, ?_, ?_, ?_⟩
  · intro v ⟨k, hk⟩ hvs
    exact hq.preds_ne v (hq.reached_of_walk hs k v hk).1 hvs
  · intro v p hp
    obtain ⟨h1, _, h3⟩ := hq.mem_preds v p hp
    exact ⟨h1, h3⟩
  · intro v c ⟨k, hk⟩ hc
    obtain ⟨_, h2, _, h4⟩ := hq.chain c v hc (hq.reached_of_walk hs k v hk).1
    exact ⟨h2, h4⟩

theorem forward_preds_rooted_acyclic_witness :
    Sizes line3 inf30 ∧ line3.WF ∧ 0 < line3.n ∧ Neutral line3 inf30 (neutralState inf30) ∧
    dagConstruction line3 inf30 (seedSource (neutralState inf30) 0) [0] line3F ∧
    ((line3F.node 0).preds = [] ∧
    (∀ v, Reachable line3 0 v → v ≠ 0 → (line3F.node v).preds ≠ []) ∧
    (∀ v p, p ∈ (line3F.node v).preds →
      (∃ x, x < line3.m ∧ line3.src x = p ∧ line3.dst x = v) ∧
      (line3F.node p).distance + 1 = (line3F.node v).distance) ∧
    (∀ v c, Reachable line3 0 v → PredChain line3F (v :: c) →
      (v :: c).Nodup ∧
      ((line3F.node ((v :: c).getLast (List.cons_ne_nil v c))).preds = [] →
        (v :: c).getLast (List.cons_ne_nil v c) = 0))) :=
  ⟨sizes_line3, wf_line3, by decide, neutralState_neutral _ _, line3F_run,
    forward_preds_rooted_acyclic line3 inf30 0 (neutralState inf30) line3F sizes_line3
      wf_line3 (by decide) (neutralState_neutral _ _) line3F_run⟩

/-! ## Claims on the backward phase and the source iteration -/

theorem Quiescent.reached_iff {g : Graph} {infinity s : Nat} {F : State}
    (hs : Sizes g infinity) (h : Quiescent g infinity s F) (v : Nat) :
    Reachable g s v ↔ (F.node v).distance ≠ infinity :=
  ⟨fun ⟨k, hk⟩ => (h.reached_of_walk hs k v hk).1, fun hv => ⟨_, h.walk v hv⟩⟩

/-- After the two phases, the amount added to the `bc` of a reached node is the
reference dependency. -/
theorem backward_increment {g : Graph} {infinity s : Nat} {stF stB : State}
    (hs : Sizes g infinity) (hwf : g.WF) (hq : Quiescent g infinity s stF)
    (hB : dependencyBackProp g infinity stF (findLeaves infinity stF g.n) stB) (v : Nat)
    (hv : (stF.node v).distance ≠ infinity) :
    (stB.node v).bc - (stF.node v).bc = dependency g s v := by
  obtain ⟨_, r2⟩ := dependencyBackProp_result hs hwf hq hB
  unfold dependency
  apply dependency_of_shares hs hwf hq (fun v => (stB.node v).bc - (stF.node v).bc) _
    g.n v hv (by omega)
  intro u hu
  exact (r2 u hu).2.2.2.2

/-- The reference dependency solves the recursion on the DAG recorded in `preds`. -/
theorem dependency_recursion {g : Graph} {infinity s : Nat} {stF stB : State}
    (hs : Sizes g infinity) (hwf : g.WF) (hq : Quiescent g infinity s stF)
    (hB : dependencyBackProp g infinity stF (findLeaves infinity stF g.n) stB) (v : Nat)
    (hv : (stF.node v).distance ≠ infinity) :
    dependency g s v = ∑ w in Finset.range g.n,
      ((stF.node w).preds.count v : ℚ) *
        (((stF.node v).sigma : ℚ) / ((stF.node w).sigma : ℚ) * (1 + dependency g s w)) := by
  obtain ⟨_, r2⟩ := dependencyBackProp_result hs hwf hq hB
  rw [← backward_increment hs hwf hq hB v hv, (r2 v hv).2.2.2.2]
  apply Finset.sum_congr rfl
  intro w _
  unfold share occ
  by_cases hw : (stF.node w).distance = infinity
  · rw [hq.preds_unreached hs w hw]
    simp
  · rw [backward_increment hs hwf hq hB w hw, mul_div_right_comm]

/-- C4: in exact arithmetic, one complete source iteration for `s` (forward phase, leaf
scan, backward phase, restore of `s`, clean-up) adds to the `bc` of every node `v ≠ s`
reachable from `s` the dependency `d(v)`, where `d` solves, on the DAG recorded in `preds`
and `sigma`, `d(v) = Σ_w Σ_(occurrences of v in preds w) sigma(v)/sigma(w) * (1 + d(w))`;
hence after the source loop the `bc` of a node is its initial value plus the sum of the
contributions of the sources processed. -/
theorem source_iteration_adds_dependency (g : Graph) (infinity s : Nat) (st stF stB : State)
    (hs : Sizes g infinity) (hwf : g.WF) (hsn : s < g.n) (hn : Neutral g infinity st)
    (hF : dagConstruction g infinity (seedSource st s) [s] stF)
    (hB : dependencyBackProp g infinity stF (findLeaves infinity stF g.n) stB) :
    (∀ v, Reachable g s v → v ≠ s →
      ((finishSource g infinity s (stF.node s).bc stB).node v).bc
        = (st.node v).bc + dependency g s v) ∧
    (∀ v, Reachable g s v →
      dependency g s v = ∑ w in Finset.range g.n,
        ((stF.node w).preds.count v : ℚ) *
          (((stF.node v).sigma : ℚ) / ((stF.node w).sigma : ℚ) * (1 + dependency g s w))) ∧
    (∀ srcs st₀ st₁, sourceLoop g infinity srcs st₀ st₁ → Neutral g infinity st₀ →
      (∀ i, i ∈ srcs → i < g.n) →
      ∀ v, (st₁.node v).bc
        = (st₀.node v).bc + (srcs.map (fun i => contribution g i v)).sum) := by
  have hq := dagConstruction_inv hs hwf hsn hn hF
  refine ⟨?_, ?_, ?_⟩
  · intro v hv hvs
    have h1 := (sourceIteration_spec hs hwf hsn hn ⟨stF, stB, hF, hB, rfl⟩).1 v
    rw [if_neg hvs] at h1
    exact h1
  · intro v hv
    exact dependency_recursion hs hwf hq hB v ((hq.reached_iff hs v).mp hv)
  · intro srcs st₀ st₁ hrun hn0 hsrc v
    exact (sourceLoop_spec hs hwf hrun hn0 hsrc).1 v

theorem source_iteration_adds_dependency_witness :
    Sizes line3 inf30 ∧ line3.WF ∧ 0 < line3.n ∧ Neutral line3 inf30 (neutralState inf30) ∧
    dagConstruction line3 inf30 (seedSource (neutralState inf30) 0) [0] line3F ∧
    dependencyBackProp line3 inf30 line3F (findLeaves inf30 line3F line3.n) line3B ∧
    ((∀ v, Reachable line3 0 v → v ≠ 0 →
      ((finishSource line3 inf30 0 (line3F.node 0).bc line3B).node v).bc
        = ((neutralState inf30).node v).bc + dependency line3 0 v) ∧
    (∀ v, Reachable line3 0 v →
      dependency line3 0 v = ∑ w in Finset.range line3.n,
        ((line3F.node w).preds.count v : ℚ) *
          (((line3F.node v).sigma : ℚ) / ((line3F.node w).sigma : ℚ)
            * (1 + dependency line3 0 w))) ∧
    (∀ srcs st₀ st₁, sourceLoop line3 inf30 srcs st₀ st₁ → Neutral line3 inf30 st₀ →
      (∀ i, i ∈ srcs → i < line3.n) →
      ∀ v, (st₁.node v).bc
        = (st₀.node v).bc + (srcs.map (fun i => contribution line3 i v)).sum)) :=
  ⟨sizes_line3, wf_line3, by decide, neutralState_neutral _ _, line3F_run, line3B_run,
    source_iteration_adds_dependency line3 inf30 0 (neutralState inf30) line3F line3B
      sizes_line3 wf_line3 (by decide) (neutralState_neutral _ _) line3F_run line3B_run⟩

/-- C5, as amended: after the backward phase every reachable node other than the source
has `nsuccs = 0`, its `delta` field has been reset to 0, and the delta it had accumulated
when it was dequeued (the amount added to its `bc`) is the sum, over its dependents `w` and
the occurrences of the node in `preds w`, of `sigma(u)/sigma(w) * (1 + amount added to w)`. -/
theorem backward_phase_accumulates (g : Graph) (infinity s : Nat) (st stF stB : State)
    (hs : Sizes g infinity) (hwf : g.WF) (hsn : s < g.n) (hn : Neutral g infinity st)
    (hF : dagConstruction g infinity (seedSource st s) [s] stF)
    (hB : dependencyBackProp g infinity stF (findLeaves infinity stF g.n) stB) :
    ∀ u, Reachable g s u → u ≠ s →
      (stB.node u).nsuccs = 0 ∧ (stB.node u).delta = 0 ∧
      (stB.node u).bc - (stF.node u).bc = ∑ w in Finset.range g.n,
        ((stF.node w).preds.count u : ℚ) *
          (((stF.node u).sigma : ℚ) / ((stF.node w).sigma : ℚ)
            * (1 + ((stB.node w).bc - (stF.node w).bc))) := by
  have hq := dagConstruction_inv hs hwf hsn hn hF
  obtain ⟨_, r2⟩ := dependencyBackProp_result hs hwf hq hB
  intro u hu _
  obtain ⟨_, h2, h3, _, h5⟩ := r2 u ((hq.reached_iff hs u).mp hu)
  refine ⟨h2, h3, ?_⟩
  rw [h5]
  apply Finset.sum_congr rfl
  intro w _
  unfold share occ
  rw [mul_div_right_comm]

theorem backward_phase_accumulates_witness :
    Sizes line3 inf30 ∧ line3.WF ∧ 0 < line3.n ∧ Neutral line3 inf30 (neutralState inf30) ∧
    dagConstruction line3 inf30 (seedSource (neutralState inf30) 0) [0] line3F ∧
    dependencyBackProp line3 inf30 line3F (findLeaves inf30 line3F line3.n) line3B ∧
    ∀ u, Reachable line3 0 u → u ≠ 0 →
      (line3B.node u).nsuccs = 0 ∧ (line3B.node u).delta = 0 ∧
      (line3B.node u).bc - (line3F.node u).bc = ∑ w in Finset.range line3.n,
        ((line3F.node w).preds.count u : ℚ) *
          (((line3F.node u).sigma : ℚ) / ((line3F.node w).sigma : ℚ)
            * (1 + ((line3B.node w).bc - (line3F.node w).bc))) :=
  ⟨sizes_line3, wf_line3, by decide, neutralState_neutral _ _, line3F_run, line3B_run,
    backward_phase_accumulates line3 inf30 0 (neutralState inf30) line3F line3B
      sizes_line3 wf_line3 (by decide) (neutralState_neutral _ _) line3F_run line3B_run⟩

/-- C5, as stated, fails: on the line 0 → 1 → 2 with source 0, after the backward phase
the `delta` field of node 1 is 0 (the record was reset), whereas the sum over its
dependents of `sigma(1)/sigma(w) * (1 + delta(w))` is 1. -/
theorem backward_delta_field_counterexample :
    dagConstruction line3 inf30 (seedSource (neutralState inf30) 0) [0] line3F ∧
    dependencyBackProp line3 inf30 line3F (findLeaves inf30 line3F line3.n) line3B ∧
    Reachable line3 0 1 ∧
    (line3B.node 1).delta = 0 ∧
    ∑ w in Finset.range line3.n,
      ((line3F.node w).preds.count 1 : ℚ) *
        (((line3F.node 1).sigma : ℚ) / ((line3F.node w).sigma : ℚ)
          * (1 + (line3B.node w).delta)) = 1 ∧
    (line3B.node 1).delta ≠ ∑ w in Finset.range line3.n,
      ((line3F.node w).preds.count 1 : ℚ) *
        (((line3F.node 1).sigma : ℚ) / ((line3F.node w).sigma : ℚ)
          * (1 + (line3B.node w).delta)) := by
  have hq := dagConstruction_inv sizes_line3 wf_line3 (by decide)
    (neutralState_neutral line3 inf30) line3F_run
  obtain ⟨_, r2⟩ := dependencyBackProp_result sizes_line3 wf_line3 hq line3B_run
  have hp0 : (line3F.node 0).preds = [] := by decide
  have hp1 : (line3F.node 1).preds = [0] := by decide
  have hp2 : (line3F.node 2).preds = [1] := by decide
  have hs1 : (line3F.node 1).sigma = 1 := by decide
  have hs2 : (line3F.node 2).sigma = 1 := by decide
  have hd1 : (line3F.node 1).distance ≠ inf30 := by decide
  have hd2 : (line3F.node 2).distance ≠ inf30 := by decide
  have hw : Walk line3 0 1 1 := Walk.cons 0 0 0 Walk.nil (by decide) rfl
  have hsum : ∑ w in Finset.range line3.n,
      ((line3F.node w).preds.count 1 : ℚ) *
        (((line3F.node 1).sigma : ℚ) / ((line3F.node w).sigma : ℚ)
          * (1 + (line3B.node w).delta)) = 1 := by
    have hn3 : line3.n = 3 := rfl
    rw [hn3, Finset.sum_range_succ, Finset.sum_range_succ, Finset.sum_range_succ,
      Finset.sum_range_zero, hp0, hp1, hp2, hs1, hs2, (r2 2 hd2).2.2.1]
    norm_num
  refine ⟨line3F_run, line3B_run, ⟨1, hw⟩, (r2 1 hd1).2.2.1, hsum, ?_⟩
  rw [hsum, (r2 1 hd1).2.2.1]
  norm_num

theorem path5Out_run : sourceIteration path5 inf30 0 (neutralState inf30) path5Out :=
  runSource_sound (getD_of_isSome _ _ (by decide))

theorem line3Out_run : sourceIteration line3 inf30 0 (neutralState inf30) line3Out :=
  runSource_sound (getD_of_isSome _ _ (by decide))

theorem detourFifo_run : mainRun detour inf30 0 0 (neutralState inf30) detourFifo :=
  runLoop_sound _ _ _ (getD_of_isSome _ _ (by decide))

theorem detourLifo_run : mainRun detour inf30 0 0 (neutralState inf30) detourLifo :=
  runLoop_sound _ _ _ (getD_of_isSome _ _ (by decide))

theorem dependency_path5 : dependency path5 0 2 = 2 := by decide!

/-- C6, as stated, fails: on the path 0 – 1 – 2 – 3 – 4, from neutral records with
`bc = 0`, a source iteration for the source 0 leaves a `bc` of node 2 different from 1. -/
theorem path5_contribution_counterexample :
    Neutral path5 inf30 (neutralState inf30) ∧
    (∀ v, ((neutralState inf30).node v).bc = 0) ∧
    sourceIteration path5 inf30 0 (neutralState inf30) path5Out ∧
    (path5Out.node 2).bc - ((neutralState inf30).node 2).bc ≠ 1 := by
  refine ⟨neutralState_neutral _ _, fun _ => rfl, path5Out_run, ?_⟩
  have h := (sourceIteration_spec sizes_path5 wf_path5 (by decide)
    (neutralState_neutral path5 inf30) path5Out_run).1 2
  rw [if_neg (by decide), dependency_path5] at h
  rw [h]
  norm_num

/-- C6, as amended: on the path 0 – 1 – 2 – 3 – 4, starting from neutral records and
`bc = 0` everywhere, every source iteration for the source 0 (whatever the order of the
work items and the value of the sentinel) contributes exactly 2 to the `bc` of node 2. -/
theorem path5_contribution (infinity : Nat) (st st' : State)
    (hs : Sizes path5 infinity) (hn : Neutral path5 infinity st)
    (hz : ∀ v, (st.node v).bc = 0)
    (hit : sourceIteration path5 infinity 0 st st') :
    (st'.node 2).bc - (st.node 2).bc = 2 ∧ (st'.node 2).bc = 2 := by
  have h := (sourceIteration_spec hs wf_path5 (by decide) hn hit).1 2
  rw [if_neg (by decide), dependency_path5] at h
  rw [h, hz 2]
  norm_num

theorem path5_contribution_witness :
    Sizes path5 inf30 ∧ Neutral path5 inf30 (neutralState inf30) ∧
    (∀ v, ((neutralState inf30).node v).bc = 0) ∧
    sourceIteration path5 inf30 0 (neutralState inf30) path5Out ∧
    (path5Out.node 2).bc - ((neutralState inf30).node 2).bc = 2 ∧ (path5Out.node 2).bc = 2 :=
  ⟨sizes_path5, neutralState_neutral _ _, fun _ => rfl, path5Out_run,
    path5_contribution inf30 (neutralState inf30) path5Out sizes_path5
      (neutralState_neutral _ _) (fun _ => rfl) path5Out_run⟩

/-- C7: for every graph and every source `s`, the `bc` of `s` after its own source
iteration equals the `bc` of `s` before that iteration: the forward phase does not write
`bc`, and the value saved before the backward phase is put back after it. -/
theorem source_bc_restored (g : Graph) (infinity s : Nat) (st st' : State)
    (hit : sourceIteration g infinity s st st') :
    (st'.node s).bc = (st.node s).bc := by
  obtain ⟨stF, stB, hF, _, hst'⟩ := hit
  rw [hst', finishSource_bc, if_pos rfl, dagConstruction_bc hF s, seedSource_bc]

theorem source_bc_restored_witness :
    sourceIteration line3 inf30 0 (neutralState inf30) line3Out ∧
    (line3Out.node 0).bc = ((neutralState inf30).node 0).bc :=
  ⟨line3Out_run, source_bc_restored line3 inf30 0 (neutralState inf30) line3Out line3Out_run⟩

/-- C8: the final `bc` values do not depend on the order in which the work lists hand out
items: any two complete runs of the driver on the same graph, source range and initial
records end with the same `bc` at every node (exact arithmetic). -/
theorem final_bc_schedule_independent (g : Graph) (infinity startNode numOfSources : Nat)
    (st st₁ st₂ : State) (hs : Sizes g infinity) (hwf : g.WF)
    (hp : Padding g infinity st) (hk : numOfSources ≤ g.n)
    (h₁ : mainRun g infinity startNode numOfSources st st₁)
    (h₂ : mainRun g infinity startNode numOfSources st st₂) :
    ∀ v, (st₁.node v).bc = (st₂.node v).bc := by
  have hsrc : ∀ i, i ∈ sourceRange g startNode numOfSources → i < g.n := by
    intro i hi
    unfold sourceRange at hi
    simp only [List.mem_range'_1] at hi
    split_ifs at hi <;> omega
  intro v
  rw [(sourceLoop_spec hs hwf h₁ (cleanup_neutral hp) hsrc).1 v,
    (sourceLoop_spec hs hwf h₂ (cleanup_neutral hp) hsrc).1 v]

theorem final_bc_schedule_independent_witness :
    Sizes detour inf30 ∧ detour.WF ∧ Padding detour inf30 (neutralState inf30) ∧
    0 ≤ detour.n ∧
    mainRun detour inf30 0 0 (neutralState inf30) detourFifo ∧
    mainRun detour inf30 0 0 (neutralState inf30) detourLifo ∧
    ∀ v, (detourFifo.node v).bc = (detourLifo.node v).bc :=
  ⟨sizes_detour, wf_detour, neutralState_padding _ _, Nat.zero_le _, detourFifo_run,
    detourLifo_run,
    final_bc_schedule_independent detour inf30 0 0 (neutralState inf30) detourFifo
      detourLifo sizes_detour wf_detour (neutralState_padding _ _) (Nat.zero_le _)
      detourFifo_run detourLifo_run⟩

theorem spMid_node_b (st : State) (a b e : Nat) :
    (spMid st a b e).node b =
      { st.node b with
        preds := [a],
        distance := ((st.node a).distance + 1) % 4294967296,
        nsuccs := 0,
        sigma := (st.node a).sigma,
        queued := true } := by
  unfold spMid; simp

theorem spMid_node_a (st : State) (a b e : Nat) (hab : a ≠ b) :
    (spMid st a b e).node a =
      { st.node a with nsuccs := ((st.node a).nsuccs + 1) % 4294967296 } := by
  unfold spMid; simp [hab]

theorem spMid_node_other (st : State) (a b e u : Nat) (hua : u ≠ a) (hub : u ≠ b) :
    (spMid st a b e).node u = st.node u := by
  unfold spMid; simp [hua, hub]

theorem spMid_distance (st : State) (a b e u : Nat) (hub : u ≠ b) :
    ((spMid st a b e).node u).distance = (st.node u).distance := by
  by_cases hua : u = a
  · subst hua; rw [spMid_node_a _ _ _ _ hub]
  · rw [spMid_node_other _ _ _ _ _ hua hub]

theorem spMid_edge (st : State) (a b e x : Nat) :
    (spMid st a b e).edge x =
      if x = e then { val := (st.node a).sigma, level := (st.node a).distance }
      else st.edge x := rfl

/-- C9, as amended: whenever `spAndFU` fires on an edge `e = (A, B)` for a node `B` that
already had predecessors, after the rule and its correction `B.preds = [A]`,
`B.distance = A.distance + 1`, `B.sigma = A.sigma`, `B.nsuccs = 0`, the edge has
`val = A.sigma` and `level = A.distance`, `A.nsuccs` has grown by one (as a 32-bit
counter), every in-edge `(U, B)`, `U ≠ B`, with `U.distance ≥ B.distance` reads
`level = infinity`, and the `nsuccs` of every other node `U` has been decremented once for
each such edge whose old level was a validated one (not the sentinel) and equalled
`U.distance` (32-bit counters). -/
theorem spAndFU_correction (g : Graph) (infinity : Nat) (st : State) (e : Nat)
    (hA : (st.node (g.src e)).distance < 2147483648)
    (hB : (st.node (g.dst e)).distance < 2147483648)
    (hg : 1 < toInt (st.node (g.dst e)).distance - toInt (st.node (g.src e)).distance)
    (hp : (st.node (g.dst e)).preds ≠ []) :
    ((spAndFU g infinity st (g.src e) (g.dst e) e).1.node (g.dst e)).preds = [g.src e] ∧
    ((spAndFU g infinity st (g.src e) (g.dst e) e).1.node (g.dst e)).distance
      = (st.node (g.src e)).distance + 1 ∧
    ((spAndFU g infinity st (g.src e) (g.dst e) e).1.node (g.dst e)).sigma
      = (st.node (g.src e)).sigma ∧
    ((spAndFU g infinity st (g.src e) (g.dst e) e).1.node (g.dst e)).nsuccs = 0 ∧
    ((spAndFU g infinity st (g.src e) (g.dst e) e).1.edge e).val
      = (st.node (g.src e)).sigma ∧
    ((spAndFU g infinity st (g.src e) (g.dst e) e).1.edge e).level
      = (st.node (g.src e)).distance ∧
    ((spAndFU g infinity st (g.src e) (g.dst e) e).1.node (g.src e)).nsuccs
      = ((st.node (g.src e)).nsuccs + 1) % 4294967296 ∧
    (∀ x, x < g.m → g.dst x = g.dst e → g.src x ≠ g.dst e →
      ((spAndFU g infinity st (g.src e) (g.dst e) e).1.node (g.dst e)).distance
        ≤ ((spAndFU g infinity st (g.src e) (g.dst e) e).1.node (g.src x)).distance →
      ((spAndFU g infinity st (g.src e) (g.dst e) e).1.edge x).level = infinity) ∧
    (∀ u, u ≠ g.src e → u ≠ g.dst e → (st.node u).nsuccs < 4294967296 →
      ((spAndFU g infinity st (g.src e) (g.dst e) e).1.node u).nsuccs < 4294967296 ∧
      (((spAndFU g infinity st (g.src e) (g.dst e) e).1.node u).nsuccs
        + staleValidHits g infinity st (spAndFU g infinity st (g.src e) (g.dst e) e).1
            (g.dst e) u) % 4294967296 = (st.node u).nsuccs) := by
  rw [toInt_of_lt hA, toInt_of_lt hB] at hg
  have hlt : (st.node (g.src e)).distance + 1 < (st.node (g.dst e)).distance := by omega
  have hab : g.src e ≠ g.dst e := by
    intro hh; rw [← hh] at hlt; omega
  have hba : g.dst e ≠ g.src e := fun hh => hab hh.symm
  have hmod : ((st.node (g.src e)).distance + 1) % 4294967296
      = (st.node (g.src e)).distance + 1 := Nat.mod_eq_of_lt (by omega)
  have hst : (spAndFU g infinity st (g.src e) (g.dst e) e).1
      = (g.in_edges (g.dst e)).foldl (correctNodeEdge g infinity (g.dst e))
          (spMid st (g.src e) (g.dst e) e) := by
    rw [spAndFU_eq g infinity st _ _ e hab]
    simp only [if_pos hp]
    rfl
  rw [hst]
  obtain ⟨hn, hl⟩ := correctFold g infinity (g.dst e) (g.in_edges (g.dst e))
    (spMid st (g.src e) (g.dst e) e) (in_edges_nodup g _)
  have hdB : ((spMid st (g.src e) (g.dst e) e).node (g.dst e)).distance
      = (st.node (g.src e)).distance + 1 := by
    rw [spMid_node_b]; exact hmod
  have hno : ∀ u x, Dec g infinity (spMid st (g.src e) (g.dst e) e) (g.dst e) u x →
      u ≠ g.src e := by
    intro u x hd hu
    obtain ⟨h1, h2, _, _⟩ := hd
    have h3 := h2.2
    rw [hdB, h1, hu, spMid_distance _ _ _ _ _ hab] at h3
    omega
  have hzero : ∀ u, (u = g.src e ∨ u = g.dst e) →
      (g.in_edges (g.dst e)).countP
        (fun x => Dec g infinity (spMid st (g.src e) (g.dst e) e) (g.dst e) u x) = 0 := by
    intro u hu
    rw [List.countP_eq_zero]
    intro x _ hd
    have hd' := of_decide_eq_true hd
    rcases hu with hu | hu
    · exact hno u x hd' hu
    · exact hd'.2.1.1 (hd'.1.trans hu)
  refine ⟨?_, ?_, ?_, ?_, ?_, ?_, ?_, ?_, ?_⟩
  · rw [(hn _).2.2.2.2.1, spMid_node_b]
  · rw [(hn _).1, hdB]
  · rw [(hn _).2.1, spMid_node_b]
  · have h := (hn (g.dst e)).2.2.2.2.2.2
    have h7 := h.1
    have h8 := h.2
    rw [hzero _ (Or.inr rfl)] at h8
    have hb0 : ((spMid st (g.src e) (g.dst e) e).node (g.dst e)).nsuccs = 0 := by
      rw [spMid_node_b]
    rw [hb0] at h7 h8
    have := h7 (by omega)
    rw [Nat.add_zero, Nat.mod_eq_of_lt this] at h8
    exact h8
  · rw [(hl e).1, spMid_edge, if_pos rfl]
  · rw [(hl e).2, spMid_edge, if_pos rfl]
    rw [if_neg]
    intro hh
    have h3 := hh.2.2
    rw [hdB, spMid_distance _ _ _ _ _ hab] at h3
    omega
  · have h := (hn (g.src e)).2.2.2.2.2.2
    have h7 := h.1
    have h8 := h.2
    rw [hzero _ (Or.inl rfl)] at h8
    have ha0 : ((spMid st (g.src e) (g.dst e) e).node (g.src e)).nsuccs
        = ((st.node (g.src e)).nsuccs + 1) % 4294967296 := by
      rw [spMid_node_a _ _ _ _ hab]
    rw [ha0] at h7 h8
    have hlt2 : ((st.node (g.src e)).nsuccs + 1) % 4294967296 < 4294967296 :=
      Nat.mod_lt _ (by norm_num)
    have := h7 hlt2
    rw [Nat.add_zero, Nat.mod_eq_of_lt this, Nat.mod_eq_of_lt hlt2] at h8
    exact h8
  · intro x hx hdx hsx hge
    rw [(hn _).1, (hn _).1] at hge
    rw [(hl x).2, if_pos]
    exact ⟨mem_in_edges.mpr ⟨hx, hdx⟩, hsx, hge⟩
  · intro u hua hub hwu
    have h := (hn u).2.2.2.2.2.2
    have hu0 : (spMid st (g.src e) (g.dst e) e).node u = st.node u :=
      spMid_node_other _ _ _ _ _ hua hub
    rw [hu0] at h
    refine ⟨h.1 hwu, ?_⟩
    have h8 := h.2
    rw [Nat.mod_eq_of_lt hwu] at h8
    rw [← h8]
    congr 2
    rw [countP_in_edges]
    unfold staleValidHits
    congr 1
    apply Finset.filter_congr
    intro x _
    have hxe : g.src x = u → x ≠ e := by
      intro h1 h2; rw [h2] at h1; exact hua h1.symm
    constructor
    · rintro ⟨h1, h2, h3, h4, h5⟩
      refine ⟨h1, h2, ⟨?_, ?_⟩, ?_, ?_⟩
      · rw [h2]; exact hub
      · rw [(hn _).1, (hn _).1] at h3; rw [h2]; exact h3
      · rw [spMid_edge, if_neg (hxe h2)]; exact h4
      · rw [spMid_edge, if_neg (hxe h2), hu0]; exact h5
    · rintro ⟨h1, h2, h3, h4, h5⟩
      have hx := hxe h2
      rw [spMid_edge, if_neg hx] at h4 h5
      rw [hu0] at h5
      refine ⟨h1, h2, ?_, h4, h5⟩
      rw [(hn _).1, (hn _).1]
      have := h3.2
      rw [h2] at this
      exact this

theorem spAndFU_correction_witness :
    ((markOut detourMid 2).node (detour.src 4)).distance < 2147483648 ∧
    ((markOut detourMid 2).node (detour.dst 4)).distance < 2147483648 ∧
    1 < toInt ((markOut detourMid 2).node (detour.dst 4)).distance
          - toInt ((markOut detourMid 2).node (detour.src 4)).distance ∧
    ((markOut detourMid 2).node (detour.dst 4)).preds ≠ [] ∧
    ((spAndFU detour inf30 (markOut detourMid 2) (detour.src 4) (detour.dst 4) 4).1.node
        (detour.dst 4)).preds = [detour.src 4] ∧
    ((spAndFU detour inf30 (markOut detourMid 2) (detour.src 4) (detour.dst 4) 4).1.node
        (detour.dst 4)).distance = ((markOut detourMid 2).node (detour.src 4)).distance + 1 :=
  ⟨by decide, by decide, by decide, by decide,
    (spAndFU_correction detour inf30 (markOut detourMid 2) 4 (by decide) (by decide)
      (by decide) (by decide)).1,
    (spAndFU_correction detour inf30 (markOut detourMid 2) 4 (by decide) (by decide)
      (by decide) (by decide)).2.1⟩

/-- C9, as stated, fails: in the forward phase of `detour` for the source 0, `spAndFU`
fires on the edge 2 → 3 when node 3 already has a predecessor; the in-edge 4 → 3 comes from
the unreached node 4, whose distance (the sentinel) is not below the new distance of 3 and
equals the old level of that edge, yet `nsuccs` of node 4 is not decremented. -/
theorem spAndFU_correction_counterexample :
    1 < toInt ((markOut detourMid 2).node 3).distance
          - toInt ((markOut detourMid 2).node 2).distance ∧
    ((markOut detourMid 2).node 3).preds ≠ [] ∧
    detour.src 4 = 2 ∧ detour.dst 4 = 3 ∧ detour.src 5 = 4 ∧ detour.dst 5 = 3 ∧
    ((spAndFU detour inf30 (markOut detourMid 2) 2 3 4).1.node 3).distance
      ≤ ((spAndFU detour inf30 (markOut detourMid 2) 2 3 4).1.node 4).distance ∧
    ((markOut detourMid 2).edge 5).level = ((markOut detourMid 2).node 4).distance ∧
    staleHits detour (markOut detourMid 2)
      (spAndFU detour inf30 (markOut detourMid 2) 2 3 4).1 3 4 = 1 ∧
    ((spAndFU detour inf30 (markOut detourMid 2) 2 3 4).1.node 4).nsuccs
      = ((markOut detourMid 2).node 4).nsuccs ∧
    (((spAndFU detour inf30 (markOut detourMid 2) 2 3 4).1.node 4).nsuccs
      + staleHits detour (markOut detourMid 2)
          (spAndFU detour inf30 (markOut detourMid 2) 2 3 4).1 3 4) % 4294967296
      ≠ ((markOut detourMid 2).node 4).nsuccs % 4294967296 := by
  decide

/-! ## Frame of the forward rules on `sigma` and `distance` -/

theorem satAdd_ge (old add : Nat) (h : old < 18446744073709551616) : old ≤ satAdd old add := by
  unfold satAdd
  simp only []
  split_ifs with hc
  · omega
  · omega

theorem pushUnlessQueued_fields (st : State) (b v : Nat) :
    ((pushUnlessQueued st b).1.node v).sigma = (st.node v).sigma ∧
    ((pushUnlessQueued st b).1.node v).distance = (st.node v).distance ∧
    ((pushUnlessQueued st b).1.node v).nsuccs = (st.node v).nsuccs ∧
    ((pushUnlessQueued st b).1.node v).preds = (st.node v).preds := by
  rw [pushUnlessQueued_node]
  split_ifs with h
  · subst h; exact ⟨rfl, rfl, rfl, rfl⟩
  · exact ⟨rfl, rfl, rfl, rfl⟩

theorem pushIfSuccs_fields (st : State) (b v : Nat) :
    ((pushIfSuccs st b).1.node v).sigma = (st.node v).sigma ∧
    ((pushIfSuccs st b).1.node v).distance = (st.node v).distance ∧
    ((pushIfSuccs st b).1.node v).nsuccs = (st.node v).nsuccs ∧
    ((pushIfSuccs st b).1.node v).preds = (st.node v).preds := by
  unfold pushIfSuccs
  simp only []
  split_ifs
  · exact pushUnlessQueued_fields st b v
  · exact ⟨rfl, rfl, rfl, rfl⟩

theorem updateSigma_sigma (st : State) (a b e v : Nat) :
    ((updateSigma st a b e).1.node v).sigma =
      if v = b ∧ 0 < sigmaDiff st a e then satAdd (st.node b).sigma (sigmaDiff st a e)
      else (st.node v).sigma := by
  unfold updateSigma
  simp only []
  rw [show ((st.node a).sigma + (18446744073709551616 - (st.edge e).val % 18446744073709551616))
    % 18446744073709551616 = sigmaDiff st a e from rfl]
  by_cases hd : 0 < sigmaDiff st a e
  · simp only [hd, if_true, and_true]
    rw [(pushIfSuccs_fields _ b v).1, setNode_node, setEdge_node]
    split_ifs <;> rfl
  · simp only [hd, if_false, and_false]

theorem updateSigma_distance (st : State) (a b e v : Nat) :
    ((updateSigma st a b e).1.node v).distance = (st.node v).distance := by
  unfold updateSigma
  simp only []
  split_ifs
  · rw [(pushIfSuccs_fields _ b v).2.1, setNode_node, setEdge_node]
    split_ifs with h
    · rw [h]
    · rfl
  · rfl

theorem firstUpdate_sigma (st : State) (a b e v : Nat) (hab : a ≠ b) :
    ((firstUpdate st a b e).1.node v).sigma =
      if v = b then satAdd (st.node b).sigma (st.node a).sigma else (st.node v).sigma := by
  have hba : b ≠ a := fun h => hab h.symm
  unfold firstUpdate
  simp only []
  rw [(pushIfSuccs_fields _ b v).1]
  by_cases h1 : v = b
  · rw [h1]; simp [setNode_node, hab, hba]
  · by_cases h2 : v = a
    · subst h2; simp [setNode_node, h1]
    · simp [setNode_node, h1, h2]

theorem firstUpdate_distance (st : State) (a b e v : Nat) :
    ((firstUpdate st a b e).1.node v).distance = (st.node v).distance := by
  unfold firstUpdate
  simp only []
  rw [(pushIfSuccs_fields _ b v).2.1]
  by_cases h1 : v = b
  · subst h1
    by_cases h2 : v = a
    · subst h2; simp [setNode_node]
    · simp [setNode_node, h2]
  · by_cases h2 : v = a
    · subst h2; simp [setNode_node, h1]
    · simp [setNode_node, h1, h2]

theorem spAndFU_sigma (g : Graph) (infinity : Nat) (st : State) (a b e v : Nat)
    (hab : a ≠ b) :
    ((spAndFU g infinity st a b e).1.node v).sigma =
      if v = b then (st.node a).sigma else (st.node v).sigma := by
  have hmid : ((spMid st a b e).node v).sigma =
      if v = b then (st.node a).sigma else (st.node v).sigma := by
    by_cases h1 : v = b
    · subst h1; rw [spMid_node_b, if_pos rfl]
    · rw [if_neg h1]
      by_cases h2 : v = a
      · subst h2; rw [spMid_node_a _ _ _ _ hab]
      · rw [spMid_node_other _ _ _ _ _ h2 h1]
  rw [spAndFU_eq g infinity st a b e hab]
  simp only []
  split_ifs with hp
  · exact ((correctFold g infinity b (g.in_edges b) (spMid st a b e)
      (in_edges_nodup g b)).1 v).2.1.trans (by rw [hmid, if_pos ‹v = b›])
  · exact ((correctFold g infinity b (g.in_edges b) (spMid st a b e)
      (in_edges_nodup g b)).1 v).2.1.trans (by rw [hmid, if_neg ‹¬ v = b›])
  · rw [hmid, if_pos ‹v = b›]
  · rw [hmid, if_neg ‹¬ v = b›]

theorem spAndFU_distance (g : Graph) (infinity : Nat) (st : State) (a b e v : Nat)
    (hab : a ≠ b) :
    ((spAndFU g infinity st a b e).1.node v).distance =
      if v = b then ((st.node a).distance + 1) % 4294967296 else (st.node v).distance := by
  have hmid : ((spMid st a b e).node v).distance =
      if v = b then ((st.node a).distance + 1) % 4294967296 else (st.node v).distance := by
    by_cases h1 : v = b
    · subst h1; rw [spMid_node_b, if_pos rfl]
    · rw [if_neg h1]; exact spMid_distance _ _ _ _ _ h1
  rw [spAndFU_eq g infinity st a b e hab]
  simp only []
  split_ifs with hp
  · exact ((correctFold g infinity b (g.in_edges b) (spMid st a b e)
      (in_edges_nodup g b)).1 v).1.trans (by rw [hmid, if_pos ‹v = b›])
  · exact ((correctFold g infinity b (g.in_edges b) (spMid st a b e)
      (in_edges_nodup g b)).1 v).1.trans (by rw [hmid, if_neg ‹¬ v = b›])
  · rw [hmid, if_pos ‹v = b›]
  · rw [hmid, if_neg ‹¬ v = b›]

theorem dagEdge_sigma (g : Graph) (infinity srcID : Nat) (acc : State × List Nat) (e v : Nat)
    (hw : (acc.1.node (g.dst e)).sigma < 18446744073709551616) :
    (¬ (srcID ≠ g.dst e ∧
        1 < toInt (acc.1.node (g.dst e)).distance - toInt (acc.1.node srcID).distance) →
      (acc.1.node v).sigma ≤ ((dagEdge g infinity srcID acc e).1.node v).sigma) ∧
    (srcID ≠ g.dst e →
      1 < toInt (acc.1.node (g.dst e)).distance - toInt (acc.1.node srcID).distance →
      ((dagEdge g infinity srcID acc e).1.node v).sigma =
        if v = g.dst e then (acc.1.node srcID).sigma else (acc.1.node v).sigma) := by
  unfold dagEdge
  simp only []
  by_cases hab : srcID = g.dst e
  · rw [if_pos hab]
    exact ⟨fun _ => le_refl _, fun h => absurd hab h⟩
  · rw [if_neg hab]
    by_cases hg : 1 < toInt (acc.1.node (g.dst e)).distance - toInt (acc.1.node srcID).distance
    · rw [if_pos hg]
      refine ⟨fun h => absurd ⟨hab, hg⟩ h, fun _ _ => ?_⟩
      exact spAndFU_sigma g infinity acc.1 srcID (g.dst e) e v hab
    · rw [if_neg hg]
      refine ⟨fun _ => ?_, fun _ h => absurd h hg⟩
      split_ifs
      · simp only []
        rw [updateSigma_sigma]
        split_ifs with h
        · rw [h.1]; exact satAdd_ge _ _ hw
        · exact le_refl _
      · simp only []
        rw [firstUpdate_sigma _ _ _ _ _ hab]
        split_ifs with h
        · rw [h]; exact satAdd_ge _ _ hw
        · exact le_refl _
      · exact le_refl _

theorem dagEdge_distance (g : Graph) (infinity srcID : Nat) (acc : State × List Nat) (e v : Nat) :
    ((dagEdge g infinity srcID acc e).1.node v).distance =
      if v = g.dst e ∧ srcID ≠ g.dst e ∧
          1 < toInt (acc.1.node (g.dst e)).distance - toInt (acc.1.node srcID).distance
      then ((acc.1.node srcID).distance + 1) % 4294967296
      else (acc.1.node v).distance := by
  unfold dagEdge
  simp only []
  by_cases hab : srcID = g.dst e
  · have hc : ¬ (v = g.dst e ∧ srcID ≠ g.dst e ∧
        1 < toInt (acc.1.node (g.dst e)).distance - toInt (acc.1.node srcID).distance) :=
      fun h => h.2.1 hab
    rw [if_pos hab, if_neg hc]
  · rw [if_neg hab]
    by_cases hg : 1 < toInt (acc.1.node (g.dst e)).distance - toInt (acc.1.node srcID).distance
    · rw [if_pos hg]
      simp only []
      rw [spAndFU_distance g infinity acc.1 srcID (g.dst e) e v hab]
      by_cases hv : v = g.dst e
      · rw [if_pos hv, if_pos ⟨hv, hab, hg⟩]
      · rw [if_neg hv, if_neg (fun h => hv h.1)]
    · have hc : ¬ (v = g.dst e ∧ srcID ≠ g.dst e ∧
          1 < toInt (acc.1.node (g.dst e)).distance - toInt (acc.1.node srcID).distance) :=
        fun h => hg h.2.2
      rw [if_neg hg, if_neg hc]
      split_ifs
      · exact updateSigma_distance _ _ _ _ _
      · exact firstUpdate_distance _ _ _ _ _
      · rfl

/-- C11, as amended: for every state (in particular one where the sigma-refresh guard holds
for the edge `e = (A, B)`), with `diff` the 64-bit difference `A.sigma - e.val`: if
`diff > 0` then `B.sigma` becomes `min (B.sigma + diff) (2^64 - 1)`, `e.val` becomes
`A.sigma`, and `B` is enqueued exactly when `B.nsuccs > 0` and `B` is not already queued;
if `diff = 0` nothing changes and nothing is enqueued.  `diff` is `A.sigma - e.val` when
`e.val ≤ A.sigma`. -/
theorem updateSigma_refresh (st : State) (a b e : Nat)
    (hb : (st.node b).sigma < 18446744073709551616)
    (hnb : (st.node b).nsuccs < 2147483648) :
    (0 < sigmaDiff st a e →
      ((updateSigma st a b e).1.node b).sigma
        = min ((st.node b).sigma + sigmaDiff st a e) 18446744073709551615 ∧
      ((updateSigma st a b e).1.edge e).val = (st.node a).sigma ∧
      (updateSigma st a b e).2
        = if 0 < (st.node b).nsuccs ∧ (st.node b).queued = false then [b] else []) ∧
    (sigmaDiff st a e = 0 → updateSigma st a b e = (st, [])) ∧
    ((st.edge e).val ≤ (st.node a).sigma → (st.node a).sigma < 18446744073709551616 →
      sigmaDiff st a e = (st.node a).sigma - (st.edge e).val) := by
  have hlt : sigmaDiff st a e < 18446744073709551616 := Nat.mod_lt _ (by norm_num)
  refine ⟨fun hd => ⟨?_, ?_, ?_⟩, fun hd => ?_, fun hle ha => ?_⟩
  · rw [updateSigma_sigma, if_pos ⟨rfl, hd⟩, satAdd_eq hb hlt hd]
  · rw [updateSigma_edge, if_pos ⟨rfl, hd⟩]
  · rw [updateSigma_snd _ _ _ _ hnb]
    simp only [hd, true_and]
  · have h0 : ¬ 0 < sigmaDiff st a e := by omega
    unfold updateSigma
    simp only []
    rw [show ((st.node a).sigma
      + (18446744073709551616 - (st.edge e).val % 18446744073709551616))
      % 18446744073709551616 = sigmaDiff st a e from rfl, if_neg h0]
  · unfold sigmaDiff
    have h1 : (st.edge e).val % 18446744073709551616 = (st.edge e).val :=
      Nat.mod_eq_of_lt (by omega)
    rw [h1]
    omega

theorem updateSigma_refresh_witness :
    (line3F.node 1).sigma < 18446744073709551616 ∧
    (line3F.node 1).nsuccs < 2147483648 ∧
    (sigmaDiff line3F 0 0 = 0 → updateSigma line3F 0 1 0 = (line3F, [])) :=
  ⟨by decide, by decide,
    (updateSigma_refresh line3F 0 1 0 (by decide) (by decide)).2.1⟩

/-- C11, as stated, fails: in the final forward state of the line 0 → 1 → 2 the
sigma-refresh guard holds for the edge 0 → 1, node 1 has `nsuccs > 0` and is not queued,
yet `updateSigma` enqueues nothing, because `diff = 0`. -/
theorem updateSigma_silent_counterexample :
    toInt (line3F.edge 0).level = toInt (line3F.node 0).distance ∧
    toInt (line3F.node 1).distance = toInt (line3F.node 0).distance + 1 ∧
    0 < (line3F.node 1).nsuccs ∧ (line3F.node 1).queued = false ∧
    sigmaDiff line3F 0 0 = 0 ∧
    (updateSigma line3F 0 1 0).2 = [] ∧
    (dagEdge line3 inf30 0 (line3F, []) 0).2 = [] := by
  decide

/-- C12, as amended: in one application of a forward rule to an edge `e` out of `srcID`,
unless the new-shortest-path rule fires, the `sigma` of every node after the transition is
at least its `sigma` before (sigma refresh, first validation, no action); when the
new-shortest-path rule fires on `(A, B)`, `B.sigma` is replaced by `A.sigma` (whatever it
was) and every other `sigma` is unchanged; the correction never writes `sigma`. -/
theorem sigma_monotone_outside_takeover (g : Graph) (infinity srcID : Nat)
    (acc : State × List Nat) (e : Nat)
    (hw : (acc.1.node (g.dst e)).sigma < 18446744073709551616) :
    (¬ (srcID ≠ g.dst e ∧
        1 < toInt (acc.1.node (g.dst e)).distance - toInt (acc.1.node srcID).distance) →
      ∀ v, (acc.1.node v).sigma ≤ ((dagEdge g infinity srcID acc e).1.node v).sigma) ∧
    (srcID ≠ g.dst e →
      1 < toInt (acc.1.node (g.dst e)).distance - toInt (acc.1.node srcID).distance →
      ((dagEdge g infinity srcID acc e).1.node (g.dst e)).sigma = (acc.1.node srcID).sigma ∧
      ∀ v, v ≠ g.dst e →
        ((dagEdge g infinity srcID acc e).1.node v).sigma = (acc.1.node v).sigma) ∧
    (∀ b v, ((correctNode g infinity acc.1 b).node v).sigma = (acc.1.node v).sigma) := by
  refine ⟨fun h v => (dagEdge_sigma g infinity srcID acc e v hw).1 h, fun hab hg => ⟨?_, ?_⟩,
    fun b v => ?_⟩
  · rw [(dagEdge_sigma g infinity srcID acc e _ hw).2 hab hg, if_pos rfl]
  · intro v hv
    rw [(dagEdge_sigma g infinity srcID acc e v hw).2 hab hg, if_neg hv]
  · exact ((correctFold g infinity b (g.in_edges b) acc.1 (in_edges_nodup g b)).1 v).2.1

theorem sigma_monotone_outside_takeover_witness :
    ((markOut shortcutMid 3, ([] : List Nat)).1.node (shortcut.dst 4)).sigma
      < 18446744073709551616 ∧
    (¬ ((3 : Nat) ≠ shortcut.dst 4 ∧
        1 < toInt ((markOut shortcutMid 3, ([] : List Nat)).1.node (shortcut.dst 4)).distance
          - toInt ((markOut shortcutMid 3, ([] : List Nat)).1.node 3).distance) →
      ∀ v, ((markOut shortcutMid 3, ([] : List Nat)).1.node v).sigma
        ≤ ((dagEdge shortcut inf30 3 (markOut shortcutMid 3, []) 4).1.node v).sigma) :=
  ⟨by decide,
    (sigma_monotone_outside_takeover shortcut inf30 3 (markOut shortcutMid 3, []) 4
      (by decide)).1⟩

/-- C12, as stated, fails: in the forward phase of `shortcut` for the source 0, after the
items 0, 2 and 3 node 4 has `sigma = 2`; the item 1 then applies the new-shortest-path rule
to the edge 1 → 4, after which node 4 has `sigma = 1`. -/
theorem sigma_takeover_counterexample :
    shortcut.src 5 = 1 ∧ shortcut.dst 5 = 4 ∧
    1 < toInt ((markOut shortcutMid 1).node 4).distance
          - toInt ((markOut shortcutMid 1).node 1).distance ∧
    ((markOut shortcutMid 1).node 4).sigma = 2 ∧
    ((dagEdge shortcut inf30 1 (markOut shortcutMid 1, []) 5).1.node 4).sigma = 1 ∧
    ¬ ((markOut shortcutMid 1).node 4).sigma
        ≤ ((dagEdge shortcut inf30 1 (markOut shortcutMid 1, []) 5).1.node 4).sigma := by
  decide

/-- C13: in one application of a forward rule to an edge `e` out of `srcID`, on distances
that fit the `int` conversion of the guards, no node's `distance` is raised; a `distance`
changes only at the head `B` of the edge when the new-shortest-path rule fires, and then
it becomes `A.distance + 1`, strictly below its old value; the correction never writes
`distance`. -/
theorem distance_never_raised (g : Graph) (infinity srcID : Nat)
    (acc : State × List Nat) (e : Nat)
    (hA : (acc.1.node srcID).distance < 2147483648)
    (hB : (acc.1.node (g.dst e)).distance < 2147483648) :
    (∀ v, ((dagEdge g infinity srcID acc e).1.node v).distance ≤ (acc.1.node v).distance) ∧
    (∀ v, ((dagEdge g infinity srcID acc e).1.node v).distance ≠ (acc.1.node v).distance →
      v = g.dst e ∧ srcID ≠ g.dst e ∧
      1 < toInt (acc.1.node (g.dst e)).distance - toInt (acc.1.node srcID).distance) ∧
    (srcID ≠ g.dst e →
      1 < toInt (acc.1.node (g.dst e)).distance - toInt (acc.1.node srcID).distance →
      ((dagEdge g infinity srcID acc e).1.node (g.dst e)).distance
        = (acc.1.node srcID).distance + 1 ∧
      ((dagEdge g infinity srcID acc e).1.node (g.dst e)).distance
        < (acc.1.node (g.dst e)).distance) ∧
    (∀ b v, ((correctNode g infinity acc.1 b).node v).distance = (acc.1.node v).distance) := by
  have key : ∀ v, v = g.dst e ∧ srcID ≠ g.dst e ∧
      1 < toInt (acc.1.node (g.dst e)).distance - toInt (acc.1.node srcID).distance →
      ((acc.1.node srcID).distance + 1) % 4294967296 = (acc.1.node srcID).distance + 1 ∧
      (acc.1.node srcID).distance + 1 < (acc.1.node v).distance := by
    intro v ⟨hv, _, hg⟩
    rw [toInt_of_lt hA, toInt_of_lt hB] at hg
    rw [hv]
    have : (acc.1.node srcID).distance + 1 < (acc.1.node (g.dst e)).distance := by omega
    exact ⟨Nat.mod_eq_of_lt (by omega), this⟩
  refine ⟨fun v => ?_, fun v hne => ?_, fun hab hg => ?_, fun b v => ?_⟩
  · rw [dagEdge_distance]
    split_ifs with hc
    · rw [(key v hc).1]; exact le_of_lt (key v hc).2
    · exact le_refl _
  · rw [dagEdge_distance] at hne
    split_ifs at hne with hc
    · exact hc
    · exact absurd rfl hne
  · rw [dagEdge_distance, if_pos ⟨rfl, hab, hg⟩, (key _ ⟨rfl, hab, hg⟩).1]
    exact ⟨rfl, (key _ ⟨rfl, hab, hg⟩).2⟩
  · exact ((correctFold g infinity b (g.in_edges b) acc.1 (in_edges_nodup g b)).1 v).1

theorem distance_never_raised_witness :
    ((markOut detourMid 2, ([] : List Nat)).1.node 2).distance < 2147483648 ∧
    ((markOut detourMid 2, ([] : List Nat)).1.node (detour.dst 4)).distance < 2147483648 ∧
    (∀ v, ((dagEdge detour inf30 2 (markOut detourMid 2, []) 4).1.node v).distance
      ≤ ((markOut detourMid 2, ([] : List Nat)).1.node v).distance) :=
  ⟨by decide, by decide,
    (distance_never_raised detour inf30 2 (markOut detourMid 2, []) 4
      (by decide) (by decide)).1⟩

/-- C19: with start node 1 and 2 sources on the five-node path (every node has out-edges)
the loop `for (i = startNode; i < numOfSources; ++i)` visits the source 1 only, not the two
sources 1 and 2; with 0 sources it visits every identifier from the start node to the last
node. -/
theorem sourceRange_start_offset :
    sourceRange path5 1 2 = [1] ∧
    sourceRange path5 1 2 ≠ List.range' 1 2 ∧
    (∀ i, i ∈ List.range' 1 2 → path5.edges i ≠ []) ∧
    sourceRange path5 3 2 = [] ∧
    sourceRange path5 1 0 = [1, 2, 3, 4] := by
  decide

theorem writesCovered_append (need : Rule → Nat → List Nat) :
    ∀ (l₁ l₂ : List Ev) (held : List Nat),
      writesCovered need held (l₁ ++ l₂) =
        (writesCovered need held l₁ && writesCovered need (heldAfter held l₁) l₂) := by
  intro l₁
  induction l₁ with
  | nil => intro l₂ held; simp [writesCovered, heldAfter]
  | cons x l ih =>
    intro l₂ held
    cases x with
    | lock v => simp [writesCovered, heldAfter, ih]
    | unlock v => simp [writesCovered, heldAfter, ih]
    | write r e => simp [writesCovered, heldAfter, ih, Bool.and_assoc]

theorem heldAfter_append :
    ∀ (l₁ l₂ : List Ev) (held : List Nat),
      heldAfter held (l₁ ++ l₂) = heldAfter (heldAfter held l₁) l₂ := by
  intro l₁
  induction l₁ with
  | nil => intro l₂ held; rfl
  | cons x l ih =>
    intro l₂ held
    cases x with
    | lock v => simp [heldAfter, ih]
    | unlock v => simp [heldAfter, ih]
    | write r e => simp [heldAfter, ih]

theorem correctNodeEdgeEvents_ok (g : Graph) (infinity b : Nat) (st : State) (x : Nat) :
    writesCovered (heldEnds g) [] (correctNodeEdgeEvents g infinity b st x) = true ∧
    heldAfter [] (correctNodeEdgeEvents g infinity b st x) = [] := by
  unfold correctNodeEdgeEvents
  simp only []
  by_cases h1 : g.src x = b
  · rw [if_pos h1]; exact ⟨rfl, rfl⟩
  · have h1' : b ≠ g.src x := fun h => h1 h.symm
    rw [if_neg h1]
    unfold lockPair
    by_cases hlt : g.src x < b <;> by_cases h2 : (st.node b).distance ≤ (st.node (g.src x)).distance <;>
      by_cases h3 : (st.edge x).level = infinity <;>
      simp [hlt, h2, h3, writesCovered, heldAfter, heldEnds, h1, h1', List.erase_cons]

theorem correctEvents_ok (g : Graph) (infinity b : Nat) :
    ∀ (l : List Nat) (st : State),
      writesCovered (heldEnds g) [] (correctEvents g infinity b l st) = true ∧
      heldAfter [] (correctEvents g infinity b l st) = [] := by
  intro l
  induction l with
  | nil => intro st; exact ⟨rfl, rfl⟩
  | cons x l ih =>
    intro st
    have h1 := correctNodeEdgeEvents_ok g infinity b st x
    have h2 := ih (correctNodeEdge g infinity b st x)
    simp only [correctEvents]
    rw [writesCovered_append, heldAfter_append, h1.1, h1.2, h2.1, h2.2]
    exact ⟨rfl, rfl⟩

/-- C17, as amended: in the body of the edge loop of `dagConstruction` for an out-edge `e`
of `srcID`, every write to the `val` or `level` of an edge made by the new-shortest-path
rule and by the first validation happens while the locks of both endpoints are held; the
write of `val` by the sigma refresh happens while the lock of the head is held (the lock
of the tail has been released), and the write of `level` by the correction happens while
the lock of the tail of the corrected in-edge is held (the lock of the head has been
released). -/
theorem edge_writes_locks_held (g : Graph) (infinity srcID : Nat) (st : State) (e : Nat)
    (he : g.src e = srcID) :
    writesCovered (heldEnds g) [] (dagEdgeEvents g infinity srcID st e) = true := by
  unfold dagEdgeEvents
  simp only []
  by_cases hab : srcID = g.dst e
  · rw [if_pos hab]; rfl
  · have hba : g.dst e ≠ srcID := fun h => hab h.symm
    rw [if_neg hab]
    have hc := (correctEvents_ok g infinity (g.dst e) (g.in_edges (g.dst e))
      (spMid st srcID (g.dst e) e)).1
    unfold lockPair spAndFUEvents updateSigmaEvents firstUpdateEvents
    by_cases hlt : srcID < g.dst e
    · rw [if_pos hlt]
      split_ifs <;>
        simp [writesCovered, heldAfter, heldEnds, he, hab, hba, List.erase_cons,
          writesCovered_append, hc]
    · rw [if_neg hlt]
      split_ifs <;>
        simp [writesCovered, heldAfter, heldEnds, he, hab, hba, List.erase_cons,
          writesCovered_append, hc]

theorem edge_writes_locks_held_witness :
    detour.src 4 = 2 ∧
    writesCovered (heldEnds detour) []
      (dagEdgeEvents detour inf30 2 (markOut detourMid 2) 4) = true :=
  ⟨by decide, edge_writes_locks_held detour inf30 2 (markOut detourMid 2) 4 (by decide)⟩

/-- C17, as stated, fails: in the forward phase of `detour` for the source 0, the
new-shortest-path rule on the edge 2 → 3 runs the correction of node 3, which writes the
`level` of the in-edge 5 → 3 after the lock of node 3 has been released. -/
theorem edge_writes_both_locks_counterexample :
    detour.src 4 = 2 ∧
    1 < toInt ((markOut detourMid 2).node 3).distance
          - toInt ((markOut detourMid 2).node 2).distance ∧
    writesCovered (bothEnds detour) []
      (dagEdgeEvents detour inf30 2 (markOut detourMid 2) 4) = false := by
  decide

theorem Reaches.preserves {body : State → Nat → State × List Nat}
    (I : State → List Nat → Prop)
    (hstep : ∀ st l₁ a l₂, I st (l₁ ++ a :: l₂) →
      I (body st a).1 (l₁ ++ l₂ ++ (body st a).2))
    {st : State} {wl : List Nat} {st' : State} {wl' : List Nat}
    (h : Reaches body st wl st' wl') (h0 : I st wl) : I st' wl' := by
  induction h with
  | refl st wl => exact h0
  | step st l₁ a l₂ st' wl' _ ih => exact ih (hstep st l₁ a l₂ h0)

theorem Drains.reaches {body : State → Nat → State × List Nat} {st : State} {wl : List Nat}
    {st' : State} (h : Drains body st wl st') : Reaches body st wl st' [] := by
  induction h with
  | done st => exact Reaches.refl _ _
  | step st l₁ a l₂ st' _ ih => exact Reaches.step _ _ _ _ _ _ ih

/-! ## The queued flag and the frontier -/

theorem pushUnlessQueued_flag (st : State) (b : Nat) :
    (∀ v, (st.node v).queued = true → ((pushUnlessQueued st b).1.node v).queued = true) ∧
    (∀ v, v ∈ (pushUnlessQueued st b).2 →
      (st.node v).queued = false ∧ ((pushUnlessQueued st b).1.node v).queued = true) ∧
    (pushUnlessQueued st b).2.Nodup := by
  refine ⟨fun v hv => ?_, fun v hv => ?_, ?_⟩
  · rw [pushUnlessQueued_node]
    split_ifs
    · rfl
    · exact hv
  · rw [pushUnlessQueued_snd] at hv
    split_ifs at hv with hq
    · exact absurd hv (List.not_mem_nil _)
    · have hvb : v = b := List.mem_singleton.mp hv
      rw [pushUnlessQueued_node, if_pos hvb, hvb]
      exact ⟨by simpa using hq, rfl⟩
  · rw [pushUnlessQueued_snd]
    split_ifs
    · exact List.nodup_nil
    · exact List.nodup_singleton _

theorem pushIfSuccs_flag (st : State) (b : Nat) :
    (∀ v, (st.node v).queued = true → ((pushIfSuccs st b).1.node v).queued = true) ∧
    (∀ v, v ∈ (pushIfSuccs st b).2 →
      (st.node v).queued = false ∧ ((pushIfSuccs st b).1.node v).queued = true) ∧
    (pushIfSuccs st b).2.Nodup := by
  unfold pushIfSuccs
  simp only []
  split_ifs
  · exact pushUnlessQueued_flag st b
  · exact ⟨fun _ h => h, fun v hv => absurd hv (List.not_mem_nil _), List.nodup_nil⟩

/-- A state that differs from `st` in fields other than `queued` keeps the flag facts of a
push. -/
theorem flag_transfer {st st0 : State} {b : Nat} {f : State → Nat → State × List Nat}
    (hf : (∀ v, (st0.node v).queued = true → ((f st0 b).1.node v).queued = true) ∧
      (∀ v, v ∈ (f st0 b).2 →
        (st0.node v).queued = false ∧ ((f st0 b).1.node v).queued = true) ∧
      (f st0 b).2.Nodup)
    (hq : ∀ v, (st0.node v).queued = (st.node v).queued) :
    (∀ v, (st.node v).queued = true → ((f st0 b).1.node v).queued = true) ∧
    (∀ v, v ∈ (f st0 b).2 →
      (st.node v).queued = false ∧ ((f st0 b).1.node v).queued = true) ∧
    (f st0 b).2.Nodup := by
  refine ⟨fun v hv => hf.1 v (by rw [hq]; exact hv), fun v hv => ?_, hf.2.2⟩
  have := hf.2.1 v hv
  rw [hq] at this
  exact this

theorem updateSigma_flag (st : State) (a b e : Nat) :
    (∀ v, (st.node v).queued = true → ((updateSigma st a b e).1.node v).queued = true) ∧
    (∀ v, v ∈ (updateSigma st a b e).2 →
      (st.node v).queued = false ∧ ((updateSigma st a b e).1.node v).queued = true) ∧
    (updateSigma st a b e).2.Nodup := by
  unfold updateSigma
  simp only []
  split_ifs
  · apply flag_transfer (pushIfSuccs_flag _ b)
    intro v
    rw [setNode_node, setEdge_node]
    split_ifs with h
    · rw [h]
    · rfl
  · exact ⟨fun _ h => h, fun v hv => absurd hv (List.not_mem_nil _), List.nodup_nil⟩

theorem firstUpdate_flag (st : State) (a b e : Nat) :
    (∀ v, (st.node v).queued = true → ((firstUpdate st a b e).1.node v).queued = true) ∧
    (∀ v, v ∈ (firstUpdate st a b e).2 →
      (st.node v).queued = false ∧ ((firstUpdate st a b e).1.node v).queued = true) ∧
    (firstUpdate st a b e).2.Nodup := by
  unfold firstUpdate
  simp only []
  apply flag_transfer (pushIfSuccs_flag _ b)
  intro v
  by_cases h1 : v = b
  · rw [h1]
    by_cases h2 : b = a
    · rw [h2]; simp [setNode_node]
    · simp [setNode_node, h2]
  · by_cases h2 : v = a
    · rw [h2] at h1 ⊢; simp [setNode_node, h1]
    · simp [setNode_node, h1, h2]

theorem spAndFU_flag (g : Graph) (infinity : Nat) (st : State) (a b e : Nat) (hab : a ≠ b) :
    (∀ v, (st.node v).queued = true →
      ((spAndFU g infinity st a b e).1.node v).queued = true) ∧
    (∀ v, v ∈ (spAndFU g infinity st a b e).2 →
      (st.node v).queued = false ∧ ((spAndFU g infinity st a b e).1.node v).queued = true) ∧
    (spAndFU g infinity st a b e).2.Nodup := by
  have hmid : ∀ v, ((spMid st a b e).node v).queued =
      if v = b then true else (st.node v).queued := by
    intro v
    by_cases h1 : v = b
    · rw [h1, spMid_node_b, if_pos rfl]
    · rw [if_neg h1]
      by_cases h2 : v = a
      · rw [h2, spMid_node_a _ _ _ _ hab]
      · rw [spMid_node_other _ _ _ _ _ h2 h1]
  have hfin : ∀ v, ((spAndFU g infinity st a b e).1.node v).queued =
      if v = b then true else (st.node v).queued := by
    intro v
    rw [spAndFU_eq g infinity st a b e hab]
    simp only []
    split_ifs with hp hv hv
    · exact ((correctFold g infinity b (g.in_edges b) (spMid st a b e)
        (in_edges_nodup g b)).1 v).2.2.2.2.2.1.trans (by rw [hmid, if_pos hv])
    · exact ((correctFold g infinity b (g.in_edges b) (spMid st a b e)
        (in_edges_nodup g b)).1 v).2.2.2.2.2.1.trans (by rw [hmid, if_neg hv])
    · rw [hmid, if_pos hv]
    · rw [hmid, if_neg hv]
  have hsnd : (spAndFU g infinity st a b e).2 =
      if (st.node b).queued = true then [] else [b] := by
    rw [spAndFU_eq g infinity st a b e hab]
  refine ⟨fun v hv => ?_, fun v hv => ?_, ?_⟩
  · rw [hfin]
    split_ifs
    · rfl
    · exact hv
  · rw [hsnd] at hv
    split_ifs at hv with hq
    · exact absurd hv (List.not_mem_nil _)
    · have hvb : v = b := List.mem_singleton.mp hv
      rw [hfin, if_pos hvb, hvb]
      exact ⟨by simpa using hq, rfl⟩
  · rw [hsnd]
    split_ifs
    · exact List.nodup_nil
    · exact List.nodup_singleton _

theorem dagEdge_flag (g : Graph) (infinity a : Nat) (acc : State × List Nat) (e : Nat) :
    ∃ new, (dagEdge g infinity a acc e).2 = acc.2 ++ new ∧
      (∀ v, (acc.1.node v).queued = true →
        ((dagEdge g infinity a acc e).1.node v).queued = true) ∧
      (∀ v, v ∈ new →
        (acc.1.node v).queued = false ∧
          ((dagEdge g infinity a acc e).1.node v).queued = true) ∧
      new.Nodup := by
  unfold dagEdge
  simp only []
  by_cases hab : a = g.dst e
  · rw [if_pos hab]
    exact ⟨[], (List.append_nil _).symm, fun _ h => h,
      fun v hv => absurd hv (List.not_mem_nil _), List.nodup_nil⟩
  · rw [if_neg hab]
    split_ifs
    · exact ⟨_, rfl, spAndFU_flag g infinity acc.1 a (g.dst e) e hab⟩
    · exact ⟨_, rfl, updateSigma_flag acc.1 a (g.dst e) e⟩
    · exact ⟨_, rfl, firstUpdate_flag acc.1 a (g.dst e) e⟩
    · exact ⟨[], (List.append_nil _).symm, fun _ h => h,
        fun v hv => absurd hv (List.not_mem_nil _), List.nodup_nil⟩

theorem dagFold_flag (g : Graph) (infinity a : Nat) (rest : List Nat) :
    ∀ (es : List Nat) (acc : State × List Nat),
      (rest ++ acc.2).Nodup ∧ (∀ v, v ∈ rest ++ acc.2 → (acc.1.node v).queued = true) →
      (rest ++ (es.foldl (dagEdge g infinity a) acc).2).Nodup ∧
      (∀ v, v ∈ rest ++ (es.foldl (dagEdge g infinity a) acc).2 →
        ((es.foldl (dagEdge g infinity a) acc).1.node v).queued = true) := by
  intro es
  induction es with
  | nil => intro acc h; exact h
  | cons e es ih =>
    intro acc h
    rw [List.foldl_cons]
    apply ih
    obtain ⟨new, h2, hkeep, hnew, hnd⟩ := dagEdge_flag g infinity a acc e
    rw [h2, ← List.append_assoc]
    constructor
    · rw [List.nodup_append]
      refine ⟨h.1, hnd, ?_⟩
      intro v hv1 hv2
      have := h.2 v hv1
      rw [(hnew v hv2).1] at this
      exact absurd this (by simp)
    · intro v hv
      rcases List.mem_append.mp hv with hv | hv
      · exact hkeep v (h.2 v hv)
      · exact (hnew v hv).2

theorem markOut_flag (st : State) (l₁ : List Nat) (a : Nat) (l₂ : List Nat)
    (h : (l₁ ++ a :: l₂).Nodup ∧ ∀ v, v ∈ l₁ ++ a :: l₂ → (st.node v).queued = true) :
    ((l₁ ++ l₂) ++ (markOut st a, ([] : List Nat)).2).Nodup ∧
    (∀ v, v ∈ (l₁ ++ l₂) ++ (markOut st a, ([] : List Nat)).2 →
      ((markOut st a, ([] : List Nat)).1.node v).queued = true) := by
  have hnd : (a :: (l₁ ++ l₂)).Nodup := by
    have := h.1
    rw [List.nodup_middle] at this
    exact this
  simp only [List.append_nil]
  refine ⟨(List.nodup_cons.mp hnd).2, fun v hv => ?_⟩
  have hva : v ≠ a := fun hh => (List.nodup_cons.mp hnd).1 (hh ▸ hv)
  unfold markOut
  rw [setNode_node, if_neg hva]
  apply h.2
  rcases List.mem_append.mp hv with hv | hv
  · exact List.mem_append_left _ hv
  · exact List.mem_append_right _ (List.mem_cons_of_mem _ hv)

/-- C18: in every configuration the forward phase reaches from the seeded source, the
frontier holds no node twice and every node of the frontier has its `queued` flag set;
the same holds inside an item, after any number of its edges, for the remaining frontier
together with the nodes pushed so far. -/
theorem frontier_no_duplicates (g : Graph) (infinity s : Nat) (st st' : State)
    (wl' : List Nat)
    (h : Reaches (dagItem g infinity) (seedSource st s) [s] st' wl') :
    wl'.Nodup ∧ (∀ v, v ∈ wl' → (st'.node v).queued = true) ∧
    (∀ l₁ a l₂ k, wl' = l₁ ++ a :: l₂ →
      (l₁ ++ l₂ ++
        (((g.edges a).take k).foldl (dagEdge g infinity a) (markOut st' a, [])).2).Nodup) := by
  have hI : wl'.Nodup ∧ ∀ v, v ∈ wl' → (st'.node v).queued = true := by
    refine Reaches.preserves
      (fun st wl => wl.Nodup ∧ ∀ v, v ∈ wl → (st.node v).queued = true) ?_ h ?_
    · intro st l₁ a l₂ hi
      unfold dagItem
      exact dagFold_flag g infinity a (l₁ ++ l₂) (g.edges a) _ (markOut_flag st l₁ a l₂ hi)
    · refine ⟨List.nodup_singleton _, fun v hv => ?_⟩
      have hvs : v = s := List.mem_singleton.mp hv
      rw [hvs]
      unfold seedSource
      rw [setNode_node_same]
      rfl
  refine ⟨hI.1, hI.2, ?_⟩
  intro l₁ a l₂ k hwl
  rw [hwl] at hI
  exact (dagFold_flag g infinity a (l₁ ++ l₂) ((g.edges a).take k) _
    (markOut_flag st' l₁ a l₂ hI)).1

theorem frontier_no_duplicates_witness :
    Reaches (dagItem detour inf30) (seedSource (neutralState inf30) 0) [0]
      (dagItem detour inf30 (seedSource (neutralState inf30) 0) 0).1
      ([] ++ [] ++ (dagItem detour inf30 (seedSource (neutralState inf30) 0) 0).2) ∧
    ([] ++ [] ++ (dagItem detour inf30 (seedSource (neutralState inf30) 0) 0).2).Nodup :=
  ⟨Reaches.step _ [] 0 [] _ _ (Reaches.refl _ _),
    (frontier_no_duplicates detour inf30 0 (neutralState inf30) _ _
      (Reaches.step _ [] 0 [] _ _ (Reaches.refl _ _))).1⟩

theorem correctFold_decOk (g : Graph) (infinity b : Nat) :
    ∀ (l : List Nat) (st : State), l.Nodup →
      (∀ u, (st.node u).nsuccs < 4294967296) →
      (∀ u, l.countP (fun x => Dec g infinity st b u x) ≤ (st.node u).nsuccs) →
      foldOk (correctNodeEdge g infinity b) (correctNodeDecOk g infinity b) l st := by
  intro l
  induction l with
  | nil => intro st _ _ _; trivial
  | cons x l ih =>
    intro st hnd hw hcnt
    have hx : x ∉ l := (List.nodup_cons.mp hnd).1
    have hl : l.Nodup := (List.nodup_cons.mp hnd).2
    have hdist : ∀ u, ((correctNodeEdge g infinity b st x).node u).distance
        = (st.node u).distance := correctNodeEdge_distance g infinity b st x
    have hdec : ∀ u y, y ∈ l →
        (Dec g infinity (correctNodeEdge g infinity b st x) b u y ↔ Dec g infinity st b u y) := by
      intro u y hy
      have hyx : y ≠ x := fun h => hx (h ▸ hy)
      unfold Dec Stale
      rw [hdist, hdist, hdist, correctNodeEdge_edge]
      simp [hyx]
    have hc : ∀ u, (if Dec g infinity st b u x then 1 else 0)
        + l.countP (fun y => Dec g infinity st b u y) ≤ (st.node u).nsuccs := by
      intro u
      have := hcnt u
      rw [List.countP_cons] at this
      by_cases hd : Dec g infinity st b u x
      · simp only [hd, decide_True, if_true] at this ⊢; omega
      · simp only [hd, decide_False] at this ⊢
        simpa using this
    refine ⟨?_, ih _ hl ?_ ?_⟩
    · intro h1 h2 h3 h4
      have hd : Dec g infinity st b (g.src x) x := ⟨rfl, ⟨h1, h2⟩, h3, h4⟩
      have := hc (g.src x)
      rw [if_pos hd] at this
      omega
    · intro u
      rw [correctNodeEdge_node]
      split_ifs
      · exact Nat.mod_lt _ (by norm_num)
      · exact hw u
    · intro u
      have hcongr : l.countP (fun y => Dec g infinity (correctNodeEdge g infinity b st x) b u y)
          = l.countP (fun y => Dec g infinity st b u y) := by
        apply List.countP_congr
        intro y hy
        simp [hdec u y hy]
      rw [hcongr, correctNodeEdge_node]
      have := hc u
      have hwu := hw u
      by_cases hd : Dec g infinity st b u x
      · simp only [hd, if_true] at this ⊢
        have hm : ((st.node u).nsuccs + 4294967295) % 4294967296 = (st.node u).nsuccs - 1 := by
          omega
        rw [hm]; omega
      · simp only [hd, if_false] at this ⊢
        omega

theorem spAndFU_decOk {g : Graph} {infinity s : Nat} {st : State} {pend : Nat → Prop}
    (hs : Sizes g infinity) (h : FwdInv g infinity s st pend) (e : Nat) (he : e < g.m)
    (hg : (st.node (g.src e)).distance + 1 < (st.node (g.dst e)).distance) :
    foldOk (correctNodeEdge g infinity (g.dst e)) (correctNodeDecOk g infinity (g.dst e))
      (g.in_edges (g.dst e)) (spMid st (g.src e) (g.dst e) e) := by
  have hab : g.src e ≠ g.dst e := by
    intro hh; rw [← hh] at hg; omega
  have hdb := h.dist_le (g.dst e)
  have hinf := hs.2.1
  have hmodd : ((st.node (g.src e)).distance + 1) % 4294967296
      = (st.node (g.src e)).distance + 1 := Nat.mod_eq_of_lt (by omega)
  have hnVe : ¬ Valid g infinity st e := by
    intro hv
    have := h.valid_dst e he hv
    omega
  have hmdB : ((spMid st (g.src e) (g.dst e) e).node (g.dst e)).distance
      = (st.node (g.src e)).distance + 1 := by
    rw [spMid_node_b]; exact hmodd
  apply correctFold_decOk g infinity (g.dst e) _ _ (in_edges_nodup g _)
  · intro u
    by_cases h1 : u = g.dst e
    · rw [h1, spMid_node_b]; norm_num
    · by_cases h2 : u = g.src e
      · rw [h2, spMid_node_a _ _ _ _ hab]
        exact Nat.mod_lt _ (by norm_num)
      · rw [spMid_node_other _ _ _ _ _ h2 h1]
        have := h.nsuccs_lt hs u
        omega
  · intro u
    by_cases h1 : u = g.dst e
    · have : (g.in_edges (g.dst e)).countP
          (fun x => Dec g infinity (spMid st (g.src e) (g.dst e) e) (g.dst e) u x) = 0 := by
        rw [List.countP_eq_zero]
        intro x _ hd
        have hd' := of_decide_eq_true hd
        exact hd'.2.1.1 (hd'.1.trans h1)
      rw [this]; exact Nat.zero_le _
    · have hle : (st.node u).nsuccs ≤ ((spMid st (g.src e) (g.dst e) e).node u).nsuccs := by
        by_cases h2 : u = g.src e
        · rw [h2, spMid_node_a _ _ _ _ hab]
          have := h.nsuccs_lt hs (g.src e)
          have hm : ((st.node (g.src e)).nsuccs + 1) % 4294967296
              = (st.node (g.src e)).nsuccs + 1 := Nat.mod_eq_of_lt (by omega)
          show (st.node (g.src e)).nsuccs ≤ ((st.node (g.src e)).nsuccs + 1) % 4294967296
          rw [hm]; omega
        · rw [spMid_node_other _ _ _ _ _ h2 h1]
      refine le_trans ?_ hle
      rw [countP_in_edges, h.nsuccs_eq]
      apply Finset.card_le_card
      intro x hx
      rw [Finset.mem_filter, Finset.mem_range] at hx
      obtain ⟨hxm, _, hsrc, hst, hl1, hl2⟩ := hx
      have hxe : x ≠ e := by
        intro hxe
        rw [hxe] at hst
        have := hst.2
        rw [hmdB, spMid_distance _ _ _ _ _ hab] at this
        omega
      rw [spMid_edge, if_neg hxe] at hl1 hl2
      rw [spMid_distance _ _ _ _ _ h1] at hl2
      refine mem_succEdges.mpr ⟨hxm, hsrc, ?_, hl1⟩
      rw [hsrc]; exact hl2

theorem dagEdge_decOk {g : Graph} {infinity s : Nat} {st : State} {pend : Nat → Prop}
    (hs : Sizes g infinity) (h : FwdInv g infinity s st pend)
    (e : Nat) (he : e < g.m) (acc : List Nat) :
    dagEdgeDecOk g infinity (g.src e) (st, acc) e := by
  intro _ hg _
  have hinf := hs.2.1
  have hda := h.dist_le (g.src e)
  have hdb := h.dist_le (g.dst e)
  have hta : toInt (st.node (g.src e)).distance = ((st.node (g.src e)).distance : Int) :=
    toInt_of_lt (by omega)
  have htb : toInt (st.node (g.dst e)).distance = ((st.node (g.dst e)).distance : Int) :=
    toInt_of_lt (by omega)
  simp only [hta, htb] at hg
  exact spAndFU_decOk hs h e he (by omega)

theorem dagFold_decOk {g : Graph} {infinity s : Nat}
    (hs : Sizes g infinity) (hwf : g.WF) (a : Nat) (W : List Nat) :
    ∀ (l : List Nat) (st : State) (acc : List Nat),
      (∀ x, x ∈ l → x < g.m ∧ g.src x = a) →
      FwdInv g infinity s st (fun x => g.src x ∈ W ∨ g.src x ∈ acc ∨ x ∈ l) →
      (st.node a).queued = false →
      foldOk (dagEdge g infinity a) (dagEdgeDecOk g infinity a) l (st, acc) := by
  intro l
  induction l with
  | nil => intro st acc _ _ _; trivial
  | cons e l ih =>
    intro st acc hl h hq
    obtain ⟨hem, hsrc⟩ := hl e (List.mem_cons_self e l)
    subst hsrc
    refine ⟨dagEdge_decOk hs h e hem acc, ?_⟩
    obtain ⟨pu, hacc, hinv, hqa⟩ := dagEdge_inv hs hwf h e hem hq acc
    have heq : dagEdge g infinity (g.src e) (st, acc) e
        = ((dagEdge g infinity (g.src e) (st, acc) e).1, acc ++ pu) := by
      rw [← hacc]
    rw [heq]
    apply ih _ _ (fun x hx => hl x (List.mem_cons_of_mem e hx)) _ hqa
    apply hinv.mono
    intro x _ hp
    rcases hp with ⟨hp, hxe⟩ | hp
    · rcases hp with hp | hp | hp
      · exact Or.inl hp
      · exact Or.inr (Or.inl (List.mem_append_left _ hp))
      · rcases List.mem_cons.mp hp with hp | hp
        · exact absurd hp hxe
        · exact Or.inr (Or.inr hp)
    · exact Or.inr (Or.inl (List.mem_append_right _ hp))

/-- The invariant of the forward phase holds in every configuration it reaches. -/
theorem forward_reaches_inv {g : Graph} {infinity s : Nat} {st st' : State} {wl' : List Nat}
    (hs : Sizes g infinity) (hwf : g.WF) (hsn : s < g.n) (hn : Neutral g infinity st)
    (hr : Reaches (dagItem g infinity) (seedSource st s) [s] st' wl') :
    FwdInv g infinity s st' (fun x => g.src x ∈ wl') :=
  @Reaches.preserves (dagItem g infinity)
    (fun st W => FwdInv g infinity s st (fun x => g.src x ∈ W))
    (fun _ l₁ a l₂ h => dagItem_inv hs hwf l₁ a l₂ h) _ _ _ _ hr (seed_inv hs hsn hn)

theorem dagItem_decOk {g : Graph} {infinity s : Nat} {st : State} {wl : List Nat}
    (hs : Sizes g infinity) (hwf : g.WF)
    (h : FwdInv g infinity s st (fun x => g.src x ∈ wl)) (a : Nat) :
    dagItemDecOk g infinity st a := by
  unfold dagItemDecOk
  apply dagFold_decOk hs hwf a wl (g.edges a) (markOut st a) []
  · intro x hx; exact mem_edges.mp hx
  · apply markOut_inv h
    intro x _ hp
    exact Or.inl hp
  · simp [markOut]

/-! ## The backward work list -/

/-- Facts on a reached item `N` of the backward work list and its predecessors. -/
theorem BwdInv.item_facts {g : Graph} {infinity : Nat} {F st : State} {W : List Nat}
    (hF : DagFacts g infinity F) (h : BwdInv g infinity F st W) (N : Nat) (hN : N ∈ W) :
    N ∉ (st.node N).preds ∧
    ∀ u, u ∈ (st.node N).preds →
      u ∈ (F.node N).preds ∧ Todo infinity F st N ∧ Todo infinity F st u ∧ u ≠ N ∧
      (st.node N).preds.count u ≤ (st.node u).nsuccs ∧ (st.node u).nsuccs < 4294967296 := by
  have hNr : (F.node N).distance ≠ infinity := h.wl_reached N hN
  have hNn : N < g.n := hF.node_lt N hNr
  have hpreds : ∀ u, u ∈ (st.node N).preds → u ∈ (F.node N).preds ∧ Todo infinity F st N := by
    intro u hu
    by_cases hd : (st.node N).distance = infinity
    · have := (h.done_fields N ⟨hNr, hd⟩).2.2
      rw [this] at hu
      exact absurd hu (List.not_mem_nil u)
    · have ht : Todo infinity F st N := ⟨hNr, hd⟩
      rw [(h.todo_fields N ht).2.1] at hu
      exact ⟨hu, ht⟩
  have hNnot : N ∉ (st.node N).preds := by
    intro hm
    have := (hF.pred_dist N N (hpreds N hm).1).2.2
    omega
  refine ⟨hNnot, fun u hu => ?_⟩
  obtain ⟨huF, hNt⟩ := hpreds u hu
  have hur := (hF.pred_dist N u huF).1
  have huN : u ≠ N := fun hh => hNnot (hh ▸ hu)
  have hut : Todo infinity F st u := by
    refine ⟨hur, ?_⟩
    intro hd
    have := h.done_occ u N ⟨hur, hd⟩ hNt
    unfold occ at this
    rw [List.count_eq_zero] at this
    exact this huF
  refine ⟨huF, hNt, hut, huN, ?_, h.ns_lt u⟩
  rw [h.todo_ns u hut, (h.todo_fields N hNt).2.1]
  have hmem : N ∈ (Finset.range g.n).filter (Todo infinity F st) :=
    Finset.mem_filter.mpr ⟨Finset.mem_range.mpr hNn, hNt⟩
  exact Finset.single_le_sum (f := fun w => occ F u w) (fun _ _ => Nat.zero_le _) hmem

/-- The predecessor loop decrements counters that are at least 1, pushes no node twice
and pushes a node exactly at its last occurrence, when its counter goes from 1 to 0. -/
theorem backFold_pushes (N : Nat) (srcDelta : ℚ) :
    ∀ (l : List Nat) (st : State) (acc : List Nat),
      (∀ u, u ∈ l → l.count u ≤ (st.node u).nsuccs ∧ (st.node u).nsuccs < 4294967296) →
      acc.Nodup → (∀ u, u ∈ acc → u ∉ l) →
      foldOk (backPred N srcDelta) (fun a p => 1 ≤ (a.1.node p).nsuccs) l (st, acc) ∧
      (l.foldl (backPred N srcDelta) (st, acc)).2.Nodup ∧
      (∀ u, u ∈ (l.foldl (backPred N srcDelta) (st, acc)).2 →
        u ∈ acc ∨ (u ∈ l ∧ (st.node u).nsuccs = l.count u)) := by
  intro l
  induction l with
  | nil =>
    intro st acc _ hnd _
    exact ⟨trivial, hnd, fun u hu => Or.inl hu⟩
  | cons p l ih =>
    intro st acc hl hnd hdis
    simp only [List.foldl_cons]
    have hp := hl p (List.mem_cons_self p l)
    rw [count_cons_ite, if_pos rfl] at hp
    have hmod : ((st.node p).nsuccs + 4294967295) % 4294967296 = (st.node p).nsuccs - 1 := by
      omega
    have hns : ∀ v, (((backPred N srcDelta (st, acc) p).1).node v).nsuccs
        = (st.node v).nsuccs - (if v = p then 1 else 0) := by
      intro v; rw [backPred_node]
      split_ifs with h
      · rw [h]; exact hmod
      · rfl
    have hS1 := backPred_snd N srcDelta (st, acc) p
    simp only [] at hS1
    have hl' : ∀ u, u ∈ l → l.count u ≤ (((backPred N srcDelta (st, acc) p).1).node u).nsuccs ∧
        (((backPred N srcDelta (st, acc) p).1).node u).nsuccs < 4294967296 := by
      intro u hu
      have h1 := hl u (List.mem_cons_of_mem p hu)
      rw [hns]
      rw [count_cons_ite] at h1
      split_ifs at h1 ⊢ <;> omega
    have hpacc : p ∉ acc := fun hm => hdis p hm (List.mem_cons_self p l)
    have hnd' : (backPred N srcDelta (st, acc) p).2.Nodup := by
      rw [hS1]
      split_ifs
      · rw [List.nodup_append]
        refine ⟨hnd, List.nodup_singleton _, ?_⟩
        intro v hv1 hv2
        rw [List.mem_singleton.mp hv2] at hv1
        exact hpacc hv1
      · exact hnd
    have hdis' : ∀ u, u ∈ (backPred N srcDelta (st, acc) p).2 → u ∉ l := by
      intro u hu hul
      rw [hS1] at hu
      split_ifs at hu with h1
      · rcases List.mem_append.mp hu with hu | hu
        · exact hdis u hu (List.mem_cons_of_mem p hul)
        · rw [List.mem_singleton.mp hu] at hul
          have := List.count_pos_iff.mpr hul
          omega
      · exact hdis u hu (List.mem_cons_of_mem p hul)
    have heq : backPred N srcDelta (st, acc) p
        = ((backPred N srcDelta (st, acc) p).1, (backPred N srcDelta (st, acc) p).2) := rfl
    rw [heq]
    obtain ⟨i1, i2, i3⟩ := ih (backPred N srcDelta (st, acc) p).1
      (backPred N srcDelta (st, acc) p).2 hl' hnd' hdis'
    refine ⟨⟨by show 1 ≤ (st.node p).nsuccs; omega, by rw [heq]; exact i1⟩, i2, ?_⟩
    intro u hu
    rcases i3 u hu with h1 | ⟨h1, h2⟩
    · rw [hS1] at h1
      split_ifs at h1 with hone
      · rcases List.mem_append.mp h1 with h1 | h1
        · exact Or.inl h1
        · have hup : u = p := List.mem_singleton.mp h1
          refine Or.inr ⟨hup ▸ List.mem_cons_self p l, ?_⟩
          rw [hup, count_cons_ite, if_pos rfl]
          omega
      · exact Or.inl h1
    · refine Or.inr ⟨List.mem_cons_of_mem p h1, ?_⟩
      rw [hns] at h2
      rw [count_cons_ite]
      have h3 := hl u (List.mem_cons_of_mem p h1)
      rw [count_cons_ite] at h3
      split_ifs at h2 h3 ⊢ <;> omega

theorem backFold_divOk (N : Nat) (srcDelta : ℚ) :
    ∀ (l : List Nat) (st : State) (acc : List Nat),
      (st.node N).sigma ≠ 0 → (∀ u, u ∈ l → (st.node u).sigma ≠ 0) →
      foldOk (backPred N srcDelta)
        (fun a p => (a.1.node N).sigma ≠ 0 ∧ (a.1.node p).sigma ≠ 0) l (st, acc) := by
  intro l
  induction l with
  | nil => intro st acc _ _; trivial
  | cons p l ih =>
    intro st acc hN hl
    have hsig : ∀ v, (((backPred N srcDelta (st, acc) p).1).node v).sigma
        = (st.node v).sigma := by
      intro v; rw [backPred_node]
      split_ifs with h
      · rw [h]
      · rfl
    have heq : backPred N srcDelta (st, acc) p
        = ((backPred N srcDelta (st, acc) p).1, (backPred N srcDelta (st, acc) p).2) := rfl
    refine ⟨⟨hN, hl p (List.mem_cons_self p l)⟩, ?_⟩
    rw [heq]
    apply ih
    · rw [hsig]; exact hN
    · intro u hu; rw [hsig]; exact hl u (List.mem_cons_of_mem p hu)

theorem backItem_pushes (g : Graph) (infinity : Nat) (st : State) (N : Nat)
    (h0 : (st.node N).nsuccs = 0) (hN : N ∉ (st.node N).preds)
    (hl : ∀ u, u ∈ (st.node N).preds →
      (st.node N).preds.count u ≤ (st.node u).nsuccs ∧ (st.node u).nsuccs < 4294967296) :
    (backItem g infinity st N).2.Nodup ∧
    (∀ u, u ∈ (backItem g infinity st N).2 →
      u ∈ (st.node N).preds ∧ (st.node u).nsuccs = (st.node N).preds.count u) ∧
    backItemDecOk st N := by
  have hne : ∀ v, v ≠ N →
      (st.setNode N { st.node N with bc := (st.node N).bc + (st.node N).delta }).node v
        = st.node v := fun v hv => setNode_node_ne _ _ hv
  have hl1 : ∀ u, u ∈ (st.node N).preds →
      (st.node N).preds.count u
        ≤ ((st.setNode N { st.node N with bc := (st.node N).bc + (st.node N).delta }).node
            u).nsuccs ∧
      ((st.setNode N { st.node N with bc := (st.node N).bc + (st.node N).delta }).node
            u).nsuccs < 4294967296 := by
    intro u hu
    have huN : u ≠ N := fun h => hN (h ▸ hu)
    rw [hne u huN]
    exact hl u hu
  obtain ⟨f1, f2, f3⟩ := backFold_pushes N (st.node N).delta (st.node N).preds
    (st.setNode N { st.node N with bc := (st.node N).bc + (st.node N).delta }) [] hl1
    List.nodup_nil (fun u hu => absurd hu (List.not_mem_nil u))
  have hsnd : (backItem g infinity st N).2 =
      ((st.node N).preds.foldl (backPred N (st.node N).delta)
        (st.setNode N { st.node N with bc := (st.node N).bc + (st.node N).delta }, [])).2 := by
    unfold backItem
    rw [if_pos h0]
    simp only [setNode_node_same]
  refine ⟨hsnd ▸ f2, fun u hu => ?_, fun _ => f1⟩
  rw [hsnd] at hu
  rcases f3 u hu with h | ⟨h1, h2⟩
  · exact absurd h (List.not_mem_nil u)
  · have huN : u ≠ N := fun h => hN (h ▸ h1)
    rw [hne u huN] at h2
    exact ⟨h1, h2⟩

theorem backItem_fresh {g : Graph} {infinity : Nat} {F st : State}
    (hF : DagFacts g infinity F) (l₁ : List Nat) (N : Nat) (l₂ : List Nat)
    (h : BwdInv g infinity F st (l₁ ++ N :: l₂))
    (hq : FrontierFresh infinity F st (l₁ ++ N :: l₂)) :
    FrontierFresh infinity F (backItem g infinity st N).1
      (l₁ ++ l₂ ++ (backItem g infinity st N).2) ∧
    (∀ v, Todo infinity F (backItem g infinity st N).1 v ↔ (Todo infinity F st v ∧ v ≠ N)) := by
  have hNW : N ∈ l₁ ++ N :: l₂ := by simp
  obtain ⟨hNt, h0⟩ := hq.2 N hNW
  obtain ⟨hNnot, hpf⟩ := h.item_facts hF N hNW
  have hl : ∀ u, u ∈ (st.node N).preds →
      (st.node N).preds.count u ≤ (st.node u).nsuccs ∧ (st.node u).nsuccs < 4294967296 :=
    fun u hu => (hpf u hu).2.2.2.2
  obtain ⟨e1, e2, _, _⟩ := backItem_effect g infinity st N h0 hNnot hl
  obtain ⟨p1, p2, _⟩ := backItem_pushes g infinity st N h0 hNnot hl
  have hTodo' : ∀ v, Todo infinity F (backItem g infinity st N).1 v ↔
      (Todo infinity F st v ∧ v ≠ N) := by
    intro v
    unfold Todo
    by_cases hv : v = N
    · rw [hv, e1]; simp
    · rw [(e2 v hv).1]; simp [hv]
  have hnd : (N :: (l₁ ++ l₂)).Nodup := by
    have := hq.1
    rw [List.nodup_middle] at this
    exact this
  have hrest : ∀ v, v ∈ l₁ ++ l₂ → v ∈ l₁ ++ N :: l₂ := by
    intro v hv
    rcases List.mem_append.mp hv with hv | hv
    · exact List.mem_append_left _ hv
    · exact List.mem_append_right _ (List.mem_cons_of_mem _ hv)
  refine ⟨⟨?_, ?_⟩, hTodo'⟩
  · rw [List.nodup_append]
    refine ⟨(List.nodup_cons.mp hnd).2, p1, ?_⟩
    intro v hv1 hv2
    have hz := (hq.2 v (hrest v hv1)).2
    obtain ⟨hvp, hc⟩ := p2 v hv2
    have := List.count_pos_iff.mpr hvp
    omega
  · intro v hv
    rcases List.mem_append.mp hv with hv | hv
    · have hvN : v ≠ N := fun hh => (List.nodup_cons.mp hnd).1 (hh ▸ hv)
      obtain ⟨ht, hz⟩ := hq.2 v (hrest v hv)
      refine ⟨(hTodo' v).mpr ⟨ht, hvN⟩, ?_⟩
      rw [(e2 v hvN).2.2.2.2.2.1, hz]
      exact Nat.zero_sub _
    · obtain ⟨hvp, hc⟩ := p2 v hv
      obtain ⟨_, _, hvt, hvN, _, _⟩ := hpf v hvp
      refine ⟨(hTodo' v).mpr ⟨hvt, hvN⟩, ?_⟩
      rw [(e2 v hvN).2.2.2.2.2.1, hc]
      omega

theorem findLeaves_fresh {g : Graph} {infinity : Nat} (F : State) :
    FrontierFresh infinity F F (findLeaves infinity F g.n) := by
  unfold findLeaves
  refine ⟨(List.nodup_range g.n).filter _, fun v hv => ?_⟩
  rw [List.mem_filter] at hv
  have := of_decide_eq_true hv.2
  exact ⟨⟨by omega, by omega⟩, this.1⟩

/-- The invariants of the backward phase hold in every configuration it reaches. -/
theorem backward_reaches_inv {g : Graph} {infinity s : Nat} {F st' : State} {wl' : List Nat}
    (hs : Sizes g infinity) (hwf : g.WF) (h : Quiescent g infinity s F)
    (hr : Reaches (backItem g infinity) F (findLeaves infinity F g.n) st' wl') :
    BwdInv g infinity F st' wl' ∧ FrontierFresh infinity F st' wl' :=
  @Reaches.preserves (backItem g infinity)
    (fun st W => BwdInv g infinity F st W ∧ FrontierFresh infinity F st W)
    (fun _ l₁ a l₂ hi => ⟨backItem_inv (h.dagFacts hs) l₁ a l₂ hi.1,
      (backItem_fresh (h.dagFacts hs) l₁ a l₂ hi.1 hi.2).1⟩) _ _ _ _ hr
    ⟨findLeaves_inv hs hwf h, findLeaves_fresh F⟩

theorem Reaches.step_eq {body : State → Nat → State × List Nat} {st st₁ st' : State}
    {wl wl₁ wl' : List Nat} (l₁ : List Nat) (a : Nat) (l₂ : List Nat)
    (hwl : wl = l₁ ++ a :: l₂) (hst : st₁ = (body st a).1)
    (hwl₁ : wl₁ = l₁ ++ l₂ ++ (body st a).2)
    (h : Reaches body st₁ wl₁ st' wl') : Reaches body st wl st' wl' := by
  subst hwl hst hwl₁
  exact Reaches.step _ _ _ _ _ _ h

theorem detourMid_reached :
    Reaches (dagItem detour inf30) (seedSource (neutralState inf30) 0) [0] detourMid [2, 3] :=
  Reaches.step_eq [] 0 [] rfl rfl (by decide : [1, 2] = _)
    (Reaches.step_eq [] 1 [2] rfl rfl (by decide : [2, 5] = _)
      (Reaches.step_eq [2] 5 [] rfl rfl (by decide : [2, 3] = _) (Reaches.refl _ _)))

/-- C14: in every configuration reached during a source iteration started from neutral
records, every decrement of `nsuccs` executed by the next item (in `correctNode`, run by
the new-shortest-path rule of the forward phase, and in the predecessor loop of
`dependencyBackProp`) applies to a counter that is at least 1. -/
theorem nsuccs_never_negative (g : Graph) (infinity s : Nat) (st : State)
    (hs : Sizes g infinity) (hwf : g.WF) (hsn : s < g.n) (hn : Neutral g infinity st) :
    (∀ st' wl' a, Reaches (dagItem g infinity) (seedSource st s) [s] st' wl' → a ∈ wl' →
      dagItemDecOk g infinity st' a) ∧
    (∀ stF st' wl' a, dagConstruction g infinity (seedSource st s) [s] stF →
      Reaches (backItem g infinity) stF (findLeaves infinity stF g.n) st' wl' → a ∈ wl' →
      backItemDecOk st' a) := by
  constructor
  · intro st' wl' a hr _
    exact dagItem_decOk hs hwf (forward_reaches_inv hs hwf hsn hn hr) a
  · intro stF st' wl' a hF hr ha
    have hq := dagConstruction_inv hs hwf hsn hn hF
    obtain ⟨hinv, hfresh⟩ := backward_reaches_inv hs hwf hq hr
    obtain ⟨hNnot, hpf⟩ := hinv.item_facts (hq.dagFacts hs) a ha
    exact (backItem_pushes g infinity st' a (hfresh.2 a ha).2 hNnot
      (fun u hu => (hpf u hu).2.2.2.2)).2.2

theorem nsuccs_never_negative_witness :
    Sizes detour inf30 ∧ detour.WF ∧ 0 < detour.n ∧
    Neutral detour inf30 (neutralState inf30) ∧
    Reaches (dagItem detour inf30) (seedSource (neutralState inf30) 0) [0] detourMid [2, 3] ∧
    dagItemDecOk detour inf30 detourMid 2 :=
  ⟨sizes_detour, wf_detour, by decide, neutralState_neutral _ _, detourMid_reached,
    (nsuccs_never_negative detour inf30 0 (neutralState inf30) sizes_detour wf_detour
      (by decide) (neutralState_neutral _ _)).1 _ _ 2 detourMid_reached (by decide)⟩

/-- C15: in every configuration reached by the backward phase, for the next item `N` (taken
with `nsuccs = 0`) and every predecessor `P` visited by its loop, the divisor `N.sigma` of
`term` is non-zero, and `P.sigma` is non-zero as well. -/
theorem backward_division_defined (g : Graph) (infinity s : Nat) (st stF : State)
    (hs : Sizes g infinity) (hwf : g.WF) (hsn : s < g.n) (hn : Neutral g infinity st)
    (hF : dagConstruction g infinity (seedSource st s) [s] stF) :
    ∀ st' wl' a, Reaches (backItem g infinity) stF (findLeaves infinity stF g.n) st' wl' →
      a ∈ wl' → backItemDivOk st' a := by
  intro st' wl' a hr ha _
  have hq := dagConstruction_inv hs hwf hsn hn hF
  obtain ⟨hinv, hfresh⟩ := backward_reaches_inv hs hwf hq hr
  obtain ⟨hNnot, hpf⟩ := hinv.item_facts (hq.dagFacts hs) a ha
  have hat := (hfresh.2 a ha).1
  have hpos : ∀ v, Todo infinity stF st' v → (st'.node v).sigma ≠ 0 := by
    intro v hv
    rw [(hinv.todo_fields v hv).1]
    have := hq.sigma_pos v hv.1
    omega
  apply backFold_divOk
  · rw [setNode_node_same]
    exact hpos a hat
  · intro u hu
    obtain ⟨_, _, hut, huN, _, _⟩ := hpf u hu
    rw [setNode_node_ne _ _ huN]
    exact hpos u hut

theorem backward_division_defined_witness :
    Sizes line3 inf30 ∧ line3.WF ∧ 0 < line3.n ∧ Neutral line3 inf30 (neutralState inf30) ∧
    dagConstruction line3 inf30 (seedSource (neutralState inf30) 0) [0] line3F ∧
    (2 : Nat) ∈ findLeaves inf30 line3F line3.n ∧
    backItemDivOk line3F 2 :=
  ⟨sizes_line3, wf_line3, by decide, neutralState_neutral _ _, line3F_run, by decide,
    backward_division_defined line3 inf30 0 (neutralState inf30) line3F sizes_line3 wf_line3
      (by decide) (neutralState_neutral _ _) line3F_run _ _ 2 (Reaches.refl _ _)
      (by decide)⟩

theorem DrainsLog.drains {body : State → Nat → State × List Nat} {st : State} {wl log : List Nat}
    {st' : State} (h : DrainsLog body st wl log st') : Drains body st wl st' := by
  induction h with
  | done st => exact Drains.done _
  | step st l₁ a l₂ log st' _ ih => exact Drains.step _ _ _ _ _ ih

theorem Drains.has_log {body : State → Nat → State × List Nat} {st : State} {wl : List Nat}
    {st' : State} (h : Drains body st wl st') : ∃ log, DrainsLog body st wl log st' := by
  induction h with
  | done st => exact ⟨[], DrainsLog.done _⟩
  | step st l₁ a l₂ st' _ ih =>
    obtain ⟨log, hl⟩ := ih
    exact ⟨a :: log, DrainsLog.step _ _ _ _ _ _ hl⟩

theorem todo_card_step {g : Graph} {infinity : Nat} {F st st' : State} {N : Nat}
    (hNn : N < g.n) (hNt : Todo infinity F st N)
    (hT : ∀ v, Todo infinity F st' v ↔ (Todo infinity F st v ∧ v ≠ N)) :
    ((Finset.range g.n).filter (Todo infinity F st')).card + 1
      = ((Finset.range g.n).filter (Todo infinity F st)).card := by
  have hmem : N ∈ (Finset.range g.n).filter (Todo infinity F st) :=
    Finset.mem_filter.mpr ⟨Finset.mem_range.mpr hNn, hNt⟩
  have heq : (Finset.range g.n).filter (Todo infinity F st')
      = ((Finset.range g.n).filter (Todo infinity F st)).erase N := by
    ext v
    simp only [Finset.mem_filter, Finset.mem_erase, Finset.mem_range, hT]
    tauto
  rw [heq, Finset.card_erase_of_mem hmem]
  have := Finset.card_pos.mpr ⟨N, hmem⟩
  omega

/-- The log of a complete backward run lists exactly the nodes still to accumulate, each
once. -/
theorem backward_log {g : Graph} {infinity : Nat} {F : State} (hF : DagFacts g infinity F) :
    ∀ (st : State) (W log : List Nat) (stB : State),
      DrainsLog (backItem g infinity) st W log stB →
      BwdInv g infinity F st W → FrontierFresh infinity F st W →
      log.Nodup ∧ (∀ v, v ∈ log ↔ Todo infinity F st v) := by
  intro st W log stB h
  induction h with
  | done st =>
    intro hinv _
    refine ⟨List.nodup_nil, fun v => ⟨fun hv => absurd hv (List.not_mem_nil v), fun hv => ?_⟩⟩
    exact absurd (hinv.all_done hF _ v rfl hv.1).2 hv.2
  | step st l₁ a l₂ log st' _ ih =>
    intro hinv hfresh
    obtain ⟨hf', hT⟩ := backItem_fresh hF l₁ a l₂ hinv hfresh
    obtain ⟨i1, i2⟩ := ih (backItem_inv hF l₁ a l₂ hinv) hf'
    have hat : Todo infinity F st a := (hfresh.2 a (by simp)).1
    refine ⟨List.nodup_cons.mpr ⟨fun hm => ((hT a).mp ((i2 a).mp hm)).2 rfl, i1⟩, fun v => ?_⟩
    rw [List.mem_cons, i2, hT]
    constructor
    · rintro (h1 | h1)
      · rw [h1]; exact hat
      · exact h1.1
    · intro h1
      by_cases hva : v = a
      · exact Or.inl hva
      · exact Or.inr ⟨h1, hva⟩

/-- The backward phase ends under every schedule, within as many items as there are nodes
still to accumulate. -/
theorem backward_terminates {g : Graph} {infinity : Nat} {F : State}
    (hF : DagFacts g infinity F) (pick : List Nat → Nat) :
    ∀ (fuel : Nat) (st : State) (W : List Nat),
      BwdInv g infinity F st W → FrontierFresh infinity F st W →
      ((Finset.range g.n).filter (Todo infinity F st)).card ≤ fuel →
      (drain (backItem g infinity) pick fuel st W).isSome = true := by
  intro fuel
  induction fuel with
  | zero =>
    intro st W hinv hfresh hc
    cases W with
    | nil => simp [drain]
    | cons w ws =>
      have hwt := (hfresh.2 w (List.mem_cons_self w ws)).1
      have hmem : w ∈ (Finset.range g.n).filter (Todo infinity F st) :=
        Finset.mem_filter.mpr ⟨Finset.mem_range.mpr (hF.node_lt w hwt.1), hwt⟩
      have := Finset.card_pos.mpr ⟨w, hmem⟩
      omega
  | succ k ih =>
    intro st W hinv hfresh hc
    cases W with
    | nil => simp [drain]
    | cons w ws =>
      simp only [drain]
      have hi : pick (w :: ws) % (ws.length + 1) < (w :: ws).length := by
        simp only [List.length_cons]
        exact Nat.mod_lt _ (Nat.succ_pos _)
      generalize pick (w :: ws) % (ws.length + 1) = i at hi
      have hsplit : w :: ws
          = (w :: ws).take i ++ (w :: ws).getD i w :: (w :: ws).drop (i + 1) := by
        rw [List.getD_eq_getElem _ _ hi]
        exact (List.take_append_drop i (w :: ws)).symm.trans
          (by rw [List.drop_eq_getElem_cons hi])
      rw [hsplit] at hinv hfresh
      obtain ⟨hf', hT⟩ := backItem_fresh hF _ _ _ hinv hfresh
      have hat := (hfresh.2 ((w :: ws).getD i w) (by simp)).1
      have hcard := todo_card_step (hF.node_lt _ hat.1) hat hT
      exact ih _ _ (backItem_inv hF _ _ _ hinv) hf' (by omega)

/-- C16: in the backward phase every node reachable from the source is accumulated exactly
once.  The leaf scan seeds exactly the reachable nodes with `nsuccs = 0`, each once.  In
every configuration reached, the work list holds no node twice and only reachable nodes
not yet accumulated whose `nsuccs` is 0; the nodes pushed by the next item are pushed once,
are reachable, are not on the work list, and their `nsuccs` goes from its last units to 0
in that item.  The sequence of items executed by a complete run lists every reachable node
exactly once and nothing else, and under every schedule the work list is empty after as
many items as there are reachable nodes. -/
theorem backward_accumulates_once (g : Graph) (infinity s : Nat) (st stF : State)
    (hs : Sizes g infinity) (hwf : g.WF) (hsn : s < g.n) (hn : Neutral g infinity st)
    (hF : dagConstruction g infinity (seedSource st s) [s] stF) :
    ((findLeaves infinity stF g.n).Nodup ∧
      ∀ v, v ∈ findLeaves infinity stF g.n ↔ (Reachable g s v ∧ (stF.node v).nsuccs = 0)) ∧
    (∀ st' wl', Reaches (backItem g infinity) stF (findLeaves infinity stF g.n) st' wl' →
      wl'.Nodup ∧
      ∀ a, a ∈ wl' →
        Reachable g s a ∧ (st'.node a).distance ≠ infinity ∧ (st'.node a).nsuccs = 0 ∧
        (backItem g infinity st' a).2.Nodup ∧
        ∀ u, u ∈ (backItem g infinity st' a).2 →
          u ∉ wl' ∧ Reachable g s u ∧ 1 ≤ (st'.node u).nsuccs ∧
          (st'.node u).nsuccs = (st'.node a).preds.count u ∧
          ((backItem g infinity st' a).1.node u).nsuccs = 0) ∧
    (∀ log stB, DrainsLog (backItem g infinity) stF (findLeaves infinity stF g.n) log stB →
      log.Nodup ∧ (∀ v, v ∈ log ↔ Reachable g s v) ∧
      log.length = reachedCount g infinity stF) ∧
    (∀ pick fuel, reachedCount g infinity stF ≤ fuel →
      (drain (backItem g infinity) pick fuel stF (findLeaves infinity stF g.n)).isSome
        = true) := by
  have hq := dagConstruction_inv hs hwf hsn hn hF
  have hD := hq.dagFacts hs
  have hT0 : ∀ v, Todo infinity stF stF v ↔ Reachable g s v := by
    intro v
    rw [hq.reached_iff hs v]
    unfold Todo
    exact and_self_iff
  have hcard0 : ((Finset.range g.n).filter (Todo infinity stF stF)).card
      = reachedCount g infinity stF := by
    unfold reachedCount
    congr 1
    apply Finset.filter_congr
    intro v _
    unfold Todo
    exact and_self_iff
  refine ⟨⟨(findLeaves_fresh stF).1, fun v => ?_⟩, ?_, ?_, ?_⟩
  · rw [hq.reached_iff hs v]
    unfold findLeaves
    rw [List.mem_filter, List.mem_range]
    have hle := hq.dist_le v
    constructor
    · rintro ⟨_, h2⟩
      have := of_decide_eq_true h2
      exact ⟨by omega, this.1⟩
    · rintro ⟨h1, h2⟩
      exact ⟨hq.dist_node v h1, decide_eq_true ⟨h2, by omega⟩⟩
  · intro st' wl' hr
    obtain ⟨hinv, hfresh⟩ := backward_reaches_inv hs hwf hq hr
    refine ⟨hfresh.1, fun a ha => ?_⟩
    obtain ⟨hat, h0⟩ := hfresh.2 a ha
    obtain ⟨hNnot, hpf⟩ := hinv.item_facts hD a ha
    have hl : ∀ u, u ∈ (st'.node a).preds →
        (st'.node a).preds.count u ≤ (st'.node u).nsuccs ∧ (st'.node u).nsuccs < 4294967296 :=
      fun u hu => (hpf u hu).2.2.2.2
    obtain ⟨_, e2, _, _⟩ := backItem_effect g infinity st' a h0 hNnot hl
    obtain ⟨p1, p2, _⟩ := backItem_pushes g infinity st' a h0 hNnot hl
    refine ⟨(hq.reached_iff hs a).mpr hat.1, hat.2, h0, p1, fun u hu => ?_⟩
    obtain ⟨hup, hc⟩ := p2 u hu
    obtain ⟨_, _, hut, huN, _, _⟩ := hpf u hup
    have hpos := List.count_pos_iff.mpr hup
    refine ⟨fun hm => ?_, (hq.reached_iff hs u).mpr hut.1, by omega, hc, ?_⟩
    · have := (hfresh.2 u hm).2
      omega
    · rw [(e2 u huN).2.2.2.2.2.1, hc]
      omega
  · intro log stB hlog
    obtain ⟨l1, l2⟩ := backward_log hD _ _ _ _ hlog (findLeaves_inv hs hwf hq)
      (findLeaves_fresh stF)
    refine ⟨l1, fun v => (l2 v).trans (hT0 v), ?_⟩
    rw [← hcard0, ← List.toFinset_card_of_nodup l1]
    congr 1
    ext v
    rw [List.mem_toFinset, l2, Finset.mem_filter, Finset.mem_range]
    exact ⟨fun h => ⟨hD.node_lt v h.1, h⟩, fun h => h.2⟩
  · intro pick fuel hfuel
    exact backward_terminates hD pick fuel _ _ (findLeaves_inv hs hwf hq)
      (findLeaves_fresh stF) (by rw [hcard0]; exact hfuel)

theorem backward_accumulates_once_witness :
    Sizes line3 inf30 ∧ line3.WF ∧ 0 < line3.n ∧ Neutral line3 inf30 (neutralState inf30) ∧
    dagConstruction line3 inf30 (seedSource (neutralState inf30) 0) [0] line3F ∧
    reachedCount line3 inf30 line3F ≤ 3 ∧
    (drain (backItem line3 inf30) lifo 3 line3F (findLeaves inf30 line3F line3.n)).isSome
      = true :=
  ⟨sizes_line3, wf_line3, by decide, neutralState_neutral _ _, line3F_run, by decide,
    (backward_accumulates_once line3 inf30 0 (neutralState inf30) line3F sizes_line3 wf_line3
      (by decide) (neutralState_neutral _ _) line3F_run).2.2.2 lifo 3 (by decide)⟩

theorem detourF_run :
    dagConstruction detour inf30 (seedSource (neutralState inf30) 0) [0] detourF :=
  drain_sound _ _ _ _ _ _ (getD_of_isSome _ _ (by decide))

theorem detourOut_run : sourceIteration detour inf30 0 (neutralState inf30) detourOut :=
  runSource_sound (getD_of_isSome _ _ (by decide))

theorem dagEdge_diffOk {g : Graph} {infinity s : Nat} {st : State} {pend : Nat → Prop}
    (hs : Sizes g infinity) (h : FwdInv g infinity s st pend)
    (e : Nat) (he : e < g.m) (acc : List Nat) :
    dagEdgeDiffOk g (g.src e) (st, acc) e := by
  intro _ _ hg
  have hinf := hs.2.1
  have hda := h.dist_le (g.src e)
  have hdb := h.dist_le (g.dst e)
  have hle := h.lvl_le e he
  have hta : toInt (st.node (g.src e)).distance = ((st.node (g.src e)).distance : Int) :=
    toInt_of_lt (by omega)
  have htb : toInt (st.node (g.dst e)).distance = ((st.node (g.dst e)).distance : Int) :=
    toInt_of_lt (by omega)
  have htl : toInt (st.edge e).level = ((st.edge e).level : Int) :=
    toInt_of_lt (by omega)
  simp only [hta, htb, htl] at hg
  exact h.val_le e he ⟨by omega, by omega⟩

theorem dagFold_diffOk {g : Graph} {infinity s : Nat}
    (hs : Sizes g infinity) (hwf : g.WF) (a : Nat) (W : List Nat) :
    ∀ (l : List Nat) (st : State) (acc : List Nat),
      (∀ x, x ∈ l → x < g.m ∧ g.src x = a) →
      FwdInv g infinity s st (fun x => g.src x ∈ W ∨ g.src x ∈ acc ∨ x ∈ l) →
      (st.node a).queued = false →
      foldOk (dagEdge g infinity a) (dagEdgeDiffOk g a) l (st, acc) := by
  intro l
  induction l with
  | nil => intro st acc _ _ _; trivial
  | cons e l ih =>
    intro st acc hl h hq
    obtain ⟨hem, hsrc⟩ := hl e (List.mem_cons_self e l)
    subst hsrc
    refine ⟨dagEdge_diffOk hs h e hem acc, ?_⟩
    obtain ⟨pu, hacc, hinv, hqa⟩ := dagEdge_inv hs hwf h e hem hq acc
    have heq : dagEdge g infinity (g.src e) (st, acc) e
        = ((dagEdge g infinity (g.src e) (st, acc) e).1, acc ++ pu) := by
      rw [← hacc]
    rw [heq]
    apply ih _ _ (fun x hx => hl x (List.mem_cons_of_mem e hx)) _ hqa
    apply hinv.mono
    intro x _ hp
    rcases hp with ⟨hp, hxe⟩ | hp
    · rcases hp with hp | hp | hp
      · exact Or.inl hp
      · exact Or.inr (Or.inl (List.mem_append_left _ hp))
      · rcases List.mem_cons.mp hp with hp | hp
        · exact absurd hp hxe
        · exact Or.inr (Or.inr hp)
    · exact Or.inr (Or.inl (List.mem_append_right _ hp))

/-- The frontier of the forward phase holds no node twice and only queued nodes. -/
theorem forward_frontier_flags {g : Graph} {infinity s : Nat} {st st' : State}
    {wl' : List Nat}
    (h : Reaches (dagItem g infinity) (seedSource st s) [s] st' wl') :
    wl'.Nodup ∧ ∀ v, v ∈ wl' → (st'.node v).queued = true := by
  refine Reaches.preserves
    (fun st wl => wl.Nodup ∧ ∀ v, v ∈ wl → (st.node v).queued = true) ?_ h ?_
  · intro st l₁ a l₂ hi
    unfold dagItem
    exact dagFold_flag g infinity a (l₁ ++ l₂) (g.edges a) _ (markOut_flag st l₁ a l₂ hi)
  · refine ⟨List.nodup_singleton _, fun v hv => ?_⟩
    have hvs : v = s := List.mem_singleton.mp hv
    rw [hvs]
    unfold seedSource
    rw [setNode_node_same]
    rfl

/-- Every node on the frontier of the forward phase has been reached. -/
theorem forward_frontier_reached {g : Graph} {infinity s : Nat} {st st' : State}
    {wl' : List Nat}
    (hs : Sizes g infinity) (hwf : g.WF) (hsn : s < g.n) (hn : Neutral g infinity st)
    (hr : Reaches (dagItem g infinity) (seedSource st s) [s] st' wl') (v : Nat)
    (hv : v ∈ wl') : (st'.node v).distance ≠ infinity := by
  intro hd
  have h1 := ((forward_reaches_inv hs hwf hsn hn hr).unreached v hd).2
  have h2 := (forward_frontier_flags hr).2 v hv
  rw [h1] at h2
  exact absurd h2 (by simp)

/-- C22: when the forward phase reaches an empty frontier, the `nsuccs` of every node `u`
is the number of occurrences of `u` in the `preds` of all nodes, and it is the number of
out-edges `(u, v)`, `v ≠ u`, with `distance v = distance u + 1`. -/
theorem nsuccs_counts_dag_successors (g : Graph) (infinity s : Nat) (st stF : State)
    (hs : Sizes g infinity) (hwf : g.WF) (hsn : s < g.n) (hn : Neutral g infinity st)
    (hF : dagConstruction g infinity (seedSource st s) [s] stF) :
    ∀ u, (stF.node u).nsuccs = ∑ w in Finset.range g.n, (stF.node w).preds.count u ∧
      (stF.node u).nsuccs = ((Finset.range g.m).filter (fun x => g.src x = u ∧ g.dst x ≠ u ∧
        (stF.node (g.dst x)).distance = (stF.node u).distance + 1)).card := by
  have hq := dagConstruction_inv hs hwf hsn hn hF
  intro u
  refine ⟨hq.nsuccs_sum hwf u, ?_⟩
  rw [hq.nsuccs_eq]
  congr 1
  ext x
  rw [mem_succEdges, Finset.mem_filter, Finset.mem_range]
  constructor
  · rintro ⟨h1, h2, h3⟩
    obtain ⟨_, h5⟩ := (hq.valid_iff x h1).mp h3
    rw [h2] at h5
    refine ⟨h1, h2, ?_, h5⟩
    intro hd
    rw [hd] at h5
    omega
  · rintro ⟨h1, h2, _, h4⟩
    refine ⟨h1, h2, (hq.valid_iff x h1).mpr ⟨?_, by rw [h2]; exact h4⟩⟩
    rw [h2]
    intro hd
    have := hq.dist_le (g.dst x)
    omega

theorem nsuccs_counts_dag_successors_witness :
    Sizes detour inf30 ∧ detour.WF ∧ 0 < detour.n ∧
    Neutral detour inf30 (neutralState inf30) ∧
    dagConstruction detour inf30 (seedSource (neutralState inf30) 0) [0] detourF ∧
    ∀ u, (detourF.node u).nsuccs
        = ∑ w in Finset.range detour.n, (detourF.node w).preds.count u ∧
      (detourF.node u).nsuccs
        = ((Finset.range detour.m).filter (fun x => detour.src x = u ∧ detour.dst x ≠ u ∧
            (detourF.node (detour.dst x)).distance = (detourF.node u).distance + 1)).card :=
  ⟨sizes_detour, wf_detour, by decide, neutralState_neutral _ _, detourF_run,
    nsuccs_counts_dag_successors detour inf30 0 (neutralState inf30) detourF sizes_detour
      wf_detour (by decide) (neutralState_neutral _ _) detourF_run⟩

/-- C24: a complete source iteration for `s` leaves `bc` unchanged at every node that
cannot be reached from `s`; such a node is never on the forward frontier, is not selected
by the leaf scan, and is never on the backward work list. -/
theorem unreachable_bc_unchanged (g : Graph) (infinity s : Nat) (st : State)
    (hs : Sizes g infinity) (hwf : g.WF) (hsn : s < g.n) (hn : Neutral g infinity st) :
    (∀ st' v, sourceIteration g infinity s st st' → ¬ Reachable g s v →
      (st'.node v).bc = (st.node v).bc) ∧
    (∀ st' wl' v, Reaches (dagItem g infinity) (seedSource st s) [s] st' wl' → v ∈ wl' →
      Reachable g s v) ∧
    (∀ stF, dagConstruction g infinity (seedSource st s) [s] stF →
      (∀ v, v ∈ findLeaves infinity stF g.n → Reachable g s v) ∧
      ∀ st' wl' v, Reaches (backItem g infinity) stF (findLeaves infinity stF g.n) st' wl' →
        v ∈ wl' → Reachable g s v) := by
  refine ⟨?_, ?_, ?_⟩
  · intro st' v hit hv
    have hspec := (sourceIteration_spec hs hwf hsn hn hit).1 v
    obtain ⟨stF, _, hF, _, _⟩ := hit
    have hq := dagConstruction_inv hs hwf hsn hn hF
    have hvs : v ≠ s := by
      intro hh
      rw [hh] at hv
      exact hv ⟨0, Walk.nil⟩
    rw [if_neg hvs] at hspec
    unfold dependency at hspec
    rw [dependencyAux_unreached hs hq v (hq.dist_unreachable v hv)] at hspec
    rw [hspec, add_zero]
  · intro st' wl' v hr hv
    exact ⟨_, (forward_reaches_inv hs hwf hsn hn hr).walk v
      (forward_frontier_reached hs hwf hsn hn hr v hv)⟩
  · intro stF hF
    have hq := dagConstruction_inv hs hwf hsn hn hF
    constructor
    · intro v hv
      unfold findLeaves at hv
      rw [List.mem_filter] at hv
      have := of_decide_eq_true hv.2
      exact (hq.reached_iff hs v).mpr (by omega)
    · intro st' wl' v hr hv
      obtain ⟨_, hfresh⟩ := backward_reaches_inv hs hwf hq hr
      exact (hq.reached_iff hs v).mpr (hfresh.2 v hv).1.1

theorem Walk.last_edge {g : Graph} {s k v : Nat} (h : Walk g s k v) :
    v = s ∨ ∃ e, e < g.m ∧ g.dst e = v := by
  cases h with
  | nil => exact Or.inl rfl
  | cons k u e _ he _ => exact Or.inr ⟨e, he, rfl⟩

theorem detour_unreachable : ¬ Reachable detour 0 4 := by
  rintro ⟨k, hk⟩
  rcases hk.last_edge with h | ⟨x, hx, hdst⟩
  · exact absurd h (by decide)
  · have hm : detour.m = 6 := rfl
    rw [hm] at hx
    interval_cases x <;> revert hdst <;> decide

theorem unreachable_bc_unchanged_witness :
    Sizes detour inf30 ∧ detour.WF ∧ 0 < detour.n ∧
    Neutral detour inf30 (neutralState inf30) ∧
    sourceIteration detour inf30 0 (neutralState inf30) detourOut ∧
    ¬ Reachable detour 0 4 ∧
    (detourOut.node 4).bc = ((neutralState inf30).node 4).bc :=
  ⟨sizes_detour, wf_detour, by decide, neutralState_neutral _ _, detourOut_run,
    detour_unreachable,
    (unreachable_bc_unchanged detour inf30 0 (neutralState inf30) sizes_detour wf_detour
      (by decide) (neutralState_neutral _ _)).1 detourOut 4 detourOut_run
      detour_unreachable⟩

theorem fwdRank_lt_iff (g : Graph) (infinity : Nat) (st' st : State) :
    fwdRank g infinity st' < fwdRank g infinity st ↔
      (distSum g st' < distSum g st ∨
        (distSum g st' = distSum g st ∧
          (openTight g infinity st' < openTight g infinity st ∨
            (openTight g infinity st' = openTight g infinity st ∧
              debtSum g infinity st' < debtSum g infinity st)))) := by
  unfold fwdRank
  rw [Prod.Lex.lt_iff]
  simp only []
  rw [Prod.Lex.lt_iff]

theorem valid_congr {g : Graph} {infinity : Nat} {st st' : State} (x : Nat)
    (hd : (st'.node (g.src x)).distance = (st.node (g.src x)).distance)
    (hl : (st'.edge x).level = (st.edge x).level) :
    Valid g infinity st' x ↔ Valid g infinity st x := by
  unfold Valid
  rw [hd, hl]

theorem distSum_congr {g : Graph} {st st' : State}
    (hd : ∀ v, (st'.node v).distance = (st.node v).distance) :
    distSum g st' = distSum g st := by
  unfold distSum
  exact Finset.sum_congr rfl (fun v _ => hd v)

theorem openTight_congr {g : Graph} {infinity : Nat} {st st' : State}
    (hd : ∀ v, (st'.node v).distance = (st.node v).distance)
    (hl : ∀ x, (st'.edge x).level = (st.edge x).level) :
    openTight g infinity st' = openTight g infinity st := by
  unfold openTight
  congr 1
  apply Finset.filter_congr
  intro x _
  rw [hd, hd, valid_congr x (hd _) (hl x)]

theorem spAndFU_rank {g : Graph} {infinity s : Nat} {st : State} {pend : Nat → Prop}
    (hs : Sizes g infinity) (hwf : g.WF) (h : FwdInv g infinity s st pend)
    (e : Nat) (he : e < g.m)
    (hg : (st.node (g.src e)).distance + 1 < (st.node (g.dst e)).distance) :
    fwdRank g infinity (spAndFU g infinity st (g.src e) (g.dst e) e).1
      < fwdRank g infinity st := by
  have hab : g.src e ≠ g.dst e := by
    intro hh; rw [← hh] at hg; omega
  have hdb := h.dist_le (g.dst e)
  have hinf := hs.2.1
  have hmod : ((st.node (g.src e)).distance + 1) % 4294967296
      = (st.node (g.src e)).distance + 1 := Nat.mod_eq_of_lt (by omega)
  rw [fwdRank_lt_iff]
  left
  unfold distSum
  apply Finset.sum_lt_sum
  · intro v _
    rw [spAndFU_distance g infinity st _ _ e v hab]
    split_ifs with hv
    · rw [hmod, hv]; omega
    · exact le_refl _
  · refine ⟨g.dst e, Finset.mem_range.mpr (hwf e he).2, ?_⟩
    rw [spAndFU_distance g infinity st _ _ e _ hab, if_pos rfl, hmod]
    exact hg

theorem firstUpdate_rank {g : Graph} {infinity s : Nat} {st : State} {pend : Nat → Prop}
    (h : FwdInv g infinity s st pend) (e : Nat) (he : e < g.m)
    (hd : (st.node (g.dst e)).distance = (st.node (g.src e)).distance + 1)
    (hl : (st.edge e).level ≠ (st.node (g.src e)).distance) :
    fwdRank g infinity (firstUpdate st (g.src e) (g.dst e) e).1 < fwdRank g infinity st := by
  have hab : g.src e ≠ g.dst e := by
    intro hh; rw [← hh] at hd; omega
  have hdb := h.dist_le (g.dst e)
  have hdist : ∀ v, ((firstUpdate st (g.src e) (g.dst e) e).1.node v).distance
      = (st.node v).distance := firstUpdate_distance st _ _ e
  have hlvl : ∀ x, ((firstUpdate st (g.src e) (g.dst e) e).1.edge x).level
      = if x = e then (st.node (g.src e)).distance else (st.edge x).level := by
    intro x
    rw [firstUpdate_edge st _ _ e x hab]
    split_ifs <;> rfl
  have hmem : e ∈ (Finset.range g.m).filter (fun x =>
      (st.node (g.dst x)).distance = (st.node (g.src x)).distance + 1 ∧
        ¬ Valid g infinity st x) :=
    Finset.mem_filter.mpr ⟨Finset.mem_range.mpr he, hd, fun hv => hl hv.1⟩
  rw [fwdRank_lt_iff]
  right
  refine ⟨distSum_congr hdist, Or.inl ?_⟩
  unfold openTight
  have hsub : (Finset.range g.m).filter (fun x =>
      ((firstUpdate st (g.src e) (g.dst e) e).1.node (g.dst x)).distance
        = ((firstUpdate st (g.src e) (g.dst e) e).1.node (g.src x)).distance + 1 ∧
        ¬ Valid g infinity (firstUpdate st (g.src e) (g.dst e) e).1 x)
      = ((Finset.range g.m).filter (fun x =>
          (st.node (g.dst x)).distance = (st.node (g.src x)).distance + 1 ∧
            ¬ Valid g infinity st x)).erase e := by
    ext x
    rw [Finset.mem_erase, Finset.mem_filter, Finset.mem_filter, hdist, hdist]
    by_cases hxe : x = e
    · rw [hxe]
      have hv : Valid g infinity (firstUpdate st (g.src e) (g.dst e) e).1 e := by
        unfold Valid
        rw [hlvl, if_pos rfl, hdist]
        exact ⟨rfl, by omega⟩
      simp [hv]
    · have hv : Valid g infinity (firstUpdate st (g.src e) (g.dst e) e).1 x
          ↔ Valid g infinity st x :=
        valid_congr x (hdist _) (by rw [hlvl, if_neg hxe])
      rw [hv]
      simp [hxe]
  rw [hsub, Finset.card_erase_of_mem hmem]
  have := Finset.card_pos.mpr ⟨e, hmem⟩
  omega

theorem satAdd_le_add {a b : Nat} (ha : a < 18446744073709551616)
    (hb : b < 18446744073709551616) (hpos : 0 < b) : satAdd a b ≤ a + b := by
  rw [satAdd_eq ha hb hpos]
  exact Nat.min_le_left _ _

theorem updateSigma_rank {g : Graph} {infinity s : Nat} {st : State} {pend : Nat → Prop}
    (h : FwdInv g infinity s st pend) (e : Nat) (he : e < g.m)
    (hl : (st.edge e).level = (st.node (g.src e)).distance)
    (hd : (st.node (g.dst e)).distance = (st.node (g.src e)).distance + 1)
    (hpos : 0 < sigmaDiff st (g.src e) e) :
    fwdRank g infinity (updateSigma st (g.src e) (g.dst e) e).1 < fwdRank g infinity st := by
  have hab : g.src e ≠ g.dst e := by
    intro hh; rw [← hh] at hd; omega
  have hdb := h.dist_le (g.dst e)
  have hVe : Valid g infinity st e := ⟨hl, by rw [hl]; omega⟩
  have hval := h.val_le e he hVe
  have hsa := h.sigma_lt (g.src e)
  have hsb := h.sigma_lt (g.dst e)
  have hdlt : sigmaDiff st (g.src e) e < 18446744073709551616 := Nat.mod_lt _ (by norm_num)
  have hdiff : sigmaDiff st (g.src e) e = (st.node (g.src e)).sigma - (st.edge e).val := by
    unfold sigmaDiff
    have h1 : (st.edge e).val % 18446744073709551616 = (st.edge e).val :=
      Nat.mod_eq_of_lt (by omega)
    rw [h1]
    omega
  have hdist : ∀ v, ((updateSigma st (g.src e) (g.dst e) e).1.node v).distance
      = (st.node v).distance := updateSigma_distance st _ _ e
  have hedge : ∀ x, (updateSigma st (g.src e) (g.dst e) e).1.edge x =
      if x = e then { st.edge e with val := (st.node (g.src e)).sigma } else st.edge x := by
    intro x
    rw [updateSigma_edge]
    by_cases hx : x = e
    · rw [if_pos ⟨hx, hpos⟩, if_pos hx]
    · rw [if_neg (fun hh => hx hh.1), if_neg hx]
  have hlvl : ∀ x, ((updateSigma st (g.src e) (g.dst e) e).1.edge x).level
      = (st.edge x).level := by
    intro x
    rw [hedge]
    split_ifs with hx
    · rw [hx]
    · rfl
  have hsig : ∀ v, ((updateSigma st (g.src e) (g.dst e) e).1.node v).sigma =
      if v = g.dst e then satAdd (st.node (g.dst e)).sigma (sigmaDiff st (g.src e) e)
      else (st.node v).sigma := by
    intro v
    rw [updateSigma_sigma]
    by_cases hv : v = g.dst e
    · rw [if_pos ⟨hv, hpos⟩, if_pos hv]
    · rw [if_neg (fun hh => hv hh.1), if_neg hv]
  have hvalid : ∀ x, Valid g infinity (updateSigma st (g.src e) (g.dst e) e).1 x
      ↔ Valid g infinity st x := fun x => valid_congr x (hdist _) (hlvl x)
  have hlt := h.lvl_lt e he hVe.2
  -- the weight of the next level
  have hw : (g.m + 1) ^ (infinity - (st.edge e).level)
      = (g.m + 1) * (g.m + 1) ^ (infinity - ((st.edge e).level + 1)) := by
    rw [← pow_succ']
    congr 1
    omega
  have hwpos : 0 < (g.m + 1) ^ (infinity - ((st.edge e).level + 1)) :=
    Nat.pos_pow_of_pos _ (Nat.succ_pos _)
  have hdebt : ∀ x, edgeDebt g infinity (updateSigma st (g.src e) (g.dst e) e).1 x =
      if Valid g infinity st x then
        (((updateSigma st (g.src e) (g.dst e) e).1.node (g.src x)).sigma
          - ((updateSigma st (g.src e) (g.dst e) e).1.edge x).val)
          * (g.m + 1) ^ (infinity - (st.edge x).level)
      else 0 := by
    intro x
    unfold edgeDebt
    by_cases hv : Valid g infinity st x
    · rw [if_pos ((hvalid x).mpr hv), if_pos hv, hlvl]
    · rw [if_neg (fun hh => hv ((hvalid x).mp hh)), if_neg hv]
  have hA : edgeDebt g infinity (updateSigma st (g.src e) (g.dst e) e).1 e = 0 := by
    rw [hdebt, if_pos hVe, hsig, if_neg hab, hedge, if_pos rfl]
    simp
  have hB : edgeDebt g infinity st e = sigmaDiff st (g.src e) e
      * ((g.m + 1) * (g.m + 1) ^ (infinity - ((st.edge e).level + 1))) := by
    unfold edgeDebt
    rw [if_pos hVe, hw, hdiff]
  have hC : ∀ x, x < g.m → x ≠ e → Valid g infinity st x → g.src x = g.dst e →
      edgeDebt g infinity (updateSigma st (g.src e) (g.dst e) e).1 x
        ≤ edgeDebt g infinity st x + sigmaDiff st (g.src e) e
            * (g.m + 1) ^ (infinity - ((st.edge e).level + 1)) := by
    intro x hxm hxe hv hsx
    have hlx : (st.edge x).level = (st.edge e).level + 1 := by
      rw [hv.1, hsx, hd, hl]
    have hvx := h.val_le x hxm hv
    have hsat := satAdd_le_add hsb hdlt hpos
    rw [hdebt, if_pos hv, hsig, if_pos hsx, hedge, if_neg hxe]
    unfold edgeDebt
    rw [if_pos hv, hlx, ← Nat.add_mul]
    apply Nat.mul_le_mul_right
    rw [hsx] at hvx ⊢
    omega
  have hD : ∀ x, x ≠ e → g.src x ≠ g.dst e →
      edgeDebt g infinity (updateSigma st (g.src e) (g.dst e) e).1 x
        = edgeDebt g infinity st x := by
    intro x hxe hsx
    rw [hdebt, hsig, if_neg hsx, hedge, if_neg hxe]
    rfl
  have hE : ∀ x, ¬ Valid g infinity st x →
      edgeDebt g infinity (updateSigma st (g.src e) (g.dst e) e).1 x
        = edgeDebt g infinity st x := by
    intro x hv
    rw [hdebt, if_neg hv]
    unfold edgeDebt
    rw [if_neg hv]
  have hpoint : ∀ x, x ∈ Finset.range g.m →
      edgeDebt g infinity (updateSigma st (g.src e) (g.dst e) e).1 x
        + (if x = e then sigmaDiff st (g.src e) e
            * ((g.m + 1) * (g.m + 1) ^ (infinity - ((st.edge e).level + 1))) else 0)
      ≤ edgeDebt g infinity st x
        + (if g.src x = g.dst e ∧ Valid g infinity st x then sigmaDiff st (g.src e) e
            * (g.m + 1) ^ (infinity - ((st.edge e).level + 1)) else 0) := by
    intro x hx
    have hxm := Finset.mem_range.mp hx
    by_cases hxe : x = e
    · rw [if_pos hxe, hxe, hA, hB, Nat.zero_add]
      exact Nat.le_add_right _ _
    · rw [if_neg hxe, Nat.add_zero]
      by_cases hv : Valid g infinity st x
      · by_cases hsx : g.src x = g.dst e
        · rw [if_pos ⟨hsx, hv⟩]
          exact hC x hxm hxe hv hsx
        · rw [if_neg (fun hh => hsx hh.1), hD x hxe hsx, Nat.add_zero]
      · rw [if_neg (fun hh => hv hh.2), hE x hv, Nat.add_zero]
  have hsum := Finset.sum_le_sum hpoint
  rw [Finset.sum_add_distrib, Finset.sum_add_distrib,
    Finset.sum_ite_eq' (Finset.range g.m) e, if_pos (Finset.mem_range.mpr he)] at hsum
  have hcount : ∑ x in Finset.range g.m,
      (if g.src x = g.dst e ∧ Valid g infinity st x then sigmaDiff st (g.src e) e
            * (g.m + 1) ^ (infinity - ((st.edge e).level + 1)) else 0)
      ≤ g.m * (sigmaDiff st (g.src e) e
            * (g.m + 1) ^ (infinity - ((st.edge e).level + 1))) := by
    calc ∑ x in Finset.range g.m,
          (if g.src x = g.dst e ∧ Valid g infinity st x then sigmaDiff st (g.src e) e
            * (g.m + 1) ^ (infinity - ((st.edge e).level + 1)) else 0)
        ≤ ∑ _x in Finset.range g.m, sigmaDiff st (g.src e) e
            * (g.m + 1) ^ (infinity - ((st.edge e).level + 1)) := by
          apply Finset.sum_le_sum
          intro x _
          split_ifs
          · exact le_refl _
          · exact Nat.zero_le _
      _ = g.m * (sigmaDiff st (g.src e) e
            * (g.m + 1) ^ (infinity - ((st.edge e).level + 1))) := by
          rw [Finset.sum_const, Finset.card_range, smul_eq_mul]
  have hone : 1 ≤ sigmaDiff st (g.src e) e
      * (g.m + 1) ^ (infinity - ((st.edge e).level + 1)) :=
    Nat.mul_pos hpos hwpos
  have hexp : sigmaDiff st (g.src e) e
      * ((g.m + 1) * (g.m + 1) ^ (infinity - ((st.edge e).level + 1)))
      = g.m * (sigmaDiff st (g.src e) e
            * (g.m + 1) ^ (infinity - ((st.edge e).level + 1)))
        + sigmaDiff st (g.src e) e
            * (g.m + 1) ^ (infinity - ((st.edge e).level + 1)) := by
    ring
  rw [fwdRank_lt_iff]
  right
  refine ⟨distSum_congr hdist, Or.inr ⟨openTight_congr hdist hlvl, ?_⟩⟩
  unfold debtSum
  rw [hexp] at hsum
  omega

theorem dagEdge_rank {g : Graph} {infinity s : Nat} {st : State} {pend : Nat → Prop}
    (hs : Sizes g infinity) (hwf : g.WF) (h : FwdInv g infinity s st pend)
    (e : Nat) (he : e < g.m) (acc : List Nat) :
    fwdRank g infinity (dagEdge g infinity (g.src e) (st, acc) e).1 < fwdRank g infinity st ∨
    (fwdRank g infinity (dagEdge g infinity (g.src e) (st, acc) e).1 = fwdRank g infinity st ∧
      (dagEdge g infinity (g.src e) (st, acc) e).2 = acc) := by
  have hinf := hs.2.1
  have hda := h.dist_le (g.src e)
  have hdb := h.dist_le (g.dst e)
  have hle := h.lvl_le e he
  have hta : toInt (st.node (g.src e)).distance = ((st.node (g.src e)).distance : Int) :=
    toInt_of_lt (by omega)
  have htb : toInt (st.node (g.dst e)).distance = ((st.node (g.dst e)).distance : Int) :=
    toInt_of_lt (by omega)
  have htl : toInt (st.edge e).level = ((st.edge e).level : Int) :=
    toInt_of_lt (by omega)
  unfold dagEdge
  simp only [hta, htb, htl]
  by_cases hab : g.src e = g.dst e
  · rw [if_pos hab]
    exact Or.inr ⟨rfl, rfl⟩
  · rw [if_neg hab]
    by_cases hg1 : (st.node (g.src e)).distance + 1 < (st.node (g.dst e)).distance
    · have hg1' : (1 : Int) < ((st.node (g.dst e)).distance : Int)
          - ((st.node (g.src e)).distance : Int) := by omega
      rw [if_pos hg1']
      exact Or.inl (spAndFU_rank hs hwf h e he hg1)
    · have hg1' : ¬ (1 : Int) < ((st.node (g.dst e)).distance : Int)
          - ((st.node (g.src e)).distance : Int) := by omega
      rw [if_neg hg1']
      by_cases hg2 : (st.edge e).level = (st.node (g.src e)).distance ∧
          (st.node (g.dst e)).distance = (st.node (g.src e)).distance + 1
      · have hg2' : ((st.edge e).level : Int) = ((st.node (g.src e)).distance : Int) ∧
            ((st.node (g.dst e)).distance : Int) = ((st.node (g.src e)).distance : Int) + 1 := by
          omega
        rw [if_pos hg2']
        by_cases hpos : 0 < sigmaDiff st (g.src e) e
        · exact Or.inl (updateSigma_rank h e he hg2.1 hg2.2 hpos)
        · have hz : updateSigma st (g.src e) (g.dst e) e = (st, []) := by
            unfold updateSigma
            simp only []
            rw [show ((st.node (g.src e)).sigma
              + (18446744073709551616 - (st.edge e).val % 18446744073709551616))
              % 18446744073709551616 = sigmaDiff st (g.src e) e from rfl, if_neg hpos]
          rw [hz]
          exact Or.inr ⟨rfl, List.append_nil _⟩
      · have hg2' : ¬ (((st.edge e).level : Int) = ((st.node (g.src e)).distance : Int) ∧
            ((st.node (g.dst e)).distance : Int) = ((st.node (g.src e)).distance : Int) + 1) := by
          omega
        rw [if_neg hg2']
        by_cases hg3 : (st.node (g.dst e)).distance = (st.node (g.src e)).distance + 1 ∧
            (st.edge e).level ≠ (st.node (g.src e)).distance
        · have hg3' : ((st.node (g.dst e)).distance : Int)
                = ((st.node (g.src e)).distance : Int) + 1 ∧
              ((st.edge e).level : Int) ≠ ((st.node (g.src e)).distance : Int) := by
            omega
          rw [if_pos hg3']
          exact Or.inl (firstUpdate_rank h e he hg3.1 hg3.2)
        · have hg3' : ¬ (((st.node (g.dst e)).distance : Int)
                = ((st.node (g.src e)).distance : Int) + 1 ∧
              ((st.edge e).level : Int) ≠ ((st.node (g.src e)).distance : Int)) := by
            omega
          rw [if_neg hg3']
          exact Or.inr ⟨rfl, rfl⟩

theorem dagFold_rank {g : Graph} {infinity s : Nat}
    (hs : Sizes g infinity) (hwf : g.WF) (a : Nat) (W : List Nat) :
    ∀ (l : List Nat) (st : State) (acc : List Nat),
      (∀ x, x ∈ l → x < g.m ∧ g.src x = a) →
      FwdInv g infinity s st (fun x => g.src x ∈ W ∨ g.src x ∈ acc ∨ x ∈ l) →
      (st.node a).queued = false →
      fwdRank g infinity (l.foldl (dagEdge g infinity a) (st, acc)).1 < fwdRank g infinity st ∨
      (fwdRank g infinity (l.foldl (dagEdge g infinity a) (st, acc)).1 = fwdRank g infinity st ∧
        (l.foldl (dagEdge g infinity a) (st, acc)).2 = acc) := by
  intro l
  induction l with
  | nil => intro st acc _ _ _; exact Or.inr ⟨rfl, rfl⟩
  | cons e l ih =>
    intro st acc hl h hq
    simp only [List.foldl_cons]
    obtain ⟨hem, hsrc⟩ := hl e (List.mem_cons_self e l)
    subst hsrc
    have hr := dagEdge_rank hs hwf h e hem acc
    obtain ⟨pu, hacc, hinv, hqa⟩ := dagEdge_inv hs hwf h e hem hq acc
    have heq : dagEdge g infinity (g.src e) (st, acc) e
        = ((dagEdge g infinity (g.src e) (st, acc) e).1, acc ++ pu) := by
      rw [← hacc]
    have hnext := ih (dagEdge g infinity (g.src e) (st, acc) e).1 (acc ++ pu)
      (fun x hx => hl x (List.mem_cons_of_mem e hx))
      (by
        apply hinv.mono
        intro x _ hp
        rcases hp with ⟨hp, hxe⟩ | hp
        · rcases hp with hp | hp | hp
          · exact Or.inl hp
          · exact Or.inr (Or.inl (List.mem_append_left _ hp))
          · rcases List.mem_cons.mp hp with hp | hp
            · exact absurd hp hxe
            · exact Or.inr (Or.inr hp)
        · exact Or.inr (Or.inl (List.mem_append_right _ hp))) hqa
    rw [heq]
    rcases hnext with h1 | ⟨h1, h2⟩
    · rcases hr with h3 | ⟨h3, _⟩
      · exact Or.inl (lt_trans h1 h3)
      · exact Or.inl (h3 ▸ h1)
    · rcases hr with h3 | ⟨h3, h4⟩
      · exact Or.inl (h1 ▸ h3)
      · refine Or.inr ⟨h1.trans h3, ?_⟩
        rw [h2, ← hacc, h4]

theorem fwdRank_markOut (g : Graph) (infinity : Nat) (st : State) (a : Nat) :
    fwdRank g infinity (markOut st a) = fwdRank g infinity st := by
  have hn : ∀ v, ((markOut st a).node v).distance = (st.node v).distance ∧
      ((markOut st a).node v).sigma = (st.node v).sigma := by
    intro v
    unfold markOut
    rw [setNode_node]
    split_ifs with hv
    · rw [hv]; exact ⟨rfl, rfl⟩
    · exact ⟨rfl, rfl⟩
  have he : ∀ x, (markOut st a).edge x = st.edge x := fun _ => rfl
  have hd : debtSum g infinity (markOut st a) = debtSum g infinity st := by
    unfold debtSum
    apply Finset.sum_congr rfl
    intro x _
    unfold edgeDebt
    by_cases hv : Valid g infinity st x
    · rw [if_pos ((valid_congr x (hn _).1 (by rw [he])).mpr hv), if_pos hv, (hn _).2, he]
    · rw [if_neg (fun hh => hv ((valid_congr x (hn _).1 (by rw [he])).mp hh)), if_neg hv]
  unfold fwdRank
  rw [distSum_congr (fun v => (hn v).1),
    openTight_congr (fun v => (hn v).1) (fun x => by rw [he]), hd]

/-- Executing an item of the frontier lowers the rank of the configuration. -/
theorem dagItem_measure {g : Graph} {infinity s : Nat} {st : State}
    (hs : Sizes g infinity) (hwf : g.WF) (l₁ : List Nat) (a : Nat) (l₂ : List Nat)
    (h : FwdInv g infinity s st (fun x => g.src x ∈ l₁ ++ a :: l₂)) :
    fwdMeasure g infinity ((dagItem g infinity st a).1, l₁ ++ l₂ ++ (dagItem g infinity st a).2)
      < fwdMeasure g infinity (st, l₁ ++ a :: l₂) := by
  have hfold := dagFold_rank hs hwf a (l₁ ++ l₂) (g.edges a) (markOut st a) []
    (fun x hx => mem_edges.mp hx)
    (by
      apply markOut_inv h
      intro x hx hp
      rcases List.mem_append.mp hp with hp | hp
      · exact Or.inl (List.mem_append_left _ hp)
      · rcases List.mem_cons.mp hp with hp | hp
        · exact Or.inr (Or.inr (mem_edges.mpr ⟨hx, hp⟩))
        · exact Or.inl (List.mem_append_right _ hp))
    (by simp [markOut])
  rw [fwdRank_markOut] at hfold
  unfold fwdMeasure
  rw [Prod.Lex.lt_iff]
  unfold dagItem
  rcases hfold with h1 | ⟨h1, h2⟩
  · exact Or.inl h1
  · refine Or.inr ⟨h1, ?_⟩
    simp only [h2, List.append_nil, List.length_append, List.length_cons]
    omega

/-- From a configuration that satisfies the forward invariant no infinite sequence of
item executions starts, whatever the order of the items. -/
theorem forward_acc {g : Graph} {infinity s : Nat} (hs : Sizes g infinity) (hwf : g.WF) :
    ∀ c : State × List Nat, FwdInv g infinity s c.1 (fun x => g.src x ∈ c.2) →
      Acc (fun c' c => ItemStep (dagItem g infinity) c c') c := by
  intro c
  refine @WellFounded.induction _ _ (InvImage.wf (fwdMeasure g infinity) wellFounded_lt)
    (fun c => FwdInv g infinity s c.1 (fun x => g.src x ∈ c.2) →
      Acc (fun c' c => ItemStep (dagItem g infinity) c c') c) c ?_
  intro c ih hinv
  constructor
  intro c' hstep
  obtain ⟨l₁, a, l₂, hwl, hc'⟩ := hstep
  obtain ⟨st, wl⟩ := c
  simp only [] at hwl hinv hc'
  subst hwl
  subst hc'
  apply ih
  · exact dagItem_measure hs hwf l₁ a l₂ hinv
  · exact dagItem_inv hs hwf l₁ a l₂ hinv

/-- Under every schedule the executable forward loop ends, given enough fuel. -/
theorem forward_drain {g : Graph} {infinity s : Nat} (hs : Sizes g infinity) (hwf : g.WF)
    (pick : List Nat → Nat) :
    ∀ c : State × List Nat, FwdInv g infinity s c.1 (fun x => g.src x ∈ c.2) →
      ∃ fuel stF, drain (dagItem g infinity) pick fuel c.1 c.2 = some stF := by
  intro c
  refine @WellFounded.induction _ _ (InvImage.wf (fwdMeasure g infinity) wellFounded_lt)
    (fun c => FwdInv g infinity s c.1 (fun x => g.src x ∈ c.2) →
      ∃ fuel stF, drain (dagItem g infinity) pick fuel c.1 c.2 = some stF) c ?_
  intro c ih hinv
  obtain ⟨st, wl⟩ := c
  simp only [] at hinv ⊢
  cases wl with
  | nil => exact ⟨0, st, by simp [drain]⟩
  | cons w ws =>
    have hi : pick (w :: ws) % (ws.length + 1) < (w :: ws).length := by
      simp only [List.length_cons]
      exact Nat.mod_lt _ (Nat.succ_pos _)
    have hstep : ∀ fuel, drain (dagItem g infinity) pick (fuel + 1) st (w :: ws)
        = drain (dagItem g infinity) pick fuel
            (dagItem g infinity st ((w :: ws).getD (pick (w :: ws) % (ws.length + 1)) w)).1
            ((w :: ws).take (pick (w :: ws) % (ws.length + 1))
              ++ (w :: ws).drop (pick (w :: ws) % (ws.length + 1) + 1)
              ++ (dagItem g infinity st
                  ((w :: ws).getD (pick (w :: ws) % (ws.length + 1)) w)).2) := by
      intro fuel
      simp only [drain]
    generalize pick (w :: ws) % (ws.length + 1) = i at hi hstep
    have hsplit : w :: ws
        = (w :: ws).take i ++ (w :: ws).getD i w :: (w :: ws).drop (i + 1) := by
      rw [List.getD_eq_getElem _ _ hi]
      exact (List.take_append_drop i (w :: ws)).symm.trans
        (by rw [List.drop_eq_getElem_cons hi])
    have hinv' : FwdInv g infinity s st (fun x => g.src x ∈
        (w :: ws).take i ++ (w :: ws).getD i w :: (w :: ws).drop (i + 1)) := by
      rw [← hsplit]; exact hinv
    have hlt := dagItem_measure hs hwf _ _ _ hinv'
    rw [← hsplit] at hlt
    obtain ⟨fuel, stF, hf⟩ := ih
      ((dagItem g infinity st ((w :: ws).getD i w)).1,
        (w :: ws).take i ++ (w :: ws).drop (i + 1)
          ++ (dagItem g infinity st ((w :: ws).getD i w)).2)
      hlt (dagItem_inv hs hwf _ _ _ hinv')
    exact ⟨fuel + 1, stF, by rw [hstep]; exact hf⟩

/-- C21: for every finite graph and source, the forward phase started from neutral records
with the source seeded ends under every order of the frontier items: no infinite sequence
of item executions starts from the seeded configuration, every executable schedule reaches
the empty frontier with enough fuel, and a complete run exists.  Each item executed in a
reached configuration strictly lowers the rank of the configuration (the distances, then
the edges still to validate, then the `sigma` not yet handed over, then the length of the
frontier). -/
theorem forward_phase_terminates (g : Graph) (infinity s : Nat) (st : State)
    (hs : Sizes g infinity) (hwf : g.WF) (hsn : s < g.n) (hn : Neutral g infinity st) :
    Acc (fun c' c => ItemStep (dagItem g infinity) c c') (seedSource st s, [s]) ∧
    (∀ pick, ∃ fuel stF, drain (dagItem g infinity) pick fuel (seedSource st s) [s]
      = some stF) ∧
    (∃ stF, dagConstruction g infinity (seedSource st s) [s] stF) ∧
    (∀ st' l₁ a l₂, Reaches (dagItem g infinity) (seedSource st s) [s] st' (l₁ ++ a :: l₂) →
      fwdMeasure g infinity
          ((dagItem g infinity st' a).1, l₁ ++ l₂ ++ (dagItem g infinity st' a).2)
        < fwdMeasure g infinity (st', l₁ ++ a :: l₂)) := by
  have h0 := seed_inv hs hsn hn
  refine ⟨forward_acc hs hwf (seedSource st s, [s]) h0,
    fun pick => forward_drain hs hwf pick (seedSource st s, [s]) h0, ?_, ?_⟩
  · obtain ⟨fuel, stF, hf⟩ := forward_drain hs hwf fifo (seedSource st s, [s]) h0
    exact ⟨stF, drain_sound _ _ _ _ _ _ hf⟩
  · intro st' l₁ a l₂ hr
    exact dagItem_measure hs hwf l₁ a l₂ (forward_reaches_inv hs hwf hsn hn hr)

theorem forward_phase_terminates_witness :
    Sizes shortcut inf30 ∧ shortcut.WF ∧ 0 < shortcut.n ∧
    Neutral shortcut inf30 (neutralState inf30) ∧
    ∃ fuel stF, drain (dagItem shortcut inf30) lifo fuel (seedSource (neutralState inf30) 0)
      [0] = some stF :=
  ⟨by decide, by decide, by decide, neutralState_neutral _ _,
    (forward_phase_terminates shortcut inf30 0 (neutralState inf30) (by decide) (by decide)
      (by decide) (neutralState_neutral _ _)).2.1 lifo⟩

theorem firstUpdate_preds (st : State) (a b e : Nat) (hab : a ≠ b) :
    ((firstUpdate st a b e).1.node b).preds = (st.node b).preds ++ [a] := by
  have hba : b ≠ a := fun h => hab h.symm
  unfold firstUpdate
  simp only []
  rw [(pushIfSuccs_fields _ b b).2.2.2]
  simp [setNode_node, hba]

theorem firstUpdate_nsuccs (st : State) (a b e : Nat) (hab : a ≠ b) :
    ((firstUpdate st a b e).1.node a).nsuccs = ((st.node a).nsuccs + 1) % 4294967296 := by
  unfold firstUpdate
  simp only []
  rw [(pushIfSuccs_fields _ b a).2.2.1]
  simp [setNode_node, hab]

theorem firstUpdate_spec (st : State) (a b e : Nat)
    (hg : toInt (st.node b).distance = toInt (st.node a).distance + 1)
    (hb : (st.node b).sigma < 18446744073709551616)
    (ha : (st.node a).sigma < 18446744073709551616)
    (hpos : 1 ≤ (st.node a).sigma)
    (hn : (st.node a).nsuccs + 1 < 4294967296) :
    firstUpdateSpec st a b e := by
  have hab : a ≠ b := by
    intro h
    rw [h] at hg
    omega
  refine ⟨firstUpdate_preds st a b e hab, ?_, ?_, ?_, ?_⟩
  · rw [firstUpdate_nsuccs st a b e hab, Nat.mod_eq_of_lt hn]
  · rw [firstUpdate_edge st a b e e hab, if_pos rfl]
  · rw [firstUpdate_edge st a b e e hab, if_pos rfl]
  · rw [firstUpdate_sigma st a b e b hab, if_pos rfl, satAdd_eq hb ha hpos]

theorem dagEdge_firstOk {g : Graph} {infinity s : Nat} {st : State} {pend : Nat → Prop}
    (hs : Sizes g infinity) (h : FwdInv g infinity s st pend)
    (e : Nat) (acc : List Nat) :
    dagEdgeFirstOk g (g.src e) (st, acc) e := by
  intro hg
  have hinf := hs.2.1
  have hda := h.dist_le (g.src e)
  have hdb := h.dist_le (g.dst e)
  have hta : toInt (st.node (g.src e)).distance = ((st.node (g.src e)).distance : Int) :=
    toInt_of_lt (by omega)
  have htb : toInt (st.node (g.dst e)).distance = ((st.node (g.dst e)).distance : Int) :=
    toInt_of_lt (by omega)
  have hreach : (st.node (g.src e)).distance ≠ infinity := by
    have := hg.1
    rw [hta, htb] at this
    omega
  have hns := h.nsuccs_lt hs (g.src e)
  exact firstUpdate_spec st (g.src e) (g.dst e) e hg.1 (h.sigma_lt _) (h.sigma_lt _)
    (h.sigma_pos _ hreach) (by omega)

theorem dagFold_firstOk {g : Graph} {infinity s : Nat}
    (hs : Sizes g infinity) (hwf : g.WF) (a : Nat) (W : List Nat) :
    ∀ (l : List Nat) (st : State) (acc : List Nat),
      (∀ x, x ∈ l → x < g.m ∧ g.src x = a) →
      FwdInv g infinity s st (fun x => g.src x ∈ W ∨ g.src x ∈ acc ∨ x ∈ l) →
      (st.node a).queued = false →
      foldOk (dagEdge g infinity a) (dagEdgeFirstOk g a) l (st, acc) := by
  intro l
  induction l with
  | nil => intro st acc _ _ _; trivial
  | cons e l ih =>
    intro st acc hl h hq
    obtain ⟨hem, hsrc⟩ := hl e (List.mem_cons_self e l)
    subst hsrc
    refine ⟨dagEdge_firstOk hs h e acc, ?_⟩
    obtain ⟨pu, hacc, hinv, hqa⟩ := dagEdge_inv hs hwf h e hem hq acc
    have heq : dagEdge g infinity (g.src e) (st, acc) e
        = ((dagEdge g infinity (g.src e) (st, acc) e).1, acc ++ pu) := by
      rw [← hacc]
    rw [heq]
    apply ih _ _ (fun x hx => hl x (List.mem_cons_of_mem e hx)) _ hqa
    apply hinv.mono
    intro x _ hp
    rcases hp with ⟨hp, hxe⟩ | hp
    · rcases hp with hp | hp | hp
      · exact Or.inl hp
      · exact Or.inr (Or.inl (List.mem_append_left _ hp))
      · rcases List.mem_cons.mp hp with hp | hp
        · exact absurd hp hxe
        · exact Or.inr (Or.inr hp)
    · exact Or.inr (Or.inl (List.mem_append_right _ hp))

theorem shortcutOne_reached :
    Reaches (dagItem shortcut inf30) (seedSource (neutralState inf30) 0) [0]
      shortcutOne [1, 2] :=
  Reaches.step_eq [] 0 [] rfl rfl (by decide : [1, 2] = _) (Reaches.refl _ _)

theorem dagEdge_val (g : Graph) (infinity srcID : Nat) (acc : State × List Nat) (e x : Nat)
    (hx : x ≠ e) :
    ((dagEdge g infinity srcID acc e).1.edge x).val = (acc.1.edge x).val := by
  unfold dagEdge
  simp only []
  by_cases hab : srcID = g.dst e
  · rw [if_pos hab]
  · rw [if_neg hab]
    split_ifs
    · show ((spAndFU g infinity acc.1 srcID (g.dst e) e).1.edge x).val = _
      rw [spAndFU_eq g infinity acc.1 srcID (g.dst e) e hab]
      have hmid : ((spMid acc.1 srcID (g.dst e) e).edge x).val = (acc.1.edge x).val := by
        rw [spMid_edge, if_neg hx]
      simp only []
      split_ifs
      · exact ((correctFold g infinity (g.dst e) (g.in_edges (g.dst e))
          (spMid acc.1 srcID (g.dst e) e) (in_edges_nodup g _)).2 x).1.trans hmid
      · exact hmid
    · show ((updateSigma acc.1 srcID (g.dst e) e).1.edge x).val = _
      rw [updateSigma_edge, if_neg (fun h => hx h.1)]
    · show ((firstUpdate acc.1 srcID (g.dst e) e).1.edge x).val = _
      rw [firstUpdate_edge _ _ _ _ _ hab, if_neg hx]
    · rfl

/-- An edge out of a node without a distance keeps its `val` through the edge loop of an
item that has a distance. -/
theorem dagFold_untouched {g : Graph} {infinity s : Nat}
    (hs : Sizes g infinity) (hwf : g.WF) (a : Nat) (W : List Nat) (v0 : Nat → Nat) :
    ∀ (l : List Nat) (st : State) (acc : List Nat),
      (∀ x, x ∈ l → x < g.m ∧ g.src x = a) →
      FwdInv g infinity s st (fun x => g.src x ∈ W ∨ g.src x ∈ acc ∨ x ∈ l) →
      (st.node a).queued = false →
      (st.node a).distance ≠ infinity →
      (∀ x, (st.node (g.src x)).distance = infinity → (st.edge x).val = v0 x) →
      ∀ x, ((l.foldl (dagEdge g infinity a) (st, acc)).1.node (g.src x)).distance = infinity →
        ((l.foldl (dagEdge g infinity a) (st, acc)).1.edge x).val = v0 x := by
  intro l
  induction l with
  | nil => intro st acc _ _ _ _ hJ; exact hJ
  | cons e l ih =>
    intro st acc hl h hq hda hJ
    obtain ⟨hem, hsrc⟩ := hl e (List.mem_cons_self e l)
    subst hsrc
    obtain ⟨pu, hacc, hinv, hqa⟩ := dagEdge_inv hs hwf h e hem hq acc
    have heq : dagEdge g infinity (g.src e) (st, acc) e
        = ((dagEdge g infinity (g.src e) (st, acc) e).1, acc ++ pu) := by
      rw [← hacc]
    have hinf := hs.2.1
    have hle := h.dist_le (g.src e)
    have hlb := h.dist_le (g.dst e)
    have hta : toInt (st.node (g.src e)).distance = ((st.node (g.src e)).distance : Int) :=
      toInt_of_lt (by omega)
    have htb : toInt (st.node (g.dst e)).distance = ((st.node (g.dst e)).distance : Int) :=
      toInt_of_lt (by omega)
    have hdist : ∀ v, ((dagEdge g infinity (g.src e) (st, acc) e).1.node v).distance = infinity →
        (st.node v).distance = infinity := by
      intro v hv
      rw [dagEdge_distance] at hv
      split_ifs at hv with hc
      · exfalso
        have hg : 1 < toInt (st.node (g.dst e)).distance
            - toInt (st.node (g.src e)).distance := hc.2.2
        rw [hta, htb] at hg
        have hv' : ((st.node (g.src e)).distance + 1) % 4294967296 = infinity := hv
        rw [Nat.mod_eq_of_lt (by omega)] at hv'
        omega
      · exact hv
    have hda' : ((dagEdge g infinity (g.src e) (st, acc) e).1.node (g.src e)).distance
        ≠ infinity := fun hh => hda (hdist _ hh)
    rw [List.foldl_cons, heq]
    apply ih _ _ (fun x hx => hl x (List.mem_cons_of_mem e hx)) _ hqa hda'
    · intro x hxd
      have hxs := hdist _ hxd
      have hxe : x ≠ e := by
        intro hh
        rw [hh] at hxs
        exact hda hxs
      rw [dagEdge_val g infinity (g.src e) (st, acc) e x hxe]
      exact hJ x hxs
    · apply hinv.mono
      intro x _ hp
      rcases hp with ⟨hp, hxe⟩ | hp
      · rcases hp with hp | hp | hp
        · exact Or.inl hp
        · exact Or.inr (Or.inl (List.mem_append_left _ hp))
        · rcases List.mem_cons.mp hp with hp | hp
          · exact absurd hp hxe
          · exact Or.inr (Or.inr hp)
      · exact Or.inr (Or.inl (List.mem_append_right _ hp))

theorem markOut_distance (st : State) (a v : Nat) :
    ((markOut st a).node v).distance = (st.node v).distance := by
  unfold markOut
  rw [setNode_node]
  split_ifs with h
  · rw [h]
  · rfl

/-- In every configuration of the forward phase, an edge out of a node without a distance
has the `val` it had before the source was seeded. -/
theorem forward_untouched {g : Graph} {infinity s : Nat} {st st' : State} {wl' : List Nat}
    (hs : Sizes g infinity) (hwf : g.WF) (hsn : s < g.n) (hn : Neutral g infinity st)
    (hr : Reaches (dagItem g infinity) (seedSource st s) [s] st' wl') :
    ∀ x, (st'.node (g.src x)).distance = infinity → (st'.edge x).val = (st.edge x).val := by
  have key := @Reaches.preserves (dagItem g infinity)
    (fun st1 W => FwdInv g infinity s st1 (fun x => g.src x ∈ W) ∧
      (W.Nodup ∧ ∀ v, v ∈ W → (st1.node v).queued = true) ∧
      ∀ x, (st1.node (g.src x)).distance = infinity → (st1.edge x).val = (st.edge x).val)
    ?_ _ _ _ _ hr ?_
  · exact key.2.2
  · intro st1 l₁ a l₂ hI
    obtain ⟨hF, hfl, hJ⟩ := hI
    refine ⟨dagItem_inv hs hwf l₁ a l₂ hF, ?_, ?_⟩
    · unfold dagItem
      exact dagFold_flag g infinity a (l₁ ++ l₂) (g.edges a) _ (markOut_flag st1 l₁ a l₂ hfl)
    · have hqa : (st1.node a).queued = true := hfl.2 a (by simp)
      have hda : (st1.node a).distance ≠ infinity := by
        intro hd
        have h1 := (hF.unreached a hd).2
        rw [h1] at hqa
        exact absurd hqa (by simp)
      unfold dagItem
      apply dagFold_untouched hs hwf a (l₁ ++ l₂) (fun x => (st.edge x).val) (g.edges a)
        (markOut st1 a) []
      · intro x hx; exact mem_edges.mp hx
      · apply markOut_inv hF
        intro x hx hp
        rcases List.mem_append.mp hp with hp | hp
        · exact Or.inl (List.mem_append_left _ hp)
        · rcases List.mem_cons.mp hp with hp | hp
          · exact Or.inr (Or.inr (mem_edges.mpr ⟨hx, hp⟩))
          · exact Or.inl (List.mem_append_right _ hp)
      · simp [markOut]
      · rw [markOut_distance]; exact hda
      · intro x hx
        rw [markOut_distance] at hx
        exact hJ x hx
  · refine ⟨seed_inv hs hsn hn, ⟨List.nodup_singleton _, fun v hv => ?_⟩, fun x _ => rfl⟩
    have hvs : v = s := List.mem_singleton.mp hv
    rw [hvs]
    unfold seedSource
    rw [setNode_node_same]
    rfl

theorem diamondMid_reached :
    Reaches (dagItem diamond inf30) (seedSource (neutralState inf30) 0) [0]
      diamondMid [4, 3] :=
  Reaches.step_eq [] 0 [] rfl rfl (by decide : [1, 2] = _)
    (Reaches.step_eq [] 1 [2] rfl rfl (by decide : [2, 3] = _)
      (Reaches.step_eq [2] 3 [] rfl rfl (by decide : [2, 4] = _)
        (Reaches.step_eq [] 2 [4] rfl rfl (by decide : [4, 3] = _) (Reaches.refl _ _))))

/-- C23: in every configuration the forward phase reaches from neutral records, every edge
`(A, B)` whose level is the current distance of a reached `A` (a validated level) has
`val ≤ A.sigma`; whenever the next item reaches the subtraction `A.sigma - edge.val` of
`updateSigma`, `edge.val ≤ A.sigma`, so the subtraction does not wrap; and when the `val` of
every edge is 0 before the source is seeded, `val ≤ A.sigma` holds for every edge whose
level equals the distance of `A`, also where both are the sentinel of an unreached `A`. -/
theorem validated_val_le_sigma (g : Graph) (infinity s : Nat) (st : State)
    (hs : Sizes g infinity) (hwf : g.WF) (hsn : s < g.n) (hn : Neutral g infinity st) :
    (∀ st' wl' e, Reaches (dagItem g infinity) (seedSource st s) [s] st' wl' → e < g.m →
      (st'.edge e).level = (st'.node (g.src e)).distance → (st'.edge e).level ≠ infinity →
      (st'.edge e).val ≤ (st'.node (g.src e)).sigma) ∧
    (∀ st' wl' a, Reaches (dagItem g infinity) (seedSource st s) [s] st' wl' → a ∈ wl' →
      dagItemDiffOk g infinity st' a) ∧
    ((∀ e, e < g.m → (st.edge e).val = 0) →
      ∀ st' wl' e, Reaches (dagItem g infinity) (seedSource st s) [s] st' wl' → e < g.m →
        (st'.edge e).level = (st'.node (g.src e)).distance →
        (st'.edge e).val ≤ (st'.node (g.src e)).sigma) := by
  refine ⟨?_, ?_, ?_⟩
  · intro st' wl' e hr he h1 h2
    exact (forward_reaches_inv hs hwf hsn hn hr).val_le e he ⟨h1, h2⟩
  · intro st' wl' a hr _
    unfold dagItemDiffOk
    apply dagFold_diffOk hs hwf a wl' (g.edges a) (markOut st' a) []
    · intro x hx; exact mem_edges.mp hx
    · apply markOut_inv (forward_reaches_inv hs hwf hsn hn hr)
      intro x _ hp
      exact Or.inl hp
    · simp [markOut]
  · intro h0 st' wl' e hr he h1
    by_cases hd : (st'.node (g.src e)).distance = infinity
    · rw [forward_untouched hs hwf hsn hn hr e hd, h0 e he]
      exact Nat.zero_le _
    · exact (forward_reaches_inv hs hwf hsn hn hr).val_le e he ⟨h1, by rw [h1]; exact hd⟩

theorem validated_val_le_sigma_witness :
    Sizes diamond inf30 ∧ diamond.WF ∧ 0 < diamond.n ∧
    Neutral diamond inf30 (neutralState inf30) ∧
    Reaches (dagItem diamond inf30) (seedSource (neutralState inf30) 0) [0]
      diamondMid [4, 3] ∧
    diamond.src 4 = 3 ∧ diamond.dst 4 = 4 ∧
    toInt (diamondMid.edge 4).level = toInt (diamondMid.node 3).distance ∧
    toInt (diamondMid.node 4).distance = toInt (diamondMid.node 3).distance + 1 ∧
    (diamondMid.edge 4).val = 1 ∧ (diamondMid.node 3).sigma = 2 ∧
    dagItemDiffOk diamond inf30 diamondMid 3 ∧
    (diamondMid.edge 4).val ≤ (diamondMid.node (diamond.src 4)).sigma :=
  ⟨by decide, by decide, by decide, neutralState_neutral _ _, diamondMid_reached,
    by decide, by decide, by decide, by decide, by decide, by decide,
    (validated_val_le_sigma diamond inf30 0 (neutralState inf30) (by decide) (by decide)
      (by decide) (neutralState_neutral _ _)).2.1 _ _ 3 diamondMid_reached (by decide),
    (validated_val_le_sigma diamond inf30 0 (neutralState inf30) (by decide) (by decide)
      (by decide) (neutralState_neutral _ _)).1 _ _ 4 diamondMid_reached (by decide)
      (by decide) (by decide)⟩

end BCAsync

namespace SpanningTree

/-! # Properties of the spanning tree -/

theorem Grows.refl (g : Graph) (st : State) : Grows g st st :=
  ⟨fun _ h => h, fun _ h => Or.inl h, fun _ h => h, rfl⟩

theorem Grows.trans {g : Graph} {st st₁ st₂ : State} (h₁ : Grows g st st₁)
    (h₂ : Grows g st₁ st₂) : Grows g st st₂ := by
  refine ⟨fun v h => h₂.mono v (h₁.mono v h), fun v h => ?_, fun v h => h₂.keep v (h₁.keep v h),
    ?_⟩
  · rcases h₂.fresh v h with h | h
    · rcases h₁.fresh v h with h | h
      · exact Or.inl h
      · exact Or.inr (h₂.keep v h)
    · exact Or.inr h
  · have := h₁.balance
    have := h₂.balance
    omega

theorem expandStep_spec {g : Graph} {root : Nat} (src : Nat) (st : State) (dst : Nat)
    (hd : dst < g.size) (h : Inv g root st) :
    Inv g root (expandStep src st dst) ∧ Grows g st (expandStep src st dst) ∧
    (expandStep src st dst).in_mst dst = true := by
  unfold expandStep
  by_cases hm : st.in_mst dst = true
  · rw [if_pos hm]
    exact ⟨h, Grows.refl g st, hm⟩
  · rw [if_neg hm]
    have hcard : (marked g
        { in_mst := fun v => if v = dst then true else st.in_mst v,
          result := st.result ++ [(src, dst)],
          worklist := dst :: st.worklist }).card = (marked g st).card + 1 := by
      have hnot : dst ∉ marked g st := by
        unfold marked
        rw [Finset.mem_filter]
        exact fun hh => hm hh.2
      rw [← Finset.card_insert_of_not_mem hnot]
      congr 1
      ext v
      unfold marked
      simp only [Finset.mem_filter, Finset.mem_insert, Finset.mem_range]
      by_cases hv : v = dst
      · simp [hv, hd]
      · simp [hv]
    refine ⟨⟨?_, ?_, ?_, ?_⟩, ⟨?_, ?_, ?_, ?_⟩, ?_⟩
    · intro v hv
      simp only []
      split_ifs with hvd
      · rfl
      · rcases List.mem_cons.mp hv with hv | hv
        · exact absurd hv hvd
        · exact h.wl_marked v hv
    · intro v hv
      simp only [] at hv
      split_ifs at hv with hvd
      · rw [hvd]; exact hd
      · exact h.marked_lt v hv
    · simp only []
      split_ifs
      · rfl
      · exact h.root_marked
    · rw [hcard, ← h.count]
      simp
    · intro v hv
      simp only []
      split_ifs
      · rfl
      · exact hv
    · intro v hv
      simp only [] at hv
      split_ifs at hv with hvd
      · exact Or.inr (by rw [hvd]; exact List.mem_cons_self _ _)
      · exact Or.inl hv
    · intro v hv
      exact List.mem_cons_of_mem _ hv
    · rw [hcard]
      simp only [List.length_cons]
      omega
    · simp

theorem expandFold_spec {g : Graph} {root : Nat} (src : Nat) :
    ∀ (nb : List Nat) (st : State), (∀ w, w ∈ nb → w < g.size) → Inv g root st →
      Inv g root (nb.foldl (expandStep src) st) ∧ Grows g st (nb.foldl (expandStep src) st) ∧
      ∀ w, w ∈ nb → (nb.foldl (expandStep src) st).in_mst w = true := by
  intro nb
  induction nb with
  | nil => intro st _ h; exact ⟨h, Grows.refl g st, fun w hw => absurd hw (List.not_mem_nil w)⟩
  | cons d nb ih =>
    intro st hnb h
    rw [List.foldl_cons]
    obtain ⟨h1, g1, m1⟩ := expandStep_spec src st d (hnb d (List.mem_cons_self d nb)) h
    obtain ⟨h2, g2, m2⟩ := ih (expandStep src st d)
      (fun w hw => hnb w (List.mem_cons_of_mem d hw)) h1
    refine ⟨h2, g1.trans g2, fun w hw => ?_⟩
    rcases List.mem_cons.mp hw with hw | hw
    · rw [hw]; exact g2.mono d m1
    · exact m2 w hw

theorem expand_spec {g : Graph} {root : Nat} (hwf : g.WF) (src : Nat) (rest : List Nat)
    (st : State) (hwl : st.worklist = src :: rest) (h : Inv g root st) (hc : Closed g st) :
    Inv g root (expand g src { st with worklist := rest }) ∧
    Closed g (expand g src { st with worklist := rest }) ∧
    (marked g (expand g src { st with worklist := rest })).card + st.worklist.length
      = (marked g st).card + (expand g src { st with worklist := rest }).worklist.length + 1 := by
  have hsrc : st.in_mst src = true := h.wl_marked src (by rw [hwl]; exact List.mem_cons_self _ _)
  have h0 : Inv g root { st with worklist := rest } :=
    ⟨fun v hv => h.wl_marked v (by rw [hwl]; exact List.mem_cons_of_mem _ hv),
      h.marked_lt, h.root_marked, h.count⟩
  obtain ⟨h1, g1, m1⟩ := expandFold_spec src (g.neighbors src) { st with worklist := rest }
    (hwf src (h.marked_lt src hsrc)) h0
  refine ⟨h1, ?_, ?_⟩
  · intro v hv hnw w hw
    rcases g1.fresh v hv with hold | hnew
    · by_cases hvs : v = src
      · rw [hvs] at hw; exact m1 w hw
      · have hvn : v ∉ st.worklist := by
          rw [hwl]
          intro hm
          rcases List.mem_cons.mp hm with hm | hm
          · exact hvs hm
          · exact hnw (g1.keep v hm)
        exact g1.mono w (hc v hold hvn w hw)
    · exact absurd hnew hnw
  · have := g1.balance
    have hm : marked g { st with worklist := rest } = marked g st := rfl
    rw [hm] at this
    simp only [hwl, List.length_cons] at this ⊢
    unfold expand
    omega

/-- The loop of `runSerial` ends within `fuel` iterations when `fuel` is at least the
number of unmarked nodes plus the length of the work list, and it keeps the invariants. -/
theorem serialLoop_spec {g : Graph} {root : Nat} (hwf : g.WF) :
    ∀ (fuel : Nat) (st : State), Inv g root st → Closed g st →
      g.size + st.worklist.length ≤ (marked g st).card + fuel →
      ∃ st', serialLoop g fuel st = some st' ∧ st'.worklist = [] ∧ Inv g root st' ∧
        Closed g st' := by
  intro fuel
  induction fuel with
  | zero =>
    intro st h hc hm
    have hle : (marked g st).card ≤ g.size := by
      have := Finset.card_filter_le (Finset.range g.size) (fun v => st.in_mst v = true)
      rw [Finset.card_range] at this
      exact this
    have hnil : st.worklist = [] := List.length_eq_zero.mp (by omega)
    exact ⟨st, by simp [serialLoop, hnil], hnil, h, hc⟩
  | succ k ih =>
    intro st h hc hm
    cases hwl : st.worklist with
    | nil => exact ⟨st, by simp [serialLoop, hwl], hwl, h, hc⟩
    | cons src rest =>
      obtain ⟨h1, c1, b1⟩ := expand_spec hwf src rest st hwl h hc
      obtain ⟨st', r1, r2, r3, r4⟩ := ih (expand g src { st with worklist := rest }) h1 c1
        (by omega)
      refine ⟨st', ?_, r2, r3, r4⟩
      simp only [serialLoop, hwl]
      exact r1

theorem closed_reach {g : Graph} {root : Nat} {st : State} (h : Inv g root st)
    (hc : Closed g st) (hnil : st.worklist = []) :
    ∀ v, Reach g root v → st.in_mst v = true := by
  intro v hv
  induction hv with
  | base => exact h.root_marked
  | step v w _ hw ih => exact hc v ih (by rw [hnil]; exact List.not_mem_nil v) w hw

theorem initial_inv (g : Graph) (root : Nat) (hroot : root < g.size) :
    Inv g root { in_mst := initialFlags root, result := [], worklist := [root].reverse } ∧
    Closed g { in_mst := initialFlags root, result := [], worklist := [root].reverse } := by
  have hf : ∀ v, initialFlags root v = true ↔ v = root := by
    intro v; unfold initialFlags; simp
  refine ⟨⟨?_, ?_, ?_, ?_⟩, ?_⟩
  · intro v hv
    simp only [List.reverse_singleton, List.mem_singleton] at hv
    exact (hf v).mpr hv
  · intro v hv
    rw [(hf v).mp hv]; exact hroot
  · exact (hf root).mpr rfl
  · have : marked g { in_mst := initialFlags root, result := [], worklist := [root].reverse }
        = {root} := by
      ext v
      unfold marked
      simp only [Finset.mem_filter, Finset.mem_range, Finset.mem_singleton, hf]
      exact ⟨fun hh => hh.2, fun hh => ⟨hh ▸ hroot, hh⟩⟩
    rw [this]
    simp
  · intro v hv hnw
    simp only [List.reverse_singleton, List.mem_singleton] at hnw
    exact absurd ((hf v).mp hv) hnw

/-- C20: if every node of the graph is reachable from the root and only the root is marked
beforehand, `runSerial` ends (within `graph.size()` iterations of its loop) and `verify`
then returns true: the result holds exactly `graph.size() - 1` edges and every node is
marked. -/
theorem runSerial_verify (g : Graph) (root fuel : Nat) (hwf : g.WF) (hroot : root < g.size)
    (hreach : ∀ v, v < g.size → Reach g root v) (hfuel : g.size ≤ fuel) :
    ∃ st', runSerial g fuel [root] (initialFlags root) [] = some st' ∧
      verify g st' = true ∧ st'.result.length = g.size - 1 ∧
      ∀ v, v < g.size → st'.in_mst v = true := by
  obtain ⟨hi, hc⟩ := initial_inv g root hroot
  have hcard : 1 ≤ (marked g
      { in_mst := initialFlags root, result := [], worklist := [root].reverse }).card := by
    rw [← hi.count]; simp
  obtain ⟨st', r1, r2, r3, r4⟩ := serialLoop_spec hwf fuel _ hi hc
    (by
      show g.size + 1 ≤ _ + fuel
      omega)
  have hall : ∀ v, v < g.size → st'.in_mst v = true :=
    fun v hv => closed_reach r3 r4 r2 v (hreach v hv)
  have hm : marked g st' = Finset.range g.size := by
    unfold marked
    apply Finset.filter_true_of_mem
    intro v hv
    exact hall v (Finset.mem_range.mp hv)
  have hlen : st'.result.length = g.size - 1 := by
    have := r3.count
    rw [hm, Finset.card_range] at this
    omega
  refine ⟨st', r1, ?_, hlen, hall⟩
  unfold verify
  rw [if_neg (by simp [hlen])]
  rw [List.all_eq_true]
  intro v hv
  exact hall v (List.mem_range.mp hv)

theorem line_reach : ∀ v, v < line.size → Reach line 0 v := by
  intro v hv
  have h0 : Reach line 0 0 := Reach.base
  have h1 : Reach line 0 1 := Reach.step 0 1 h0 (by decide)
  have h2 : Reach line 0 2 := Reach.step 1 2 h1 (by decide)
  have h3 : line.size = 3 := rfl
  rw [h3] at hv
  interval_cases v
  · exact h0
  · exact h1
  · exact h2

theorem line_wf : line.WF := by
  intro v hv w hw
  have h3 : line.size = 3 := rfl
  rw [h3] at hv ⊢
  interval_cases v <;> revert hw <;> revert w <;> decide

theorem runSerial_verify_witness :
    line.WF ∧ 0 < line.size ∧ (∀ v, v < line.size → Reach line 0 v) ∧ line.size ≤ 3 ∧
    ∃ st', runSerial line 3 [0] (initialFlags 0) [] = some st' ∧
      verify line st' = true ∧ st'.result.length = line.size - 1 ∧
      ∀ v, v < line.size → st'.in_mst v = true :=
  ⟨line_wf, by decide, line_reach, by decide,
    runSerial_verify line 0 3 line_wf (by decide) line_reach (by decide)⟩

end SpanningTree
